import Mathlib

/-!
# Search engine of `src/Exception1.cpp` (the strict `SearchServer`)

Shallow embedding of the C++ program and proofs of its specification.

Modelling conventions

* `std::string` is `String`; a `char` is a `Char` (the tokenizer only looks at the
  space character and the validity check only at codes below 32, which in UTF-8
  never occur inside a multi-byte character).
* `int` is `Int`; where the source computes in `int` and the result may leave the
  32-bit range (`ComputeAverageRating`), the value is reduced by `Cpp.toInt32`, the
  two's complement wrap of the machine.
* `double` is an arbitrary linearly ordered field `R` (exact arithmetic, no rounding);
  the library function `log` is a parameter `ln : R → R`, and the conversion of a
  `double` to `int` is `Cpp.doubleToInt`, which needs a floor function on `R`.  Every
  definition is executable at `R = ℚ`.
* `std::map` and `std::set` are association lists kept in ascending key order
  (namespace `Cpp`); `std::sort` is `Cpp.sort`, which follows the routines of the GNU
  C++ library (introsort, heap sort, final insertion sort).
* A member function that can throw returns `Except Error _`; a mutating member
  function returns the outcome together with the state of the object after the call.
-/

deriving instance DecidableEq for Except

namespace Cpp

/-- Model of `std::map<K, V>`: the entries in iteration order.  A map built by the
operations below from the empty map has strictly ascending keys. -/
abbrev Map (K V : Type) := List (K × V)

/-- Model of `std::set<K>`: the elements in iteration order. -/
abbrev Set (K : Type) := List K

namespace Map

variable {K V : Type}

/-- The keys of a map, in iteration order. -/
def keys (m : Map K V) : List K := m.map Prod.fst

/-- Model of `std::map::size`. -/
def size (m : Map K V) : Nat := m.length

/-- Model of `std::map::count`: 1 when the key is present, 0 otherwise. -/
def count [DecidableEq K] (m : Map K V) (k : K) : Nat :=
  if k ∈ keys m then 1 else 0

/-- Model of the lookup behind `std::map::at`: the value stored under `k`, or `none`
when `at` would throw `std::out_of_range`. -/
def get? [DecidableEq K] : Map K V → K → Option V
  | [], _ => none
  | (k', v) :: rest, k => if k' = k then some v else get? rest k

/-- Places a new entry in front of the first entry with a greater key. -/
def insertSorted [LinearOrder K] (k : K) (v : V) : Map K V → Map K V
  | [] => [(k, v)]
  | (k', v') :: rest =>
    if k < k' then (k, v) :: (k', v') :: rest else (k', v') :: insertSorted k v rest

/-- Applies `f` to the value of the first entry with key `k`. -/
def replaceAt [DecidableEq K] (k : K) (f : V → V) : Map K V → Map K V
  | [] => []
  | (k', v') :: rest =>
    if k' = k then (k', f v') :: rest else (k', v') :: replaceAt k f rest

/-- Model of `std::map::emplace`: inserts the entry unless the key is present. -/
def emplace [LinearOrder K] (m : Map K V) (k : K) (v : V) : Map K V :=
  if count m k = 0 then insertSorted k v m else m

/-- Model of `m[k]` followed by an update through the returned reference:
`operator[]` first inserts the value-initialised `dflt` when the key is absent, then
`f` is applied to the stored value. -/
def modifyAt [LinearOrder K] (m : Map K V) (k : K) (dflt : V) (f : V → V) : Map K V :=
  if count m k = 0 then insertSorted k (f dflt) m else replaceAt k f m

/-- Model of `std::map::erase(key)`: the entry with the key is removed (the keys of a
map are distinct, so at most one entry goes). -/
def erase [DecidableEq K] (m : Map K V) (k : K) : Map K V :=
  m.filter (fun e => decide (e.1 ≠ k))

/-- Representation invariant of `std::map`: strictly ascending keys. -/
def WF [LinearOrder K] (m : Map K V) : Prop := (keys m).Pairwise (· < ·)

instance [LinearOrder K] (m : Map K V) : Decidable (WF m) := by
  unfold WF; infer_instance

end Map

namespace Set

variable {K : Type}

/-- Model of `std::set::count`. -/
def count [DecidableEq K] (s : Set K) (k : K) : Nat := if k ∈ s then 1 else 0

/-- Places a new element in front of the first greater element. -/
def insertSorted [LinearOrder K] (k : K) : Set K → Set K
  | [] => [k]
  | k' :: rest => if k < k' then k :: k' :: rest else k' :: insertSorted k rest

/-- Model of `std::set::insert`: no effect when the element is present. -/
def insert [LinearOrder K] (s : Set K) (k : K) : Set K :=
  if count s k = 0 then insertSorted k s else s

end Set

/-- Inner loop of the insertion sort (`__unguarded_linear_insert`), on the sorted
range listed backwards (last element first): `val` moves towards the front past
every element `x` with `comp val x`, and stops at the first element where the
comparison is false. -/
def unguardedLinearInsert {α : Type} (comp : α → α → Bool) (val : α) : List α → List α
  | [] => [val]
  | x :: before => if comp val x then x :: unguardedLinearInsert comp val before
                   else val :: x :: before

/-- One round of the insertion sort: `val` is inserted into the sorted range whose
elements are listed backwards in `sortedRev`.  When `comp val first` holds for the
first element of the range, the whole range is shifted and `val` becomes the first
element; otherwise the unguarded inner loop runs. -/
def linearInsert {α : Type} (comp : α → α → Bool) (sortedRev : List α) (val : α) : List α :=
  match sortedRev.getLast? with
  | none => [val]
  | some first =>
    if comp val first then sortedRev ++ [val]
    else unguardedLinearInsert comp val sortedRev

/-- The constant `_S_threshold` of the sort routines. -/
def S_threshold : Nat := 16

/-- The routine `__final_insertion_sort(first, last, comp)`: a range of more than
`_S_threshold` elements has its first `_S_threshold` elements sorted by
`__insertion_sort` and the others inserted by `__unguarded_linear_insert`; a shorter
range is sorted by `__insertion_sort`. -/
def finalInsertionSort {α : Type} (comp : α → α → Bool) (l : List α) : List α :=
  if l.length > S_threshold then
    ((l.drop S_threshold).foldl (fun sortedRev val => unguardedLinearInsert comp val sortedRev)
      ((l.take S_threshold).foldl (linearInsert comp) [])).reverse
  else (l.foldl (linearInsert comp) []).reverse

/-- The function `std::iter_swap` on the positions `i` and `j` of a range. -/
def iterSwap {α : Type} (l : List α) (i j : Nat) : List α :=
  match l.get? i, l.get? j with
  | some x, some y => (l.set i y).set j x
  | _, _ => l

/-- The routine `__move_median_to_first(result, a, b, c, comp)`. -/
def moveMedianToFirst {α : Type} (comp : α → α → Bool) (l : List α) (result a b c : Nat) :
    List α :=
  match l.get? a, l.get? b, l.get? c with
  | some xa, some xb, some xc =>
    if comp xa xb then
      if comp xb xc then iterSwap l result b
      else if comp xa xc then iterSwap l result c
      else iterSwap l result a
    else if comp xa xc then iterSwap l result a
    else if comp xb xc then iterSwap l result c
    else iterSwap l result b
  | _, _, _ => l

/-- The loop `while (comp(first, pivot)) ++first;` of `__unguarded_partition`, on the
elements from `first` on: the position at which it stops. -/
def scanUp {α : Type} (comp : α → α → Bool) (pivot : α) : List α → Nat → Nat
  | [], first => first
  | x :: rest, first => if comp x pivot then scanUp comp pivot rest (first + 1) else first

/-- The loop `while (comp(pivot, last)) --last;` of `__unguarded_partition`: the
position at which it stops. -/
def scanDown {α : Type} (comp : α → α → Bool) (pivot : α) (l : List α) : Nat → Nat
  | 0 => 0
  | last + 1 =>
    match l.get? (last + 1) with
    | some x => if comp pivot x then scanDown comp pivot l last else last + 1
    | none => last + 1

/-- The routine `__unguarded_partition(first, last, pivot, comp)`; the first argument
bounds the number of turns of the outer loop. -/
def unguardedPartition {α : Type} (comp : α → α → Bool) (pivot : α) :
    Nat → List α → Nat → Nat → List α × Nat
  | 0, l, first, _ => (l, first)
  | fuel + 1, l, first, last =>
    let first := scanUp comp pivot (l.drop first) first
    let last := scanDown comp pivot l (last - 1)
    if first < last then unguardedPartition comp pivot fuel (iterSwap l first last) (first + 1) last
    else (l, first)

/-- The routine `__unguarded_partition_pivot(first, last, comp)`: the range after the
call and the position of the cut. -/
def unguardedPartitionPivot {α : Type} (comp : α → α → Bool) (l : List α) : List α × Nat :=
  let l := moveMedianToFirst comp l 0 1 (l.length / 2) (l.length - 1)
  match l.head? with
  | some pivot => unguardedPartition comp pivot l.length l 1 l.length
  | none => (l, 0)

/-- The routine `__push_heap(first, holeIndex, topIndex, value, comp)`; the first
argument after `topIndex` bounds the number of turns of the loop. -/
def pushHeap {α : Type} (comp : α → α → Bool) (value : α) (topIndex : Nat) :
    Nat → List α → Nat → List α
  | 0, l, _ => l
  | fuel + 1, l, holeIndex =>
    if holeIndex > topIndex then
      match l.get? ((holeIndex - 1) / 2) with
      | some parent =>
        if comp parent value then
          pushHeap comp value topIndex fuel (iterSwap l holeIndex ((holeIndex - 1) / 2))
            ((holeIndex - 1) / 2)
        else l
      | none => l
    else l

/-- The first loop of `__adjust_heap`: the hole moves down to the larger child; the
first argument after `len` bounds the number of turns. -/
def adjustHeap.loop {α : Type} (comp : α → α → Bool) (len : Nat) :
    Nat → List α → Nat → List α × Nat
  | 0, l, holeIndex => (l, holeIndex)
  | fuel + 1, l, holeIndex =>
    if holeIndex < (len - 1) / 2 then
      match l.get? (2 * (holeIndex + 1)), l.get? (2 * (holeIndex + 1) - 1) with
      | some right, some left =>
        let secondChild := if comp right left then 2 * (holeIndex + 1) - 1
          else 2 * (holeIndex + 1)
        adjustHeap.loop comp len fuel (iterSwap l holeIndex secondChild) secondChild
      | _, _ => (l, holeIndex)
    else (l, holeIndex)

/-- The routine `__adjust_heap(first, holeIndex, len, value, comp)`. -/
def adjustHeap {α : Type} (comp : α → α → Bool) (l : List α) (holeIndex len : Nat)
    (value : α) : List α :=
  let down := adjustHeap.loop comp len len l holeIndex
  let last :=
    if len % 2 = 0 ∧ down.2 = (len - 2) / 2 then
      (iterSwap down.1 down.2 (2 * (down.2 + 1) - 1), 2 * (down.2 + 1) - 1)
    else down
  pushHeap comp value holeIndex len last.1 last.2

/-- The routine `__pop_heap(first, last, result, comp)` with `result = last`. -/
def popHeap {α : Type} (comp : α → α → Bool) (l : List α) (last : Nat) : List α :=
  match l.get? last with
  | some value => adjustHeap comp (iterSwap l 0 last) 0 last value
  | none => l

/-- The loop of `__make_heap`, from `parent` down to 0. -/
def makeHeap.loop {α : Type} (comp : α → α → Bool) (len : Nat) : Nat → List α → List α
  | 0, l =>
    match l.get? 0 with
    | some value => adjustHeap comp l 0 len value
    | none => l
  | parent + 1, l =>
    match l.get? (parent + 1) with
    | some value => makeHeap.loop comp len parent (adjustHeap comp l (parent + 1) len value)
    | none => l

/-- The routine `__make_heap(first, last, comp)`. -/
def makeHeap {α : Type} (comp : α → α → Bool) (l : List α) : List α :=
  if l.length < 2 then l else makeHeap.loop comp l.length ((l.length - 2) / 2) l

/-- The routine `__sort_heap(first, last, comp)`; the second argument is `last - first`. -/
def sortHeap {α : Type} (comp : α → α → Bool) : Nat → List α → List α
  | 0, l => l
  | last + 1, l => if last + 1 > 1 then sortHeap comp last (popHeap comp l last) else l

/-- The routine `__partial_sort(first, last, last, comp)`: the heap sort. -/
def partialSort {α : Type} (comp : α → α → Bool) (l : List α) : List α :=
  sortHeap comp l.length (makeHeap comp l)

/-- The routine `__introsort_loop(first, last, depth_limit, comp)`. -/
def introsortLoop {α : Type} (comp : α → α → Bool) : Nat → List α → List α
  | 0, l => if l.length > S_threshold then partialSort comp l else l
  | depth_limit + 1, l =>
    if l.length > S_threshold then
      let cut := unguardedPartitionPivot comp l
      introsortLoop comp depth_limit (cut.1.take cut.2) ++
        introsortLoop comp depth_limit (cut.1.drop cut.2)
    else l

/-- The loop computing `std::__lg`, the floor of the binary logarithm; the first
argument bounds the number of halvings. -/
def lg.loop : Nat → Nat → Nat
  | 0, _ => 0
  | fuel + 1, n => if n ≤ 1 then 0 else lg.loop fuel (n / 2) + 1

/-- The function `std::__lg(n)`, computed by `lg.loop` with enough fuel. -/
def lg (n : Nat) : Nat := lg.loop n n

/-- Model of `std::sort(first, last, comp)`, after the routines of the GNU C++ library
(`bits/stl_algo.h`, `bits/stl_heap.h`): `__introsort_loop` with the depth limit
`2 * __lg(last - first)`, then `__final_insertion_sort`.  A range of at most 16
elements is sorted by the straight insertion sort alone.  The heap routines move
elements through a hole; here the value that will fill the hole is kept in it, so
every such move is an `iterSwap`.  The unguarded loops of the library have no bounds
test; here a scan ends at the end of the range, where the program would read outside
the range (undefined behaviour). -/
def sort {α : Type} (comp : α → α → Bool) (l : List α) : List α :=
  match l with
  | [] => []
  | _ :: _ => finalInsertionSort comp (introsortLoop comp (lg l.length * 2) l)

/-- The value of type `int` that a 32-bit two's complement machine holds for the
integer `n`: the result of an `int` addition that overflows and of `static_cast<int>`
on a value out of range: the value between `-2^31` and `2^31 - 1` that differs from `n`
by a multiple of `2^32`. -/
def toInt32 (n : Int) : Int :=
  if (n % 4294967296).toNat < 2147483648 then n % 4294967296
  else n % 4294967296 - 4294967296

/-- The implicit conversion of a `double` to `int`: the fractional part is discarded.
The conversion is undefined in C++ when the result is outside the range of `int`;
here the value is truncated all the same. -/
def doubleToInt {R : Type} [LinearOrderedField R] [FloorRing R] (x : R) : Int :=
  if 0 ≤ x then Int.floor x else Int.ceil x

end Cpp

namespace Exception1

open Cpp

/-- The failure kinds of the engine.  In the source the first five are
`std::invalid_argument` with distinct messages and the others are `std::out_of_range`:
`IndexOutOfRange` is thrown by `GetDocumentId`, `UnknownDocumentId` by
`documents_.at`, `UnknownWord` by `word_to_document_freqs_.at`.  `VectorSubscript` is not
an exception: it marks the undefined behaviour of `document_ids_[index]` with an index
past the end of the vector. -/
inductive Error where
  | InvalidId
  | DuplicateId
  | InvalidCharacter
  | DoubleMinus
  | EmptyMinusTerm
  | IndexOutOfRange
  | UnknownDocumentId
  | UnknownWord
  | VectorSubscript
  deriving DecidableEq

/-- The constant `const int MAX_RESULT_DOCUMENT_COUNT = 5;`. -/
def MAX_RESULT_DOCUMENT_COUNT : Nat := 5

/-- The loop of `SplitIntoWords`: `words` and `word` are the two local variables,
the first argument is the rest of the text. -/
def SplitIntoWords.loop : List Char → List String → List Char → List String
  | [], words, word => if word ≠ [] then words ++ [String.mk word] else words
  | c :: rest, words, word =>
    if c = ' ' then
      if word ≠ [] then SplitIntoWords.loop rest (words ++ [String.mk word]) []
      else SplitIntoWords.loop rest words word
    else SplitIntoWords.loop rest words (word ++ [c])

/-- The function `std::vector<std::string> SplitIntoWords(const std::string& text)`. -/
def SplitIntoWords (text : String) : List String :=
  SplitIntoWords.loop text.toList [] []

/-- The record `struct Document`. -/
structure Document (R : Type) where
  id : Int
  relevance : R
  rating : Int
  deriving DecidableEq

/-- The function `MakeUniqueNonEmptyStrings`: the set of the non-empty strings of a container. -/
def MakeUniqueNonEmptyStrings (strings : List String) : Cpp.Set String :=
  strings.foldl (fun non_empty_strings str =>
    if str ≠ "" then Cpp.Set.insert non_empty_strings str else non_empty_strings) []

/-- The enumeration `enum class DocumentStatus`. -/
inductive DocumentStatus where
  | ACTUAL
  | IRRELEVANT
  | BANNED
  | REMOVED
  deriving DecidableEq

/-- The record `struct DocumentData`. -/
structure DocumentData where
  rating : Int
  status : DocumentStatus
  deriving DecidableEq

/-- The data members of `class SearchServer`. -/
structure SearchServer (R : Type) where
  stop_words_ : Cpp.Set String
  word_to_document_freqs_ : Cpp.Map String (Cpp.Map Int R)
  documents_ : Cpp.Map Int DocumentData
  document_ids_ : List Int
  deriving DecidableEq

/-- The record `struct QueryWord`. -/
structure QueryWord where
  data : String
  is_minus : Bool
  is_stop : Bool
  deriving DecidableEq

/-- The record `struct Query`. -/
structure Query where
  plus_words : Cpp.Set String
  minus_words : Cpp.Set String
  deriving DecidableEq

/-- The type of a `DocumentPredicate`: called with id, status and rating. -/
abbrev DocumentPredicate := Int → DocumentStatus → Int → Bool

/-- The function `static bool IsValidWord(const std::string& word)`:
`none_of` the characters satisfies `c >= 0 && c < 32`. -/
def IsValidWord (word : String) : Bool :=
  !(word.toList.any (fun c => decide (0 ≤ c.toNat) && decide (c.toNat < 32)))

/-- The expression `text[0]` on a `std::string`: the first character, and the null character when
the string is empty. -/
def firstChar (text : String) : Char := text.toList.headD (Char.ofNat 0)

/-- The expression `text.substr(1)`. -/
def substr1 (text : String) : String := String.mk (text.toList.drop 1)

namespace SearchServer

variable {R : Type}

/-- The method `bool IsStopWord(const std::string& word) const`. -/
def IsStopWord (s : SearchServer R) (word : String) : Bool :=
  decide (Cpp.Set.count s.stop_words_ word > 0)

/-- The constructor from a container of stop words: the member initialiser builds the
set, the body throws when one of the words is not valid. -/
def new (stop_words : List String) : Except Error (SearchServer R) :=
  if (MakeUniqueNonEmptyStrings stop_words).all IsValidWord then
    .ok { stop_words_ := MakeUniqueNonEmptyStrings stop_words
          word_to_document_freqs_ := []
          documents_ := []
          document_ids_ := [] }
  else .error Error.InvalidCharacter

/-- The constructor from a string: delegates to the container constructor. -/
def fromText (stop_words_text : String) : Except Error (SearchServer R) :=
  new (SplitIntoWords stop_words_text)

/-- The loop of `SplitIntoWordsNoStop`; `words` is the local vector. -/
def SplitIntoWordsNoStop.loop (s : SearchServer R) :
    List String → List String → Except Error (List String)
  | [], words => .ok words
  | word :: rest, words =>
    if !IsValidWord word then .error Error.InvalidCharacter
    else if !IsStopWord s word then SplitIntoWordsNoStop.loop s rest (words ++ [word])
    else SplitIntoWordsNoStop.loop s rest words

/-- The method `SplitIntoWordsNoStop(const std::string& text) const`. -/
def SplitIntoWordsNoStop (s : SearchServer R) (text : String) : Except Error (List String) :=
  SplitIntoWordsNoStop.loop s (SplitIntoWords text) []

/-- The method `static int ComputeAverageRating(const std::vector<int>& ratings)`.  The
accumulator `rating_sum` is an `int`, so it holds the wrapped value after every
addition; the divisor is `static_cast<int>(ratings.size())`; the division of two `int`s
truncates toward zero.  (A vector of a multiple of `2^32` ratings has the divisor 0:
undefined in C++, 0 here.) -/
def ComputeAverageRating (ratings : List Int) : Int :=
  if ratings = [] then 0
  else Int.tdiv
    (ratings.foldl (fun rating_sum rating => Cpp.toInt32 (rating_sum + rating)) 0)
    (Cpp.toInt32 (ratings.length : Int))

/-- The method `int GetDocumentCount() const`. -/
def GetDocumentCount (s : SearchServer R) : Int := (Cpp.Map.size s.documents_ : Int)

/-- The method `void AddDocument(int document_id, const std::string& document,
DocumentStatus status, const std::vector<int>& ratings)`.  The first component is the
outcome (an exception or normal return), the second the state of the server after the
call.  With no word left, `inv_word_count` is `1.0 / 0` and is not used. -/
def AddDocument (s : SearchServer R) [LinearOrderedField R] (document_id : Int)
    (document : String) (status : DocumentStatus) (ratings : List Int) :
    Except Error Unit × SearchServer R :=
  if document_id < 0 then (.error Error.InvalidId, s)
  else
    match SplitIntoWordsNoStop s document with
    | .error e => (.error e, s)
    | .ok words =>
      if Cpp.Map.count s.documents_ document_id > 0 then (.error Error.DuplicateId, s)
      else
        let inv_word_count : R := 1 / (words.length : R)
        let s1 : SearchServer R :=
          { s with
            word_to_document_freqs_ :=
              words.foldl (fun index word =>
                Cpp.Map.modifyAt index word []
                  (fun freqs => Cpp.Map.modifyAt freqs document_id 0
                    (fun freq => freq + inv_word_count)))
                s.word_to_document_freqs_ }
        let s2 : SearchServer R :=
          { s1 with
            documents_ := Cpp.Map.emplace s1.documents_ document_id
              { rating := ComputeAverageRating ratings, status := status } }
        let s3 : SearchServer R :=
          { s2 with document_ids_ := s2.document_ids_ ++ [document_id] }
        (.ok (), s3)

/-- The method `QueryWord ParseQueryWord(std::string text) const`. -/
def ParseQueryWord (s : SearchServer R) (text : String) : Except Error QueryWord :=
  let is_minus : Bool := decide (firstChar text = '-')
  let text : String := if is_minus then substr1 text else text
  if firstChar text = '-' then .error Error.DoubleMinus
  else if !IsValidWord text then .error Error.InvalidCharacter
  else if text = "" then .error Error.EmptyMinusTerm
  else .ok { data := text, is_minus := is_minus, is_stop := IsStopWord s text }

/-- The loop of `ParseQuery`; `query` is the local variable. -/
def ParseQuery.loop (s : SearchServer R) : List String → Query → Except Error Query
  | [], query => .ok query
  | word :: rest, query =>
    match ParseQueryWord s word with
    | .error e => .error e
    | .ok query_word =>
      if !query_word.is_stop then
        if query_word.is_minus then
          ParseQuery.loop s rest
            { query with minus_words := Cpp.Set.insert query.minus_words query_word.data }
        else
          ParseQuery.loop s rest
            { query with plus_words := Cpp.Set.insert query.plus_words query_word.data }
      else ParseQuery.loop s rest query

/-- The method `Query ParseQuery(const std::string& text) const`. -/
def ParseQuery (s : SearchServer R) (text : String) : Except Error Query :=
  ParseQuery.loop s (SplitIntoWords text) { plus_words := [], minus_words := [] }

/-- The method `double ComputeWordInverseDocumentFreq(const std::string& word) const`. -/
def ComputeWordInverseDocumentFreq [LinearOrderedField R] (ln : R → R) (s : SearchServer R)
    (word : String) : Except Error R :=
  match Cpp.Map.get? s.word_to_document_freqs_ word with
  | none => .error Error.UnknownWord
  | some freqs => .ok (ln ((GetDocumentCount s : R) * 1 / (Cpp.Map.size freqs : R)))

/-- Body of the inner loop over the postings of a plus word in `FindAllDocuments`. -/
def FindAllDocuments.plusPosting [LinearOrderedField R] (s : SearchServer R)
    (document_predicate : DocumentPredicate) (inverse_document_freq : R)
    (document_to_relevance : Cpp.Map Int R) (posting : Int × R) :
    Except Error (Cpp.Map Int R) :=
  match Cpp.Map.get? s.documents_ posting.1 with
  | none => .error Error.UnknownDocumentId
  | some document_data =>
    if document_predicate posting.1 document_data.status document_data.rating then
      .ok (Cpp.Map.modifyAt document_to_relevance posting.1 0
        (fun relevance => relevance + posting.2 * inverse_document_freq))
    else .ok document_to_relevance

/-- Body of the loop over the plus words in `FindAllDocuments`. -/
def FindAllDocuments.plusWord [LinearOrderedField R] (ln : R → R) (s : SearchServer R)
    (document_predicate : DocumentPredicate)
    (document_to_relevance : Cpp.Map Int R) (word : String) :
    Except Error (Cpp.Map Int R) :=
  if Cpp.Map.count s.word_to_document_freqs_ word = 0 then .ok document_to_relevance
  else
    match ComputeWordInverseDocumentFreq ln s word with
    | .error e => .error e
    | .ok inverse_document_freq =>
      match Cpp.Map.get? s.word_to_document_freqs_ word with
      | none => .error Error.UnknownWord
      | some freqs =>
        freqs.foldlM
          (FindAllDocuments.plusPosting s document_predicate inverse_document_freq)
          document_to_relevance

/-- Body of the loop over the minus words in `FindAllDocuments`. -/
def FindAllDocuments.minusWord (s : SearchServer R)
    (document_to_relevance : Cpp.Map Int R) (word : String) :
    Except Error (Cpp.Map Int R) :=
  if Cpp.Map.count s.word_to_document_freqs_ word = 0 then .ok document_to_relevance
  else
    match Cpp.Map.get? s.word_to_document_freqs_ word with
    | none => .error Error.UnknownWord
    | some freqs =>
      .ok (freqs.foldl (fun relevance posting => Cpp.Map.erase relevance posting.1)
        document_to_relevance)

/-- Body of the last loop of `FindAllDocuments`: one entry of `document_to_relevance`
is pushed to the back of `matched_documents` as a `Document`. -/
def FindAllDocuments.emit (s : SearchServer R) (matched_documents : List (Document R))
    (entry : Int × R) : Except Error (List (Document R)) :=
  match Cpp.Map.get? s.documents_ entry.1 with
  | none => .error Error.UnknownDocumentId
  | some document_data =>
    .ok (matched_documents ++
      [{ id := entry.1, relevance := entry.2, rating := document_data.rating }])

/-- The method `FindAllDocuments(const Query& query, DocumentPredicate document_predicate)`. -/
def FindAllDocuments [LinearOrderedField R] (ln : R → R) (s : SearchServer R)
    (query : Query) (document_predicate : DocumentPredicate) :
    Except Error (List (Document R)) :=
  match query.plus_words.foldlM (FindAllDocuments.plusWord ln s document_predicate) [] with
  | .error e => .error e
  | .ok relevance_after_plus =>
    match query.minus_words.foldlM (FindAllDocuments.minusWord s) relevance_after_plus with
    | .error e => .error e
    | .ok document_to_relevance =>
      document_to_relevance.foldlM (FindAllDocuments.emit s) []

/-- The constant `const double eps = 1e-6;` of `FindTopDocuments`. -/
def eps [LinearOrderedField R] : R := 1 / 1000000

/-- The comparator passed to `sort` in `FindTopDocuments`.  The call
`abs(lhs.relevance - rhs.relevance)` is unqualified and the file has no using-directive
for `std`, so the function called is `int abs(int)` of the C library: the difference
is converted to `int`, and the absolute value of that `int` is compared with `eps`. -/
def compareDocuments [LinearOrderedField R] [FloorRing R] (lhs rhs : Document R) : Bool :=
  if ((|Cpp.doubleToInt (lhs.relevance - rhs.relevance)| : Int) : R) < eps then
    decide (lhs.rating > rhs.rating)
  else decide (lhs.relevance > rhs.relevance)

/-- The method `FindTopDocuments(const std::string& raw_query,
DocumentPredicate document_predicate)`. -/
def FindTopDocuments [LinearOrderedField R] [FloorRing R] (ln : R → R) (s : SearchServer R)
    (raw_query : String) (document_predicate : DocumentPredicate) :
    Except Error (List (Document R)) :=
  match ParseQuery s raw_query with
  | .error e => .error e
  | .ok query =>
    match FindAllDocuments ln s query document_predicate with
    | .error e => .error e
    | .ok matched_documents =>
      let matched_documents := Cpp.sort compareDocuments matched_documents
      if matched_documents.length > MAX_RESULT_DOCUMENT_COUNT then
        .ok (matched_documents.take MAX_RESULT_DOCUMENT_COUNT)
      else .ok matched_documents

/-- Whether `word` has a posting for `document_id` in the index, as tested in the source
by `word_to_document_freqs_.count(word)` and `.at(word).count(document_id)`. -/
def hasPosting (s : SearchServer R) (word : String) (document_id : Int) : Bool :=
  match Cpp.Map.get? s.word_to_document_freqs_ word with
  | none => false
  | some freqs => decide (Cpp.Map.count freqs document_id > 0)

/-- The method `GetDocumentId(int index)`: the guard compares the index with
`GetDocumentCount()`, which is `documents_.size()`, and the value comes from
`document_ids_[index]`.  The subscript of a `std::vector` is unchecked: an index past the
end of `document_ids_` is undefined behaviour, marked here by `VectorSubscript`. -/
def GetDocumentId (s : SearchServer R) (index : Int) : Except Error Int :=
  if index ≥ 0 ∧ index < (GetDocumentCount s : Int) then
    match s.document_ids_.get? index.toNat with
    | some document_id => .ok document_id
    | none => .error Error.VectorSubscript
  else .error Error.IndexOutOfRange

/-- One turn of the first loop of `MatchDocument`, over `query.plus_words`: a word with
a posting for the document is pushed back to `matched_words`. -/
def MatchDocument.plusWord (s : SearchServer R) (document_id : Int)
    (matched_words : List String) (word : String) : Except Error (List String) :=
  if Cpp.Map.count s.word_to_document_freqs_ word = 0 then .ok matched_words
  else
    match Cpp.Map.get? s.word_to_document_freqs_ word with
    | none => .error Error.UnknownWord
    | some freqs =>
      if Cpp.Map.count freqs document_id ≠ 0 then .ok (matched_words ++ [word])
      else .ok matched_words

/-- The second loop of `MatchDocument`, over `query.minus_words`: the first word with a
posting for the document clears `matched_words` and leaves the loop. -/
def MatchDocument.minusLoop (s : SearchServer R) (document_id : Int) :
    List String → List String → Except Error (List String)
  | [], matched_words => .ok matched_words
  | word :: rest, matched_words =>
    if Cpp.Map.count s.word_to_document_freqs_ word = 0 then
      MatchDocument.minusLoop s document_id rest matched_words
    else
      match Cpp.Map.get? s.word_to_document_freqs_ word with
      | none => .error Error.UnknownWord
      | some freqs =>
        if Cpp.Map.count freqs document_id ≠ 0 then .ok []
        else MatchDocument.minusLoop s document_id rest matched_words

/-- The method `MatchDocument(const std::string& raw_query, int document_id)`: the query
is parsed first, then the two loops run, and `documents_.at(document_id)` is evaluated
last, when the result is built. -/
def MatchDocument (s : SearchServer R) (raw_query : String) (document_id : Int) :
    Except Error (List String × DocumentStatus) :=
  match ParseQuery s raw_query with
  | .error e => .error e
  | .ok query =>
    match query.plus_words.foldlM (MatchDocument.plusWord s document_id) [] with
    | .error e => .error e
    | .ok matched_words =>
      match MatchDocument.minusLoop s document_id query.minus_words matched_words with
      | .error e => .error e
      | .ok matched_words =>
        match Cpp.Map.get? s.documents_ document_id with
        | none => .error Error.UnknownDocumentId
        | some document_data => .ok (matched_words, document_data.status)

/-- The value of the document predicate on a stored document (false when the id is
not in the store). -/
def predicateHolds (s : SearchServer R) (document_predicate : DocumentPredicate)
    (document_id : Int) : Bool :=
  match Cpp.Map.get? s.documents_ document_id with
  | none => false
  | some document_data =>
    document_predicate document_id document_data.status document_data.rating

/-- The TF-IDF term of the spec for one word and one document:
`termFrequency * ln (N / df)` when the word has a posting for the document, where `N`
is `GetDocumentCount()` and `df` the number of postings of the word; nothing when the
word has no posting for the document. -/
def termContribution [LinearOrderedField R] (ln : R → R) (s : SearchServer R)
    (document_id : Int) (word : String) : Option R :=
  match Cpp.Map.get? s.word_to_document_freqs_ word with
  | none => none
  | some freqs =>
    (Cpp.Map.get? freqs document_id).map
      (fun term_freq => term_freq * ln ((GetDocumentCount s : R) / (Cpp.Map.size freqs : R)))

/-- One update `document_to_relevance[id] += x` seen from one key: `o` is the entry
before, `c` the amount added by the current word (if it has a posting) and `p` the
value of the predicate. -/
def accumulate [LinearOrderedField R] (p : Bool) (o c : Option R) : Option R :=
  match c with
  | none => o
  | some x => if p then some (o.getD 0 + x) else o

/-- The states a server can be in: the state left by a constructor that returned
normally, and every state left by a call of `AddDocument` that returned normally on
such a state.  (A call that throws leaves the state as it was.) -/
inductive Reachable [LinearOrderedField R] : SearchServer R → Prop where
  | init (stop_words : List String) (s : SearchServer R) :
      SearchServer.new stop_words = .ok s → Reachable s
  | add (s : SearchServer R) (document_id : Int) (document : String)
      (status : DocumentStatus) (ratings : List Int) :
      Reachable s → (AddDocument s document_id document status ratings).1 = .ok () →
      Reachable (AddDocument s document_id document status ratings).2

/-- Every document id that occurs in a posting list is a key of the document store. -/
def PostingsStored (s : SearchServer R) : Prop :=
  ∀ e ∈ s.word_to_document_freqs_, ∀ k ∈ Cpp.Map.keys e.2, k ∈ Cpp.Map.keys s.documents_

/-- Representation invariant of the containers of a server: every `std::map` and
`std::set` has strictly ascending keys. -/
def WF (s : SearchServer R) : Prop :=
  s.stop_words_.Pairwise (· < ·) ∧
  Cpp.Map.WF s.word_to_document_freqs_ ∧
  (∀ e ∈ s.word_to_document_freqs_, Cpp.Map.WF e.2) ∧
  Cpp.Map.WF s.documents_

instance (s : SearchServer R) : Decidable (WF s) := by
  unfold WF; infer_instance

end SearchServer

/-- A rational stand-in for `log`, used where an example needs a concrete function;
the theorems hold for every function `ln`. -/
def lnStandIn (x : ℚ) : ℚ := x - 1

/-- The predicate of the overload `FindTopDocuments(raw_query, status)`:
`document_status == status`. -/
def statusIs (status : DocumentStatus) : DocumentPredicate :=
  fun _ document_status _ => decide (document_status = status)

namespace SearchServer

variable {R : Type}

/-- The overload `FindTopDocuments(const std::string& raw_query, DocumentStatus status)`:
it calls the predicate overload with the lambda `document_status == status`. -/
def FindTopDocumentsByStatus [LinearOrderedField R] [FloorRing R] (ln : R → R)
    (s : SearchServer R) (raw_query : String) (status : DocumentStatus) :
    Except Error (List (Document R)) :=
  FindTopDocuments ln s raw_query (statusIs status)

/-- The overload `FindTopDocuments(const std::string& raw_query)`: it calls the status
overload with `DocumentStatus::ACTUAL`. -/
def FindTopDocumentsDefault [LinearOrderedField R] [FloorRing R] (ln : R → R)
    (s : SearchServer R) (raw_query : String) : Except Error (List (Document R)) :=
  FindTopDocumentsByStatus ln s raw_query DocumentStatus.ACTUAL

end SearchServer

/-- The arguments of one call of `AddDocument`. -/
structure AddDocumentCall where
  document_id : Int
  document : String
  status : DocumentStatus
  ratings : List Int

namespace SearchServer

variable {R : Type}

/-- The state of the server after a sequence of `AddDocument` calls made one after the
other, the calls that throw included (the caller catches the exception and goes on, as
the function `AddDocument` of the driver does). -/
def addDocuments [LinearOrderedField R] (s : SearchServer R) :
    List AddDocumentCall → SearchServer R
  | [] => s
  | c :: rest =>
    addDocuments (AddDocument s c.document_id c.document c.status c.ratings).2 rest

/-- The ids of the calls of a sequence that returned normally, in call order. -/
def addedIds [LinearOrderedField R] (s : SearchServer R) : List AddDocumentCall → List Int
  | [] => []
  | c :: rest =>
    if (AddDocument s c.document_id c.document c.status c.ratings).1 = .ok () then
      c.document_id ::
        addedIds (AddDocument s c.document_id c.document c.status c.ratings).2 rest
    else addedIds (AddDocument s c.document_id c.document c.status c.ratings).2 rest

/-- Every stored term frequency is non-negative. -/
def FreqsNonneg [LinearOrderedField R] (s : SearchServer R) : Prop :=
  ∀ e ∈ s.word_to_document_freqs_, ∀ p ∈ e.2, 0 ≤ p.2

end SearchServer

namespace SearchServer

variable {R : Type}

/-- The entry `word_to_document_freqs_[word][document_id]` read without inserting:
`none` when the word is no key of the index or has no posting for the document. -/
def storedFreq (s : SearchServer R) (word : String) (document_id : Int) : Option R :=
  match Cpp.Map.get? s.word_to_document_freqs_ word with
  | none => none
  | some freqs => Cpp.Map.get? freqs document_id

/-- The sum of the term frequencies of a document over all terms that have a posting
for it (not taken from the source: the mass of the document in the words of the
spec). -/
def massOf [LinearOrderedField R] (s : SearchServer R) (document_id : Int) : R :=
  (s.word_to_document_freqs_.filterMap
    (fun e => Cpp.Map.get? e.2 document_id)).sum

/-- The calls of a sequence that returned normally, in call order. -/
def addedCalls [LinearOrderedField R] (s : SearchServer R) :
    List AddDocumentCall → List AddDocumentCall
  | [] => []
  | c :: rest =>
    if (AddDocument s c.document_id c.document c.status c.ratings).1 = .ok () then
      c :: addedCalls (AddDocument s c.document_id c.document c.status c.ratings).2 rest
    else addedCalls (AddDocument s c.document_id c.document c.status c.ratings).2 rest

end SearchServer

/-- The characters of a text made of words and spaces (not taken from the source): every
word that is not the last is followed by one space and `extra` more spaces, and the
last word by `extra` spaces. -/
def spacedWords : List (String × Nat) → List Char
  | [] => []
  | [(word, extra)] => word.toList ++ List.replicate extra ' '
  | (word, extra) :: next :: rest =>
    word.toList ++ ' ' :: (List.replicate extra ' ' ++ spacedWords (next :: rest))

/-- The floor of the exact mean of a ratings list: the "floor-divided mean" in the words
of the spec (not taken from the source). -/
def floorOfMean (ratings : List Int) : Int :=
  ⌊(ratings.sum : ℚ) / (ratings.length : ℚ)⌋

/-- The ceiling of the exact mean of a ratings list (not taken from the source). -/
def ceilOfMean (ratings : List Int) : Int :=
  ⌈(ratings.sum : ℚ) / (ratings.length : ℚ)⌉

/-- The calls made by `main` in `src/Exception1.cpp`. -/
def mainCalls : List AddDocumentCall :=
  [⟨1, "пушистый кот пушистый хвост", .ACTUAL, [7, 2, 7]⟩,
   ⟨1, "пушистый пёс и модный ошейник", .ACTUAL, [1, 2]⟩,
   ⟨-1, "пушистый пёс и модный ошейник", .ACTUAL, [1, 2]⟩,
   ⟨3, "большой пёс скво\x12рец евгений", .ACTUAL, [1, 3, 2]⟩,
   ⟨4, "большой пёс скворец евгений", .ACTUAL, [1, 1, 1]⟩]

/-- The four `AddDocument` calls of the test scenario of `src/Tests.cpp`. -/
def testCalls : List AddDocumentCall :=
  [⟨0, "белый кот и модный ошейник", .ACTUAL, [8, -3]⟩,
   ⟨1, "пушистый кот пушистый хвост", .ACTUAL, [7, 2, 7]⟩,
   ⟨2, "ухоженный пёс выразительные глаза", .ACTUAL, [5, -12, 2, 1]⟩,
   ⟨3, "ухоженный скворец евгений", .BANNED, [9]⟩]

/-- The server constructed by `main` in `src/Exception1.cpp` from the stop-word string
"и в на". -/
def mainServer : SearchServer ℚ :=
  { stop_words_ := ["в", "и", "на"], word_to_document_freqs_ := [], documents_ := [],
    document_ids_ := [] }

/-- A server constructed with no stop words. -/
def emptyServer : SearchServer ℚ :=
  { stop_words_ := [], word_to_document_freqs_ := [], documents_ := [], document_ids_ := [] }

/-- The server after the first document of the test corpus. -/
def corpus1 : SearchServer ℚ :=
  (emptyServer.AddDocument 0 "белый кот и модный ошейник" .ACTUAL [8, -3]).2

/-- The server after the first two documents of the test corpus. -/
def corpus2 : SearchServer ℚ :=
  (corpus1.AddDocument 1 "пушистый кот пушистый хвост" .ACTUAL [7, 2, 7]).2

/-- The server after the first three documents of the test corpus. -/
def corpus3 : SearchServer ℚ :=
  (corpus2.AddDocument 2 "ухоженный пёс выразительные глаза" .ACTUAL [5, -12, 2, 1]).2

/-- The four-document corpus used by the tests and the spec, with no stop words. -/
def corpus : SearchServer ℚ :=
  (corpus3.AddDocument 3 "ухоженный скворец евгений" .BANNED [9]).2

/-- Six documents with the one word "кот" each, ids 0 to 5, document `i` rated `i`. -/
def sixCats : SearchServer ℚ :=
  (List.range 6).foldl
    (fun s i => (s.AddDocument (i : Int) "кот" .ACTUAL [(i : Int)]).2) emptyServer

/-- Seventeen documents with the one word "кот" each, ids 0 to 16, all rated 1. -/
def seventeenCats : SearchServer ℚ :=
  (List.range 17).foldl
    (fun s i => (s.AddDocument (i : Int) "кот" .ACTUAL [1]).2) emptyServer

/-- The server of the stop-word test: stop words "in" and "the", one document
"cat in the city" with id 42. -/
def stopWordServer : SearchServer ℚ :=
  (SearchServer.AddDocument ({ emptyServer with stop_words_ := ["in", "the"] })
    42 "cat in the city" .ACTUAL [1, 2, 3]).2

/-- The server constructed from the stop-word string "-". -/
def dashServer : SearchServer ℚ :=
  { stop_words_ := ["-"], word_to_document_freqs_ := [], documents_ := [], document_ids_ := [] }

end Exception1

/-!
# Search engine of `src/Tests.cpp` (the lenient `SearchServer`)

The declarations of `Document`, `DocumentStatus`, `DocumentData`, `QueryWord` and
`Query` in `src/Tests.cpp` have the same members as those of `src/Exception1.cpp`
and are shared with namespace `Exception1`.
-/

namespace Tests

open Exception1 (Document DocumentStatus DocumentData QueryWord Query DocumentPredicate
  firstChar substr1 statusIs MAX_RESULT_DOCUMENT_COUNT)

/-- What goes wrong in the lenient server: the integer division by zero of
`ComputeAverageRating` on an empty vector (undefined behaviour), and the
`std::out_of_range` of `std::map::at`. -/
inductive Fault where
  | DivisionByZero
  | OutOfRange
  deriving DecidableEq

/-- The loop of `SplitIntoWords` in `src/Tests.cpp`: on a space the word is pushed
when it is not empty and is reset in either case. -/
def SplitIntoWords.loop : List Char → List String → List Char → List String
  | [], words, word => if word ≠ [] then words ++ [String.mk word] else words
  | c :: rest, words, word =>
    if c = ' ' then
      SplitIntoWords.loop rest (if word ≠ [] then words ++ [String.mk word] else words) []
    else SplitIntoWords.loop rest words (word ++ [c])

/-- The function `SplitIntoWords` of `src/Tests.cpp`. -/
def SplitIntoWords (text : String) : List String :=
  SplitIntoWords.loop text.toList [] []

/-- The data members of `class SearchServer` in `src/Tests.cpp`. -/
structure SearchServer (R : Type) where
  stop_words_ : Cpp.Set String
  word_to_document_freqs_ : Cpp.Map String (Cpp.Map Int R)
  documents_ : Cpp.Map Int DocumentData
  deriving DecidableEq

namespace SearchServer

variable {R : Type}

/-- The default constructor `SearchServer() {}`. -/
def empty : SearchServer R :=
  { stop_words_ := [], word_to_document_freqs_ := [], documents_ := [] }

/-- The method `void SetStopWords(const string& text)`. -/
def SetStopWords (s : SearchServer R) (text : String) : SearchServer R :=
  { s with
    stop_words_ := (SplitIntoWords text).foldl (fun stop_words word =>
      Cpp.Set.insert stop_words word) s.stop_words_ }

/-- The constructor from a string of stop words. -/
def fromText (stop_words : String) : SearchServer R :=
  { stop_words_ := (SplitIntoWords stop_words).foldl (fun stop_words word =>
      Cpp.Set.insert stop_words word) []
    word_to_document_freqs_ := []
    documents_ := [] }

/-- The constructor from a collection of stop words: a word whose first character is
a space is skipped. -/
def fromCollection (stop_words : List String) : SearchServer R :=
  { stop_words_ := stop_words.foldl (fun stop_words word =>
      if firstChar word = ' ' then stop_words else Cpp.Set.insert stop_words word) []
    word_to_document_freqs_ := []
    documents_ := [] }

/-- The method `bool IsStopWord(const std::string& word) const`. -/
def IsStopWord (s : SearchServer R) (word : String) : Bool :=
  decide (Cpp.Set.count s.stop_words_ word ≠ 0)

/-- The method `SplitIntoWordsNoStop`: the words of the text that are not stop words. -/
def SplitIntoWordsNoStop (s : SearchServer R) (text : String) : List String :=
  (SplitIntoWords text).foldl (fun words word =>
    if !IsStopWord s word then words ++ [word] else words) []

/-- The method `static int ComputeAverageRating(const std::vector<int>& score)`:
the sum, accumulated in an `int` by `accumulate(..., 0)`, divided by
`static_cast<int>(score.size())`, with no test for an empty vector. -/
def ComputeAverageRating (score : List Int) : Except Fault Int :=
  if Cpp.toInt32 (score.length : Int) = 0 then .error Fault.DivisionByZero
  else .ok (Int.tdiv (score.foldl (fun sum x => Cpp.toInt32 (sum + x)) 0)
    (Cpp.toInt32 (score.length : Int)))

/-- The method `AddDocument` of `src/Tests.cpp`: no validation; the document record is
emplaced first (no effect when the id is present), then the index is updated. -/
def AddDocument [LinearOrderedField R] (s : SearchServer R) (document_id : Int)
    (document : String) (status : DocumentStatus) (score : List Int) :
    Except Fault (SearchServer R) :=
  let words := SplitIntoWordsNoStop s document
  match ComputeAverageRating score with
  | .error e => .error e
  | .ok rating =>
    let inv_word_count : R := 1 / (words.length : R)
    .ok { s with
          documents_ := Cpp.Map.emplace s.documents_ document_id
            { rating := rating, status := status }
          word_to_document_freqs_ :=
            words.foldl (fun index word =>
              Cpp.Map.modifyAt index word []
                (fun freqs => Cpp.Map.modifyAt freqs document_id 0
                  (fun freq => freq + inv_word_count)))
              s.word_to_document_freqs_ }

/-- The method `int GetDocumentCount() const`. -/
def GetDocumentCount (s : SearchServer R) : Int := (Cpp.Map.size s.documents_ : Int)

/-- The method `QueryWord ParseQueryWord(std::string text) const`: no validation. -/
def ParseQueryWord (s : SearchServer R) (text : String) : QueryWord :=
  let is_minus : Bool := decide (firstChar text = '-')
  let text : String := if is_minus then substr1 text else text
  { data := text, is_minus := is_minus, is_stop := IsStopWord s text }

/-- The method `Query ParseQuery(const std::string& text) const`. -/
def ParseQuery (s : SearchServer R) (text : String) : Query :=
  (SplitIntoWords text).foldl (fun query word =>
    let query_word := ParseQueryWord s word
    if !query_word.is_stop then
      if query_word.is_minus then
        { query with minus_words := Cpp.Set.insert query.minus_words query_word.data }
      else
        { query with plus_words := Cpp.Set.insert query.plus_words query_word.data }
    else query) { plus_words := [], minus_words := [] }

/-- The method `double ComputeWordInverseDocumentFreq(const std::string& word) const`. -/
def ComputeWordInverseDocumentFreq [LinearOrderedField R] (ln : R → R) (s : SearchServer R)
    (word : String) : Except Fault R :=
  match Cpp.Map.get? s.word_to_document_freqs_ word with
  | none => .error Fault.OutOfRange
  | some freqs => .ok (ln ((Cpp.Map.size s.documents_ : R) * 1 / (Cpp.Map.size freqs : R)))

/-- Body of the inner loop over the postings of a plus word in `FindAllDocuments`:
`documents_.at(document_id)` is evaluated for the status and for the rating. -/
def FindAllDocuments.plusPosting [LinearOrderedField R] (s : SearchServer R)
    (predicate : DocumentPredicate) (inverse_document_freq : R)
    (document_to_relevance : Cpp.Map Int R) (posting : Int × R) :
    Except Fault (Cpp.Map Int R) :=
  match Cpp.Map.get? s.documents_ posting.1 with
  | none => .error Fault.OutOfRange
  | some document_data =>
    if predicate posting.1 document_data.status document_data.rating then
      .ok (Cpp.Map.modifyAt document_to_relevance posting.1 0
        (fun relevance => relevance + posting.2 * inverse_document_freq))
    else .ok document_to_relevance

/-- Body of the loop over the plus words in `FindAllDocuments`. -/
def FindAllDocuments.plusWord [LinearOrderedField R] (ln : R → R) (s : SearchServer R)
    (predicate : DocumentPredicate)
    (document_to_relevance : Cpp.Map Int R) (word : String) :
    Except Fault (Cpp.Map Int R) :=
  if Cpp.Map.count s.word_to_document_freqs_ word = 0 then .ok document_to_relevance
  else
    match ComputeWordInverseDocumentFreq ln s word with
    | .error e => .error e
    | .ok inverse_document_freq =>
      match Cpp.Map.get? s.word_to_document_freqs_ word with
      | none => .error Fault.OutOfRange
      | some freqs =>
        freqs.foldlM (FindAllDocuments.plusPosting s predicate inverse_document_freq)
          document_to_relevance

/-- Body of the loop over the minus words in `FindAllDocuments`. -/
def FindAllDocuments.minusWord (s : SearchServer R)
    (document_to_relevance : Cpp.Map Int R) (word : String) :
    Except Fault (Cpp.Map Int R) :=
  if Cpp.Map.count s.word_to_document_freqs_ word = 0 then .ok document_to_relevance
  else
    match Cpp.Map.get? s.word_to_document_freqs_ word with
    | none => .error Fault.OutOfRange
    | some freqs =>
      .ok (freqs.foldl (fun relevance posting => Cpp.Map.erase relevance posting.1)
        document_to_relevance)

/-- Body of the last loop of `FindAllDocuments`. -/
def FindAllDocuments.emit (s : SearchServer R) (matched_documents : List (Document R))
    (entry : Int × R) : Except Fault (List (Document R)) :=
  match Cpp.Map.get? s.documents_ entry.1 with
  | none => .error Fault.OutOfRange
  | some document_data =>
    .ok (matched_documents ++
      [{ id := entry.1, relevance := entry.2, rating := document_data.rating }])

/-- The method `FindAllDocuments(const Query& query, const Predicate& predicate)`. -/
def FindAllDocuments [LinearOrderedField R] (ln : R → R) (s : SearchServer R)
    (query : Query) (predicate : DocumentPredicate) : Except Fault (List (Document R)) :=
  match query.plus_words.foldlM (FindAllDocuments.plusWord ln s predicate) [] with
  | .error e => .error e
  | .ok relevance_after_plus =>
    match query.minus_words.foldlM (FindAllDocuments.minusWord s) relevance_after_plus with
    | .error e => .error e
    | .ok document_to_relevance =>
      document_to_relevance.foldlM (FindAllDocuments.emit s) []

/-- The constant `const double eps = 1e-6;` of `FindTopDocuments` in `src/Tests.cpp`. -/
def eps [LinearOrderedField R] : R := 1 / 1000000

/-- The comparator passed to `sort` in `FindTopDocuments` of `src/Tests.cpp`; the call
is `std::abs`, the absolute value of a `double`. -/
def compareDocuments [LinearOrderedField R] (lhs rhs : Document R) : Bool :=
  if |lhs.relevance - rhs.relevance| < eps then decide (lhs.rating > rhs.rating)
  else decide (lhs.relevance > rhs.relevance)

/-- The method `FindTopDocuments(const std::string& raw_query, const Predicate& predicate)`. -/
def FindTopDocuments [LinearOrderedField R] (ln : R → R) (s : SearchServer R)
    (raw_query : String) (predicate : DocumentPredicate) :
    Except Fault (List (Document R)) :=
  let query := ParseQuery s raw_query
  match FindAllDocuments ln s query predicate with
  | .error e => .error e
  | .ok matched_documents =>
    let matched_documents :=
      Cpp.sort compareDocuments matched_documents
    if matched_documents.length > MAX_RESULT_DOCUMENT_COUNT then
      .ok (matched_documents.take MAX_RESULT_DOCUMENT_COUNT)
    else .ok matched_documents

/-- The method `FindTopDocuments(const std::string& raw_query, DocumentStatus status =
DocumentStatus::ACTUAL)`. -/
def FindTopDocumentsByStatus [LinearOrderedField R] (ln : R → R) (s : SearchServer R)
    (raw_query : String) (status : DocumentStatus) : Except Fault (List (Document R)) :=
  FindTopDocuments ln s raw_query (statusIs status)

/-- The four `AddDocument` calls of the tests on a server `s`. -/
def addTestDocuments [LinearOrderedField R] (s : SearchServer R) :
    Except Fault (SearchServer R) :=
  (AddDocument s 0 "белый кот и модный ошейник" .ACTUAL [8, -3]).bind fun s1 =>
  (AddDocument s1 1 "пушистый кот пушистый хвост" .ACTUAL [7, 2, 7]).bind fun s2 =>
  (AddDocument s2 2 "ухоженный пёс выразительные глаза" .ACTUAL [5, -12, 2, 1]).bind fun s3 =>
  AddDocument s3 3 "ухоженный скворец евгений" .BANNED [9]

/-- Reads the term frequencies of a server over the rationals in another field. -/
def castFreqs [LinearOrderedField R] (s : SearchServer ℚ) : SearchServer R :=
  { stop_words_ := s.stop_words_
    word_to_document_freqs_ :=
      s.word_to_document_freqs_.map (fun e => (e.1, e.2.map (fun p => (p.1, (p.2 : R)))))
    documents_ := s.documents_ }

end SearchServer

/-- The state of the lenient server after the four test documents, over the rationals. -/
def testCorpus : SearchServer ℚ :=
  { stop_words_ := []
    word_to_document_freqs_ :=
      [("белый", [(0, 1 / 5)]), ("выразительные", [(2, 1 / 4)]), ("глаза", [(2, 1 / 4)]),
       ("евгений", [(3, 1 / 3)]), ("и", [(0, 1 / 5)]), ("кот", [(0, 1 / 5), (1, 1 / 4)]),
       ("модный", [(0, 1 / 5)]), ("ошейник", [(0, 1 / 5)]), ("пушистый", [(1, 1 / 2)]),
       ("пёс", [(2, 1 / 4)]), ("скворец", [(3, 1 / 3)]),
       ("ухоженный", [(2, 1 / 4), (3, 1 / 3)]), ("хвост", [(1, 1 / 4)])]
    documents_ :=
      [(0, ⟨2, .ACTUAL⟩), (1, ⟨5, .ACTUAL⟩), (2, ⟨-1, .ACTUAL⟩), (3, ⟨9, .BANNED⟩)] }

/-- The state of the lenient server of the stop-word test: stop words "in" and "the",
one document "cat in the city" with id 42. -/
def stopWordCorpus : SearchServer ℚ :=
  { stop_words_ := ["in", "the"]
    word_to_document_freqs_ := [("cat", [(42, 1 / 2)]), ("city", [(42, 1 / 2)])]
    documents_ := [(42, ⟨2, .ACTUAL⟩)] }

end Tests

/-!
# Singly linked list of `src/List1.cpp`

A chain of nodes linked through `next_node` and closed by `nullptr` is represented by
the list of its nodes in link order, each node with its address and its value.  A
`Node*` is a value of `NodePtr`.  The free store hands out addresses that were never
used before.
-/

namespace Cpp

variable {α : Type}

/-- Model of `std::equal(first1, last1, first2, last2)` on forward ranges, each range
given by its elements: the ranges are walked together while both last, a pair with
`!(*first1 == *first2)` gives false, and at the end both ranges must be exhausted. -/
def equal [DecidableEq α] : List α → List α → Bool
  | a :: as, b :: bs => if ¬ a = b then false else equal as bs
  | [], [] => true
  | [], _ :: _ => false
  | _ :: _, [] => false

/-- Model of `std::lexicographical_compare(first1, last1, first2, last2)`, each range
given by its elements: the ranges are walked together while both last, `*first1 < *first2`
gives true, `*first2 < *first1` gives false, and at the end the result is
`first1 == last1 && first2 != last2`. -/
def lexicographical_compare [LT α] [DecidableRel (fun a b : α => a < b)] :
    List α → List α → Bool
  | a :: as, b :: bs =>
    if a < b then true else if b < a then false else lexicographical_compare as bs
  | [], _ :: _ => true
  | [], [] => false
  | _ :: _, [] => false

end Cpp

namespace List1

/-- The number of values of `size_t`, taken to be 64 bits wide. -/
def SIZE_MODULUS : Nat := 2 ^ 64

/-- The statement `++size_` on a `size_t`. -/
def incrSize (size : Nat) : Nat := (size + 1) % SIZE_MODULUS

/-- The statement `size_--` on a `size_t`: zero wraps to the largest value. -/
def decrSize (size : Nat) : Nat := if size = 0 then SIZE_MODULUS - 1 else size - 1

/-- A value of type `Node*`: `nullptr`, the address `&head_` of the sentinel member of
the list object with a given identity, or the address of a node made by `new Node`. -/
inductive NodePtr where
  | null
  | head (list : Nat)
  | node (addr : Nat)
  deriving DecidableEq

/-- The class `BasicIterator`: its only member is `Node* node_`, and two iterators are
equal when their pointers are. -/
abbrev Iterator := NodePtr

/-- The free store: `next` is the address that the next `new Node` returns; the
addresses below it are in use or were in use. -/
structure Heap where
  next : Nat
  deriving DecidableEq

/-- The nodes reached from a pointer through `next_node` up to `nullptr`, in link
order: the address and the value of each node. -/
abbrev Chain (α : Type) := List (Nat × α)

namespace Chain

variable {α : Type}

/-- The pointer to the first node of a chain, `nullptr` for the empty chain. -/
def first : Chain α → NodePtr
  | [] => .null
  | (addr, _) :: _ => .node addr

/-- The member `next_node` of the node at address `p`; `none` when no node of the
chain has this address. -/
def next_node : Chain α → Nat → Option NodePtr
  | [], _ => none
  | (addr, _) :: rest, p => if addr = p then some (first rest) else next_node rest p

/-- The member `value` of the node at address `p`; `none` when no node of the chain
has this address. -/
def value : Chain α → Nat → Option α
  | [], _ => none
  | (addr, v) :: rest, p => if addr = p then some v else value rest p

/-- The chain after `p->next_node = new_node` where `new_node` is a node whose
`next_node` is the old `p->next_node`; `none` when no node of the chain has address `p`. -/
def linkAfter : Chain α → Nat → Nat × α → Option (Chain α)
  | [], _, _ => none
  | (addr, v) :: rest, p, new_node =>
    if addr = p then some ((addr, v) :: new_node :: rest)
    else
      match linkAfter rest p new_node with
      | none => none
      | some rest' => some ((addr, v) :: rest')

/-- The pointer to the node of index `i` of a chain (counted from 0), `nullptr` past
the last node. -/
def ptrAt (c : Chain α) (i : Nat) : NodePtr :=
  match c.get? i with
  | some (addr, _) => .node addr
  | none => .null

/-- The chain after `p->next_node = p->next_node->next_node` together with the new
`p->next_node`; `none` when no node of the chain has address `p` and when
`p->next_node` is `nullptr` (the source then dereferences `nullptr`). -/
def unlinkAfter : Chain α → Nat → Option (Chain α × NodePtr)
  | [], _ => none
  | (addr, v) :: rest, p =>
    if addr = p then
      match rest with
      | [] => none
      | _ :: rest' => some ((addr, v) :: rest', first rest')
    else
      match unlinkAfter rest p with
      | none => none
      | some (rest', temp) => some ((addr, v) :: rest', temp)

/-- The walk of `PushBack`: `temp` moves along `next_node` to the last node, whose
`next_node` then receives the new node. -/
def linkLast : Chain α → Nat × α → Chain α
  | [], new_node => [new_node]
  | node :: rest, new_node => node :: linkLast rest new_node

end Chain

/-- The data members of `class SingleLinkedList`: `head_addr` is the address of the
member `head_` (the identity of the object; `before_begin_` holds this address), `chain`
the nodes reached from `head_.next_node`, and `size_` the member `size_`. -/
structure SingleLinkedList (α : Type) where
  head_addr : Nat
  chain : Chain α
  size_ : Nat
  deriving DecidableEq

namespace SingleLinkedList

variable {α : Type}

/-- The default constructor, for an object whose member `head_` is at `head_addr`. -/
def empty (head_addr : Nat) : SingleLinkedList α :=
  { head_addr := head_addr, chain := [], size_ := 0 }

/-- The method `GetSize()`. -/
def GetSize (l : SingleLinkedList α) : Nat := l.size_

/-- The method `IsEmpty()`. -/
def IsEmpty (l : SingleLinkedList α) : Bool :=
  if l.size_ = 0 then true else false

/-- The method `begin()`: `Iterator{ head_.next_node }`. -/
def begin (l : SingleLinkedList α) : Iterator := Chain.first l.chain

/-- The method `end()`: `Iterator{}`, whose pointer is `nullptr`. -/
def end_ (_l : SingleLinkedList α) : Iterator := .null

/-- The method `before_begin()`: the member `before_begin_`, which holds `&head_`. -/
def before_begin (l : SingleLinkedList α) : Iterator := .head l.head_addr

/-- The expression `it.node_->next_node` for an iterator into the list, as evaluated
by `operator++`: `none` for `nullptr` (the assertion of `operator++` fails) and for a
pointer that is not `&head_` nor a node of this list. -/
def next (l : SingleLinkedList α) : Iterator → Option Iterator
  | .null => none
  | .head list => if list = l.head_addr then some (Chain.first l.chain) else none
  | .node addr => Chain.next_node l.chain addr

/-- The iterator reached by `k` applications of `operator++`. -/
def advance (l : SingleLinkedList α) (it : Iterator) : Nat → Option Iterator
  | 0 => some it
  | k + 1 =>
    match next l it with
    | none => none
    | some it' => advance l it' k

/-- The position number `k` of a list: `before_begin()` for 0, the `k`-th element for
`1 ≤ k ≤ n`, and `end()` past the last element. -/
def position (l : SingleLinkedList α) : Nat → Iterator
  | 0 => before_begin l
  | k + 1 => Chain.ptrAt l.chain k

/-- The expression `*it` for an iterator to a node of the list: `none` for `nullptr`
(the assertion of `operator*` fails), for the sentinel, whose value is not part of
the model, and for a pointer that is no node of this list. -/
def deref (l : SingleLinkedList α) : Iterator → Option α
  | .null => none
  | .head _ => none
  | .node addr => Chain.value l.chain addr

/-- The elements met by iterating from `begin()` to `end()`. -/
def range (l : SingleLinkedList α) : List α := l.chain.map Prod.snd

/-- The method `PushFront(const Type& value)`. -/
def PushFront (h : Heap) (l : SingleLinkedList α) (value : α) : Heap × SingleLinkedList α :=
  ({ next := h.next + 1 },
   { l with chain := (h.next, value) :: l.chain, size_ := incrSize l.size_ })

/-- The method `PushBack(const Type& value)`. -/
def PushBack (h : Heap) (l : SingleLinkedList α) (value : α) : Heap × SingleLinkedList α :=
  ({ next := h.next + 1 },
   { l with chain := Chain.linkLast l.chain (h.next, value), size_ := incrSize l.size_ })

/-- The constructor `SingleLinkedList(std::initializer_list<Type> values)`, for an
object whose member `head_` is at `head_addr`: `PushBack` of every value in turn. -/
def ofValues (h : Heap) (head_addr : Nat) (values : List α) : Heap × SingleLinkedList α :=
  values.foldl (fun state temp => PushBack state.1 state.2 temp) (h, empty head_addr)

/-- The method `InsertAfter(ConstIterator pos, const Type& value)`.  The result is
`none` where the source dereferences `nullptr` or writes through a pointer that is
not `&head_` nor a node of this list. -/
def InsertAfter (h : Heap) (l : SingleLinkedList α) (pos : Iterator) (value : α) :
    Option (Heap × SingleLinkedList α × Iterator) :=
  if pos = .null ∧ pos ≠ end_ l then
    some ((PushFront h l value).1, (PushFront h l value).2, begin (PushFront h l value).2)
  else
    match pos with
    | .null => none
    | .head list =>
      if list = l.head_addr then
        some ({ next := h.next + 1 },
          { l with chain := (h.next, value) :: l.chain, size_ := incrSize l.size_ },
          .node h.next)
      else none
    | .node addr =>
      match Chain.linkAfter l.chain addr (h.next, value) with
      | none => none
      | some chain =>
        some ({ next := h.next + 1 }, { l with chain := chain, size_ := incrSize l.size_ },
          .node h.next)

/-- The function `operator==` on two lists. -/
def operatorEq [DecidableEq α] (lhs rhs : SingleLinkedList α) : Bool :=
  Cpp.equal (range lhs) (range rhs)

/-- The function `operator!=` on two lists. -/
def operatorNe [DecidableEq α] (lhs rhs : SingleLinkedList α) : Bool :=
  !Cpp.equal (range lhs) (range rhs)

/-- The function `operator<` on two lists. -/
def operatorLt [LT α] [DecidableRel (fun a b : α => a < b)]
    (lhs rhs : SingleLinkedList α) : Bool :=
  Cpp.lexicographical_compare (range lhs) (range rhs)

/-- The function `operator<=` on two lists, as written in the source. -/
def operatorLe [LT α] [DecidableRel (fun a b : α => a < b)]
    (lhs rhs : SingleLinkedList α) : Bool :=
  !Cpp.lexicographical_compare (range lhs) (range rhs)
    || Cpp.lexicographical_compare (range lhs) (range rhs)

/-- The function `operator>` on two lists, as written in the source. -/
def operatorGt [LT α] [DecidableRel (fun a b : α => a < b)]
    (lhs rhs : SingleLinkedList α) : Bool :=
  !Cpp.lexicographical_compare (range lhs) (range rhs)

/-- The function `operator>=` on two lists, as written in the source. -/
def operatorGe [LT α] [DecidableRel (fun a b : α => a < b)]
    (lhs rhs : SingleLinkedList α) : Bool :=
  !Cpp.lexicographical_compare (range lhs) (range rhs)
    || Cpp.lexicographical_compare (range lhs) (range rhs)

/-- The method `EraseAfter(ConstIterator pos)`.  The result is `none` where the source
dereferences `nullptr` (a null position, or a position with no node after it) or
writes through a pointer that is not `&head_` nor a node of this list. -/
def EraseAfter (l : SingleLinkedList α) (pos : Iterator) :
    Option (SingleLinkedList α × Iterator) :=
  match pos with
  | .null => none
  | .head list =>
    if list = l.head_addr then
      match l.chain with
      | [] => none
      | _ :: rest => some ({ l with chain := rest, size_ := decrSize l.size_ }, Chain.first rest)
    else none
  | .node addr =>
    match Chain.unlinkAfter l.chain addr with
    | none => none
    | some (chain, temp) => some ({ l with chain := chain, size_ := decrSize l.size_ }, temp)

/-- The method `PopFront()`; `none` for a list with no node, where the source
dereferences `nullptr`. -/
def PopFront (l : SingleLinkedList α) : Option (SingleLinkedList α) :=
  match l.chain with
  | [] => none
  | _ :: rest => some { l with chain := rest, size_ := decrSize l.size_ }

/-- The loop of `Clear()`: while `head_.next_node` is not `nullptr` the first node is
unlinked and deleted and `size_` is decremented. -/
def Clear.loop : Chain α → Nat → Chain α × Nat
  | [], size => ([], size)
  | _ :: rest, size => Clear.loop rest (decrSize size)

/-- The method `Clear()`. -/
def Clear (l : SingleLinkedList α) : SingleLinkedList α :=
  { l with chain := (Clear.loop l.chain l.size_).1, size_ := (Clear.loop l.chain l.size_).2 }

/-- The method `swap(SingleLinkedList& other)`: the two objects exchange
`head_.next_node` and `size_`; the result is the pair of `*this` and `other` after the
call. -/
def swap (l other : SingleLinkedList α) : SingleLinkedList α × SingleLinkedList α :=
  ({ l with chain := other.chain, size_ := other.size_ },
   { other with chain := l.chain, size_ := l.size_ })

/-- The copy constructor, for a new object whose member `head_` is at `head_addr`:
the elements of `other` are pushed back to the local list `temp` (an object at
`temp_addr`), then `swap(temp)`; `temp` is destroyed on return. -/
def copy (h : Heap) (head_addr temp_addr : Nat) (other : SingleLinkedList α) :
    Heap × SingleLinkedList α :=
  ((((range other).foldl (fun state value => PushBack state.1 state.2 value)
      (h, empty temp_addr))).1,
   (swap (empty head_addr)
      ((range other).foldl (fun state value => PushBack state.1 state.2 value)
        (h, empty temp_addr)).2).1)

/-- The copy assignment `operator=(const SingleLinkedList& rhs)`, the result being
`*this` after the call: when `head_.next_node` differs from `rhs.head_.next_node` the
local list `temp` (an object at `temp_addr`) is copy-constructed from `rhs` and
swapped with `*this`; `temp`, which then holds the old nodes, is destroyed on return. -/
def operatorAssign (h : Heap) (temp_addr inner_temp_addr : Nat)
    (l rhs : SingleLinkedList α) : Heap × SingleLinkedList α :=
  if Chain.first l.chain ≠ Chain.first rhs.chain then
    ((copy h temp_addr inner_temp_addr rhs).1,
     (swap l (copy h temp_addr inner_temp_addr rhs).2).1)
  else (h, l)

/-- The list states reached from an empty list by the operations of the class, each
applied where the source does not dereference `nullptr`. -/
inductive Reachable : SingleLinkedList α → Prop where
  | init (head_addr : Nat) : Reachable (empty head_addr)
  | pushFront (h : Heap) (l : SingleLinkedList α) (value : α) :
      Reachable l → Reachable (PushFront h l value).2
  | pushBack (h : Heap) (l : SingleLinkedList α) (value : α) :
      Reachable l → Reachable (PushBack h l value).2
  | popFront (l l' : SingleLinkedList α) :
      Reachable l → PopFront l = some l' → Reachable l'
  | insertAfter (h h' : Heap) (l l' : SingleLinkedList α) (pos it : Iterator) (value : α) :
      Reachable l → InsertAfter h l pos value = some (h', l', it) → Reachable l'
  | eraseAfter (l l' : SingleLinkedList α) (pos it : Iterator) :
      Reachable l → EraseAfter l pos = some (l', it) → Reachable l'
  | clear (l : SingleLinkedList α) : Reachable l → Reachable (Clear l)
  | swapThis (l other : SingleLinkedList α) :
      Reachable l → Reachable other → Reachable (swap l other).1
  | swapOther (l other : SingleLinkedList α) :
      Reachable l → Reachable other → Reachable (swap l other).2
  | assign (h : Heap) (temp_addr inner_temp_addr : Nat) (l rhs : SingleLinkedList α) :
      Reachable l → Reachable rhs →
      Reachable (operatorAssign h temp_addr inner_temp_addr l rhs).2

/-- Representation invariant of a list in a free store: the nodes have distinct
addresses, all of them handed out already. -/
def WF (h : Heap) (l : SingleLinkedList α) : Prop :=
  (l.chain.map Prod.fst).Nodup ∧ ∀ addr ∈ l.chain.map Prod.fst, addr < h.next

instance (h : Heap) (l : SingleLinkedList α) : Decidable (WF h l) := by
  unfold WF; infer_instance

end SingleLinkedList

/-- The list `{1, 2, 3}` built by the initializer-list constructor in an unused free
store, the object at address 0. -/
def list123 : Heap × SingleLinkedList Int :=
  SingleLinkedList.ofValues { next := 0 } 0 [1, 2, 3]

/-- The list `{1, 2, 3, 4}` built by the initializer-list constructor in an unused
free store, the object at address 0. -/
def list1234 : Heap × SingleLinkedList Int :=
  SingleLinkedList.ofValues { next := 0 } 0 [1, 2, 3, 4]

end List1

namespace Tests

open Exception1 (Document DocumentStatus DocumentData QueryWord Query DocumentPredicate
  firstChar substr1 statusIs MAX_RESULT_DOCUMENT_COUNT)

namespace SearchServer

variable {R : Type}

/-- One turn of the first loop of `MatchDocument` in `src/Tests.cpp`, over
`query.plus_words`. -/
def MatchDocument.plusWord (s : SearchServer R) (document_id : Int)
    (matched_words : List String) (word : String) : Except Fault (List String) :=
  if Cpp.Map.count s.word_to_document_freqs_ word = 0 then .ok matched_words
  else
    match Cpp.Map.get? s.word_to_document_freqs_ word with
    | none => .error Fault.OutOfRange
    | some freqs =>
      if Cpp.Map.count freqs document_id ≠ 0 then .ok (matched_words ++ [word])
      else .ok matched_words

/-- The second loop of `MatchDocument` in `src/Tests.cpp`, over `query.minus_words`. -/
def MatchDocument.minusLoop (s : SearchServer R) (document_id : Int) :
    List String → List String → Except Fault (List String)
  | [], matched_words => .ok matched_words
  | word :: rest, matched_words =>
    if Cpp.Map.count s.word_to_document_freqs_ word = 0 then
      MatchDocument.minusLoop s document_id rest matched_words
    else
      match Cpp.Map.get? s.word_to_document_freqs_ word with
      | none => .error Fault.OutOfRange
      | some freqs =>
        if Cpp.Map.count freqs document_id ≠ 0 then .ok []
        else MatchDocument.minusLoop s document_id rest matched_words

/-- The method `MatchDocument(const std::string& text, int document_id)` of
`src/Tests.cpp`. -/
def MatchDocument (s : SearchServer R) (text : String) (document_id : Int) :
    Except Fault (List String × DocumentStatus) :=
  match (ParseQuery s text).plus_words.foldlM (MatchDocument.plusWord s document_id) [] with
  | .error e => .error e
  | .ok matched_words =>
    match MatchDocument.minusLoop s document_id (ParseQuery s text).minus_words
        matched_words with
    | .error e => .error e
    | .ok matched_words =>
      match Cpp.Map.get? s.documents_ document_id with
      | none => .error Fault.OutOfRange
      | some document_data => .ok (matched_words, document_data.status)

/-- A sequence of `AddDocument` calls made one after the other on the lenient server;
the first fault ends the sequence. -/
def addDocuments [LinearOrderedField R] (s : SearchServer R) :
    List Exception1.AddDocumentCall → Except Fault (SearchServer R)
  | [] => .ok s
  | c :: rest =>
    match AddDocument s c.document_id c.document c.status c.ratings with
    | .error e => .error e
    | .ok s1 => addDocuments s1 rest

end SearchServer

end Tests

namespace Exception1

namespace SearchServer

variable {R : Type}

/-- The state of the lenient server that holds the stop words, the index and the
document store of a strict server (not taken from the source: the correspondence
between the two variants). -/
def lenientOf (s : SearchServer R) : Tests.SearchServer R :=
  { stop_words_ := s.stop_words_
    word_to_document_freqs_ := s.word_to_document_freqs_
    documents_ := s.documents_ }

end SearchServer

end Exception1

namespace Cpp.Map
variable {K V : Type}

theorem count_eq_zero_iff [DecidableEq K] (m : Map K V) (k : K) :
    count m k = 0 ↔ k ∉ keys m := by
  unfold count; split <;> simp_all

theorem get?_eq_none_iff [DecidableEq K] (m : Map K V) (k : K) :
    get? m k = none ↔ k ∉ keys m := by
  induction m with
  | nil => simp [get?, keys]
  | cons e rest ih =>
    obtain ⟨k', v⟩ := e
    by_cases h : k' = k
    · simp [get?, keys, h]
    · have h' : ¬ k = k' := fun x => h x.symm
      simpa [get?, keys, h, h'] using ih

theorem get?_isSome_iff [DecidableEq K] (m : Map K V) (k : K) :
    (∃ v, get? m k = some v) ↔ k ∈ keys m := by
  rw [← not_iff_not, ← get?_eq_none_iff]
  cases get? m k <;> simp

theorem get?_mem [DecidableEq K] {m : Map K V} {k : K} {v : V} (h : get? m k = some v) :
    (k, v) ∈ m := by
  induction m with
  | nil => simp [get?] at h
  | cons e rest ih =>
    obtain ⟨k', v'⟩ := e
    by_cases hk : k' = k
    · simp [get?, hk] at h; simp [hk, h]
    · simp [get?, hk] at h; exact List.mem_cons_of_mem _ (ih h)

theorem get?_of_mem [DecidableEq K] {m : Map K V} (hnd : (keys m).Nodup) {k : K} {v : V}
    (h : (k, v) ∈ m) : get? m k = some v := by
  induction m with
  | nil => simp at h
  | cons e rest ih =>
    obtain ⟨k', v'⟩ := e
    simp only [keys, List.map_cons, List.nodup_cons] at hnd
    rcases List.mem_cons.1 h with h | h
    · cases h; simp [get?]
    · have hk : k' ≠ k := by
        rintro rfl
        exact hnd.1 (List.mem_map.2 ⟨(k', v), h, rfl⟩)
      simp [get?, hk]; exact ih hnd.2 h

theorem insertSorted_perm [LinearOrder K] (k : K) (v : V) (m : Map K V) :
    (insertSorted k v m).Perm ((k, v) :: m) := by
  induction m with
  | nil => simp [insertSorted]
  | cons e rest ih =>
    obtain ⟨k', v'⟩ := e
    unfold insertSorted
    split
    · exact List.Perm.refl _
    · exact (List.Perm.cons _ ih).trans (List.Perm.swap _ _ _)

theorem get?_insertSorted [LinearOrder K] (k : K) (v : V) (m : Map K V) (hk : k ∉ keys m)
    (k' : K) : get? (insertSorted k v m) k' = if k' = k then some v else get? m k' := by
  induction m with
  | nil => by_cases h : k = k' <;> simp [insertSorted, get?, h, eq_comm]
  | cons e rest ih =>
    obtain ⟨k0, v0⟩ := e
    simp only [keys, List.map_cons, List.mem_cons, not_or] at hk
    have ih := ih hk.2
    unfold insertSorted
    split
    · by_cases h : k = k'
      · subst h; simp [get?]
      · have h' : ¬ k' = k := fun x => h x.symm
        simp [get?, h, h']
    · by_cases h0 : k0 = k'
      · subst h0
        have : ¬ k0 = k := fun x => hk.1 x.symm
        simp [get?, this]
      · simp [get?, h0, ih]

theorem keys_replaceAt [DecidableEq K] (k : K) (f : V → V) (m : Map K V) :
    keys (replaceAt k f m) = keys m := by
  induction m with
  | nil => rfl
  | cons e rest ih =>
    obtain ⟨k0, v0⟩ := e
    unfold replaceAt
    split
    · rfl
    · simp only [keys, List.map_cons] at ih ⊢; rw [ih]

theorem get?_replaceAt [DecidableEq K] (k : K) (f : V → V) (m : Map K V) (k' : K) :
    get? (replaceAt k f m) k' = if k' = k then (get? m k).map f else get? m k' := by
  induction m with
  | nil => simp [replaceAt, get?]
  | cons e rest ih =>
    obtain ⟨k0, v0⟩ := e
    unfold replaceAt
    by_cases h0 : k0 = k
    · subst h0
      by_cases h : k0 = k'
      · subst h; simp [get?]
      · have h' : ¬ k' = k0 := fun x => h x.symm
        simp [get?, h, h']
    · by_cases h : k0 = k'
      · subst h; simp [get?, h0]
      · simp [get?, h0, h, ih]

theorem get?_modifyAt [LinearOrder K] (m : Map K V) (k : K) (dflt : V) (f : V → V) (k' : K) :
    get? (modifyAt m k dflt f) k' =
      if k' = k then some (f ((get? m k).getD dflt)) else get? m k' := by
  unfold modifyAt
  split
  next h =>
    have hk := (count_eq_zero_iff m k).1 h
    rw [get?_insertSorted k _ m hk, (get?_eq_none_iff m k).2 hk]; rfl
  next h =>
    have hk : k ∈ keys m := by
      by_contra hc; exact h ((count_eq_zero_iff m k).2 hc)
    obtain ⟨v, hv⟩ := (get?_isSome_iff m k).2 hk
    rw [get?_replaceAt, hv]; rfl

theorem keys_modifyAt_perm [LinearOrder K] (m : Map K V) (k : K) (dflt : V) (f : V → V) :
    (keys (modifyAt m k dflt f)).Perm (if k ∈ keys m then keys m else k :: keys m) := by
  unfold modifyAt
  split
  next h =>
    have hk := (count_eq_zero_iff m k).1 h
    rw [if_neg hk]
    exact (insertSorted_perm k (f dflt) m).map Prod.fst
  next h =>
    have hk : k ∈ keys m := by
      by_contra hc; exact h ((count_eq_zero_iff m k).2 hc)
    rw [if_pos hk, keys_replaceAt]

theorem keys_modifyAt_nodup [LinearOrder K] (m : Map K V) (k : K) (dflt : V) (f : V → V)
    (h : (keys m).Nodup) : (keys (modifyAt m k dflt f)).Nodup := by
  rw [(keys_modifyAt_perm m k dflt f).nodup_iff]
  split
  · exact h
  · next hk => exact List.nodup_cons.2 ⟨hk, h⟩

theorem mem_keys_modifyAt [LinearOrder K] (m : Map K V) (k : K) (dflt : V) (f : V → V)
    (k' : K) : k' ∈ keys (modifyAt m k dflt f) ↔ k' = k ∨ k' ∈ keys m := by
  rw [(keys_modifyAt_perm m k dflt f).mem_iff]
  split
  · next hk =>
    constructor
    · exact Or.inr
    · rintro (rfl | h)
      · exact hk
      · exact h
  · simp

theorem keys_erase [DecidableEq K] (m : Map K V) (k k' : K) :
    k' ∈ keys (erase m k) ↔ k' ≠ k ∧ k' ∈ keys m := by
  simp only [keys, erase, List.mem_map, List.mem_filter]
  constructor
  · rintro ⟨e, ⟨he, hne⟩, rfl⟩
    exact ⟨by simpa using hne, e, he, rfl⟩
  · rintro ⟨hne, e, he, rfl⟩
    exact ⟨e, ⟨he, by simpa using hne⟩, rfl⟩

theorem erase_sublist [DecidableEq K] (m : Map K V) (k : K) : (erase m k).Sublist m :=
  List.filter_sublist m

theorem size_emplace [LinearOrder K] (m : Map K V) (k : K) (v : V) (h : count m k = 0) :
    size (emplace m k v) = size m + 1 := by
  unfold emplace size
  rw [if_pos h, (insertSorted_perm k v m).length_eq]; rfl

theorem mem_keys_emplace [LinearOrder K] (m : Map K V) (k : K) (v : V) (k' : K) :
    k' ∈ keys (emplace m k v) ↔ k' = k ∨ k' ∈ keys m := by
  unfold emplace
  split
  · have hp : (keys (insertSorted k v m)).Perm (k :: keys m) :=
      (insertSorted_perm k v m).map Prod.fst
    rw [hp.mem_iff]; simp
  · next h =>
    have hk : k ∈ keys m := by
      by_contra hc; exact h ((count_eq_zero_iff m k).2 hc)
    constructor
    · exact Or.inr
    · rintro (rfl | h)
      · exact hk
      · exact h

end Cpp.Map

namespace Cpp
variable {α : Type}

theorem unguardedLinearInsert_perm (comp : α → α → Bool) (val : α) (l : List α) :
    (unguardedLinearInsert comp val l).Perm (val :: l) := by
  induction l with
  | nil => simp [unguardedLinearInsert]
  | cons x before ih =>
    unfold unguardedLinearInsert
    split
    · exact (List.Perm.cons _ ih).trans (List.Perm.swap _ _ _)
    · exact List.Perm.refl _

theorem linearInsert_perm (comp : α → α → Bool) (l : List α) (val : α) :
    (linearInsert comp l val).Perm (val :: l) := by
  unfold linearInsert
  split
  · next h => rw [List.getLast?_eq_none_iff.1 h]
  · split
    · exact List.perm_append_singleton val l
    · exact unguardedLinearInsert_perm comp val l

theorem foldl_linearInsert_perm (comp : α → α → Bool) (l acc : List α) :
    (l.foldl (linearInsert comp) acc).Perm (acc ++ l) := by
  induction l generalizing acc with
  | nil => simp
  | cons x rest ih =>
    rw [List.foldl_cons]
    refine (ih _).trans ?_
    refine ((linearInsert_perm comp acc x).append_right rest).trans ?_
    have hm : (acc ++ x :: rest).Perm (x :: (acc ++ rest)) := List.perm_middle
    simpa using hm.symm

theorem foldl_unguardedLinearInsert_perm (comp : α → α → Bool) (l acc : List α) :
    (l.foldl (fun sortedRev val => unguardedLinearInsert comp val sortedRev) acc).Perm
      (acc ++ l) := by
  induction l generalizing acc with
  | nil => simp
  | cons x rest ih =>
    rw [List.foldl_cons]
    refine (ih _).trans ?_
    refine ((unguardedLinearInsert_perm comp x acc).append_right rest).trans ?_
    have hm : (acc ++ x :: rest).Perm (x :: (acc ++ rest)) := List.perm_middle
    simpa using hm.symm

theorem finalInsertionSort_perm (comp : α → α → Bool) (l : List α) :
    (finalInsertionSort comp l).Perm l := by
  unfold finalInsertionSort
  split
  · refine (List.reverse_perm _).trans ?_
    refine (foldl_unguardedLinearInsert_perm comp _ _).trans ?_
    refine ((foldl_linearInsert_perm comp _ []).append_right _).trans ?_
    rw [List.nil_append, List.take_append_drop]
  · exact (List.reverse_perm _).trans (by simpa using foldl_linearInsert_perm comp l [])

theorem iterSwap_perm (l : List α) (i j : Nat) : (iterSwap l i j).Perm l := by
  classical
  unfold iterSwap
  cases hi : l.get? i with
  | none => exact List.Perm.refl _
  | some x =>
    cases hj : l.get? j with
    | none => exact List.Perm.refl _
    | some y =>
      simp only
      rw [List.get?_eq_some] at hi hj
      obtain ⟨hil, hix⟩ := hi
      obtain ⟨hjl, hjy⟩ := hj
      simp only [List.get_eq_getElem] at hix hjy
      rw [List.perm_iff_count]
      intro a
      have hx : (if (x == a) = true then 1 else 0) ≤ List.count a l := by
        split
        · next h =>
          have hxa : x = a := by simpa using h
          rw [← hxa, ← hix]
          exact List.count_pos_iff.2 (List.getElem_mem hil)
        · exact Nat.zero_le _
      have hjl2 : j < (l.set i y).length := by rw [List.length_set]; exact hjl
      have hget : (l.set i y)[j] = y := by
        rw [List.getElem_set]
        split
        · rfl
        · exact hjy
      rw [List.count_set _ _ _ _ hjl2, List.count_set _ _ _ _ hil, hix, hget]
      generalize (if (x == a) = true then 1 else 0) = p at hx
      generalize (if (y == a) = true then 1 else 0) = q
      omega

theorem moveMedianToFirst_perm (comp : α → α → Bool) (l : List α) (result a b c : Nat) :
    (moveMedianToFirst comp l result a b c).Perm l := by
  unfold moveMedianToFirst
  split
  · split
    · split
      · exact iterSwap_perm _ _ _
      · split
        · exact iterSwap_perm _ _ _
        · exact iterSwap_perm _ _ _
    · split
      · exact iterSwap_perm _ _ _
      · split
        · exact iterSwap_perm _ _ _
        · exact iterSwap_perm _ _ _
  · exact List.Perm.refl _

theorem unguardedPartition_perm (comp : α → α → Bool) (pivot : α) (fuel : Nat) (l : List α)
    (first last : Nat) : (unguardedPartition comp pivot fuel l first last).1.Perm l := by
  induction fuel generalizing l first last with
  | zero => exact List.Perm.refl _
  | succ fuel ih =>
    unfold unguardedPartition
    simp only
    split
    · exact (ih _ _ _).trans (iterSwap_perm _ _ _)
    · exact List.Perm.refl _

theorem unguardedPartitionPivot_perm (comp : α → α → Bool) (l : List α) :
    (unguardedPartitionPivot comp l).1.Perm l := by
  unfold unguardedPartitionPivot
  simp only
  split
  · exact (unguardedPartition_perm _ _ _ _ _ _).trans (moveMedianToFirst_perm _ _ _ _ _ _)
  · exact moveMedianToFirst_perm _ _ _ _ _ _

theorem pushHeap_perm (comp : α → α → Bool) (value : α) (topIndex fuel : Nat) (l : List α)
    (holeIndex : Nat) : (pushHeap comp value topIndex fuel l holeIndex).Perm l := by
  induction fuel generalizing l holeIndex with
  | zero => exact List.Perm.refl _
  | succ fuel ih =>
    unfold pushHeap
    split
    · split
      · split
        · exact (ih _ _).trans (iterSwap_perm _ _ _)
        · exact List.Perm.refl _
      · exact List.Perm.refl _
    · exact List.Perm.refl _

theorem adjustHeap_loop_perm (comp : α → α → Bool) (len fuel : Nat) (l : List α)
    (holeIndex : Nat) : (adjustHeap.loop comp len fuel l holeIndex).1.Perm l := by
  induction fuel generalizing l holeIndex with
  | zero => exact List.Perm.refl _
  | succ fuel ih =>
    unfold adjustHeap.loop
    split
    · split
      · exact (ih _ _).trans (iterSwap_perm _ _ _)
      · exact List.Perm.refl _
    · exact List.Perm.refl _

theorem adjustHeap_perm (comp : α → α → Bool) (l : List α) (holeIndex len : Nat)
    (value : α) : (adjustHeap comp l holeIndex len value).Perm l := by
  unfold adjustHeap
  simp only
  refine (pushHeap_perm _ _ _ _ _ _).trans ?_
  split
  · exact (iterSwap_perm _ _ _).trans (adjustHeap_loop_perm _ _ _ _ _)
  · exact adjustHeap_loop_perm _ _ _ _ _

theorem popHeap_perm (comp : α → α → Bool) (l : List α) (last : Nat) :
    (popHeap comp l last).Perm l := by
  unfold popHeap
  split
  · exact (adjustHeap_perm _ _ _ _ _).trans (iterSwap_perm _ _ _)
  · exact List.Perm.refl _

theorem makeHeap_loop_perm (comp : α → α → Bool) (len parent : Nat) (l : List α) :
    (makeHeap.loop comp len parent l).Perm l := by
  induction parent generalizing l with
  | zero =>
    unfold makeHeap.loop
    split
    · exact adjustHeap_perm _ _ _ _ _
    · exact List.Perm.refl _
  | succ parent ih =>
    unfold makeHeap.loop
    split
    · exact (ih _).trans (adjustHeap_perm _ _ _ _ _)
    · exact List.Perm.refl _

theorem makeHeap_perm (comp : α → α → Bool) (l : List α) : (makeHeap comp l).Perm l := by
  unfold makeHeap
  split
  · exact List.Perm.refl _
  · exact makeHeap_loop_perm _ _ _ _

theorem sortHeap_perm (comp : α → α → Bool) (last : Nat) (l : List α) :
    (sortHeap comp last l).Perm l := by
  induction last generalizing l with
  | zero => exact List.Perm.refl _
  | succ last ih =>
    unfold sortHeap
    split
    · exact (ih _).trans (popHeap_perm _ _ _)
    · exact List.Perm.refl _

theorem partialSort_perm (comp : α → α → Bool) (l : List α) : (partialSort comp l).Perm l :=
  (sortHeap_perm _ _ _).trans (makeHeap_perm _ _)

theorem introsortLoop_perm (comp : α → α → Bool) (depth_limit : Nat) (l : List α) :
    (introsortLoop comp depth_limit l).Perm l := by
  induction depth_limit generalizing l with
  | zero =>
    unfold introsortLoop
    split
    · exact partialSort_perm _ _
    · exact List.Perm.refl _
  | succ depth_limit ih =>
    unfold introsortLoop
    split
    · simp only
      refine ((ih _).append (ih _)).trans ?_
      rw [List.take_append_drop]
      exact unguardedPartitionPivot_perm _ _
    · exact List.Perm.refl _

/-- The sorted range is a rearrangement of the range. -/
theorem sort_perm (comp : α → α → Bool) (l : List α) : (sort comp l).Perm l := by
  unfold sort
  split
  · exact List.Perm.refl _
  · exact (finalInsertionSort_perm _ _).trans (introsortLoop_perm _ _ _)

theorem sort_length (comp : α → α → Bool) (l : List α) : (sort comp l).length = l.length :=
  (sort_perm comp l).length_eq

theorem mem_sort (comp : α → α → Bool) (l : List α) (a : α) : a ∈ sort comp l ↔ a ∈ l :=
  (sort_perm comp l).mem_iff

/-- On a range of at most sixteen elements `sort` is the straight insertion sort. -/
theorem sort_eq_insertion (comp : α → α → Bool) (l : List α) (h : l.length ≤ S_threshold) :
    sort comp l = (l.foldl (linearInsert comp) []).reverse := by
  unfold sort
  split
  · rfl
  · next x rest =>
    have h1 : introsortLoop comp (lg (x :: rest).length * 2) (x :: rest) = x :: rest := by
      cases lg (x :: rest).length * 2 with
      | zero => unfold introsortLoop; rw [if_neg (by omega)]
      | succ d => unfold introsortLoop; rw [if_neg (by omega)]
    rw [h1]
    unfold finalInsertionSort
    rw [if_neg (by omega)]

end Cpp

namespace Exception1
namespace SearchServer
variable {R : Type} [LinearOrderedField R]

theorem FindTopDocuments_eq_ok [FloorRing R] {ln : R → R} {s : SearchServer R} {raw_query : String}
    {document_predicate : DocumentPredicate} {docs : List (Document R)}
    (h : FindTopDocuments ln s raw_query document_predicate = .ok docs) :
    ∃ query all, ParseQuery s raw_query = .ok query ∧
      FindAllDocuments ln s query document_predicate = .ok all ∧
      docs = (Cpp.sort compareDocuments all).take MAX_RESULT_DOCUMENT_COUNT := by
  unfold FindTopDocuments at h
  split at h
  · cases h
  · next query hq =>
    split at h
    · cases h
    · next all hall =>
      refine ⟨query, all, hq, hall, ?_⟩
      simp only at h
      split at h
      · cases h; rfl
      · next hlen =>
        cases h
        rw [List.take_of_length_le (by omega)]

theorem FindTopDocuments_of_ok [FloorRing R] {ln : R → R} {s : SearchServer R} {raw_query : String}
    {document_predicate : DocumentPredicate} {query : Query} {all : List (Document R)}
    (hq : ParseQuery s raw_query = .ok query)
    (hall : FindAllDocuments ln s query document_predicate = .ok all) :
    FindTopDocuments ln s raw_query document_predicate =
      .ok ((Cpp.sort compareDocuments all).take MAX_RESULT_DOCUMENT_COUNT) := by
  unfold FindTopDocuments
  rw [hq]; simp only [hall]
  split
  · rfl
  · next hlen => rw [List.take_of_length_le (by omega)]

/-- Claim C2: `FindTopDocuments` returns exactly `min(5, m)` results, where `m` is the
number of documents produced by `FindAllDocuments` for the parsed query and the
predicate; in particular never more than 5. -/
theorem C2_FindTopDocuments_length [FloorRing R] (ln : R → R) (s : SearchServer R)
    (raw_query : String)
    (document_predicate : DocumentPredicate) (query : Query) (all : List (Document R))
    (hq : ParseQuery s raw_query = .ok query)
    (hall : FindAllDocuments ln s query document_predicate = .ok all) :
    ∃ docs, FindTopDocuments ln s raw_query document_predicate = .ok docs ∧
      docs.length = min 5 all.length ∧ docs.length ≤ 5 := by
  refine ⟨_, FindTopDocuments_of_ok hq hall, ?_, ?_⟩
  · rw [List.length_take, Cpp.sort_length]; rfl
  · rw [List.length_take]; exact Nat.min_le_left _ _

end SearchServer
end Exception1

namespace Cpp
variable {α β ε : Type}

theorem foldlM_cons_ok {f : β → α → Except ε β} {a : α} {l : List α} {b r : β} :
    (a :: l).foldlM f b = .ok r ↔ ∃ b', f b a = .ok b' ∧ l.foldlM f b' = .ok r := by
  rw [List.foldlM_cons]
  cases h : f b a <;> simp [bind, Except.bind]

theorem foldlM_nil_ok {f : β → α → Except ε β} {b r : β} :
    ([] : List α).foldlM f b = .ok r ↔ b = r := by
  simp [List.foldlM_nil, pure, Except.pure]

end Cpp

namespace Exception1
namespace SearchServer
variable {R : Type} [LinearOrderedField R]

open Cpp

theorem plusPosting_ok {s : SearchServer R} {pred : DocumentPredicate} {idf : R}
    {rel rel' : Map Int R} {posting : Int × R}
    (h : FindAllDocuments.plusPosting s pred idf rel posting = .ok rel') :
    posting.1 ∈ Map.keys s.documents_ ∧
    rel' = if predicateHolds s pred posting.1 then
        Map.modifyAt rel posting.1 0 (fun r => r + posting.2 * idf) else rel := by
  unfold FindAllDocuments.plusPosting at h
  unfold predicateHolds
  cases hd : Map.get? s.documents_ posting.1 with
  | none => simp [hd] at h
  | some data =>
    refine ⟨(Map.get?_isSome_iff _ _).1 ⟨data, hd⟩, ?_⟩
    simp only [hd] at h ⊢
    split at h
    · next hp => rw [if_pos hp]; cases h; rfl
    · next hp => rw [if_neg hp]; cases h; rfl

theorem plusPosting_fold {s : SearchServer R} {pred : DocumentPredicate} {idf : R}
    (freqs : Map Int R) (hnd : (Map.keys freqs).Nodup) (rel rel' : Map Int R)
    (h : freqs.foldlM (FindAllDocuments.plusPosting s pred idf) rel = .ok rel') (d : Int) :
    Map.get? rel' d = accumulate (predicateHolds s pred d) (Map.get? rel d)
      ((Map.get? freqs d).map (fun tf => tf * idf)) := by
  induction freqs generalizing rel with
  | nil =>
    rw [foldlM_nil_ok] at h; subst h
    simp [Map.get?, accumulate]
  | cons posting rest ih =>
    obtain ⟨d0, tf0⟩ := posting
    rw [foldlM_cons_ok] at h
    obtain ⟨rel1, h1, h2⟩ := h
    simp only [Map.keys, List.map_cons, List.nodup_cons] at hnd
    have ih := ih hnd.2 rel1 h2
    obtain ⟨-, h1⟩ := plusPosting_ok h1
    simp only at h1
    by_cases hd : d0 = d
    · subst hd
      have hrest : Map.get? rest d0 = none := (Map.get?_eq_none_iff _ _).2 hnd.1
      rw [ih, hrest, h1]
      simp only [Map.get?, if_true, Option.map_none', Option.map_some', accumulate]
      split
      · rw [Map.get?_modifyAt]; simp
      · rfl
    · have hd' : ¬ d = d0 := fun x => hd x.symm
      rw [ih, h1]
      simp only [Map.get?, hd, if_false]
      split
      · rw [Map.get?_modifyAt]; simp [hd']
      · rfl

theorem plusPosting_fold_keys {s : SearchServer R} {pred : DocumentPredicate} {idf : R}
    (freqs : Map Int R) (rel rel' : Map Int R)
    (h : freqs.foldlM (FindAllDocuments.plusPosting s pred idf) rel = .ok rel') :
    ((Map.keys rel).Nodup → (Map.keys rel').Nodup) ∧
    (∀ k ∈ Map.keys rel', k ∈ Map.keys rel ∨ k ∈ Map.keys s.documents_) := by
  induction freqs generalizing rel with
  | nil =>
    rw [foldlM_nil_ok] at h; subst h
    exact ⟨id, fun k hk => Or.inl hk⟩
  | cons posting rest ih =>
    rw [foldlM_cons_ok] at h
    obtain ⟨rel1, h1, h2⟩ := h
    obtain ⟨ihn, ihk⟩ := ih rel1 h2
    obtain ⟨hin, h1⟩ := plusPosting_ok h1
    constructor
    · intro hn
      apply ihn
      rw [h1]; split
      · exact Map.keys_modifyAt_nodup _ _ _ _ hn
      · exact hn
    · intro k hk
      rcases ihk k hk with hk1 | hk1
      · rw [h1] at hk1
        split at hk1
        · rcases (Map.mem_keys_modifyAt _ _ _ _ _).1 hk1 with rfl | hk2
          · exact Or.inr hin
          · exact Or.inl hk2
        · exact Or.inl hk1
      · exact Or.inr hk1

end SearchServer
end Exception1

namespace Exception1
namespace SearchServer
variable {R : Type} [LinearOrderedField R]

open Cpp

theorem plusWord_cases {ln : R → R} {s : SearchServer R} {pred : DocumentPredicate}
    {rel rel' : Map Int R} {word : String}
    (h : FindAllDocuments.plusWord ln s pred rel word = .ok rel') :
    (Map.get? s.word_to_document_freqs_ word = none ∧ rel' = rel) ∨
    (∃ freqs, Map.get? s.word_to_document_freqs_ word = some freqs ∧
      freqs.foldlM (FindAllDocuments.plusPosting s pred
        (ln ((GetDocumentCount s : R) / (Map.size freqs : R)))) rel = .ok rel') := by
  unfold FindAllDocuments.plusWord at h
  split at h
  · next hc =>
    left
    exact ⟨(Map.get?_eq_none_iff _ _).2 ((Map.count_eq_zero_iff _ _).1 hc), by cases h; rfl⟩
  · right
    unfold ComputeWordInverseDocumentFreq at h
    cases hf : Map.get? s.word_to_document_freqs_ word with
    | none => simp [hf] at h
    | some freqs =>
      simp only [hf, mul_one] at h
      exact ⟨freqs, rfl, h⟩

theorem plusWord_get? {ln : R → R} {s : SearchServer R} {pred : DocumentPredicate}
    (hwf : ∀ word freqs, Map.get? s.word_to_document_freqs_ word = some freqs →
      (Map.keys freqs).Nodup)
    {rel rel' : Map Int R} {word : String}
    (h : FindAllDocuments.plusWord ln s pred rel word = .ok rel') (d : Int) :
    Map.get? rel' d = accumulate (predicateHolds s pred d) (Map.get? rel d)
      (termContribution ln s d word) := by
  unfold termContribution
  rcases plusWord_cases h with ⟨hn, rfl⟩ | ⟨freqs, hf, hfold⟩
  · simp [hn, accumulate]
  · simp only [hf]
    exact plusPosting_fold freqs (hwf word freqs hf) rel rel' hfold d

theorem plusWord_keys {ln : R → R} {s : SearchServer R} {pred : DocumentPredicate}
    {rel rel' : Map Int R} {word : String}
    (h : FindAllDocuments.plusWord ln s pred rel word = .ok rel') :
    ((Map.keys rel).Nodup → (Map.keys rel').Nodup) ∧
    (∀ k ∈ Map.keys rel', k ∈ Map.keys rel ∨ k ∈ Map.keys s.documents_) := by
  rcases plusWord_cases h with ⟨-, rfl⟩ | ⟨freqs, -, hfold⟩
  · exact ⟨id, fun k hk => Or.inl hk⟩
  · exact plusPosting_fold_keys freqs rel rel' hfold

theorem plusWords_fold {ln : R → R} {s : SearchServer R} {pred : DocumentPredicate}
    (hwf : ∀ word freqs, Map.get? s.word_to_document_freqs_ word = some freqs →
      (Map.keys freqs).Nodup)
    (words : List String) (rel rel' : Map Int R)
    (h : words.foldlM (FindAllDocuments.plusWord ln s pred) rel = .ok rel') (d : Int) :
    Map.get? rel' d = words.foldl
      (fun o word => accumulate (predicateHolds s pred d) o (termContribution ln s d word))
      (Map.get? rel d) := by
  induction words generalizing rel with
  | nil => rw [foldlM_nil_ok] at h; subst h; rfl
  | cons word rest ih =>
    rw [foldlM_cons_ok] at h
    obtain ⟨rel1, h1, h2⟩ := h
    rw [ih rel1 h2, plusWord_get? hwf h1 d]; rfl

theorem plusWords_fold_keys {ln : R → R} {s : SearchServer R} {pred : DocumentPredicate}
    (words : List String) (rel rel' : Map Int R)
    (h : words.foldlM (FindAllDocuments.plusWord ln s pred) rel = .ok rel') :
    ((Map.keys rel).Nodup → (Map.keys rel').Nodup) ∧
    (∀ k ∈ Map.keys rel', k ∈ Map.keys rel ∨ k ∈ Map.keys s.documents_) := by
  induction words generalizing rel with
  | nil => rw [foldlM_nil_ok] at h; subst h; exact ⟨id, fun k hk => Or.inl hk⟩
  | cons word rest ih =>
    rw [foldlM_cons_ok] at h
    obtain ⟨rel1, h1, h2⟩ := h
    obtain ⟨ihn, ihk⟩ := ih rel1 h2
    obtain ⟨hn1, hk1⟩ := plusWord_keys h1
    refine ⟨fun hn => ihn (hn1 hn), fun k hk => ?_⟩
    rcases ihk k hk with hk2 | hk2
    · exact hk1 k hk2
    · exact Or.inr hk2

theorem foldl_accumulate (p : Bool) (c : String → Option R) (words : List String)
    (o : Option R) :
    words.foldl (fun o word => accumulate p o (c word)) o =
      if p = true ∧ words.filterMap c ≠ [] then some (o.getD 0 + (words.filterMap c).sum)
      else o := by
  induction words generalizing o with
  | nil => simp
  | cons word rest ih =>
    rw [List.foldl_cons, ih]
    cases hc : c word with
    | none => simp [accumulate, List.filterMap_cons, hc]
    | some x =>
      cases p with
      | false => simp [accumulate]
      | true =>
        simp only [accumulate, if_true, List.filterMap_cons, hc, true_and, ne_eq,
          not_false_eq_true, Option.getD_some, List.sum_cons, reduceCtorEq]
        split
        · rw [add_assoc]
        · next hr =>
          have : List.filterMap c rest = [] := by simpa using hr
          simp [this]

end SearchServer
end Exception1

namespace Exception1
namespace SearchServer
variable {R : Type}

open Cpp

theorem forall₂_mem_right {α β : Type} {P : α → β → Prop} {l : List α} {l' : List β}
    (h : List.Forall₂ P l l') (b : β) (hb : b ∈ l') : ∃ a ∈ l, P a b := by
  induction h with
  | nil => simp at hb
  | cons hab _ ih =>
    rcases List.mem_cons.1 hb with rfl | hb
    · exact ⟨_, List.mem_cons_self _ _, hab⟩
    · obtain ⟨a, ha, hp⟩ := ih hb
      exact ⟨a, List.mem_cons_of_mem _ ha, hp⟩

theorem foldl_erase (freqs : Map Int R) (rel : Map Int R) :
    (freqs.foldl (fun relevance posting => Map.erase relevance posting.1) rel).Sublist rel ∧
    ∀ k ∈ Map.keys freqs,
      k ∉ Map.keys (freqs.foldl (fun relevance posting => Map.erase relevance posting.1) rel) := by
  induction freqs generalizing rel with
  | nil => exact ⟨List.Sublist.refl _, by simp [Map.keys]⟩
  | cons posting rest ih =>
    obtain ⟨ihs, ihk⟩ := ih (Map.erase rel posting.1)
    rw [List.foldl_cons]
    refine ⟨ihs.trans (Map.erase_sublist _ _), ?_⟩
    intro k hk hmem
    simp only [Map.keys, List.map_cons, List.mem_cons] at hk
    rcases hk with rfl | hk
    · have : posting.1 ∈ Map.keys (Map.erase rel posting.1) :=
        (ihs.map Prod.fst).subset hmem
      exact ((Map.keys_erase _ _ _).1 this).1 rfl
    · exact ihk k hk hmem

theorem minusWord_ok (s : SearchServer R) (rel : Map Int R) (word : String) :
    ∃ rel', FindAllDocuments.minusWord s rel word = .ok rel' ∧ rel'.Sublist rel ∧
      ∀ freqs, Map.get? s.word_to_document_freqs_ word = some freqs →
        ∀ k ∈ Map.keys freqs, k ∉ Map.keys rel' := by
  unfold FindAllDocuments.minusWord
  split
  · next hc =>
    refine ⟨rel, rfl, List.Sublist.refl _, ?_⟩
    intro freqs hf
    rw [(Map.get?_eq_none_iff _ _).2 ((Map.count_eq_zero_iff _ _).1 hc)] at hf
    cases hf
  · next hc =>
    have hk : word ∈ Map.keys s.word_to_document_freqs_ := by
      by_contra hn; exact hc ((Map.count_eq_zero_iff _ _).2 hn)
    obtain ⟨freqs, hf⟩ := (Map.get?_isSome_iff _ _).2 hk
    simp only [hf]
    refine ⟨_, rfl, (foldl_erase freqs rel).1, ?_⟩
    intro freqs' hf'
    cases hf'
    exact (foldl_erase freqs rel).2

theorem minusWords_fold (s : SearchServer R) (words : List String) (rel : Map Int R) :
    ∃ rel', words.foldlM (FindAllDocuments.minusWord s) rel = .ok rel' ∧ rel'.Sublist rel ∧
      ∀ word ∈ words, ∀ freqs, Map.get? s.word_to_document_freqs_ word = some freqs →
        ∀ k ∈ Map.keys freqs, k ∉ Map.keys rel' := by
  induction words generalizing rel with
  | nil => exact ⟨rel, foldlM_nil_ok.2 rfl, List.Sublist.refl _, by simp⟩
  | cons word rest ih =>
    obtain ⟨rel1, h1, hs1, hk1⟩ := minusWord_ok s rel word
    obtain ⟨rel2, h2, hs2, hk2⟩ := ih rel1
    refine ⟨rel2, foldlM_cons_ok.2 ⟨rel1, h1, h2⟩, hs2.trans hs1, ?_⟩
    intro w hw freqs hf k hk hmem
    rcases List.mem_cons.1 hw with rfl | hw
    · exact hk1 freqs hf k hk ((hs2.map Prod.fst).subset hmem)
    · exact hk2 w hw freqs hf k hk hmem

theorem emit_fold {s : SearchServer R} (rel : Map Int R) (matched docs : List (Document R))
    (h : rel.foldlM (FindAllDocuments.emit s) matched = .ok docs) :
    ∃ tail, docs = matched ++ tail ∧
      List.Forall₂ (fun (e : Int × R) (d : Document R) =>
        d.id = e.1 ∧ d.relevance = e.2 ∧
          ∃ data, Map.get? s.documents_ e.1 = some data ∧ d.rating = data.rating) rel tail := by
  induction rel generalizing matched with
  | nil =>
    rw [foldlM_nil_ok] at h; subst h
    exact ⟨[], by simp, List.Forall₂.nil⟩
  | cons e rest ih =>
    rw [foldlM_cons_ok] at h
    obtain ⟨m1, h1, h2⟩ := h
    unfold FindAllDocuments.emit at h1
    cases hd : Map.get? s.documents_ e.1 with
    | none => simp [hd] at h1
    | some data =>
      simp only [hd] at h1
      cases h1
      obtain ⟨tail, rfl, hf⟩ := ih _ h2
      exact ⟨(⟨e.1, e.2, data.rating⟩ : Document R) :: tail, by simp,
        List.Forall₂.cons ⟨rfl, rfl, data, hd, rfl⟩ hf⟩

theorem emit_fold_ok {s : SearchServer R} (rel : Map Int R) (matched : List (Document R))
    (h : ∀ k ∈ Map.keys rel, k ∈ Map.keys s.documents_) :
    ∃ docs, rel.foldlM (FindAllDocuments.emit s) matched = .ok docs := by
  induction rel generalizing matched with
  | nil => exact ⟨matched, foldlM_nil_ok.2 rfl⟩
  | cons e rest ih =>
    obtain ⟨data, hd⟩ := (Map.get?_isSome_iff _ _).2 (h e.1 (by simp [Map.keys]))
    obtain ⟨docs, hdocs⟩ := ih (matched ++ [⟨e.1, e.2, data.rating⟩])
      (fun k hk => h k (by simp only [Map.keys, List.map_cons, List.mem_cons] at hk ⊢; exact Or.inr hk))
    exact ⟨docs, foldlM_cons_ok.2 ⟨_, by simp [FindAllDocuments.emit, hd], hdocs⟩⟩

/-- The three phases of `FindAllDocuments`. -/
theorem FindAllDocuments_eq_ok [LinearOrderedField R] {ln : R → R} {s : SearchServer R} {query : Query}
    {pred : DocumentPredicate} {docs : List (Document R)}
    (h : FindAllDocuments ln s query pred = .ok docs) :
    ∃ relPlus relFinal,
      query.plus_words.foldlM (FindAllDocuments.plusWord ln s pred) [] = .ok relPlus ∧
      query.minus_words.foldlM (FindAllDocuments.minusWord s) relPlus = .ok relFinal ∧
      relFinal.foldlM (FindAllDocuments.emit s) [] = .ok docs := by
  unfold FindAllDocuments at h
  split at h
  · cases h
  · next relPlus hp =>
    split at h
    · cases h
    · next relFinal hm => exact ⟨relPlus, relFinal, hp, hm, h⟩

/-- What `FindAllDocuments` returns, document by document. -/
theorem FindAllDocuments_mem [LinearOrderedField R] {ln : R → R} {s : SearchServer R} {query : Query}
    {pred : DocumentPredicate} {docs : List (Document R)}
    (h : FindAllDocuments ln s query pred = .ok docs) (d : Document R) (hd : d ∈ docs) :
    ∃ relPlus,
      query.plus_words.foldlM (FindAllDocuments.plusWord ln s pred) [] = .ok relPlus ∧
      (d.id, d.relevance) ∈ relPlus ∧
      (∀ word ∈ query.minus_words, ∀ freqs,
        Map.get? s.word_to_document_freqs_ word = some freqs → d.id ∉ Map.keys freqs) ∧
      ∃ data, Map.get? s.documents_ d.id = some data ∧ d.rating = data.rating := by
  obtain ⟨relPlus, relFinal, hp, hm, he⟩ := FindAllDocuments_eq_ok h
  obtain ⟨relFinal', hm', hsub, hminus⟩ := minusWords_fold s query.minus_words relPlus
  rw [hm] at hm'; cases hm'
  obtain ⟨tail, rfl, hf⟩ := emit_fold relFinal [] docs he
  obtain ⟨e, he1, hid, hrel, hdata⟩ := forall₂_mem_right hf d hd
  refine ⟨relPlus, hp, ?_, ?_, ?_⟩
  · have : (d.id, d.relevance) = e := by rw [hid, hrel]
    rw [this]; exact hsub.subset he1
  · intro word hw freqs hfr hk
    have hmem : d.id ∈ Map.keys relFinal := by
      rw [hid]; exact List.mem_map.2 ⟨e, he1, rfl⟩
    exact hminus word hw freqs hfr d.id hk hmem
  · rw [hid]; exact hdata

end SearchServer
end Exception1

namespace Cpp.Set
variable {K : Type}

theorem set_insertSorted_perm [LinearOrder K] (k : K) (s : Set K) :
    (insertSorted k s).Perm (k :: s) := by
  induction s with
  | nil => simp [insertSorted]
  | cons k' rest ih =>
    unfold insertSorted
    split
    · exact List.Perm.refl _
    · exact (List.Perm.cons _ ih).trans (List.Perm.swap _ _ _)

theorem mem_insert [LinearOrder K] (s : Set K) (k k' : K) :
    k' ∈ insert s k ↔ k' = k ∨ k' ∈ s := by
  unfold insert count
  by_cases h : k ∈ s
  · simp only [h, if_true, one_ne_zero, if_false]
    constructor
    · exact Or.inr
    · rintro (rfl | h')
      · exact h
      · exact h'
  · simp only [h, if_false, if_true]
    rw [(set_insertSorted_perm k s).mem_iff]; simp

theorem insert_nodup [LinearOrder K] (s : Set K) (k : K) (h : s.Nodup) :
    (insert s k).Nodup := by
  unfold insert count
  by_cases hk : k ∈ s
  · simpa [hk] using h
  · simp only [hk, if_false, if_true]
    rw [(set_insertSorted_perm k s).nodup_iff]
    exact List.nodup_cons.2 ⟨hk, h⟩

end Cpp.Set

namespace Exception1
namespace SearchServer
variable {R : Type}

open Cpp

theorem ParseQuery_loop_nodup (s : SearchServer R) (words : List String) (query query' : Query)
    (hn : query.plus_words.Nodup ∧ query.minus_words.Nodup)
    (h : ParseQuery.loop s words query = .ok query') :
    query'.plus_words.Nodup ∧ query'.minus_words.Nodup := by
  induction words generalizing query with
  | nil => unfold ParseQuery.loop at h; cases h; exact hn
  | cons word rest ih =>
    unfold ParseQuery.loop at h
    split at h
    · cases h
    · split at h
      · split at h
        · refine ih _ ?_ h
          exact ⟨hn.1, Set.insert_nodup _ _ hn.2⟩
        · refine ih _ ?_ h
          exact ⟨Set.insert_nodup _ _ hn.1, hn.2⟩
      · exact ih _ hn h

theorem ParseQuery_nodup (s : SearchServer R) (text : String) (query : Query)
    (h : ParseQuery s text = .ok query) :
    query.plus_words.Nodup ∧ query.minus_words.Nodup :=
  ParseQuery_loop_nodup s _ _ _ ⟨List.nodup_nil, List.nodup_nil⟩ h

theorem WF_postings_nodup {s : SearchServer R} (hwf : s.WF) (word : String)
    (freqs : Map Int R) (h : Map.get? s.word_to_document_freqs_ word = some freqs) :
    (Map.keys freqs).Nodup := by
  have hmem := Map.get?_mem h
  have := hwf.2.2.1 _ hmem
  exact List.Pairwise.imp (fun hab => ne_of_lt hab) this

theorem FindAllDocuments_relevance [LinearOrderedField R] {ln : R → R} {s : SearchServer R}
    (hwf : s.WF) {query : Query} {pred : DocumentPredicate} {docs : List (Document R)}
    (h : FindAllDocuments ln s query pred = .ok docs) (d : Document R) (hd : d ∈ docs) :
    d.relevance = (query.plus_words.filterMap (termContribution ln s d.id)).sum := by
  obtain ⟨relPlus, hp, hmem, -, -⟩ := FindAllDocuments_mem h d hd
  have hnd : (Map.keys relPlus).Nodup :=
    (plusWords_fold_keys _ _ _ hp).1 List.nodup_nil
  have hget := Map.get?_of_mem hnd hmem
  rw [plusWords_fold (WF_postings_nodup hwf) _ _ _ hp d.id, foldl_accumulate] at hget
  split at hget
  · simp [Map.get?] at hget
    exact hget.symm
  · simp [Map.get?] at hget

theorem C2_witness :
    ∃ docs, FindTopDocuments lnStandIn sixCats "кот" (statusIs .ACTUAL) = .ok docs ∧
      docs.length = min 5
        [(⟨0, 0, 0⟩ : Document ℚ), ⟨1, 0, 1⟩, ⟨2, 0, 2⟩, ⟨3, 0, 3⟩, ⟨4, 0, 4⟩, ⟨5, 0, 5⟩].length ∧
      docs.length ≤ 5 :=
  C2_FindTopDocuments_length lnStandIn sixCats "кот" (statusIs .ACTUAL) ⟨["кот"], []⟩
    [⟨0, 0, 0⟩, ⟨1, 0, 1⟩, ⟨2, 0, 2⟩, ⟨3, 0, 3⟩, ⟨4, 0, 4⟩, ⟨5, 0, 5⟩]
    (by decide!) (by decide!)

/-- Claim C4: when `m` is a minus word of the parsed query, no document returned by
`FindTopDocuments` has a posting for `m`, whatever plus words the document matches. -/
theorem C4_minus_word_excludes [LinearOrderedField R] [FloorRing R] (ln : R → R)
    (s : SearchServer R)
    (raw_query : String) (document_predicate : DocumentPredicate) (query : Query)
    (docs : List (Document R)) (m : String) (d : Document R)
    (hq : ParseQuery s raw_query = .ok query) (hm : m ∈ query.minus_words)
    (h : FindTopDocuments ln s raw_query document_predicate = .ok docs) (hd : d ∈ docs) :
    hasPosting s m d.id = false := by
  obtain ⟨query', all, hq', hall, rfl⟩ := FindTopDocuments_eq_ok h
  rw [hq] at hq'; cases hq'
  have hd' : d ∈ all := (Cpp.mem_sort _ _ _).1 (List.mem_of_mem_take hd)
  obtain ⟨-, -, -, hminus, -⟩ := FindAllDocuments_mem hall d hd'
  unfold hasPosting
  cases hf : Map.get? s.word_to_document_freqs_ m with
  | none => rfl
  | some freqs =>
    have := hminus m hm freqs hf
    simp [Map.count, this]

theorem C4_witness :
    FindTopDocuments lnStandIn corpus "-пушистый -ухоженный кот" (statusIs .ACTUAL)
        = .ok [⟨0, 1 / 5, 2⟩] ∧
      hasPosting corpus "пушистый" 0 = false ∧ hasPosting corpus "ухоженный" 0 = false :=
  ⟨by decide!,
   C4_minus_word_excludes lnStandIn corpus "-пушистый -ухоженный кот" (statusIs .ACTUAL)
     ⟨["кот"], ["пушистый", "ухоженный"]⟩ [⟨0, 1 / 5, 2⟩] "пушистый" ⟨0, 1 / 5, 2⟩
     (by decide!) (by decide!) (by decide!) (by decide!),
   by decide!⟩

end SearchServer
end Exception1

namespace Exception1
namespace SearchServer
variable {R : Type}

open Cpp

theorem IsValidWord_eq_false_iff (word : String) :
    IsValidWord word = false ↔ ∃ c ∈ word.toList, c.toNat < 32 := by
  unfold IsValidWord
  simp

theorem IsValidWord_eq_true_iff (word : String) :
    IsValidWord word = true ↔ ∀ c ∈ word.toList, ¬ c.toNat < 32 := by
  unfold IsValidWord
  simp

theorem SplitIntoWordsNoStop_loop_ok (s : SearchServer R) (words acc : List String)
    (h : ∀ w ∈ words, IsValidWord w = true) :
    ∃ r, SplitIntoWordsNoStop.loop s words acc = .ok r := by
  induction words generalizing acc with
  | nil => exact ⟨acc, rfl⟩
  | cons w rest ih =>
    unfold SplitIntoWordsNoStop.loop
    have hw := h w (List.mem_cons_self _ _)
    have hrest : ∀ w ∈ rest, IsValidWord w = true :=
      fun x hx => h x (List.mem_cons_of_mem _ hx)
    simp only [hw, Bool.not_true, Bool.false_eq_true, if_false]
    split
    · exact ih _ hrest
    · exact ih _ hrest

theorem SplitIntoWordsNoStop_loop_invalid (s : SearchServer R) (words acc : List String)
    (h : ∃ w ∈ words, IsValidWord w = false) :
    SplitIntoWordsNoStop.loop s words acc = .error Error.InvalidCharacter := by
  induction words generalizing acc with
  | nil => simp at h
  | cons w rest ih =>
    unfold SplitIntoWordsNoStop.loop
    cases hw : IsValidWord w with
    | false => simp
    | true =>
      have hrest : ∃ w ∈ rest, IsValidWord w = false := by
        obtain ⟨x, hx, hxv⟩ := h
        rcases List.mem_cons.1 hx with rfl | hx
        · rw [hw] at hxv; cases hxv
        · exact ⟨x, hx, hxv⟩
      simp only [Bool.not_true, Bool.false_eq_true, if_false]
      split
      · exact ih _ hrest
      · exact ih _ hrest

theorem SplitIntoWordsNoStop_cases (s : SearchServer R) (text : String) :
    ((∀ w ∈ SplitIntoWords text, IsValidWord w = true) ∧
      ∃ words, SplitIntoWordsNoStop s text = .ok words) ∨
    ((∃ w ∈ SplitIntoWords text, IsValidWord w = false) ∧
      SplitIntoWordsNoStop s text = .error Error.InvalidCharacter) := by
  by_cases h : ∀ w ∈ SplitIntoWords text, IsValidWord w = true
  · exact Or.inl ⟨h, SplitIntoWordsNoStop_loop_ok s _ _ h⟩
  · right
    have h' : ∃ w ∈ SplitIntoWords text, IsValidWord w = false := by
      by_contra hc
      apply h
      intro w hw
      cases hv : IsValidWord w with
      | true => rfl
      | false => exact absurd ⟨w, hw, hv⟩ hc
    exact ⟨h', SplitIntoWordsNoStop_loop_invalid s _ _ h'⟩

/-- The four ways through `AddDocument`. -/
theorem AddDocument_cases [LinearOrderedField R] (s : SearchServer R) (document_id : Int)
    (document : String) (status : DocumentStatus) (ratings : List Int) :
    (document_id < 0 ∧
      AddDocument s document_id document status ratings = (.error Error.InvalidId, s)) ∨
    (0 ≤ document_id ∧ (∃ w ∈ SplitIntoWords document, IsValidWord w = false) ∧
      AddDocument s document_id document status ratings
        = (.error Error.InvalidCharacter, s)) ∨
    (0 ≤ document_id ∧ (∀ w ∈ SplitIntoWords document, IsValidWord w = true) ∧
      Map.count s.documents_ document_id > 0 ∧
      AddDocument s document_id document status ratings = (.error Error.DuplicateId, s)) ∨
    (0 ≤ document_id ∧ (∀ w ∈ SplitIntoWords document, IsValidWord w = true) ∧
      Map.count s.documents_ document_id = 0 ∧
      ∃ words, SplitIntoWordsNoStop s document = .ok words ∧
        AddDocument s document_id document status ratings =
          (.ok (),
            { stop_words_ := s.stop_words_
              word_to_document_freqs_ :=
                words.foldl (fun index word =>
                  Map.modifyAt index word []
                    (fun freqs => Map.modifyAt freqs document_id 0
                      (fun freq => freq + 1 / (words.length : R))))
                  s.word_to_document_freqs_
              documents_ := Map.emplace s.documents_ document_id
                { rating := ComputeAverageRating ratings, status := status }
              document_ids_ := s.document_ids_ ++ [document_id] })) := by
  by_cases hneg : document_id < 0
  · left
    exact ⟨hneg, by unfold AddDocument; rw [if_pos hneg]⟩
  · right
    have h0 : 0 ≤ document_id := not_lt.1 hneg
    rcases SplitIntoWordsNoStop_cases s document with ⟨hv, words, hw⟩ | ⟨hv, hw⟩
    · right
      by_cases hc : Map.count s.documents_ document_id > 0
      · left
        refine ⟨h0, hv, hc, ?_⟩
        unfold AddDocument
        rw [if_neg hneg]
        simp only [hw, if_pos hc]
      · right
        refine ⟨h0, hv, by omega, words, hw, ?_⟩
        unfold AddDocument
        rw [if_neg hneg]
        simp only [hw, if_neg hc]
    · left
      refine ⟨h0, hv, ?_⟩
      unfold AddDocument
      rw [if_neg hneg]
      simp only [hw]

end SearchServer
end Exception1

namespace Exception1
namespace SearchServer
variable {R : Type}

/-- Claim C5: for a non-negative id that is not yet in the store and a text whose
tokens contain no control character (the empty text and a text of stop words only
included), `AddDocument` returns normally and `GetDocumentCount()` afterwards is one
greater than before. -/
theorem C5_AddDocument_increases_count [LinearOrderedField R] (s : SearchServer R)
    (document_id : Int) (document : String) (status : DocumentStatus) (ratings : List Int)
    (hid : 0 ≤ document_id) (hnew : Cpp.Map.count s.documents_ document_id = 0)
    (hvalid : ∀ w ∈ SplitIntoWords document, ∀ c ∈ w.toList, ¬ c.toNat < 32) :
    (AddDocument s document_id document status ratings).1 = .ok () ∧
    GetDocumentCount (AddDocument s document_id document status ratings).2
      = GetDocumentCount s + 1 := by
  rcases AddDocument_cases s document_id document status ratings with
    ⟨h, -⟩ | ⟨-, ⟨w, hw, hv⟩, -⟩ | ⟨-, -, h, -⟩ | ⟨-, -, -, words, -, heq⟩
  · omega
  · exact absurd ((IsValidWord_eq_true_iff w).2 (hvalid w hw)) (by simp [hv])
  · omega
  · rw [heq]
    refine ⟨rfl, ?_⟩
    simp only [GetDocumentCount]
    rw [Cpp.Map.size_emplace _ _ _ hnew]
    push_cast; rfl

theorem C5_witness :
    (AddDocument corpus 7 "" .ACTUAL []).1 = .ok () ∧
    GetDocumentCount (AddDocument corpus 7 "" .ACTUAL []).2 = GetDocumentCount corpus + 1 :=
  C5_AddDocument_increases_count corpus 7 "" .ACTUAL [] (by decide) (by decide!) (by decide)

/-- Claim C6, as the code has it: for a non-negative id already present in the store
(stored ids are never negative), `AddDocument` with any text, status and ratings throws
and leaves the whole state (record, index, count) as it was; the error is `DuplicateId`
when no token of the text contains a control character and `InvalidCharacter` when
one does, because the text is validated before the id is looked up. -/
theorem C6_AddDocument_duplicate_id [LinearOrderedField R] (s : SearchServer R)
    (document_id : Int) (document : String) (status : DocumentStatus) (ratings : List Int)
    (hid : 0 ≤ document_id) (hdup : Cpp.Map.count s.documents_ document_id > 0) :
    (AddDocument s document_id document status ratings).2 = s ∧
    ((∀ w ∈ SplitIntoWords document, ∀ c ∈ w.toList, ¬ c.toNat < 32) →
      (AddDocument s document_id document status ratings).1 = .error Error.DuplicateId) ∧
    ((∃ w ∈ SplitIntoWords document, ∃ c ∈ w.toList, c.toNat < 32) →
      (AddDocument s document_id document status ratings).1
        = .error Error.InvalidCharacter) := by
  rcases AddDocument_cases s document_id document status ratings with
    ⟨h, -⟩ | ⟨-, ⟨w, hw, hv⟩, heq⟩ | ⟨-, hv, -, heq⟩ | ⟨-, -, h, -⟩
  · omega
  · rw [heq]
    refine ⟨rfl, ?_, fun _ => rfl⟩
    intro hall
    exact absurd ((IsValidWord_eq_true_iff w).2 (hall w hw)) (by simp [hv])
  · rw [heq]
    refine ⟨rfl, fun _ => rfl, ?_⟩
    rintro ⟨w, hw, hc⟩
    have := hv w hw
    rw [(IsValidWord_eq_false_iff w).2 hc] at this
    cases this
  · omega

theorem C6_witness :
    (AddDocument corpus 1 "пушистый пёс и модный ошейник" .ACTUAL [1, 2]).2 = corpus ∧
    ((∀ w ∈ SplitIntoWords "пушистый пёс и модный ошейник", ∀ c ∈ w.toList, ¬ c.toNat < 32) →
      (AddDocument corpus 1 "пушистый пёс и модный ошейник" .ACTUAL [1, 2]).1
        = .error Error.DuplicateId) ∧
    ((∃ w ∈ SplitIntoWords "пушистый пёс и модный ошейник", ∃ c ∈ w.toList, c.toNat < 32) →
      (AddDocument corpus 1 "пушистый пёс и модный ошейник" .ACTUAL [1, 2]).1
        = .error Error.InvalidCharacter) :=
  C6_AddDocument_duplicate_id corpus 1 "пушистый пёс и модный ошейник" .ACTUAL [1, 2]
    (by decide) (by decide!)

/-- Counterexample to claim C6 as stated: document 1 is in the store, and adding id 1
again with a text that holds the control character of code 18 throws
`InvalidCharacter`, not `DuplicateId`. -/
theorem C6_counterexample :
    Cpp.Map.count corpus.documents_ 1 > 0 ∧
    (AddDocument corpus 1 "скво\x12рец" .ACTUAL [1, 3, 2]).1 = .error Error.InvalidCharacter ∧
    (AddDocument corpus 1 "скво\x12рец" .ACTUAL [1, 3, 2]).1 ≠ .error Error.DuplicateId := by
  decide!

/-- Claim C7: for a negative id, `AddDocument` throws `InvalidId` and
`GetDocumentCount()` is the same as before the call. -/
theorem C7_AddDocument_negative_id [LinearOrderedField R] (s : SearchServer R)
    (document_id : Int) (document : String) (status : DocumentStatus) (ratings : List Int)
    (hid : document_id < 0) :
    (AddDocument s document_id document status ratings).1 = .error Error.InvalidId ∧
    GetDocumentCount (AddDocument s document_id document status ratings).2
      = GetDocumentCount s := by
  unfold AddDocument
  rw [if_pos hid]
  exact ⟨rfl, rfl⟩

theorem C7_witness :
    (AddDocument corpus (-1) "пушистый пёс и модный ошейник" .ACTUAL [1, 2]).1
      = .error Error.InvalidId ∧
    GetDocumentCount (AddDocument corpus (-1) "пушистый пёс и модный ошейник" .ACTUAL [1, 2]).2
      = GetDocumentCount corpus :=
  C7_AddDocument_negative_id corpus (-1) "пушистый пёс и модный ошейник" .ACTUAL [1, 2]
    (by decide)

/-- Claim C8: for a non-negative id and a text in which some space-delimited token
contains a character of code below 32, `AddDocument` throws `InvalidCharacter`.  The
hypothesis quantifies over all tokens of `SplitIntoWords`, stop words included: the
check comes before the stop-word test. -/
theorem C8_AddDocument_invalid_character [LinearOrderedField R] (s : SearchServer R)
    (document_id : Int) (document : String) (status : DocumentStatus) (ratings : List Int)
    (hid : 0 ≤ document_id)
    (hbad : ∃ w ∈ SplitIntoWords document, ∃ c ∈ w.toList, c.toNat < 32) :
    (AddDocument s document_id document status ratings).1 = .error Error.InvalidCharacter := by
  obtain ⟨w, hw, hc⟩ := hbad
  have hinv : IsValidWord w = false := (IsValidWord_eq_false_iff w).2 hc
  rcases AddDocument_cases s document_id document status ratings with
    ⟨h, -⟩ | ⟨-, -, heq⟩ | ⟨-, hv, -, -⟩ | ⟨-, hv, -, -⟩
  · omega
  · rw [heq]
  · rw [hv w hw] at hinv; cases hinv
  · rw [hv w hw] at hinv; cases hinv

/-- A server whose only stop word holds a control character; the token of the text
below is that stop word. -/
theorem C8_witness :
    (AddDocument
      ({ stop_words_ := ["i\x01n"], word_to_document_freqs_ := [], documents_ := [],
         document_ids_ := [] } : SearchServer ℚ)
      3 "cat i\x01n" .ACTUAL [1, 3, 2]).1 = .error Error.InvalidCharacter :=
  C8_AddDocument_invalid_character _ 3 "cat i\x01n" .ACTUAL [1, 3, 2] (by decide)
    ⟨"i\x01n", by decide, Char.ofNat 1, by decide, by decide⟩

/-- Claim C9 (atomicity): when `AddDocument` throws, the error is one of `InvalidId`,
`InvalidCharacter`, `DuplicateId`, and the inverted index, the document store and the
insertion-order sequence are exactly what they were before the call. -/
theorem C9_AddDocument_atomic [LinearOrderedField R] (s : SearchServer R)
    (document_id : Int) (document : String) (status : DocumentStatus) (ratings : List Int)
    (e : Error) (hfail : (AddDocument s document_id document status ratings).1 = .error e) :
    (e = Error.InvalidId ∨ e = Error.InvalidCharacter ∨ e = Error.DuplicateId) ∧
    (AddDocument s document_id document status ratings).2.word_to_document_freqs_
      = s.word_to_document_freqs_ ∧
    (AddDocument s document_id document status ratings).2.documents_ = s.documents_ ∧
    (AddDocument s document_id document status ratings).2.document_ids_
      = s.document_ids_ := by
  rcases AddDocument_cases s document_id document status ratings with
    ⟨-, heq⟩ | ⟨-, -, heq⟩ | ⟨-, -, -, heq⟩ | ⟨-, -, -, words, -, heq⟩
  · rw [heq] at hfail ⊢
    cases hfail; exact ⟨Or.inl rfl, rfl, rfl, rfl⟩
  · rw [heq] at hfail ⊢
    cases hfail; exact ⟨Or.inr (Or.inl rfl), rfl, rfl, rfl⟩
  · rw [heq] at hfail ⊢
    cases hfail; exact ⟨Or.inr (Or.inr rfl), rfl, rfl, rfl⟩
  · rw [heq] at hfail
    cases hfail

theorem C9_witness :
    (Error.InvalidCharacter = Error.InvalidId ∨
      Error.InvalidCharacter = Error.InvalidCharacter ∨
      Error.InvalidCharacter = Error.DuplicateId) ∧
    (AddDocument corpus 3 "большой пёс скво\x12рец евгений" .ACTUAL
      [1, 3, 2]).2.word_to_document_freqs_ = corpus.word_to_document_freqs_ ∧
    (AddDocument corpus 3 "большой пёс скво\x12рец евгений" .ACTUAL [1, 3, 2]).2.documents_
      = corpus.documents_ ∧
    (AddDocument corpus 3 "большой пёс скво\x12рец евгений" .ACTUAL [1, 3, 2]).2.document_ids_
      = corpus.document_ids_ :=
  C9_AddDocument_atomic corpus 3 "большой пёс скво\x12рец евгений" .ACTUAL [1, 3, 2]
    Error.InvalidCharacter (by decide!)

end SearchServer
end Exception1

namespace Cpp.Map
variable {K V : Type}

theorem mem_replaceAt [DecidableEq K] (k : K) (f : V → V) (m : Map K V) (e : K × V)
    (h : e ∈ replaceAt k f m) : e ∈ m ∨ ∃ v, (k, v) ∈ m ∧ e = (k, f v) := by
  induction m with
  | nil => simp [replaceAt] at h
  | cons e0 rest ih =>
    obtain ⟨k0, v0⟩ := e0
    unfold replaceAt at h
    split at h
    · next hk =>
      subst hk
      rcases List.mem_cons.1 h with rfl | h
      · exact Or.inr ⟨v0, List.mem_cons_self _ _, rfl⟩
      · exact Or.inl (List.mem_cons_of_mem _ h)
    · rcases List.mem_cons.1 h with rfl | h
      · exact Or.inl (List.mem_cons_self _ _)
      · rcases ih h with h | ⟨v, hv, rfl⟩
        · exact Or.inl (List.mem_cons_of_mem _ h)
        · exact Or.inr ⟨v, List.mem_cons_of_mem _ hv, rfl⟩

theorem mem_modifyAt [LinearOrder K] (m : Map K V) (k : K) (dflt : V) (f : V → V)
    (e : K × V) (h : e ∈ modifyAt m k dflt f) :
    e ∈ m ∨ e = (k, f dflt) ∨ ∃ v, (k, v) ∈ m ∧ e = (k, f v) := by
  unfold modifyAt at h
  split at h
  · rcases List.mem_cons.1 ((insertSorted_perm k (f dflt) m).mem_iff.1 h) with rfl | h
    · exact Or.inr (Or.inl rfl)
    · exact Or.inl h
  · rcases mem_replaceAt k f m e h with h | h
    · exact Or.inl h
    · exact Or.inr (Or.inr h)

end Cpp.Map

namespace Exception1
namespace SearchServer
variable {R : Type}

open Cpp

theorem index_fold_keys [LinearOrderedField R] (document_id : Int) (x : R)
    (P : Int → Prop) (hP : P document_id) (words : List String)
    (index : Map String (Map Int R))
    (h : ∀ e ∈ index, ∀ k ∈ Map.keys e.2, P k) :
    ∀ e ∈ words.foldl (fun index word =>
        Map.modifyAt index word []
          (fun freqs => Map.modifyAt freqs document_id 0 (fun freq => freq + x))) index,
      ∀ k ∈ Map.keys e.2, P k := by
  induction words generalizing index with
  | nil => exact h
  | cons word rest ih =>
    rw [List.foldl_cons]
    apply ih
    intro e he k hk
    rcases Map.mem_modifyAt _ _ _ _ _ he with he | rfl | ⟨v, hv, rfl⟩
    · exact h e he k hk
    · replace hk : k ∈ Map.keys (Map.modifyAt ([] : Map Int R) document_id 0
          (fun freq => freq + x)) := hk
      rcases (Map.mem_keys_modifyAt _ _ _ _ _).1 hk with rfl | hk
      · exact hP
      · simp [Map.keys] at hk
    · replace hk : k ∈ Map.keys (Map.modifyAt v document_id 0
          (fun freq => freq + x)) := hk
      rcases (Map.mem_keys_modifyAt _ _ _ _ _).1 hk with rfl | hk
      · exact hP
      · exact h _ hv k hk

theorem PostingsStored_AddDocument [LinearOrderedField R] (s : SearchServer R)
    (document_id : Int) (document : String) (status : DocumentStatus) (ratings : List Int)
    (h : PostingsStored s) :
    PostingsStored (AddDocument s document_id document status ratings).2 := by
  rcases AddDocument_cases s document_id document status ratings with
    ⟨-, heq⟩ | ⟨-, -, heq⟩ | ⟨-, -, -, heq⟩ | ⟨-, -, -, words, -, heq⟩
  · rw [heq]; exact h
  · rw [heq]; exact h
  · rw [heq]; exact h
  · rw [heq]
    unfold PostingsStored
    simp only
    apply index_fold_keys document_id _
      (fun k => k ∈ Map.keys (Map.emplace s.documents_ document_id
        { rating := ComputeAverageRating ratings, status := status }))
    · exact (Map.mem_keys_emplace _ _ _ _).2 (Or.inl rfl)
    · intro e he k hk
      exact (Map.mem_keys_emplace _ _ _ _).2 (Or.inr (h e he k hk))

theorem PostingsStored_of_Reachable [LinearOrderedField R] {s : SearchServer R}
    (h : Reachable s) : PostingsStored s := by
  induction h with
  | init stop_words s hnew =>
    unfold SearchServer.new at hnew
    split at hnew
    · cases hnew
      intro e he
      simp at he
    · cases hnew
  | add s document_id document status ratings _ _ ih =>
    exact PostingsStored_AddDocument s document_id document status ratings ih

theorem plusPosting_fold_ok [LinearOrderedField R] {s : SearchServer R}
    {pred : DocumentPredicate} {idf : R} (freqs : Map Int R)
    (h : ∀ k ∈ Map.keys freqs, k ∈ Map.keys s.documents_) (rel : Map Int R) :
    ∃ rel', freqs.foldlM (FindAllDocuments.plusPosting s pred idf) rel = .ok rel' := by
  induction freqs generalizing rel with
  | nil => exact ⟨rel, foldlM_nil_ok.2 rfl⟩
  | cons posting rest ih =>
    obtain ⟨data, hd⟩ := (Map.get?_isSome_iff _ _).2 (h posting.1 (by simp [Map.keys]))
    have hrest : ∀ k ∈ Map.keys rest, k ∈ Map.keys s.documents_ := fun k hk =>
      h k (by simp only [Map.keys, List.map_cons, List.mem_cons] at hk ⊢; exact Or.inr hk)
    have h1 : ∃ rel1, FindAllDocuments.plusPosting s pred idf rel posting = .ok rel1 := by
      unfold FindAllDocuments.plusPosting
      simp only [hd]
      split
      · exact ⟨_, rfl⟩
      · exact ⟨_, rfl⟩
    obtain ⟨rel1, h1⟩ := h1
    obtain ⟨rel', h2⟩ := ih hrest rel1
    exact ⟨rel', foldlM_cons_ok.2 ⟨rel1, h1, h2⟩⟩

theorem plusWord_ok [LinearOrderedField R] (ln : R → R) {s : SearchServer R}
    (hs : PostingsStored s) (pred : DocumentPredicate) (rel : Map Int R) (word : String) :
    ∃ rel', FindAllDocuments.plusWord ln s pred rel word = .ok rel' := by
  unfold FindAllDocuments.plusWord
  split
  · exact ⟨rel, rfl⟩
  · next hc =>
    have hk : word ∈ Map.keys s.word_to_document_freqs_ := by
      by_contra hn; exact hc ((Map.count_eq_zero_iff _ _).2 hn)
    obtain ⟨freqs, hf⟩ := (Map.get?_isSome_iff _ _).2 hk
    unfold ComputeWordInverseDocumentFreq
    simp only [hf]
    exact plusPosting_fold_ok freqs (hs _ (Map.get?_mem hf)) rel

theorem plusWords_ok [LinearOrderedField R] (ln : R → R) {s : SearchServer R}
    (hs : PostingsStored s) (pred : DocumentPredicate) (words : List String)
    (rel : Map Int R) :
    ∃ rel', words.foldlM (FindAllDocuments.plusWord ln s pred) rel = .ok rel' := by
  induction words generalizing rel with
  | nil => exact ⟨rel, foldlM_nil_ok.2 rfl⟩
  | cons word rest ih =>
    obtain ⟨rel1, h1⟩ := plusWord_ok ln hs pred rel word
    obtain ⟨rel', h2⟩ := ih rel1
    exact ⟨rel', foldlM_cons_ok.2 ⟨rel1, h1, h2⟩⟩

/-- On a state in which every posting refers to a stored document, `FindAllDocuments`
returns normally for every query and predicate. -/
theorem FindAllDocuments_ok [LinearOrderedField R] (ln : R → R) {s : SearchServer R}
    (hs : PostingsStored s) (query : Query) (pred : DocumentPredicate) :
    ∃ docs, FindAllDocuments ln s query pred = .ok docs := by
  obtain ⟨relPlus, hp⟩ := plusWords_ok ln hs pred query.plus_words []
  obtain ⟨relFinal, hm, hsub, -⟩ := minusWords_fold s query.minus_words relPlus
  have hkeys : ∀ k ∈ Map.keys relFinal, k ∈ Map.keys s.documents_ := by
    intro k hk
    have hk' : k ∈ Map.keys relPlus := (hsub.map Prod.fst).subset hk
    rcases (plusWords_fold_keys _ _ _ hp).2 k hk' with h | h
    · simp [Map.keys] at h
    · exact h
  obtain ⟨docs, he⟩ := emit_fold_ok relFinal [] hkeys
  refine ⟨docs, ?_⟩
  unfold FindAllDocuments
  simp only [hp, hm, he]

/-- Claim C10: on a server state reached by successful `AddDocument` calls,
`FindTopDocuments` throws exactly when `ParseQuery` throws on the raw query (and then
the same error); for a query that parses it returns a list and raises no lookup error,
whatever the plus and minus words are. -/
theorem C10_FindTopDocuments_fails_iff_parse_fails [LinearOrderedField R] [FloorRing R] (ln : R → R)
    (s : SearchServer R) (hreach : Reachable s) (raw_query : String)
    (document_predicate : DocumentPredicate) :
    (∀ e, FindTopDocuments ln s raw_query document_predicate = .error e ↔
      ParseQuery s raw_query = .error e) ∧
    (∀ query, ParseQuery s raw_query = .ok query →
      ∃ docs, FindTopDocuments ln s raw_query document_predicate = .ok docs) := by
  have hs := PostingsStored_of_Reachable hreach
  have hok : ∀ query, ParseQuery s raw_query = .ok query →
      ∃ docs, FindTopDocuments ln s raw_query document_predicate = .ok docs := by
    intro query hq
    obtain ⟨all, hall⟩ := FindAllDocuments_ok ln hs query document_predicate
    exact ⟨_, FindTopDocuments_of_ok hq hall⟩
  refine ⟨?_, hok⟩
  intro e
  cases hq : ParseQuery s raw_query with
  | error e' =>
    unfold FindTopDocuments
    simp only [hq]
    constructor <;> intro h <;> cases h <;> rfl
  | ok query =>
    obtain ⟨docs, hdocs⟩ := hok query hq
    rw [hdocs]
    constructor <;> intro h <;> cases h

end SearchServer
end Exception1

namespace Exception1
namespace SearchServer

theorem corpus_reachable : Reachable corpus :=
  Reachable.add corpus3 3 "ухоженный скворец евгений" .BANNED [9]
    (Reachable.add corpus2 2 "ухоженный пёс выразительные глаза" .ACTUAL [5, -12, 2, 1]
      (Reachable.add corpus1 1 "пушистый кот пушистый хвост" .ACTUAL [7, 2, 7]
        (Reachable.add emptyServer 0 "белый кот и модный ошейник" .ACTUAL [8, -3]
          (Reachable.init [] emptyServer (by decide!)) (by decide!))
        (by decide!))
      (by decide!))
    (by decide!)

theorem C10_witness :
    (∀ e, FindTopDocuments lnStandIn corpus "пушистый --кот" (statusIs .ACTUAL) = .error e ↔
      ParseQuery corpus "пушистый --кот" = .error e) ∧
    (∀ query, ParseQuery corpus "пушистый --кот" = .ok query →
      ∃ docs, FindTopDocuments lnStandIn corpus "пушистый --кот" (statusIs .ACTUAL)
        = .ok docs) :=
  C10_FindTopDocuments_fails_iff_parse_fails lnStandIn corpus corpus_reachable
    "пушистый --кот" (statusIs .ACTUAL)

end SearchServer
end Exception1

namespace Exception1
namespace SearchServer
variable {R : Type}

open Cpp

theorem string_eq_iff_toList (a b : String) : a = b ↔ a.toList = b.toList := by
  constructor
  · intro h; rw [h]
  · intro h; exact String.ext h

theorem firstChar_eq_minus_iff (t : String) :
    firstChar t = '-' ↔ t.toList.head? = some '-' := by
  unfold firstChar
  cases h : t.toList with
  | nil => simp
  | cons c rest => simp

/-- The outcome of `ParseQueryWord` by cases on the first character. -/
theorem ParseQueryWord_eq (s : SearchServer R) (t : String) :
    ParseQueryWord s t =
      if firstChar t = '-' then
        if firstChar (substr1 t) = '-' then .error Error.DoubleMinus
        else if IsValidWord (substr1 t) = false then .error Error.InvalidCharacter
        else if substr1 t = "" then .error Error.EmptyMinusTerm
        else .ok { data := substr1 t, is_minus := true, is_stop := IsStopWord s (substr1 t) }
      else
        if IsValidWord t = false then .error Error.InvalidCharacter
        else if t = "" then .error Error.EmptyMinusTerm
        else .ok { data := t, is_minus := false, is_stop := IsStopWord s t } := by
  unfold ParseQueryWord
  by_cases h : firstChar t = '-'
  · simp [h]
  · simp [h]

theorem ParseQuery_loop_error_iff (s : SearchServer R) (words : List String) (query : Query)
    (e : Error) :
    ParseQuery.loop s words query = .error e ↔
      ∃ pre t post, words = pre ++ t :: post ∧
        (∀ w ∈ pre, ∃ qw, ParseQueryWord s w = .ok qw) ∧ ParseQueryWord s t = .error e := by
  induction words generalizing query with
  | nil => simp [ParseQuery.loop]
  | cons word rest ih =>
    unfold ParseQuery.loop
    cases hw : ParseQueryWord s word with
    | error e' =>
      simp only
      constructor
      · intro h
        cases h
        exact ⟨[], word, rest, rfl, by simp, hw⟩
      · rintro ⟨pre, t, post, hsplit, hpre, ht⟩
        cases pre with
        | nil =>
          simp only [List.nil_append, List.cons.injEq] at hsplit
          rw [← hsplit.1, hw] at ht
          cases ht
          rfl
        | cons p pre' =>
          simp only [List.cons_append, List.cons.injEq] at hsplit
          obtain ⟨qw, hqw⟩ := hpre p (List.mem_cons_self _ _)
          rw [← hsplit.1, hw] at hqw
          cases hqw
    | ok qw =>
      have key : ∀ query', (ParseQuery.loop s rest query' = .error e ↔
          ∃ pre t post, word :: rest = pre ++ t :: post ∧
            (∀ w ∈ pre, ∃ qw, ParseQueryWord s w = .ok qw) ∧
            ParseQueryWord s t = .error e) := by
        intro query'
        rw [ih query']
        constructor
        · rintro ⟨pre, t, post, hsplit, hpre, ht⟩
          refine ⟨word :: pre, t, post, by rw [hsplit]; rfl, ?_, ht⟩
          intro w hw'
          rcases List.mem_cons.1 hw' with rfl | hw'
          · exact ⟨qw, hw⟩
          · exact hpre w hw'
        · rintro ⟨pre, t, post, hsplit, hpre, ht⟩
          cases pre with
          | nil =>
            simp only [List.nil_append, List.cons.injEq] at hsplit
            rw [← hsplit.1, hw] at ht
            cases ht
          | cons p pre' =>
            simp only [List.cons_append, List.cons.injEq] at hsplit
            exact ⟨pre', t, post, hsplit.2, fun w hw' => hpre w (List.mem_cons_of_mem _ hw'), ht⟩
      simp only
      split
      · split
        · exact key _
        · exact key _
      · exact key _

theorem substr1_toList (t : String) : (substr1 t).toList = t.toList.tail := by
  unfold substr1
  cases t.toList <;> rfl

theorem ParseQueryWord_double_minus (s : SearchServer R) (t : String)
    (h2 : t.toList.take 2 = ['-', '-']) :
    ParseQueryWord s t = .error Error.DoubleMinus := by
  obtain ⟨l⟩ := t
  have hl : l.take 2 = ['-', '-'] := h2
  rw [ParseQueryWord_eq]
  match l, hl with
  | a :: b :: cs, hl =>
    simp only [List.take_succ_cons, List.take_zero, List.cons.injEq, and_true] at hl
    obtain ⟨rfl, rfl⟩ := hl
    have h1 : firstChar (String.mk ('-' :: '-' :: cs)) = '-' := rfl
    have h3 : firstChar (substr1 (String.mk ('-' :: '-' :: cs))) = '-' := rfl
    simp only [h1, h3, if_true]

/-- Facts on the token without its leading minus sign, for a non-empty token that
neither starts with two minus signs nor is the single minus sign. -/
theorem remainder_facts (t : String) (hne : t ≠ "")
    (h2 : t.toList.take 2 ≠ ['-', '-']) (ht : t ≠ "-") :
    (firstChar t = '-' → ¬ firstChar (substr1 t) = '-') ∧
    (firstChar t = '-' → (substr1 t).toList = t.toList.tail) ∧
    (firstChar t = '-' → ¬ substr1 t = "") := by
  obtain ⟨l⟩ := t
  have hl2 : l.take 2 ≠ ['-', '-'] := h2
  refine ⟨?_, fun _ => substr1_toList _, ?_⟩
  · intro h1 h3
    match l, hl2, h1, h3 with
    | [], _, h1, _ => exact absurd h1 (by decide)
    | [a], _, _, h3 =>
      have : firstChar (substr1 (String.mk [a])) = Char.ofNat 0 := rfl
      rw [this] at h3
      exact absurd h3 (by decide)
    | a :: b :: cs, hl2, h1, h3 =>
      have ha : a = '-' := h1
      have hb : b = '-' := h3
      apply hl2
      rw [ha, hb]; rfl
  · intro h1 hs
    match l, hne, ht, h1, hs with
    | [], hne, _, _, _ => exact hne rfl
    | [a], _, ht, h1, _ =>
      have ha : a = '-' := h1
      apply ht
      rw [ha]
    | a :: b :: cs, _, _, _, hs =>
      have : (substr1 (String.mk (a :: b :: cs))).toList = ("" : String).toList := by rw [hs]
      rw [substr1_toList] at this
      exact absurd this (by simp [String.toList])

/-- Claim C11: the outcome of `ParseQueryWord` on a non-empty token `t`.  A token that
starts with two minus signs fails with `DoubleMinus`; otherwise the token "-" fails
with `EmptyMinusTerm`; otherwise, when the token without its one leading minus sign
holds a character of code below 32, it fails with `InvalidCharacter`; otherwise it
succeeds.  `ParseQuery` fails with error `e` exactly when some token fails with `e`
and all tokens before it succeed. -/
theorem C11_ParseQueryWord_errors (s : SearchServer R) (t : String) (hne : t ≠ "") :
    (t.toList.take 2 = ['-', '-'] → ParseQueryWord s t = .error Error.DoubleMinus) ∧
    (t.toList.take 2 ≠ ['-', '-'] → t = "-" →
      ParseQueryWord s t = .error Error.EmptyMinusTerm) ∧
    (t.toList.take 2 ≠ ['-', '-'] → t ≠ "-" →
      (∃ c ∈ (if t.toList.head? = some '-' then t.toList.tail else t.toList),
        c.toNat < 32) →
      ParseQueryWord s t = .error Error.InvalidCharacter) ∧
    (t.toList.take 2 ≠ ['-', '-'] → t ≠ "-" →
      (∀ c ∈ (if t.toList.head? = some '-' then t.toList.tail else t.toList),
        ¬ c.toNat < 32) →
      ∃ query_word, ParseQueryWord s t = .ok query_word) ∧
    (∀ (text : String) (e : Error), ParseQuery s text = .error e ↔
      ∃ pre w post, SplitIntoWords text = pre ++ w :: post ∧
        (∀ v ∈ pre, ∃ query_word, ParseQueryWord s v = .ok query_word) ∧
        ParseQueryWord s w = .error e) := by
  refine ⟨?_, ?_, ?_, ?_, fun text e => ParseQuery_loop_error_iff s _ _ e⟩
  · intro h2
    exact ParseQueryWord_double_minus s t h2
  · intro _ ht
    subst ht
    rw [ParseQueryWord_eq]
    have h1 : firstChar "-" = '-' := by decide
    have h3 : ¬ firstChar (substr1 "-") = '-' := by decide
    have h4 : ¬ IsValidWord (substr1 "-") = false := by decide
    have h5 : substr1 "-" = "" := by decide
    rw [if_pos h1, if_neg h3, if_neg h4, if_pos h5]
  · intro h2 ht hbad
    obtain ⟨hd, hv, hn⟩ := remainder_facts t hne h2 ht
    rw [ParseQueryWord_eq]
    by_cases h1 : firstChar t = '-'
    · have hh := (firstChar_eq_minus_iff t).1 h1
      rw [if_pos hh] at hbad
      have hinv : IsValidWord (substr1 t) = false := by
        rw [IsValidWord_eq_false_iff, hv h1]
        exact hbad
      simp only [h1, hd h1, hinv, if_true, if_false]
    · have hh : ¬ t.toList.head? = some '-' := fun h => h1 ((firstChar_eq_minus_iff t).2 h)
      rw [if_neg hh] at hbad
      have hinv : IsValidWord t = false := (IsValidWord_eq_false_iff t).2 hbad
      simp only [h1, hinv, if_true, if_false]
  · intro h2 ht hgood
    obtain ⟨hd, hv, hn⟩ := remainder_facts t hne h2 ht
    rw [ParseQueryWord_eq]
    by_cases h1 : firstChar t = '-'
    · have hh := (firstChar_eq_minus_iff t).1 h1
      rw [if_pos hh] at hgood
      have hval : ¬ IsValidWord (substr1 t) = false := by
        rw [IsValidWord_eq_false_iff, hv h1]
        rintro ⟨c, hc, hlt⟩
        exact hgood c hc hlt
      simp only [h1, hd h1, hval, hn h1, if_true, if_false]
      exact ⟨_, rfl⟩
    · have hh : ¬ t.toList.head? = some '-' := fun h => h1 ((firstChar_eq_minus_iff t).2 h)
      rw [if_neg hh] at hgood
      have hval : ¬ IsValidWord t = false := by
        rw [IsValidWord_eq_false_iff]
        rintro ⟨c, hc, hlt⟩
        exact hgood c hc hlt
      simp only [h1, hval, hne, if_true, if_false]
      exact ⟨_, rfl⟩

theorem C11_witness :
    ("--кот".toList.take 2 = ['-', '-'] →
      ParseQueryWord corpus "--кот" = .error Error.DoubleMinus) ∧
    ("--кот".toList.take 2 ≠ ['-', '-'] → "--кот" = "-" →
      ParseQueryWord corpus "--кот" = .error Error.EmptyMinusTerm) ∧
    ("--кот".toList.take 2 ≠ ['-', '-'] → "--кот" ≠ "-" →
      (∃ c ∈ (if "--кот".toList.head? = some '-' then "--кот".toList.tail
          else "--кот".toList), c.toNat < 32) →
      ParseQueryWord corpus "--кот" = .error Error.InvalidCharacter) ∧
    ("--кот".toList.take 2 ≠ ['-', '-'] → "--кот" ≠ "-" →
      (∀ c ∈ (if "--кот".toList.head? = some '-' then "--кот".toList.tail
          else "--кот".toList), ¬ c.toNat < 32) →
      ∃ query_word, ParseQueryWord corpus "--кот" = .ok query_word) ∧
    (∀ (text : String) (e : Error), ParseQuery corpus text = .error e ↔
      ∃ pre w post, SplitIntoWords text = pre ++ w :: post ∧
        (∀ v ∈ pre, ∃ query_word, ParseQueryWord corpus v = .ok query_word) ∧
        ParseQueryWord corpus w = .error e) :=
  C11_ParseQueryWord_errors corpus "--кот" (by decide)

end SearchServer
end Exception1

namespace Exception1
namespace SearchServer
variable {R : Type}

open Cpp

theorem ParseQueryWord_ok (s : SearchServer R) (t : String) (qw : QueryWord)
    (h : ParseQueryWord s t = .ok qw) :
    qw.data = (if firstChar t = '-' then substr1 t else t) ∧
    qw.is_minus = decide (firstChar t = '-') ∧
    qw.is_stop = IsStopWord s qw.data := by
  rw [ParseQueryWord_eq] at h
  by_cases h1 : firstChar t = '-'
  · simp only [h1, if_true] at h ⊢
    split at h
    · cases h
    · split at h
      · cases h
      · split at h
        · cases h
        · cases h; simp
  · simp only [h1, if_false] at h ⊢
    split at h
    · cases h
    · split at h
      · cases h
      · cases h; simp

theorem minus_token_iff (t w : String) :
    (firstChar t = '-' ∧ substr1 t = w) ↔ t = "-" ++ w := by
  obtain ⟨l⟩ := t
  obtain ⟨m⟩ := w
  have happ : ("-" ++ String.mk m : String) = String.mk ('-' :: m) := rfl
  rw [happ]
  constructor
  · rintro ⟨h1, h2⟩
    match l, h1, h2 with
    | [], h1, _ => exact absurd h1 (by decide)
    | a :: cs, h1, h2 =>
      have ha : a = '-' := h1
      have hcs : String.mk cs = String.mk m := h2
      have hcs' : cs = m := congrArg String.data hcs
      rw [ha, hcs']
  · intro h
    have h' : l = '-' :: m := congrArg String.data h
    subst h'
    exact ⟨rfl, rfl⟩

theorem ParseQuery_loop_mem (s : SearchServer R) (words : List String) (query query' : Query)
    (h : ParseQuery.loop s words query = .ok query') :
    (∀ w, w ∈ query'.plus_words ↔ w ∈ query.plus_words ∨
      (w ∈ words ∧ ¬ firstChar w = '-' ∧ IsStopWord s w = false)) ∧
    (∀ w, w ∈ query'.minus_words ↔ w ∈ query.minus_words ∨
      (("-" ++ w) ∈ words ∧ IsStopWord s w = false)) := by
  induction words generalizing query with
  | nil =>
    unfold ParseQuery.loop at h
    cases h
    simp
  | cons word rest ih =>
    unfold ParseQuery.loop at h
    cases hw : ParseQueryWord s word with
    | error e => rw [hw] at h; cases h
    | ok qw =>
      rw [hw] at h
      obtain ⟨hdata, hminus, hstop⟩ := ParseQueryWord_ok s word qw hw
      simp only at h
      by_cases h1 : firstChar word = '-'
      · rw [if_pos h1] at hdata
        simp only [h1, decide_True] at hminus
        have hplus_skip : ∀ w, ¬ (w = word ∧ ¬ firstChar w = '-' ∧ IsStopWord s w = false) := by
          rintro w ⟨rfl, hn, -⟩; exact hn h1
        have hmin_tok : ∀ w, ("-" ++ w = word) ↔ w = qw.data := by
          intro w
          rw [hdata, eq_comm, ← minus_token_iff]
          constructor
          · rintro ⟨-, h2⟩; exact h2.symm
          · intro h2; exact ⟨h1, h2.symm⟩
        cases hs : qw.is_stop with
        | true =>
          simp only [hs, Bool.not_true, Bool.false_eq_true, if_false] at h
          obtain ⟨ihp, ihm⟩ := ih query h
          refine ⟨fun w => ?_, fun w => ?_⟩
          · rw [ihp w, List.mem_cons]
            constructor
            · rintro (hh | ⟨hh1, hh2⟩)
              · exact Or.inl hh
              · exact Or.inr ⟨Or.inr hh1, hh2⟩
            · rintro (hh | ⟨hh1 | hh1, hh2⟩)
              · exact Or.inl hh
              · exact absurd ⟨hh1, hh2⟩ (hplus_skip w)
              · exact Or.inr ⟨hh1, hh2⟩
          · rw [ihm w, List.mem_cons]
            constructor
            · rintro (hh | ⟨hh1, hh2⟩)
              · exact Or.inl hh
              · exact Or.inr ⟨Or.inr hh1, hh2⟩
            · rintro (hh | ⟨hh1 | hh1, hh2⟩)
              · exact Or.inl hh
              · have := (hmin_tok w).1 hh1
                rw [this, ← hstop, hs] at hh2
                cases hh2
              · exact Or.inr ⟨hh1, hh2⟩
        | false =>
          simp only [hs, Bool.not_false, if_true, hminus] at h
          obtain ⟨ihp, ihm⟩ := ih _ h
          refine ⟨fun w => ?_, fun w => ?_⟩
          · rw [ihp w, List.mem_cons]
            constructor
            · rintro (hh | ⟨hh1, hh2⟩)
              · exact Or.inl hh
              · exact Or.inr ⟨Or.inr hh1, hh2⟩
            · rintro (hh | ⟨hh1 | hh1, hh2⟩)
              · exact Or.inl hh
              · exact absurd ⟨hh1, hh2⟩ (hplus_skip w)
              · exact Or.inr ⟨hh1, hh2⟩
          · rw [ihm w, List.mem_cons, Cpp.Set.mem_insert]
            constructor
            · rintro ((hh | hh) | ⟨hh1, hh2⟩)
              · refine Or.inr ⟨Or.inl ((hmin_tok w).2 hh), ?_⟩
                rw [hh, ← hstop, hs]
              · exact Or.inl hh
              · exact Or.inr ⟨Or.inr hh1, hh2⟩
            · rintro (hh | ⟨hh1 | hh1, hh2⟩)
              · exact Or.inl (Or.inr hh)
              · exact Or.inl (Or.inl ((hmin_tok w).1 hh1))
              · exact Or.inr ⟨hh1, hh2⟩
      · rw [if_neg h1] at hdata
        simp only [h1, decide_False] at hminus
        have hmin_skip : ∀ w, ¬ ("-" ++ w = word) := by
          intro w hw'
          exact h1 ((minus_token_iff word w).2 hw'.symm).1
        cases hs : qw.is_stop with
        | true =>
          simp only [hs, Bool.not_true, Bool.false_eq_true, if_false] at h
          obtain ⟨ihp, ihm⟩ := ih query h
          refine ⟨fun w => ?_, fun w => ?_⟩
          · rw [ihp w, List.mem_cons]
            constructor
            · rintro (hh | ⟨hh1, hh2⟩)
              · exact Or.inl hh
              · exact Or.inr ⟨Or.inr hh1, hh2⟩
            · rintro (hh | ⟨hh1 | hh1, hh2, hh3⟩)
              · exact Or.inl hh
              · rw [hh1, ← hdata, ← hstop, hs] at hh3
                cases hh3
              · exact Or.inr ⟨hh1, hh2, hh3⟩
          · rw [ihm w, List.mem_cons]
            constructor
            · rintro (hh | ⟨hh1, hh2⟩)
              · exact Or.inl hh
              · exact Or.inr ⟨Or.inr hh1, hh2⟩
            · rintro (hh | ⟨hh1 | hh1, hh2⟩)
              · exact Or.inl hh
              · exact absurd hh1 (hmin_skip w)
              · exact Or.inr ⟨hh1, hh2⟩
        | false =>
          simp only [hs, Bool.not_false, if_true, hminus, Bool.false_eq_true, if_false] at h
          obtain ⟨ihp, ihm⟩ := ih _ h
          refine ⟨fun w => ?_, fun w => ?_⟩
          · rw [ihp w, List.mem_cons, Cpp.Set.mem_insert]
            constructor
            · rintro ((hh | hh) | ⟨hh1, hh2⟩)
              · refine Or.inr ⟨Or.inl (hh.trans hdata), ?_, ?_⟩
                · rw [hh, hdata]; exact h1
                · rw [hh, ← hstop, hs]
              · exact Or.inl hh
              · exact Or.inr ⟨Or.inr hh1, hh2⟩
            · rintro (hh | ⟨hh1 | hh1, hh2⟩)
              · exact Or.inl (Or.inr hh)
              · exact Or.inl (Or.inl (hh1.trans hdata.symm))
              · exact Or.inr ⟨hh1, hh2⟩
          · rw [ihm w, List.mem_cons]
            constructor
            · rintro (hh | ⟨hh1, hh2⟩)
              · exact Or.inl hh
              · exact Or.inr ⟨Or.inr hh1, hh2⟩
            · rintro (hh | ⟨hh1 | hh1, hh2⟩)
              · exact Or.inl hh
              · exact absurd hh1 (hmin_skip w)
              · exact Or.inr ⟨hh1, hh2⟩

theorem SplitIntoWords_loop_spaces (l : List Char) (words : List String)
    (h : ∀ c ∈ l, c = ' ') : SplitIntoWords.loop l words [] = words := by
  induction l with
  | nil => simp [SplitIntoWords.loop]
  | cons c rest ih =>
    unfold SplitIntoWords.loop
    have hc := h c (List.mem_cons_self _ _)
    simp only [hc, if_true, ne_eq, not_true_eq_false, if_false]
    exact ih (fun x hx => h x (List.mem_cons_of_mem _ hx))

end SearchServer
end Exception1

namespace Exception1
namespace SearchServer
variable {R : Type}

/-- Claim C12: when `ParseQuery` succeeds, the plus set is exactly the set of tokens
that do not start with a minus sign and are not stop words; the minus set is exactly
the set of strings `w` such that the token "-w" occurs and `w` is not a stop word; no
stop word is in either set; and a query made of spaces only (the empty query
included) yields two empty sets. -/
theorem C12_ParseQuery_sets (s : SearchServer R) (text : String) (query : Query)
    (h : ParseQuery s text = .ok query) :
    (∀ w, w ∈ query.plus_words ↔
      (w ∈ SplitIntoWords text ∧ w.toList.head? ≠ some '-' ∧ IsStopWord s w = false)) ∧
    (∀ w, w ∈ query.minus_words ↔
      (("-" ++ w) ∈ SplitIntoWords text ∧ IsStopWord s w = false)) ∧
    (∀ w, IsStopWord s w = true → w ∉ query.plus_words ∧ w ∉ query.minus_words) ∧
    (∀ spaces : String, (∀ c ∈ spaces.toList, c = ' ') →
      ParseQuery s spaces = .ok { plus_words := [], minus_words := [] }) := by
  obtain ⟨hp, hm⟩ := ParseQuery_loop_mem s _ _ _ h
  have hp' : ∀ w, w ∈ query.plus_words ↔
      (w ∈ SplitIntoWords text ∧ w.toList.head? ≠ some '-' ∧ IsStopWord s w = false) := by
    intro w
    rw [hp w, firstChar_eq_minus_iff]
    simp
  have hm' : ∀ w, w ∈ query.minus_words ↔
      (("-" ++ w) ∈ SplitIntoWords text ∧ IsStopWord s w = false) := by
    intro w
    rw [hm w]
    simp
  refine ⟨hp', hm', ?_, ?_⟩
  · intro w hw
    constructor
    · intro hmem
      have := ((hp' w).1 hmem).2.2
      rw [hw] at this; cases this
    · intro hmem
      have := ((hm' w).1 hmem).2
      rw [hw] at this; cases this
  · intro spaces hsp
    unfold ParseQuery SplitIntoWords
    rw [SplitIntoWords_loop_spaces _ _ hsp]
    rfl

theorem C12_witness :
    (∀ w, w ∈ ["кот"] ↔
      (w ∈ SplitIntoWords "-пушистый  кот" ∧ w.toList.head? ≠ some '-' ∧
        IsStopWord corpus w = false)) ∧
    (∀ w, w ∈ ["пушистый"] ↔
      (("-" ++ w) ∈ SplitIntoWords "-пушистый  кот" ∧ IsStopWord corpus w = false)) ∧
    (∀ w, IsStopWord corpus w = true → w ∉ ["кот"] ∧ w ∉ ["пушистый"]) ∧
    (∀ spaces : String, (∀ c ∈ spaces.toList, c = ' ') →
      ParseQuery corpus spaces = .ok { plus_words := [], minus_words := [] }) :=
  C12_ParseQuery_sets corpus "-пушистый  кот"
    { plus_words := ["кот"], minus_words := ["пушистый"] } (by decide!)

end SearchServer
end Exception1

namespace Exception1
namespace SearchServer
variable {R : Type}

open Cpp

theorem plusPosting_fold_pred [LinearOrderedField R] {s : SearchServer R}
    {pred : DocumentPredicate} {idf : R} (freqs : Map Int R) (rel rel' : Map Int R)
    (h : freqs.foldlM (FindAllDocuments.plusPosting s pred idf) rel = .ok rel') :
    ∀ k ∈ Map.keys rel', k ∈ Map.keys rel ∨ predicateHolds s pred k = true := by
  induction freqs generalizing rel with
  | nil =>
    rw [foldlM_nil_ok] at h; subst h
    exact fun k hk => Or.inl hk
  | cons posting rest ih =>
    rw [foldlM_cons_ok] at h
    obtain ⟨rel1, h1, h2⟩ := h
    obtain ⟨-, h1⟩ := plusPosting_ok h1
    intro k hk
    rcases ih rel1 h2 k hk with hk1 | hk1
    · rw [h1] at hk1
      split at hk1
      · next hp =>
        rcases (Map.mem_keys_modifyAt _ _ _ _ _).1 hk1 with rfl | hk2
        · exact Or.inr hp
        · exact Or.inl hk2
      · exact Or.inl hk1
    · exact Or.inr hk1

theorem plusWords_fold_pred [LinearOrderedField R] {ln : R → R} {s : SearchServer R}
    {pred : DocumentPredicate} (words : List String) (rel rel' : Map Int R)
    (h : words.foldlM (FindAllDocuments.plusWord ln s pred) rel = .ok rel') :
    ∀ k ∈ Map.keys rel', k ∈ Map.keys rel ∨ predicateHolds s pred k = true := by
  induction words generalizing rel with
  | nil => rw [foldlM_nil_ok] at h; subst h; exact fun k hk => Or.inl hk
  | cons word rest ih =>
    rw [foldlM_cons_ok] at h
    obtain ⟨rel1, h1, h2⟩ := h
    intro k hk
    rcases ih rel1 h2 k hk with hk1 | hk1
    · rcases plusWord_cases h1 with ⟨-, rfl⟩ | ⟨freqs, -, hfold⟩
      · exact Or.inl hk1
      · exact plusPosting_fold_pred freqs rel rel1 hfold k hk1
    · exact Or.inr hk1

/-- Every document returned by `FindAllDocuments` satisfies the predicate. -/
theorem FindAllDocuments_pred [LinearOrderedField R] {ln : R → R} {s : SearchServer R}
    {query : Query} {pred : DocumentPredicate} {docs : List (Document R)}
    (h : FindAllDocuments ln s query pred = .ok docs) (d : Document R) (hd : d ∈ docs) :
    predicateHolds s pred d.id = true := by
  obtain ⟨relPlus, hp, hmem, -, -⟩ := FindAllDocuments_mem h d hd
  have hk : d.id ∈ Map.keys relPlus := List.mem_map.2 ⟨_, hmem, rfl⟩
  rcases plusWords_fold_pred _ _ _ hp d.id hk with h1 | h1
  · simp [Map.keys] at h1
  · exact h1

theorem mem_of_FindTopDocuments [LinearOrderedField R] [FloorRing R] {ln : R → R}
    {s : SearchServer R}
    {raw_query : String} {pred : DocumentPredicate} {docs : List (Document R)}
    (h : FindTopDocuments ln s raw_query pred = .ok docs) (d : Document R) (hd : d ∈ docs) :
    ∃ query all, ParseQuery s raw_query = .ok query ∧
      FindAllDocuments ln s query pred = .ok all ∧ d ∈ all := by
  obtain ⟨query, all, hq, hall, rfl⟩ := FindTopDocuments_eq_ok h
  exact ⟨query, all, hq, hall, (Cpp.mem_sort _ _ _).1 (List.mem_of_mem_take hd)⟩

/-- Claim C15: every document returned by `FindTopDocuments(query, status)` has the
stored status `status`, and `FindTopDocuments(query)` returns what
`FindTopDocuments(query, ACTUAL)` returns, which is the predicate overload applied to
the predicate `status == ACTUAL`. -/
theorem C15_FindTopDocuments_by_status [LinearOrderedField R] [FloorRing R] (ln : R → R)
    (s : SearchServer R) (raw_query : String) (status : DocumentStatus) :
    (∀ docs, FindTopDocumentsByStatus ln s raw_query status = .ok docs →
      ∀ d ∈ docs, ∃ data, Map.get? s.documents_ d.id = some data ∧ data.status = status) ∧
    FindTopDocumentsDefault ln s raw_query
      = FindTopDocumentsByStatus ln s raw_query DocumentStatus.ACTUAL ∧
    FindTopDocumentsDefault ln s raw_query
      = FindTopDocuments ln s raw_query
          (fun _ document_status _ => decide (document_status = DocumentStatus.ACTUAL)) := by
  refine ⟨?_, rfl, rfl⟩
  intro docs h d hd
  obtain ⟨query, all, -, hall, hd'⟩ := mem_of_FindTopDocuments h d hd
  have hp := FindAllDocuments_pred hall d hd'
  unfold predicateHolds at hp
  cases hdata : Map.get? s.documents_ d.id with
  | none => simp [hdata] at hp
  | some data =>
    simp only [hdata, statusIs, decide_eq_true_eq] at hp
    exact ⟨data, rfl, hp⟩

theorem C15_witness :
    ∃ data, Map.get? corpus.documents_ (3 : Int) = some data ∧
      data.status = DocumentStatus.BANNED :=
  (C15_FindTopDocuments_by_status lnStandIn corpus "пушистый ухоженный кот"
    DocumentStatus.BANNED).1 [⟨3, 1 / 3, 9⟩] (by decide!) ⟨3, 1 / 3, 9⟩ (by simp)

theorem FindAllDocuments_no_plus [LinearOrderedField R] (ln : R → R) (s : SearchServer R)
    (query : Query) (pred : DocumentPredicate) (h : query.plus_words = []) :
    FindAllDocuments ln s query pred = .ok [] := by
  obtain ⟨rel, hm, hsub, -⟩ := minusWords_fold s query.minus_words []
  have hrel : rel = [] := List.eq_nil_of_sublist_nil hsub
  subst hrel
  unfold FindAllDocuments
  rw [h]
  simp only [List.foldlM_nil, pure, Except.pure, hm]

theorem FindTopDocuments_no_plus [LinearOrderedField R] [FloorRing R] (ln : R → R)
    (s : SearchServer R)
    (raw_query : String) (query : Query) (pred : DocumentPredicate)
    (hq : ParseQuery s raw_query = .ok query) (h : query.plus_words = []) :
    FindTopDocuments ln s raw_query pred = .ok [] := by
  rw [FindTopDocuments_of_ok hq (FindAllDocuments_no_plus ln s query pred h)]
  rfl

theorem FindTopDocuments_empty_query [LinearOrderedField R] [FloorRing R] (ln : R → R)
    (s : SearchServer R) (pred : DocumentPredicate) :
    FindTopDocuments ln s "" pred = .ok [] :=
  FindTopDocuments_no_plus ln s "" { plus_words := [], minus_words := [] } pred rfl rfl

theorem plus_words_nil_of_stop (s : SearchServer R) (raw_query : String) (query : Query)
    (hq : ParseQuery s raw_query = .ok query)
    (hstop : ∀ t ∈ SplitIntoWords raw_query,
      IsStopWord s t = true ∨ t.toList.head? = some '-') :
    query.plus_words = [] := by
  obtain ⟨hp, -⟩ := ParseQuery_loop_mem s _ _ _ hq
  apply List.eq_nil_iff_forall_not_mem.2
  intro w hw
  rcases (hp w).1 hw with h | ⟨h1, h2, h3⟩
  · simp at h
  · rcases hstop w h1 with h4 | h4
    · rw [h3] at h4; cases h4
    · exact h2 ((firstChar_eq_minus_iff w).2 h4)

/-- Claim C16, as the code has it: for a raw query all of whose tokens are stop words
of the server and which `ParseQuery` accepts, `FindTopDocuments` returns exactly what
it returns for the empty query under the same predicate, namely the empty list. -/
theorem C16_stop_word_query_as_empty_query [LinearOrderedField R] [FloorRing R] (ln : R → R)
    (s : SearchServer R) (raw_query : String) (document_predicate : DocumentPredicate)
    (query : Query)
    (hstop : ∀ t ∈ SplitIntoWords raw_query, IsStopWord s t = true)
    (hparse : ParseQuery s raw_query = .ok query) :
    FindTopDocuments ln s raw_query document_predicate
      = FindTopDocuments ln s "" document_predicate ∧
    FindTopDocuments ln s "" document_predicate = .ok [] := by
  have hplus := plus_words_nil_of_stop s raw_query query hparse
    (fun t ht => Or.inl (hstop t ht))
  rw [FindTopDocuments_no_plus ln s raw_query query document_predicate hparse hplus,
    FindTopDocuments_empty_query]
  exact ⟨rfl, rfl⟩

theorem C16_witness :
    FindTopDocuments lnStandIn stopWordServer "in the  in" (statusIs .ACTUAL)
      = FindTopDocuments lnStandIn stopWordServer "" (statusIs .ACTUAL) ∧
    FindTopDocuments lnStandIn stopWordServer "" (statusIs .ACTUAL) = .ok [] :=
  C16_stop_word_query_as_empty_query lnStandIn stopWordServer "in the  in"
    (statusIs .ACTUAL) { plus_words := [], minus_words := [] } (by decide!) (by decide!)

/-- Counterexample to claim C16 as stated: on the server constructed from the
stop-word string "-", the only token of the query "-" is a stop word, the query throws
`EmptyMinusTerm`, and the empty query returns the empty list. -/
theorem C16_counterexample :
    (SearchServer.fromText "-" : Except Error (SearchServer ℚ)) = .ok dashServer ∧
    (∀ t ∈ SplitIntoWords "-", IsStopWord dashServer t = true) ∧
    FindTopDocuments lnStandIn dashServer "-" (statusIs .ACTUAL)
      = .error Error.EmptyMinusTerm ∧
    FindTopDocuments lnStandIn dashServer "" (statusIs .ACTUAL) = .ok [] ∧
    FindTopDocuments lnStandIn dashServer "-" (statusIs .ACTUAL)
      ≠ FindTopDocuments lnStandIn dashServer "" (statusIs .ACTUAL) := by
  decide!

/-- Claim C17, as the code has it: on the empty query, and on every accepted query
whose tokens are all stop words, `FindTopDocuments` returns the empty list whatever
the predicate and the stored documents are: relevance is only accumulated from plus
words, so no stored document is returned. -/
theorem C17_empty_query_returns_nothing [LinearOrderedField R] [FloorRing R] (ln : R → R)
    (s : SearchServer R) (document_predicate : DocumentPredicate) :
    FindTopDocuments ln s "" document_predicate = .ok [] ∧
    ∀ raw_query query, ParseQuery s raw_query = .ok query →
      (∀ t ∈ SplitIntoWords raw_query, IsStopWord s t = true) →
      FindTopDocuments ln s raw_query document_predicate = .ok [] := by
  refine ⟨FindTopDocuments_empty_query ln s document_predicate, ?_⟩
  intro raw_query query hq hstop
  exact FindTopDocuments_no_plus ln s raw_query query document_predicate hq
    (plus_words_nil_of_stop s raw_query query hq (fun t ht => Or.inl (hstop t ht)))

theorem C17_witness :
    FindTopDocuments lnStandIn stopWordServer "" (statusIs .ACTUAL) = .ok [] ∧
    FindTopDocuments lnStandIn stopWordServer "the in" (statusIs .ACTUAL) = .ok [] :=
  ⟨(C17_empty_query_returns_nothing lnStandIn stopWordServer (statusIs .ACTUAL)).1,
   (C17_empty_query_returns_nothing lnStandIn stopWordServer (statusIs .ACTUAL)).2
     "the in" { plus_words := [], minus_words := [] } (by decide!) (by decide!)⟩

/-- Counterexample to claim C17 as stated: the four stored documents of the test
corpus all satisfy the predicate that is true everywhere, and the empty query returns
none of them. -/
theorem C17_counterexample :
    GetDocumentCount corpus = 4 ∧
    (∀ e ∈ corpus.documents_, (fun _ _ _ => true : DocumentPredicate) e.1 e.2.status e.2.rating
      = true) ∧
    FindTopDocuments lnStandIn corpus "" (fun _ _ _ => true) = .ok [] := by
  decide!

end SearchServer
end Exception1

namespace Cpp.Set
variable {K : Type}

theorem insertSorted_pairwise [LinearOrder K] (k : K) (s : Set K)
    (hs : s.Pairwise (· < ·)) (hk : k ∉ s) : (insertSorted k s).Pairwise (· < ·) := by
  induction s with
  | nil => simp [insertSorted]
  | cons k' rest ih =>
    rw [List.pairwise_cons] at hs
    unfold insertSorted
    split
    · next hlt =>
      rw [List.pairwise_cons]
      refine ⟨?_, List.pairwise_cons.2 hs⟩
      intro x hx
      rcases List.mem_cons.1 hx with rfl | hx
      · exact hlt
      · exact lt_trans hlt (hs.1 x hx)
    · next hlt =>
      have hne : k ≠ k' := fun h => hk (h ▸ List.mem_cons_self _ _)
      have hgt : k' < k := lt_of_le_of_ne (not_lt.1 hlt) (Ne.symm hne)
      rw [List.pairwise_cons]
      refine ⟨?_, ih hs.2 (fun h => hk (List.mem_cons_of_mem _ h))⟩
      intro x hx
      rcases List.mem_cons.1 ((set_insertSorted_perm k rest).mem_iff.1 hx) with rfl | hx
      · exact hgt
      · exact hs.1 x hx

theorem insert_pairwise [LinearOrder K] (s : Set K) (k : K) (hs : s.Pairwise (· < ·)) :
    (insert s k).Pairwise (· < ·) := by
  unfold insert count
  by_cases hk : k ∈ s
  · simpa [hk] using hs
  · simp only [hk, if_false, if_true]
    exact insertSorted_pairwise k s hs hk

end Cpp.Set

namespace Cpp.Map
variable {K V : Type}

theorem keys_insertSorted [LinearOrder K] (k : K) (v : V) (m : Map K V) :
    keys (insertSorted k v m) = Cpp.Set.insertSorted k (keys m) := by
  induction m with
  | nil => rfl
  | cons e rest ih =>
    obtain ⟨k', v'⟩ := e
    unfold insertSorted
    simp only [keys, List.map_cons] at ih ⊢
    unfold Cpp.Set.insertSorted
    split
    · rfl
    · simp only [List.map_cons, ih]

theorem WF_insertSorted [LinearOrder K] (k : K) (v : V) (m : Map K V) (hm : WF m)
    (hk : k ∉ keys m) : WF (insertSorted k v m) := by
  unfold WF
  rw [keys_insertSorted]
  exact Cpp.Set.insertSorted_pairwise k (keys m) hm hk

theorem WF_modifyAt [LinearOrder K] (m : Map K V) (k : K) (dflt : V) (f : V → V)
    (hm : WF m) : WF (modifyAt m k dflt f) := by
  unfold modifyAt
  split
  · next h => exact WF_insertSorted k _ m hm ((count_eq_zero_iff m k).1 h)
  · unfold WF
    rw [keys_replaceAt]
    exact hm

theorem WF_emplace [LinearOrder K] (m : Map K V) (k : K) (v : V) (hm : WF m) :
    WF (emplace m k v) := by
  unfold emplace
  split
  · next h => exact WF_insertSorted k _ m hm ((count_eq_zero_iff m k).1 h)
  · exact hm

theorem WF_nil [LinearOrder K] : WF ([] : Map K V) := List.Pairwise.nil

theorem WF_nodup [LinearOrder K] {m : Map K V} (hm : WF m) : (keys m).Nodup :=
  List.Pairwise.imp (fun hab => ne_of_lt hab) hm

end Cpp.Map

namespace Exception1
namespace SearchServer
variable {R : Type}

open Cpp

theorem keys_addDocuments [LinearOrderedField R] (s : SearchServer R)
    (calls : List AddDocumentCall) (k : Int) :
    k ∈ Map.keys (addDocuments s calls).documents_ ↔
      k ∈ Map.keys s.documents_ ∨ k ∈ addedIds s calls := by
  induction calls generalizing s with
  | nil => simp [addDocuments, addedIds]
  | cons c rest ih =>
    unfold addDocuments addedIds
    rw [ih]
    rcases AddDocument_cases s c.document_id c.document c.status c.ratings with
      ⟨-, heq⟩ | ⟨-, -, heq⟩ | ⟨-, -, -, heq⟩ | ⟨-, -, -, words, -, heq⟩
    · rw [heq]; simp
    · rw [heq]; simp
    · rw [heq]; simp
    · rw [heq]
      simp only [if_true, List.mem_cons, Map.mem_keys_emplace]
      constructor
      · rintro ((h | h) | h)
        · exact Or.inr (Or.inl h)
        · exact Or.inl h
        · exact Or.inr (Or.inr h)
      · rintro (h | h | h)
        · exact Or.inl (Or.inr h)
        · exact Or.inl (Or.inl h)
        · exact Or.inr h

theorem new_fields {stop_words : List String} {s : SearchServer R}
    (h : SearchServer.new stop_words = .ok s) :
    s.stop_words_ = MakeUniqueNonEmptyStrings stop_words ∧
    s.word_to_document_freqs_ = [] ∧ s.documents_ = [] ∧ s.document_ids_ = [] := by
  unfold SearchServer.new at h
  split at h
  · cases h; exact ⟨rfl, rfl, rfl, rfl⟩
  · cases h

/-- The id of every document returned by `FindTopDocuments` is a key of the store. -/
theorem FindTopDocuments_id_stored [LinearOrderedField R] [FloorRing R] {ln : R → R}
    {s : SearchServer R}
    {raw_query : String} {pred : DocumentPredicate} {docs : List (Document R)}
    (h : FindTopDocuments ln s raw_query pred = .ok docs) (d : Document R) (hd : d ∈ docs) :
    d.id ∈ Map.keys s.documents_ := by
  obtain ⟨query, all, -, hall, hd'⟩ := mem_of_FindTopDocuments h d hd
  obtain ⟨-, -, -, -, data, hdata, -⟩ := FindAllDocuments_mem hall d hd'
  exact (Map.get?_isSome_iff _ _).1 ⟨data, hdata⟩

/-- Claim C19: on a server constructed and then fed a sequence of `AddDocument` calls
(of which some may throw), the id of every document returned by `FindTopDocuments`,
for every query that parses and every predicate, is the id of one of the calls that
returned normally. -/
theorem C19_returned_ids_were_added [LinearOrderedField R] [FloorRing R] (ln : R → R)
    (stop_words : List String) (s0 : SearchServer R)
    (h0 : SearchServer.new stop_words = .ok s0) (calls : List AddDocumentCall)
    (raw_query : String) (document_predicate : DocumentPredicate)
    (docs : List (Document R))
    (h : FindTopDocuments ln (addDocuments s0 calls) raw_query document_predicate = .ok docs) :
    ∀ d ∈ docs, d.id ∈ addedIds s0 calls := by
  intro d hd
  have hk := FindTopDocuments_id_stored h d hd
  rw [keys_addDocuments, (new_fields h0).2.2.1] at hk
  rcases hk with hk | hk
  · simp [Map.keys] at hk
  · exact hk

theorem C19_witness :
    FindTopDocuments lnStandIn (addDocuments mainServer mainCalls) "пушистый евгений кот"
        (fun _ _ _ => true) = .ok [⟨1, 3 / 4, 5⟩, ⟨4, 1 / 4, 1⟩] ∧
    (1 : Int) ∈ addedIds mainServer mainCalls ∧ (4 : Int) ∈ addedIds mainServer mainCalls :=
  ⟨by decide!,
   C19_returned_ids_were_added lnStandIn ["и", "в", "на"] mainServer (by decide!) mainCalls
     "пушистый евгений кот" (fun _ _ _ => true) [⟨1, 3 / 4, 5⟩, ⟨4, 1 / 4, 1⟩] (by decide!)
     ⟨1, 3 / 4, 5⟩ (by simp),
   C19_returned_ids_were_added lnStandIn ["и", "в", "на"] mainServer (by decide!) mainCalls
     "пушистый евгений кот" (fun _ _ _ => true) [⟨1, 3 / 4, 5⟩, ⟨4, 1 / 4, 1⟩] (by decide!)
     ⟨4, 1 / 4, 1⟩ (by simp)⟩

end SearchServer
end Exception1

namespace Exception1
namespace SearchServer
variable {R : Type}

open Cpp

theorem MakeUniqueNonEmptyStrings_pairwise (strings : List String) :
    (MakeUniqueNonEmptyStrings strings).Pairwise (· < ·) := by
  unfold MakeUniqueNonEmptyStrings
  have key : ∀ (acc : Cpp.Set String), acc.Pairwise (· < ·) →
      (strings.foldl (fun non_empty_strings str =>
        if str ≠ "" then Cpp.Set.insert non_empty_strings str else non_empty_strings)
        acc).Pairwise (· < ·) := by
    induction strings with
    | nil => exact fun acc h => h
    | cons str rest ih =>
      intro acc hacc
      rw [List.foldl_cons]
      apply ih
      split
      · exact Cpp.Set.insert_pairwise acc str hacc
      · exact hacc
  exact key [] List.Pairwise.nil

/-- A property of posting lists that holds for the lists already in the index and is
kept by the update of one posting holds for all posting lists after the index loop of
`AddDocument`. -/
theorem index_fold_entries [LinearOrderedField R] (document_id : Int) (x : R)
    (Q : Map Int R → Prop)
    (hQ : ∀ v, Q v → Q (Map.modifyAt v document_id 0 (fun freq => freq + x)))
    (hnil : Q []) (words : List String) (index : Map String (Map Int R))
    (h : ∀ e ∈ index, Q e.2) :
    ∀ e ∈ words.foldl (fun index word =>
        Map.modifyAt index word []
          (fun freqs => Map.modifyAt freqs document_id 0 (fun freq => freq + x))) index,
      Q e.2 := by
  induction words generalizing index with
  | nil => exact h
  | cons word rest ih =>
    rw [List.foldl_cons]
    apply ih
    intro e he
    rcases Map.mem_modifyAt _ _ _ _ _ he with he | rfl | ⟨v, hv, rfl⟩
    · exact h e he
    · exact hQ [] hnil
    · exact hQ v (h _ hv)

theorem index_fold_WF [LinearOrderedField R] (document_id : Int) (x : R)
    (words : List String) (index : Map String (Map Int R)) (h : Map.WF index) :
    Map.WF (words.foldl (fun index word =>
        Map.modifyAt index word []
          (fun freqs => Map.modifyAt freqs document_id 0 (fun freq => freq + x))) index) := by
  induction words generalizing index with
  | nil => exact h
  | cons word rest ih =>
    rw [List.foldl_cons]
    exact ih _ (Map.WF_modifyAt _ _ _ _ h)

theorem WF_AddDocument [LinearOrderedField R] (s : SearchServer R)
    (document_id : Int) (document : String) (status : DocumentStatus) (ratings : List Int)
    (h : s.WF) : (AddDocument s document_id document status ratings).2.WF := by
  rcases AddDocument_cases s document_id document status ratings with
    ⟨-, heq⟩ | ⟨-, -, heq⟩ | ⟨-, -, -, heq⟩ | ⟨-, -, -, words, -, heq⟩
  · rw [heq]; exact h
  · rw [heq]; exact h
  · rw [heq]; exact h
  · rw [heq]
    refine ⟨h.1, index_fold_WF _ _ _ _ h.2.1, ?_, Map.WF_emplace _ _ _ h.2.2.2⟩
    exact index_fold_entries document_id _ Map.WF
      (fun v hv => Map.WF_modifyAt _ _ _ _ hv) Map.WF_nil words _ h.2.2.1

theorem FreqsNonneg_AddDocument [LinearOrderedField R] (s : SearchServer R)
    (document_id : Int) (document : String) (status : DocumentStatus) (ratings : List Int)
    (h : FreqsNonneg s) :
    FreqsNonneg (AddDocument s document_id document status ratings).2 := by
  rcases AddDocument_cases s document_id document status ratings with
    ⟨-, heq⟩ | ⟨-, -, heq⟩ | ⟨-, -, -, heq⟩ | ⟨-, -, -, words, -, heq⟩
  · rw [heq]; exact h
  · rw [heq]; exact h
  · rw [heq]; exact h
  · rw [heq]
    have hx : (0 : R) ≤ 1 / (words.length : R) := one_div_nonneg.2 (Nat.cast_nonneg _)
    refine index_fold_entries document_id _ (fun v => ∀ p ∈ v, 0 ≤ p.2) ?_ (by simp)
      words _ h
    intro v hv p hp
    rcases Map.mem_modifyAt _ _ _ _ _ hp with hp | rfl | ⟨v', hv', rfl⟩
    · exact hv p hp
    · show (0 : R) ≤ 0 + 1 / (words.length : R)
      rw [zero_add]; exact hx
    · exact add_nonneg (hv _ hv') hx

/-- The invariants of the reachable states: the containers are well formed, every
posting refers to a stored document and every term frequency is non-negative. -/
theorem invariants_of_Reachable [LinearOrderedField R] {s : SearchServer R}
    (h : Reachable s) : s.WF ∧ PostingsStored s ∧ FreqsNonneg s := by
  refine ⟨?_, PostingsStored_of_Reachable h, ?_⟩
  · induction h with
    | init stop_words s hnew =>
      obtain ⟨h1, h2, h3, -⟩ := new_fields hnew
      refine ⟨?_, ?_, ?_, ?_⟩
      · rw [h1]; exact MakeUniqueNonEmptyStrings_pairwise _
      · rw [h2]; exact Map.WF_nil
      · rw [h2]; simp
      · rw [h3]; exact Map.WF_nil
    | add s document_id document status ratings _ _ ih =>
      exact WF_AddDocument s document_id document status ratings ih
  · induction h with
    | init stop_words s hnew =>
      obtain ⟨-, h2, -, -⟩ := new_fields hnew
      intro e he
      rw [h2] at he
      simp at he
    | add s document_id document status ratings _ _ ih =>
      exact FreqsNonneg_AddDocument s document_id document status ratings ih

theorem Reachable_addDocuments [LinearOrderedField R] (s : SearchServer R)
    (calls : List AddDocumentCall) (h : Reachable s) : Reachable (addDocuments s calls) := by
  induction calls generalizing s with
  | nil => exact h
  | cons c rest ih =>
    unfold addDocuments
    apply ih
    rcases AddDocument_cases s c.document_id c.document c.status c.ratings with
      ⟨-, heq⟩ | ⟨-, -, heq⟩ | ⟨-, -, -, heq⟩ | ⟨-, -, -, words, -, heq⟩
    · rw [heq]; exact h
    · rw [heq]; exact h
    · rw [heq]; exact h
    · exact Reachable.add s c.document_id c.document c.status c.ratings h (by rw [heq])

end SearchServer
end Exception1

namespace Exception1
namespace SearchServer
variable {R : Type}

open Cpp

theorem plusPosting_fold_nonneg [LinearOrderedField R] {s : SearchServer R}
    {pred : DocumentPredicate} {idf : R} (hidf : 0 ≤ idf) (freqs : Map Int R)
    (hfreqs : ∀ p ∈ freqs, 0 ≤ p.2) (rel rel' : Map Int R)
    (hrel : ∀ p ∈ rel, 0 ≤ p.2)
    (h : freqs.foldlM (FindAllDocuments.plusPosting s pred idf) rel = .ok rel') :
    ∀ p ∈ rel', 0 ≤ p.2 := by
  induction freqs generalizing rel with
  | nil => rw [foldlM_nil_ok] at h; subst h; exact hrel
  | cons posting rest ih =>
    rw [foldlM_cons_ok] at h
    obtain ⟨rel1, h1, h2⟩ := h
    obtain ⟨-, h1⟩ := plusPosting_ok h1
    have hx : 0 ≤ posting.2 * idf :=
      mul_nonneg (hfreqs posting (List.mem_cons_self _ _)) hidf
    refine ih (fun p hp => hfreqs p (List.mem_cons_of_mem _ hp)) rel1 ?_ h2
    rw [h1]
    split
    · intro p hp
      rcases Map.mem_modifyAt _ _ _ _ _ hp with hp | rfl | ⟨v, hv, rfl⟩
      · exact hrel p hp
      · show (0 : R) ≤ 0 + posting.2 * idf
        rw [zero_add]; exact hx
      · exact add_nonneg (hrel _ hv) hx
    · exact hrel

theorem idf_arg_ge_one [LinearOrderedField R] {s : SearchServer R} (hwf : s.WF)
    (hps : PostingsStored s) (word : String) (freqs : Map Int R)
    (hf : Map.get? s.word_to_document_freqs_ word = some freqs) (hne : freqs ≠ []) :
    (1 : R) ≤ (GetDocumentCount s : R) / (Map.size freqs : R) := by
  have hmem := Map.get?_mem hf
  have hnd : (Map.keys freqs).Nodup := Map.WF_nodup (hwf.2.2.1 _ hmem)
  have hsub : Map.keys freqs ⊆ Map.keys s.documents_ := fun k hk => hps _ hmem k hk
  have hle : freqs.length ≤ s.documents_.length := by
    have := (hnd.subperm hsub).length_le
    simpa [Map.keys] using this
  have hpos : 0 < freqs.length := List.length_pos.2 hne
  have hposR : (0 : R) < (Map.size freqs : R) := by
    unfold Map.size; exact_mod_cast hpos
  rw [one_le_div hposR]
  unfold GetDocumentCount Map.size
  exact_mod_cast hle

theorem plusWord_nonneg [LinearOrderedField R] {ln : R → R} (hln : ∀ x, 1 ≤ x → 0 ≤ ln x)
    {s : SearchServer R} (hwf : s.WF) (hps : PostingsStored s) (hfn : FreqsNonneg s)
    {pred : DocumentPredicate} {rel rel' : Map Int R} {word : String}
    (hrel : ∀ p ∈ rel, 0 ≤ p.2)
    (h : FindAllDocuments.plusWord ln s pred rel word = .ok rel') :
    ∀ p ∈ rel', 0 ≤ p.2 := by
  rcases plusWord_cases h with ⟨-, rfl⟩ | ⟨freqs, hf, hfold⟩
  · exact hrel
  · by_cases hne : freqs = []
    · subst hne
      rw [foldlM_nil_ok] at hfold
      subst hfold
      exact hrel
    · exact plusPosting_fold_nonneg (hln _ (idf_arg_ge_one hwf hps word freqs hf hne))
        freqs (hfn _ (Map.get?_mem hf)) rel rel' hrel hfold

theorem plusWords_nonneg [LinearOrderedField R] {ln : R → R} (hln : ∀ x, 1 ≤ x → 0 ≤ ln x)
    {s : SearchServer R} (hwf : s.WF) (hps : PostingsStored s) (hfn : FreqsNonneg s)
    {pred : DocumentPredicate} (words : List String) (rel rel' : Map Int R)
    (hrel : ∀ p ∈ rel, 0 ≤ p.2)
    (h : words.foldlM (FindAllDocuments.plusWord ln s pred) rel = .ok rel') :
    ∀ p ∈ rel', 0 ≤ p.2 := by
  induction words generalizing rel with
  | nil => rw [foldlM_nil_ok] at h; subst h; exact hrel
  | cons word rest ih =>
    rw [foldlM_cons_ok] at h
    obtain ⟨rel1, h1, h2⟩ := h
    exact ih rel1 (plusWord_nonneg hln hwf hps hfn hrel h1) h2

/-- Claim C20: on a server state reached by successful `AddDocument` calls, every
relevance returned by `FindTopDocuments` is non-negative, for every query that parses
and every predicate, given that the logarithm is non-negative from 1 on: every term
frequency is non-negative and `N / df ≥ 1` for every word that has a posting. -/
theorem C20_relevance_nonneg [LinearOrderedField R] [FloorRing R] (ln : R → R)
    (hln : ∀ x, 1 ≤ x → 0 ≤ ln x) (s : SearchServer R) (hreach : Reachable s)
    (raw_query : String) (document_predicate : DocumentPredicate)
    (docs : List (Document R))
    (h : FindTopDocuments ln s raw_query document_predicate = .ok docs) :
    ∀ d ∈ docs, 0 ≤ d.relevance := by
  intro d hd
  obtain ⟨hwf, hps, hfn⟩ := invariants_of_Reachable hreach
  obtain ⟨query, all, -, hall, hd'⟩ := mem_of_FindTopDocuments h d hd
  obtain ⟨relPlus, hp, hmem, -, -⟩ := FindAllDocuments_mem hall d hd'
  exact plusWords_nonneg hln hwf hps hfn _ [] relPlus (by simp) hp _ hmem

theorem C20_witness :
    FindTopDocuments lnStandIn corpus "пушистый ухоженный кот" (statusIs .ACTUAL)
        = .ok [⟨1, 7 / 4, 5⟩, ⟨0, 1 / 5, 2⟩, ⟨2, 1 / 4, -1⟩] ∧
    0 ≤ (⟨2, 1 / 4, -1⟩ : Document ℚ).relevance :=
  ⟨by decide!,
   C20_relevance_nonneg lnStandIn
     (fun x hx => by unfold lnStandIn; linarith) corpus corpus_reachable
     "пушистый ухоженный кот" (statusIs .ACTUAL)
     [⟨1, 7 / 4, 5⟩, ⟨0, 1 / 5, 2⟩, ⟨2, 1 / 4, -1⟩] (by decide!) ⟨2, 1 / 4, -1⟩ (by simp)⟩

end SearchServer
end Exception1

namespace Cpp.Map
variable {K V W : Type}

theorem keys_map_snd (f : V → W) (m : Map K V) :
    keys (m.map (fun e => (e.1, f e.2))) = keys m := by
  unfold keys
  rw [List.map_map]
  rfl

theorem insertSorted_map [LinearOrder K] (f : V → W) (k : K) (v : V) (m : Map K V) :
    (insertSorted k v m).map (fun e => (e.1, f e.2)) =
      insertSorted k (f v) (m.map (fun e => (e.1, f e.2))) := by
  induction m with
  | nil => rfl
  | cons e rest ih =>
    obtain ⟨k', v'⟩ := e
    simp only [insertSorted, List.map_cons]
    split
    · rfl
    · rw [List.map_cons, ih]

theorem replaceAt_map [DecidableEq K] (f : V → W) (g : V → V) (g' : W → W)
    (hfg : ∀ v, f (g v) = g' (f v)) (k : K) (m : Map K V) :
    (replaceAt k g m).map (fun e => (e.1, f e.2)) =
      replaceAt k g' (m.map (fun e => (e.1, f e.2))) := by
  induction m with
  | nil => rfl
  | cons e rest ih =>
    obtain ⟨k', v'⟩ := e
    simp only [replaceAt, List.map_cons]
    split
    · rw [List.map_cons, hfg]
    · rw [List.map_cons, ih]

/-- Updating an entry commutes with a change of the values. -/
theorem modifyAt_map [LinearOrder K] (f : V → W) (g : V → V) (g' : W → W)
    (hfg : ∀ v, f (g v) = g' (f v)) (m : Map K V) (k : K) (dflt : V) :
    (modifyAt m k dflt g).map (fun e => (e.1, f e.2)) =
      modifyAt (m.map (fun e => (e.1, f e.2))) k (f dflt) g' := by
  have hc : count (m.map (fun e => (e.1, f e.2))) k = count m k := by
    unfold count; rw [keys_map_snd]
  unfold modifyAt
  rw [hc]
  split
  · rw [insertSorted_map, hfg]
  · exact replaceAt_map f g g' hfg k m

end Cpp.Map

namespace Tests
namespace SearchServer
variable {R : Type}

open Cpp
open Exception1 (Document DocumentStatus DocumentData QueryWord Query DocumentPredicate
  firstChar substr1 statusIs MAX_RESULT_DOCUMENT_COUNT)

theorem index_fold_cast [LinearOrderedField R] (document_id : Int) (n : Nat)
    (words : List String) (index : Map String (Map Int ℚ)) :
    (words.foldl (fun index word =>
        Map.modifyAt index word []
          (fun freqs => Map.modifyAt freqs document_id 0 (fun freq => freq + 1 / (n : ℚ))))
        index).map (fun e => (e.1, e.2.map (fun p => (p.1, (p.2 : R))))) =
      words.foldl (fun index word =>
        Map.modifyAt index word []
          (fun freqs => Map.modifyAt freqs document_id 0 (fun freq => freq + 1 / (n : R))))
        (index.map (fun e => (e.1, e.2.map (fun p => (p.1, (p.2 : R)))))) := by
  induction words generalizing index with
  | nil => rfl
  | cons word rest ih =>
    rw [List.foldl_cons, List.foldl_cons, ih]
    congr 1
    have inner : ∀ v : Map Int ℚ,
        (Map.modifyAt v document_id 0 (fun freq => freq + 1 / (n : ℚ))).map
            (fun p => (p.1, (p.2 : R))) =
          Map.modifyAt (v.map (fun p => (p.1, (p.2 : R)))) document_id 0
            (fun freq => freq + 1 / (n : R)) := by
      intro v
      have := Map.modifyAt_map (fun q : ℚ => (q : R)) (fun freq => freq + 1 / (n : ℚ))
        (fun freq => freq + 1 / (n : R)) (by intro q; push_cast; rfl) v document_id 0
      simpa using this
    exact Map.modifyAt_map (fun v : Map Int ℚ => v.map (fun p => (p.1, (p.2 : R))))
      (fun freqs => Map.modifyAt freqs document_id 0 (fun freq => freq + 1 / (n : ℚ)))
      (fun freqs => Map.modifyAt freqs document_id 0 (fun freq => freq + 1 / (n : R)))
      inner index word []

/-- The lenient `AddDocument` computes the same state over every field: the term
frequencies are rational numbers. -/
theorem AddDocument_castFreqs [LinearOrderedField R] (s : SearchServer ℚ)
    (document_id : Int) (document : String) (status : DocumentStatus) (score : List Int) :
    AddDocument (castFreqs s : SearchServer R) document_id document status score =
      (AddDocument s document_id document status score).map castFreqs := by
  unfold AddDocument
  cases hr : ComputeAverageRating score with
  | error e => rfl
  | ok rating =>
    simp only [Except.map]
    congr 1
    unfold castFreqs
    simp only
    congr 1
    exact (index_fold_cast document_id _ _ _).symm

theorem addTestDocuments_castFreqs [LinearOrderedField R] (s : SearchServer ℚ) :
    addTestDocuments (castFreqs s : SearchServer R) = (addTestDocuments s).map castFreqs := by
  unfold addTestDocuments
  rw [AddDocument_castFreqs]
  cases h1 : AddDocument s 0 "белый кот и модный ошейник" .ACTUAL [8, -3] with
  | error e => rfl
  | ok s1 =>
    simp only [Except.map, Except.bind]
    rw [AddDocument_castFreqs]
    cases h2 : AddDocument s1 1 "пушистый кот пушистый хвост" .ACTUAL [7, 2, 7] with
    | error e => rfl
    | ok s2 =>
      simp only [Except.map, Except.bind]
      rw [AddDocument_castFreqs]
      cases h3 : AddDocument s2 2 "ухоженный пёс выразительные глаза" .ACTUAL
          [5, -12, 2, 1] with
      | error e => rfl
      | ok s3 =>
        simp only [Except.map, Except.bind]
        rw [AddDocument_castFreqs]
        rfl

/-- The state after the four test documents, over any field. -/
theorem addTestDocuments_empty [LinearOrderedField R] :
    addTestDocuments (SearchServer.empty : SearchServer R) = .ok (castFreqs testCorpus) := by
  have h : addTestDocuments (SearchServer.empty : SearchServer ℚ) = .ok testCorpus := by
    decide!
  have hc : (SearchServer.empty : SearchServer R) = castFreqs SearchServer.empty := rfl
  rw [hc, addTestDocuments_castFreqs, h]
  rfl

end SearchServer
end Tests

namespace Tests
namespace SearchServer
variable {R : Type}

open Cpp
open Exception1 (Document DocumentStatus DocumentData QueryWord Query DocumentPredicate
  firstChar substr1 statusIs MAX_RESULT_DOCUMENT_COUNT)

theorem ParseQuery_castFreqs [LinearOrderedField R] (s : SearchServer ℚ) (text : String) :
    ParseQuery (castFreqs s : SearchServer R) text = ParseQuery s text := rfl

set_option maxRecDepth 4000 in
theorem FindAllDocuments_test [LinearOrderedField R] (ln : R → R) :
    FindAllDocuments ln (castFreqs testCorpus : SearchServer R)
        { plus_words := ["кот", "пушистый", "ухоженный"], minus_words := [] }
        (statusIs .ACTUAL) =
      .ok [⟨0, 1 / 5 * ln (4 / 2), 2⟩, ⟨1, 1 / 4 * ln (4 / 2) + 1 / 2 * ln 4, 5⟩,
        ⟨2, 1 / 4 * ln (4 / 2), -1⟩] := by
  simp [FindAllDocuments, FindAllDocuments.plusWord, FindAllDocuments.plusPosting,
    FindAllDocuments.minusWord, FindAllDocuments.emit, ComputeWordInverseDocumentFreq,
    castFreqs, testCorpus, Map.count, Map.keys, Map.get?, Map.size, Map.modifyAt,
    Map.insertSorted, Map.replaceAt, statusIs, bind, Except.bind, pure, Except.pure]

end SearchServer
end Tests

namespace Cpp

theorem sort_three {α : Type} (comp : α → α → Bool) (d0 d1 d2 : α)
    (h10 : comp d1 d0 = true) (h21 : comp d2 d1 = false) (h20 : comp d2 d0 = true) :
    sort comp [d0, d1, d2] = [d1, d2, d0] := by
  rw [sort_eq_insertion comp [d0, d1, d2] (by unfold S_threshold; simp)]
  simp [linearInsert, unguardedLinearInsert, h10, h21, h20]

end Cpp

namespace Tests
namespace SearchServer

open Cpp
open Exception1 (Document DocumentStatus DocumentData QueryWord Query DocumentPredicate
  firstChar substr1 statusIs MAX_RESULT_DOCUMENT_COUNT)

theorem log_four : Real.log 4 = 2 * Real.log 2 := by
  have h : (4 : ℝ) = 2 ^ 2 := by norm_num
  rw [h, Real.log_pow]
  push_cast
  rfl

/-- The test query on the test corpus over the reals with the natural logarithm. -/
theorem FindTopDocuments_test_real :
    FindTopDocumentsByStatus Real.log (castFreqs testCorpus : SearchServer ℝ)
        "пушистый ухоженный кот" DocumentStatus.ACTUAL =
      .ok [⟨1, 5 / 4 * Real.log 2, 5⟩, ⟨2, 1 / 4 * Real.log 2, -1⟩,
        ⟨0, 1 / 5 * Real.log 2, 2⟩] := by
  have hq : ParseQuery testCorpus "пушистый ухоженный кот"
      = { plus_words := ["кот", "пушистый", "ухоженный"], minus_words := [] } := by decide!
  have hlog : (0.6931471803 : ℝ) < Real.log 2 := Real.log_two_gt_d9
  have h42 : (4 : ℝ) / 2 = 2 := by norm_num
  have hall := FindAllDocuments_test Real.log
  rw [h42, log_four] at hall
  have hr1 : (1 : ℝ) / 4 * Real.log 2 + 1 / 2 * (2 * Real.log 2) = 5 / 4 * Real.log 2 := by
    ring
  rw [hr1] at hall
  unfold FindTopDocumentsByStatus FindTopDocuments
  rw [ParseQuery_castFreqs, hq]
  simp only [hall]
  have hsort : Cpp.sort compareDocuments
      [(⟨0, 1 / 5 * Real.log 2, 2⟩ : Document ℝ), ⟨1, 5 / 4 * Real.log 2, 5⟩,
        ⟨2, 1 / 4 * Real.log 2, -1⟩] =
      [⟨1, 5 / 4 * Real.log 2, 5⟩, ⟨2, 1 / 4 * Real.log 2, -1⟩,
        ⟨0, 1 / 5 * Real.log 2, 2⟩] := by
    apply Cpp.sort_three
    · unfold compareDocuments eps
      simp only
      have h : ¬ |5 / 4 * Real.log 2 - 1 / 5 * Real.log 2| < (1 : ℝ) / 1000000 := by
        rw [not_lt, abs_of_nonneg (by linarith)]
        linarith
      rw [if_neg h]
      simp only [gt_iff_lt, decide_eq_true_eq]
      linarith
    · unfold compareDocuments eps
      simp only
      have h : ¬ |1 / 4 * Real.log 2 - 5 / 4 * Real.log 2| < (1 : ℝ) / 1000000 := by
        rw [not_lt, abs_of_nonpos (by linarith)]
        linarith
      rw [if_neg h]
      simp only [gt_iff_lt, decide_eq_false_iff_not, not_lt]
      linarith
    · unfold compareDocuments eps
      simp only
      have h : ¬ |1 / 4 * Real.log 2 - 1 / 5 * Real.log 2| < (1 : ℝ) / 1000000 := by
        rw [not_lt, abs_of_nonneg (by linarith)]
        linarith
      rw [if_neg h]
      simp only [gt_iff_lt, decide_eq_true_eq]
      linarith
  rw [hsort]
  rfl

end SearchServer
end Tests

namespace Tests
namespace SearchServer
variable {R : Type}

open Cpp
open Exception1 (Document DocumentStatus DocumentData QueryWord Query DocumentPredicate
  firstChar substr1 statusIs MAX_RESULT_DOCUMENT_COUNT)

/-- Claim C13: on the lenient server with no stop words, after the four test
documents, `FindTopDocuments("пушистый ухоженный кот")` (default status `ACTUAL`,
reals with the natural logarithm) returns exactly three results, with ids 1, 2, 0 and
ratings 5, -1, 2 in that order; document 3 is not among them. -/
theorem C13_test_scenario_ids_and_ratings :
    ((addTestDocuments (SearchServer.empty : SearchServer ℝ)).bind (fun s =>
        FindTopDocumentsByStatus Real.log s "пушистый ухоженный кот"
          DocumentStatus.ACTUAL)).map
      (fun docs => docs.map (fun d => (d.id, d.rating)))
      = .ok [(1, 5), (2, -1), (0, 2)] := by
  rw [addTestDocuments_empty]
  simp only [Except.bind, FindTopDocuments_test_real, Except.map, List.map_cons, List.map_nil]

/-- Claim C14: in the same scenario the three relevance values, in result order, are
`1.25 * ln 2`, `0.25 * ln 2` and `0.2 * ln 2` over the reals, and these are within
`1e-6` of 0.866434, 0.173287 and 0.138629. -/
theorem C14_test_scenario_relevance :
    ((addTestDocuments (SearchServer.empty : SearchServer ℝ)).bind (fun s =>
        FindTopDocumentsByStatus Real.log s "пушистый ухоженный кот"
          DocumentStatus.ACTUAL)).map
      (fun docs => docs.map (fun d => d.relevance))
      = .ok [5 / 4 * Real.log 2, 1 / 4 * Real.log 2, 1 / 5 * Real.log 2] ∧
    |5 / 4 * Real.log 2 - 0.866434| < (1 : ℝ) / 1000000 ∧
    |1 / 4 * Real.log 2 - 0.173287| < (1 : ℝ) / 1000000 ∧
    |1 / 5 * Real.log 2 - 0.138629| < (1 : ℝ) / 1000000 := by
  have hlo : (0.6931471803 : ℝ) < Real.log 2 := Real.log_two_gt_d9
  have hhi : Real.log 2 < (0.6931471808 : ℝ) := Real.log_two_lt_d9
  refine ⟨?_, ?_, ?_, ?_⟩
  · rw [addTestDocuments_empty]
    simp only [Except.bind, FindTopDocuments_test_real, Except.map, List.map_cons,
      List.map_nil]
  · rw [abs_lt]; constructor <;> norm_num at hlo hhi ⊢ <;> linarith
  · rw [abs_lt]; constructor <;> norm_num at hlo hhi ⊢ <;> linarith
  · rw [abs_lt]; constructor <;> norm_num at hlo hhi ⊢ <;> linarith

theorem ParseQuery_plus_nil (s : SearchServer R) (raw_query : String)
    (h : ∀ t ∈ SplitIntoWords raw_query,
      IsStopWord s t = true ∨ t.toList.head? = some '-') :
    (ParseQuery s raw_query).plus_words = [] := by
  unfold ParseQuery
  have key : ∀ (words : List String) (query : Query),
      (∀ t ∈ words, IsStopWord s t = true ∨ t.toList.head? = some '-') →
      query.plus_words = [] →
      (words.foldl (fun query word =>
        let query_word := ParseQueryWord s word
        if !query_word.is_stop then
          if query_word.is_minus then
            { query with minus_words := Cpp.Set.insert query.minus_words query_word.data }
          else
            { query with plus_words := Cpp.Set.insert query.plus_words query_word.data }
        else query) query).plus_words = [] := by
    intro words
    induction words with
    | nil => exact fun query _ hq => hq
    | cons word rest ih =>
      intro query hw hq
      rw [List.foldl_cons]
      apply ih _ (fun t ht => hw t (List.mem_cons_of_mem _ ht))
      by_cases h1 : firstChar word = '-'
      · simp only [ParseQueryWord, h1, decide_True, if_true]
        split
        · exact hq
        · exact hq
      · have hstop : IsStopWord s word = true := by
          rcases hw word (List.mem_cons_self _ _) with h2 | h2
          · exact h2
          · exact absurd ((Exception1.SearchServer.firstChar_eq_minus_iff word).2 h2) h1
        simp only [ParseQueryWord, h1, decide_False, Bool.false_eq_true, if_false, hstop,
          Bool.not_true]
        exact hq
  exact key _ _ h rfl

theorem minusWords_fold_nil (s : SearchServer R) (words : List String) :
    words.foldlM (FindAllDocuments.minusWord s) [] = .ok [] := by
  induction words with
  | nil => rfl
  | cons word rest ih =>
    rw [Cpp.foldlM_cons_ok]
    refine ⟨[], ?_, ih⟩
    unfold FindAllDocuments.minusWord
    split
    · rfl
    · next h0 =>
      split
      · next hnone =>
        exfalso
        apply h0
        exact (Map.count_eq_zero_iff _ _).2 ((Map.get?_eq_none_iff _ _).1 hnone)
      · next freqs _ =>
        have : ∀ (l : Map Int R), l.foldl (fun relevance posting =>
            Map.erase relevance posting.1) ([] : Map Int R) = [] := by
          intro l
          induction l with
          | nil => rfl
          | cons p l ih' => rw [List.foldl_cons]; exact ih'
        rw [this]

/-- Claim C18: on the lenient server, when every token of the raw query is a stop word
or starts with a minus sign, `FindTopDocuments` returns the empty list (for every
predicate, the default status filter included). -/
theorem C18_no_plus_word_returns_nothing [LinearOrderedField R] (ln : R → R)
    (s : SearchServer R) (raw_query : String) (predicate : DocumentPredicate)
    (h : ∀ t ∈ SplitIntoWords raw_query,
      IsStopWord s t = true ∨ t.toList.head? = some '-') :
    FindTopDocuments ln s raw_query predicate = .ok [] := by
  have hplus := ParseQuery_plus_nil s raw_query h
  unfold FindTopDocuments FindAllDocuments
  simp only [hplus, List.foldlM_nil, pure, Except.pure, minusWords_fold_nil]
  rfl

theorem C18_witness :
    (AddDocument (SetStopWords SearchServer.empty "in the") 42 "cat in the city"
        DocumentStatus.ACTUAL [1, 2, 3] = .ok stopWordCorpus ∧
      FindTopDocuments Exception1.lnStandIn stopWordCorpus "in"
        (statusIs DocumentStatus.ACTUAL) = .ok []) ∧
    (addTestDocuments SearchServer.empty = .ok testCorpus ∧
      FindTopDocuments Exception1.lnStandIn testCorpus "-пушистый -ухоженный -кот"
        (statusIs DocumentStatus.ACTUAL) = .ok []) :=
  ⟨⟨by decide!,
    C18_no_plus_word_returns_nothing Exception1.lnStandIn stopWordCorpus "in"
      (statusIs DocumentStatus.ACTUAL) (by decide!)⟩,
   ⟨by decide!,
    C18_no_plus_word_returns_nothing Exception1.lnStandIn testCorpus
      "-пушистый -ухоженный -кот" (statusIs DocumentStatus.ACTUAL) (by decide!)⟩⟩

end SearchServer
end Tests

namespace Exception1
namespace SearchServer
variable {R : Type}

open Cpp

theorem ParseQuery_loop_pairwise (s : SearchServer R) (words : List String)
    (query query' : Query)
    (hn : query.plus_words.Pairwise (· < ·) ∧ query.minus_words.Pairwise (· < ·))
    (h : ParseQuery.loop s words query = .ok query') :
    query'.plus_words.Pairwise (· < ·) ∧ query'.minus_words.Pairwise (· < ·) := by
  induction words generalizing query with
  | nil => unfold ParseQuery.loop at h; cases h; exact hn
  | cons word rest ih =>
    unfold ParseQuery.loop at h
    split at h
    · cases h
    · split at h
      · split at h
        · refine ih _ ?_ h
          exact ⟨hn.1, Set.insert_pairwise _ _ hn.2⟩
        · refine ih _ ?_ h
          exact ⟨Set.insert_pairwise _ _ hn.1, hn.2⟩
      · exact ih _ hn h

/-- The two term sets of a parsed query are strictly ascending. -/
theorem ParseQuery_pairwise (s : SearchServer R) (text : String) (query : Query)
    (h : ParseQuery s text = .ok query) :
    query.plus_words.Pairwise (· < ·) ∧ query.minus_words.Pairwise (· < ·) :=
  ParseQuery_loop_pairwise s _ _ _ ⟨List.Pairwise.nil, List.Pairwise.nil⟩ h

/-- One turn of the first loop of `MatchDocument` pushes the word back exactly when it
has a posting for the document. -/
theorem MatchDocument_plusWord_eq (s : SearchServer R) (document_id : Int)
    (matched_words : List String) (word : String) :
    MatchDocument.plusWord s document_id matched_words word =
      .ok (if hasPosting s word document_id then matched_words ++ [word]
        else matched_words) := by
  unfold MatchDocument.plusWord hasPosting
  by_cases hc : Map.count s.word_to_document_freqs_ word = 0
  · rw [if_pos hc]
    have : Map.get? s.word_to_document_freqs_ word = none :=
      (Map.get?_eq_none_iff _ _).2 ((Map.count_eq_zero_iff _ _).1 hc)
    rw [this]; rfl
  · rw [if_neg hc]
    cases hg : Map.get? s.word_to_document_freqs_ word with
    | none => exact absurd ((Map.count_eq_zero_iff _ _).2 ((Map.get?_eq_none_iff _ _).1 hg)) hc
    | some freqs =>
      by_cases hp : Map.count freqs document_id = 0
      · simp [hp]
      · have : Map.count freqs document_id > 0 := Nat.pos_of_ne_zero hp
        simp [hp, this]

/-- The first loop of `MatchDocument` appends the words with a posting for the
document, in the order of the list. -/
theorem MatchDocument_plus_fold (s : SearchServer R) (document_id : Int)
    (words matched_words : List String) :
    words.foldlM (MatchDocument.plusWord s document_id) matched_words =
      .ok (matched_words ++ words.filter (fun word => hasPosting s word document_id)) := by
  induction words generalizing matched_words with
  | nil => simp [List.foldlM_nil, pure, Except.pure]
  | cons word rest ih =>
    rw [List.foldlM_cons, MatchDocument_plusWord_eq]
    show rest.foldlM _ _ = _
    rw [ih]
    by_cases hp : hasPosting s word document_id = true
    · simp [hp]
    · simp [hp]

/-- The second loop of `MatchDocument` empties the list exactly when some word of the
list has a posting for the document. -/
theorem MatchDocument_minusLoop_eq (s : SearchServer R) (document_id : Int)
    (words matched_words : List String) :
    MatchDocument.minusLoop s document_id words matched_words =
      .ok (if words.any (fun word => hasPosting s word document_id) then []
        else matched_words) := by
  induction words with
  | nil => simp [MatchDocument.minusLoop]
  | cons word rest ih =>
    unfold MatchDocument.minusLoop
    rw [List.any_cons]
    by_cases hc : Map.count s.word_to_document_freqs_ word = 0
    · rw [if_pos hc, ih]
      have hg : Map.get? s.word_to_document_freqs_ word = none :=
        (Map.get?_eq_none_iff _ _).2 ((Map.count_eq_zero_iff _ _).1 hc)
      have : hasPosting s word document_id = false := by
        unfold hasPosting; rw [hg]
      rw [this, Bool.false_or]
    · rw [if_neg hc]
      cases hg : Map.get? s.word_to_document_freqs_ word with
      | none =>
        exact absurd ((Map.count_eq_zero_iff _ _).2 ((Map.get?_eq_none_iff _ _).1 hg)) hc
      | some freqs =>
        by_cases hp : Map.count freqs document_id = 0
        · have : hasPosting s word document_id = false := by
            unfold hasPosting; rw [hg]; simp [hp]
          simp only [hp, ne_eq, not_true_eq_false, if_false]
          rw [ih, this, Bool.false_or]
        · have : hasPosting s word document_id = true := by
            unfold hasPosting; rw [hg]; simp [Nat.pos_of_ne_zero hp]
          simp [hp, this]

/-- The result of `MatchDocument` once the query is parsed: the filtered plus words,
emptied by a matching minus word, with the status of the stored document, or the
failure of `documents_.at`. -/
theorem MatchDocument_of_ok (s : SearchServer R) (raw_query : String) (document_id : Int)
    (query : Query) (hq : ParseQuery s raw_query = .ok query) :
    MatchDocument s raw_query document_id =
      match Map.get? s.documents_ document_id with
      | none => .error Error.UnknownDocumentId
      | some document_data =>
        .ok (if query.minus_words.any (fun word => hasPosting s word document_id) then []
          else query.plus_words.filter (fun word => hasPosting s word document_id),
          document_data.status) := by
  unfold MatchDocument
  rw [hq]
  simp only [MatchDocument_plus_fold, MatchDocument_minusLoop_eq, List.nil_append]

/-- Claim C21: for a stored document and a query that parses, `MatchDocument` returns
the stored status of the document together with a word list that is empty when some
minus term of the query has a posting for the document, and otherwise consists of the
plus terms of the query that have a posting for the document, in the order of the plus
set; that list is strictly ascending, so every term occurs once. -/
theorem C21_MatchDocument_result (s : SearchServer R) (raw_query : String)
    (document_id : Int) (query : Query) (document_data : DocumentData)
    (hq : ParseQuery s raw_query = .ok query)
    (hd : Map.get? s.documents_ document_id = some document_data) :
    MatchDocument s raw_query document_id =
      .ok (if query.minus_words.any (fun word => hasPosting s word document_id) then []
        else query.plus_words.filter (fun word => hasPosting s word document_id),
        document_data.status) ∧
    (query.plus_words.filter (fun word => hasPosting s word document_id)).Pairwise
      (· < ·) := by
  refine ⟨?_, List.Pairwise.filter _ (ParseQuery_pairwise s raw_query query hq).1⟩
  rw [MatchDocument_of_ok s raw_query document_id query hq, hd]

theorem C21_witness :
    MatchDocument corpus "-пушистый -ухоженный кот" 1 = .ok ([], DocumentStatus.ACTUAL) ∧
    MatchDocument corpus "-пушистый -ухоженный кот" 0 =
      .ok (["кот"], DocumentStatus.ACTUAL) :=
  ⟨(C21_MatchDocument_result corpus "-пушистый -ухоженный кот" 1
      ⟨["кот"], ["пушистый", "ухоженный"]⟩ ⟨5, .ACTUAL⟩ (by decide!) (by decide!)).1.trans
      (by decide!),
   (C21_MatchDocument_result corpus "-пушистый -ухоженный кот" 0
      ⟨["кот"], ["пушистый", "ухоженный"]⟩ ⟨2, .ACTUAL⟩ (by decide!) (by decide!)).1.trans
      (by decide!)⟩

/-- Claim C22: for a query that parses and a document id that is not in the store,
`MatchDocument` fails with `UnknownDocumentId`, the out-of-range failure of
`documents_.at`; it does not return a default status. -/
theorem C22_MatchDocument_unknown_id (s : SearchServer R) (raw_query : String)
    (document_id : Int) (query : Query)
    (hq : ParseQuery s raw_query = .ok query)
    (hd : document_id ∉ Map.keys s.documents_) :
    MatchDocument s raw_query document_id = .error Error.UnknownDocumentId := by
  rw [MatchDocument_of_ok s raw_query document_id query hq,
    (Map.get?_eq_none_iff _ _).2 hd]

theorem C22_witness :
    MatchDocument corpus "-пушистый -ухоженный кот" 7 = .error Error.UnknownDocumentId :=
  C22_MatchDocument_unknown_id corpus "-пушистый -ухоженный кот" 7
    ⟨["кот"], ["пушистый", "ухоженный"]⟩ (by decide!) (by decide!)

end SearchServer
end Exception1

namespace Exception1
namespace SearchServer
variable {R : Type}

open Cpp

/-- After a sequence of `AddDocument` calls `document_ids_` is extended by the ids of
the calls that returned normally, and `documents_` has one more entry for each. -/
theorem addDocuments_ids [LinearOrderedField R] (s : SearchServer R)
    (calls : List AddDocumentCall) :
    (addDocuments s calls).document_ids_ = s.document_ids_ ++ addedIds s calls ∧
    Map.size (addDocuments s calls).documents_ =
      Map.size s.documents_ + (addedIds s calls).length := by
  induction calls generalizing s with
  | nil => simp [addDocuments, addedIds]
  | cons c rest ih =>
    unfold addDocuments addedIds
    rw [(ih _).1, (ih _).2]
    rcases AddDocument_cases s c.document_id c.document c.status c.ratings with
      ⟨-, heq⟩ | ⟨-, -, heq⟩ | ⟨-, -, -, heq⟩ | ⟨-, -, hc, words, -, heq⟩
    · rw [heq]; simp
    · rw [heq]; simp
    · rw [heq]; simp
    · rw [heq]
      simp only [if_true, List.length_cons, List.append_assoc, List.singleton_append,
        Map.size_emplace _ _ _ hc, true_and]
      omega

/-- Claim C23: on a server constructed and then fed a sequence of `AddDocument` calls,
with `n` the number of calls that returned normally, `GetDocumentCount()` is `n`,
`GetDocumentId(i)` returns the id of the `i`-th call that returned normally (in call
order, counted from 0) for `0 ≤ i < n`, and fails with `IndexOutOfRange` for every
negative index and every index `≥ n`; the calls that throw take no position. -/
theorem C23_GetDocumentId_call_order [LinearOrderedField R] (stop_words : List String)
    (s0 : SearchServer R) (calls : List AddDocumentCall)
    (h0 : SearchServer.new stop_words = .ok s0) :
    GetDocumentCount (addDocuments s0 calls) = ((addedIds s0 calls).length : Int) ∧
    (∀ (i : Nat) (document_id : Int), (addedIds s0 calls).get? i = some document_id →
      GetDocumentId (addDocuments s0 calls) (i : Int) = .ok document_id) ∧
    (∀ index : Int, index < 0 ∨ ((addedIds s0 calls).length : Int) ≤ index →
      GetDocumentId (addDocuments s0 calls) index = .error Error.IndexOutOfRange) := by
  obtain ⟨-, -, hdocs, hids⟩ := new_fields h0
  obtain ⟨h1, h2⟩ := addDocuments_ids s0 calls
  rw [hids, List.nil_append] at h1
  rw [hdocs] at h2
  have hcount : GetDocumentCount (addDocuments s0 calls)
      = ((addedIds s0 calls).length : Int) := by
    unfold GetDocumentCount; rw [h2]; simp [Map.size]
  refine ⟨hcount, ?_, ?_⟩
  · intro i document_id hi
    have hlt : i < (addedIds s0 calls).length := by
      rcases Nat.lt_or_ge i (addedIds s0 calls).length with h | h
      · exact h
      · rw [List.get?_eq_none.2 h] at hi; cases hi
    unfold GetDocumentId
    rw [hcount, if_pos ⟨Int.ofNat_nonneg i, Int.ofNat_lt.2 hlt⟩, h1, Int.toNat_ofNat, hi]
  · intro index hidx
    unfold GetDocumentId
    rw [hcount, if_neg]
    rintro ⟨ha, hb⟩
    omega

theorem C23_witness :
    addedIds mainServer mainCalls = [1, 4] ∧
    GetDocumentCount (addDocuments mainServer mainCalls) = 2 ∧
    GetDocumentId (addDocuments mainServer mainCalls) 0 = .ok 1 ∧
    GetDocumentId (addDocuments mainServer mainCalls) 1 = .ok 4 ∧
    GetDocumentId (addDocuments mainServer mainCalls) (-1) = .error Error.IndexOutOfRange ∧
    GetDocumentId (addDocuments mainServer mainCalls) 2 = .error Error.IndexOutOfRange :=
  ⟨by decide!,
   (C23_GetDocumentId_call_order ["и", "в", "на"] mainServer mainCalls (by decide!)).1.trans
     (by decide!),
   (C23_GetDocumentId_call_order ["и", "в", "на"] mainServer mainCalls (by decide!)).2.1
     0 1 (by decide!),
   (C23_GetDocumentId_call_order ["и", "в", "на"] mainServer mainCalls (by decide!)).2.1
     1 4 (by decide!),
   (C23_GetDocumentId_call_order ["и", "в", "на"] mainServer mainCalls (by decide!)).2.2
     (-1) (Or.inl (by decide)),
   (C23_GetDocumentId_call_order ["и", "в", "на"] mainServer mainCalls (by decide!)).2.2
     2 (Or.inr (by decide!))⟩

end SearchServer
end Exception1

namespace Exception1

theorem SplitIntoWords_loop_go (l : List Char) (words : List String) (acc : List Char) :
    SplitIntoWords.loop l words acc.reverse =
      words ++ ((List.splitOnP.go (fun c => c == ' ') l acc).filter
        (fun run => decide (run ≠ []))).map String.mk := by
  induction l generalizing words acc with
  | nil =>
    unfold SplitIntoWords.loop List.splitOnP.go
    by_cases h : acc.reverse = []
    · simp [h]
    · simp [h]
  | cons c rest ih =>
    unfold SplitIntoWords.loop List.splitOnP.go
    by_cases hc : c = ' '
    · have hb : (c == ' ') = true := by simp [hc]
      rw [if_pos hc, if_pos hb]
      by_cases h : acc.reverse = []
      · rw [if_neg (not_not.2 h), h]
        have := ih words []
        rw [List.reverse_nil] at this
        rw [this]
        simp
      · rw [if_pos h]
        have := ih (words ++ [String.mk acc.reverse]) []
        rw [List.reverse_nil] at this
        rw [this]
        simp [h]
    · have hb : ¬ (c == ' ') = true := by simp [hc]
      rw [if_neg hc, if_neg hb]
      have := ih words (c :: acc)
      rw [List.reverse_cons] at this
      exact this

/-- The tokens of a text are the pieces of the text between spaces, the empty pieces
dropped. -/
theorem SplitIntoWords_eq_splitOn (text : String) :
    SplitIntoWords text =
      ((text.toList.splitOn ' ').filter (fun run => decide (run ≠ []))).map String.mk := by
  have := SplitIntoWords_loop_go text.toList [] []
  rw [List.reverse_nil, List.nil_append] at this
  exact this

/-- Every word produced by the loop of `SplitIntoWords` is already in `words` or is
non-empty and free of spaces, as long as the word under construction is free of spaces. -/
theorem SplitIntoWords_loop_token (l : List Char) (words : List String) (word : List Char)
    (hw : ' ' ∉ word) (t : String) (ht : t ∈ SplitIntoWords.loop l words word) :
    t ∈ words ∨ (t.toList ≠ [] ∧ ' ' ∉ t.toList) := by
  induction l generalizing words word with
  | nil =>
    unfold SplitIntoWords.loop at ht
    split at ht
    · next h =>
      rcases List.mem_append.1 ht with h1 | h1
      · exact Or.inl h1
      · rw [List.mem_singleton] at h1
        subst h1
        exact Or.inr ⟨h, hw⟩
    · exact Or.inl ht
  | cons c rest ih =>
    unfold SplitIntoWords.loop at ht
    split at ht
    · split at ht
      · next h =>
        rcases ih _ _ (List.not_mem_nil _) ht with h1 | h1
        · rcases List.mem_append.1 h1 with h2 | h2
          · exact Or.inl h2
          · rw [List.mem_singleton] at h2
            subst h2
            exact Or.inr ⟨h, hw⟩
        · exact Or.inr h1
      · exact ih _ _ hw ht
    · next hc =>
      refine ih _ _ ?_ ht
      intro hmem
      rcases List.mem_append.1 hmem with h1 | h1
      · exact hw h1
      · rw [List.mem_singleton] at h1
        exact hc h1.symm

/-- No token is empty and no token contains a space. -/
theorem SplitIntoWords_token (text : String) (t : String) (ht : t ∈ SplitIntoWords text) :
    t ≠ "" ∧ ' ' ∉ t.toList := by
  rcases SplitIntoWords_loop_token text.toList [] [] (List.not_mem_nil _) t ht with h | h
  · exact absurd h (List.not_mem_nil _)
  · refine ⟨?_, h.2⟩
    intro he
    rw [he] at h
    exact h.1 rfl

/-- The characters of the tokens, in order, are the non-space characters of the text. -/
theorem SplitIntoWords_loop_chars (l : List Char) (words : List String) (word : List Char) :
    ((SplitIntoWords.loop l words word).map String.toList).flatten =
      (words.map String.toList).flatten ++ word ++ l.filter (fun c => decide (c ≠ ' ')) := by
  induction l generalizing words word with
  | nil =>
    unfold SplitIntoWords.loop
    by_cases h : word = []
    · simp [h]
    · simp [h]
  | cons c rest ih =>
    unfold SplitIntoWords.loop
    by_cases hc : c = ' '
    · rw [if_pos hc]
      by_cases h : word = []
      · rw [if_neg (not_not.2 h), ih]
        simp [hc, h]
      · rw [if_pos h, ih]
        simp [hc]
    · rw [if_neg hc, ih]
      simp [hc]

/-- Claim C25: `SplitIntoWords` is total and returns, in order, the maximal runs of
non-space characters of the text, that is the pieces of the text between spaces with
the empty pieces dropped: no token is empty, no token contains a space, the characters
of the tokens are the non-space characters of the text in order (so tabs and newlines
stay inside tokens), a text of spaces only yields no token, a non-empty text without
spaces is one token, and the empty text yields the empty list. -/
theorem C25_SplitIntoWords_maximal_runs (text : String) :
    SplitIntoWords text =
      ((text.toList.splitOn ' ').filter (fun run => decide (run ≠ []))).map String.mk ∧
    (∀ t ∈ SplitIntoWords text, t ≠ "" ∧ ' ' ∉ t.toList) ∧
    ((SplitIntoWords text).map String.toList).flatten =
      text.toList.filter (fun c => decide (c ≠ ' ')) ∧
    ((∀ c ∈ text.toList, c = ' ') → SplitIntoWords text = []) ∧
    (text ≠ "" → ' ' ∉ text.toList → SplitIntoWords text = [text]) ∧
    SplitIntoWords "" = [] := by
  refine ⟨SplitIntoWords_eq_splitOn text, SplitIntoWords_token text, ?_, ?_, ?_, rfl⟩
  · have := SplitIntoWords_loop_chars text.toList [] []
    simpa using this
  · intro h
    exact SearchServer.SplitIntoWords_loop_spaces text.toList [] h
  · intro hne hsp
    have h1 := SplitIntoWords_eq_splitOn text
    have h2 : text.toList.splitOn ' ' = [text.toList] := by
      unfold List.splitOn
      have : ∀ (l acc : List Char), ' ' ∉ l →
          List.splitOnP.go (fun x => x == ' ') l acc = [acc.reverse ++ l] := by
        intro l
        induction l with
        | nil => intro acc _; simp [List.splitOnP.go]
        | cons c rest ih =>
          intro acc hc
          have hc1 : c ≠ ' ' := fun h => hc (h ▸ List.mem_cons_self _ _)
          have hc2 : ' ' ∉ rest := fun h => hc (List.mem_cons_of_mem _ h)
          unfold List.splitOnP.go
          rw [if_neg (by simp [hc1]), ih _ hc2]
          simp
      have := this text.toList [] hsp
      simpa [List.splitOnP] using this
    have h3 : text.toList ≠ [] := by
      intro h
      apply hne
      obtain ⟨l⟩ := text
      exact congrArg String.mk h
    have h4 : List.filter (fun run => decide (run ≠ [])) [text.toList] = [text.toList] :=
      List.filter_cons_of_pos (decide_eq_true h3)
    rw [h1, h2, h4]
    rfl

theorem C25_witness :
    SplitIntoWords "  белый кот\tи   модный\nошейник " =
      ["белый", "кот\tи", "модный\nошейник"] ∧
    SplitIntoWords "   " = [] ∧ SplitIntoWords "кот" = ["кот"] :=
  ⟨by decide,
   (C25_SplitIntoWords_maximal_runs "   ").2.2.2.1 (by decide),
   (C25_SplitIntoWords_maximal_runs "кот").2.2.2.2.1 (by decide) (by decide)⟩

end Exception1

namespace Exception1
namespace SearchServer
variable {R : Type}

open Cpp

theorem mem_MakeUniqueNonEmptyStrings (strings : List String) (w : String) :
    w ∈ MakeUniqueNonEmptyStrings strings ↔ w ∈ strings ∧ w ≠ "" := by
  unfold MakeUniqueNonEmptyStrings
  have key : ∀ (acc : Cpp.Set String),
      w ∈ strings.foldl (fun non_empty_strings str =>
        if str ≠ "" then Cpp.Set.insert non_empty_strings str else non_empty_strings) acc ↔
      w ∈ acc ∨ (w ∈ strings ∧ w ≠ "") := by
    induction strings with
    | nil => intro acc; simp
    | cons str rest ih =>
      intro acc
      rw [List.foldl_cons, ih]
      by_cases hs : str = ""
      · rw [if_neg (not_not.2 hs)]
        constructor
        · rintro (h | ⟨h1, h2⟩)
          · exact Or.inl h
          · exact Or.inr ⟨List.mem_cons_of_mem _ h1, h2⟩
        · rintro (h | ⟨h1, h2⟩)
          · exact Or.inl h
          · rcases List.mem_cons.1 h1 with h3 | h3
            · exact absurd (h3.trans hs) h2
            · exact Or.inr ⟨h3, h2⟩
      · rw [if_pos hs, Cpp.Set.mem_insert]
        constructor
        · rintro ((h | h) | ⟨h1, h2⟩)
          · exact Or.inr ⟨h ▸ List.mem_cons_self _ _, h ▸ hs⟩
          · exact Or.inl h
          · exact Or.inr ⟨List.mem_cons_of_mem _ h1, h2⟩
        · rintro (h | ⟨h1, h2⟩)
          · exact Or.inl (Or.inr h)
          · rcases List.mem_cons.1 h1 with h3 | h3
            · exact Or.inl (Or.inl h3)
            · exact Or.inr ⟨h3, h2⟩
  rw [key]
  simp

/-- The container constructor fails exactly when a non-empty supplied word has a
control character; the failure is `InvalidCharacter`, and on success the stop-word set
holds the non-empty supplied words, each once. -/
theorem new_iff (R : Type) (stop_words : List String) :
    ((SearchServer.new stop_words : Except Error (SearchServer R))
        = .error Error.InvalidCharacter ↔
      ∃ w ∈ stop_words, w ≠ "" ∧ ∃ c ∈ w.toList, c.toNat < 32) ∧
    ((¬ ∃ w ∈ stop_words, w ≠ "" ∧ ∃ c ∈ w.toList, c.toNat < 32) →
      ∃ s : SearchServer R, SearchServer.new stop_words = .ok s ∧
        (∀ w, w ∈ s.stop_words_ ↔ w ∈ stop_words ∧ w ≠ "") ∧
        s.stop_words_.Pairwise (· < ·) ∧
        s.word_to_document_freqs_ = [] ∧ s.documents_ = [] ∧ s.document_ids_ = []) := by
  have hall : (MakeUniqueNonEmptyStrings stop_words).all IsValidWord = true ↔
      ¬ ∃ w ∈ stop_words, w ≠ "" ∧ ∃ c ∈ w.toList, c.toNat < 32 := by
    rw [List.all_eq_true]
    constructor
    · rintro h ⟨w, hw, hne, hc⟩
      have := h w ((mem_MakeUniqueNonEmptyStrings _ _).2 ⟨hw, hne⟩)
      rw [(IsValidWord_eq_false_iff w).2 hc] at this
      cases this
    · intro h w hw
      obtain ⟨h1, h2⟩ := (mem_MakeUniqueNonEmptyStrings _ _).1 hw
      cases hv : IsValidWord w with
      | true => rfl
      | false => exact absurd ⟨w, h1, h2, (IsValidWord_eq_false_iff w).1 hv⟩ h
  constructor
  · unfold SearchServer.new
    constructor
    · intro h
      by_contra hn
      rw [if_pos (hall.2 hn)] at h
      cases h
    · intro h
      rw [if_neg (fun hh => hall.1 hh h)]
  · intro hn
    refine ⟨{ stop_words_ := MakeUniqueNonEmptyStrings stop_words,
              word_to_document_freqs_ := [], documents_ := [], document_ids_ := [] },
      ?_, ?_, ?_, rfl, rfl, rfl⟩
    · unfold SearchServer.new
      rw [if_pos (hall.2 hn)]
    · exact mem_MakeUniqueNonEmptyStrings stop_words
    · exact MakeUniqueNonEmptyStrings_pairwise stop_words

/-- Claim C24: the constructor from a collection of stop words fails, with
`InvalidCharacter`, if and only if some non-empty supplied word contains a character
with code below 32; otherwise it succeeds and the stop-word set holds exactly the
non-empty supplied words, each once, over an empty index.  The constructor from a
string does the same with the tokens of the string as the supplied words. -/
theorem C24_constructor_strict (R : Type) (stop_words : List String) (text : String) :
    (((SearchServer.new stop_words : Except Error (SearchServer R))
        = .error Error.InvalidCharacter ↔
      ∃ w ∈ stop_words, w ≠ "" ∧ ∃ c ∈ w.toList, c.toNat < 32) ∧
    ((¬ ∃ w ∈ stop_words, w ≠ "" ∧ ∃ c ∈ w.toList, c.toNat < 32) →
      ∃ s : SearchServer R, SearchServer.new stop_words = .ok s ∧
        (∀ w, w ∈ s.stop_words_ ↔ w ∈ stop_words ∧ w ≠ "") ∧
        s.stop_words_.Pairwise (· < ·) ∧
        s.word_to_document_freqs_ = [] ∧ s.documents_ = [] ∧ s.document_ids_ = [])) ∧
    (((SearchServer.fromText text : Except Error (SearchServer R))
        = .error Error.InvalidCharacter ↔
      ∃ w ∈ SplitIntoWords text, ∃ c ∈ w.toList, c.toNat < 32) ∧
    ((¬ ∃ w ∈ SplitIntoWords text, ∃ c ∈ w.toList, c.toNat < 32) →
      ∃ s : SearchServer R, SearchServer.fromText text = .ok s ∧
        (∀ w, w ∈ s.stop_words_ ↔ w ∈ SplitIntoWords text) ∧
        s.stop_words_.Pairwise (· < ·) ∧
        s.word_to_document_freqs_ = [] ∧ s.documents_ = [] ∧ s.document_ids_ = [])) := by
  refine ⟨new_iff R stop_words, ?_⟩
  have hne : ∀ w ∈ SplitIntoWords text, w ≠ "" := fun w hw => (SplitIntoWords_token text w hw).1
  have hex : (∃ w ∈ SplitIntoWords text, w ≠ "" ∧ ∃ c ∈ w.toList, c.toNat < 32) ↔
      ∃ w ∈ SplitIntoWords text, ∃ c ∈ w.toList, c.toNat < 32 := by
    constructor
    · rintro ⟨w, hw, -, hc⟩; exact ⟨w, hw, hc⟩
    · rintro ⟨w, hw, hc⟩; exact ⟨w, hw, hne w hw, hc⟩
  obtain ⟨h1, h2⟩ := new_iff R (SplitIntoWords text)
  unfold SearchServer.fromText
  rw [hex] at h1 h2
  refine ⟨h1, fun hn => ?_⟩
  obtain ⟨s, hs, hmem, hrest⟩ := h2 hn
  refine ⟨s, hs, fun w => ?_, hrest⟩
  rw [hmem]
  exact ⟨fun h => h.1, fun h => ⟨h, hne w h⟩⟩

theorem C24_witness :
    (SearchServer.new ["и", "", "скво\x12рец"] : Except Error (SearchServer ℚ))
      = .error Error.InvalidCharacter ∧
    (SearchServer.fromText "и в\tна" : Except Error (SearchServer ℚ))
      = .error Error.InvalidCharacter ∧
    (SearchServer.fromText " и в  на и" : Except Error (SearchServer ℚ)) = .ok mainServer :=
  ⟨(C24_constructor_strict ℚ ["и", "", "скво\x12рец"] "").1.1.2
      ⟨"скво\x12рец", by simp, by decide, Char.ofNat 18, by decide, by decide⟩,
   (C24_constructor_strict ℚ [] "и в\tна").2.1.2
      ⟨"в\tна", by decide, Char.ofNat 9, by decide, by decide⟩,
   by decide!⟩

end SearchServer
end Exception1

namespace Cpp.Map
variable {K V : Type}

/-- An entry of the map is still there after `emplace`. -/
theorem get?_emplace_of_get? [LinearOrder K] (m : Map K V) (k : K) (v : V) (k' : K) (v' : V)
    (h : get? m k' = some v') : get? (emplace m k v) k' = some v' := by
  unfold emplace
  split
  · next hc =>
    have hk : k ∉ keys m := (count_eq_zero_iff m k).1 hc
    have hk' : k' ∈ keys m := (get?_isSome_iff m k').1 ⟨v', h⟩
    rw [get?_insertSorted k v m hk, if_neg (fun (e : k' = k) => hk (e ▸ hk')), h]
  · exact h

/-- The entry of a key that was absent is the emplaced one. -/
theorem get?_emplace_new [LinearOrder K] (m : Map K V) (k : K) (v : V)
    (h : count m k = 0) : get? (emplace m k v) k = some v := by
  unfold emplace
  rw [if_pos h, get?_insertSorted k v m ((count_eq_zero_iff m k).1 h), if_pos rfl]

end Cpp.Map

namespace Exception1
namespace SearchServer
variable {R : Type}

open Cpp

/-- A document record is never changed by `AddDocument`. -/
theorem documents_AddDocument [LinearOrderedField R] (s : SearchServer R) (document_id : Int)
    (document : String) (status : DocumentStatus) (ratings : List Int) (k : Int)
    (data : DocumentData) (h : Map.get? s.documents_ k = some data) :
    Map.get? (AddDocument s document_id document status ratings).2.documents_ k
      = some data := by
  rcases AddDocument_cases s document_id document status ratings with
    ⟨-, heq⟩ | ⟨-, -, heq⟩ | ⟨-, -, -, heq⟩ | ⟨-, -, -, words, -, heq⟩
  · rw [heq]; exact h
  · rw [heq]; exact h
  · rw [heq]; exact h
  · rw [heq]; exact Map.get?_emplace_of_get? _ _ _ _ _ h

/-- A document record is never changed by a sequence of `AddDocument` calls. -/
theorem documents_addDocuments [LinearOrderedField R] (s : SearchServer R)
    (calls : List AddDocumentCall) (k : Int) (data : DocumentData)
    (h : Map.get? s.documents_ k = some data) :
    Map.get? (addDocuments s calls).documents_ k = some data := by
  induction calls generalizing s with
  | nil => exact h
  | cons c rest ih =>
    unfold addDocuments
    exact ih _ (documents_AddDocument s _ _ _ _ k data h)

/-- A call of `AddDocument` that returns normally stores the average of the ratings
and the status under the id. -/
theorem documents_AddDocument_new [LinearOrderedField R] (s : SearchServer R)
    (document_id : Int) (document : String) (status : DocumentStatus) (ratings : List Int)
    (h : (AddDocument s document_id document status ratings).1 = .ok ()) :
    Map.get? (AddDocument s document_id document status ratings).2.documents_ document_id
      = some { rating := ComputeAverageRating ratings, status := status } := by
  rcases AddDocument_cases s document_id document status ratings with
    ⟨-, heq⟩ | ⟨-, -, heq⟩ | ⟨-, -, -, heq⟩ | ⟨-, -, hc, words, -, heq⟩
  · rw [heq] at h; cases h
  · rw [heq] at h; cases h
  · rw [heq] at h; cases h
  · rw [heq]; exact Map.get?_emplace_new _ _ _ hc

/-- Division of an integer by a positive count, truncated toward zero: the sign of the
dividend times the quotient of the absolute values. -/
theorem tdiv_natCast_eq_sign_mul (a : Int) (n : Nat) :
    Int.tdiv a (n : Int) = Int.sign a * ((a.natAbs / n : Nat) : Int) := by
  cases a with
  | ofNat m =>
    cases m with
    | zero => simp [Int.tdiv]
    | succ k =>
      show Int.ofNat ((k + 1) / n) = 1 * (((k + 1) / n : Nat) : Int)
      rw [one_mul]; rfl
  | negSucc m =>
    show -Int.ofNat ((m + 1) / n) = -1 * (((m + 1) / n : Nat) : Int)
    rw [neg_one_mul]; rfl

/-- The value kept by `Cpp.toInt32`, in the usual form of the two's complement wrap. -/
theorem toInt32_eq (n : Int) :
    Cpp.toInt32 n = (n + 2147483648) % 4294967296 - 2147483648 := by
  unfold Cpp.toInt32
  split <;> omega

/-- An integer in the range of `int` is its own value of type `int`. -/
theorem toInt32_of_fits (n : Int) (hlo : -2147483648 ≤ n) (hhi : n < 2147483648) :
    Cpp.toInt32 n = n := by
  rw [toInt32_eq]
  omega

theorem toInt32_add_left (a b : Int) :
    Cpp.toInt32 (Cpp.toInt32 a + b) = Cpp.toInt32 (a + b) := by
  rw [toInt32_eq, toInt32_eq, toInt32_eq]
  omega

/-- The `int` accumulator of the summing loop holds the wrapped exact sum. -/
theorem foldl_toInt32 (ratings : List Int) (rating_sum : Int) :
    ratings.foldl (fun rating_sum rating => Cpp.toInt32 (rating_sum + rating))
        (Cpp.toInt32 rating_sum)
      = Cpp.toInt32 (rating_sum + ratings.sum) := by
  induction ratings generalizing rating_sum with
  | nil => simp
  | cons rating rest ih =>
    rw [List.foldl_cons, toInt32_add_left, ih, List.sum_cons, add_assoc]

/-- When the sum of the ratings and their number fit in an `int`, the `int` arithmetic
of `ComputeAverageRating` is exact. -/
theorem ComputeAverageRating_eq_tdiv (ratings : List Int) (hne : ratings ≠ [])
    (hlo : -2147483648 ≤ ratings.sum) (hhi : ratings.sum < 2147483648)
    (hlen : ratings.length < 2147483648) :
    ComputeAverageRating ratings = Int.tdiv ratings.sum (ratings.length : Int) := by
  unfold ComputeAverageRating
  have h0 : Cpp.toInt32 0 = 0 := toInt32_of_fits 0 (by omega) (by omega)
  have hfold := foldl_toInt32 ratings 0
  rw [h0, zero_add, toInt32_of_fits _ hlo hhi] at hfold
  rw [if_neg hne, hfold, toInt32_of_fits _ (by omega) (by omega)]

/-- Claim C26: `ComputeAverageRating` returns 0 for the empty list and, for a list
whose sum fits in an `int` (with fewer than `2^31` ratings), the sum of the ratings
divided by their number, truncated toward zero (the sign of the sum times the
quotient of the absolute value of the sum by the count).  A call of
`AddDocument` that returns normally stores this value as the rating of the document,
and every result of `FindTopDocuments` for that document reports it, also after
further `AddDocument` calls. -/
theorem C26_ComputeAverageRating_truncated [LinearOrderedField R] [FloorRing R] (s : SearchServer R)
    (document_id : Int) (document : String) (status : DocumentStatus) (ratings : List Int)
    (hadd : (AddDocument s document_id document status ratings).1 = .ok ()) :
    ComputeAverageRating [] = 0 ∧
    (ratings ≠ [] → -2147483648 ≤ ratings.sum → ratings.sum < 2147483648 →
        ratings.length < 2147483648 →
      ComputeAverageRating ratings = Int.tdiv ratings.sum (ratings.length : Int) ∧
      ComputeAverageRating ratings =
        Int.sign ratings.sum * ((ratings.sum.natAbs / ratings.length : Nat) : Int)) ∧
    Map.get? (AddDocument s document_id document status ratings).2.documents_ document_id
      = some { rating := ComputeAverageRating ratings, status := status } ∧
    (∀ (calls : List AddDocumentCall) (ln : R → R) (raw_query : String)
      (document_predicate : DocumentPredicate) (docs : List (Document R)),
      FindTopDocuments ln
        (addDocuments (AddDocument s document_id document status ratings).2 calls)
        raw_query document_predicate = .ok docs →
      ∀ d ∈ docs, d.id = document_id → d.rating = ComputeAverageRating ratings) := by
  refine ⟨rfl, fun hne hlo hhi hlen => ?_, documents_AddDocument_new s _ _ _ _ hadd, ?_⟩
  · have h := ComputeAverageRating_eq_tdiv ratings hne hlo hhi hlen
    exact ⟨h, h.trans (tdiv_natCast_eq_sign_mul _ _)⟩
  · intro calls ln raw_query document_predicate docs hdocs d hd hid
    obtain ⟨query, all, -, hall, hd'⟩ := mem_of_FindTopDocuments hdocs d hd
    obtain ⟨-, -, -, -, data, hdata, hrating⟩ := FindAllDocuments_mem hall d hd'
    have hstored := documents_addDocuments _ calls document_id _
      (documents_AddDocument_new s _ _ _ _ hadd)
    rw [hid, hstored] at hdata
    cases hdata
    exact hrating

theorem C26_witness :
    ComputeAverageRating [8, -3] = 2 ∧ ComputeAverageRating [7, 2, 7] = 5 ∧
    ComputeAverageRating [5, -12, 2, 1] = -1 ∧ ComputeAverageRating [-3, 0] = -1 ∧
    Map.get? corpus3.documents_ 2 = some { rating := -1, status := .ACTUAL } ∧
    FindTopDocuments lnStandIn corpus "пёс" (fun _ _ _ => true) = .ok [⟨2, 3 / 4, -1⟩] :=
  ⟨by decide, by decide, by decide, by decide,
   (C26_ComputeAverageRating_truncated corpus2 2 "ухоженный пёс выразительные глаза"
      .ACTUAL [5, -12, 2, 1] (by decide!)).2.2.1,
   by decide!⟩

end SearchServer
end Exception1

namespace Exception1
namespace SearchServer

theorem floorOfMean_eq_ediv (ratings : List Int) :
    floorOfMean ratings = ratings.sum / (ratings.length : Int) := by
  unfold floorOfMean
  exact Rat.floor_intCast_div_natCast _ _

theorem ceilOfMean_eq_neg_ediv (ratings : List Int) :
    ceilOfMean ratings = -((-ratings.sum) / (ratings.length : Int)) := by
  unfold ceilOfMean
  have h : ((ratings.sum : ℚ) / (ratings.length : ℚ))
      = -(((-ratings.sum : Int) : ℚ) / (ratings.length : ℚ)) := by
    push_cast; ring
  rw [h, Int.ceil_neg, Rat.floor_intCast_div_natCast]

/-- For a negative dividend and a positive divisor the quotient truncated toward zero
is the floor quotient only when the division is exact. -/
theorem neg_ediv_neg_eq_ediv_iff (a n : Int) (hn : 0 < n) :
    -((-a) / n) = a / n ↔ n ∣ a := by
  constructor
  · intro h
    by_contra hdvd
    have hr0 : (-a) % n ≠ 0 := by
      intro h0
      exact hdvd ((Int.dvd_neg).1 (Int.dvd_of_emod_eq_zero h0))
    have h1 := Int.emod_add_ediv (-a) n
    have h2 := Int.emod_nonneg (-a) (ne_of_gt hn)
    have h3 := Int.emod_lt_of_pos (-a) hn
    have h4 : a / n = -((-a) / n) - 1 ∧ a % n = n - (-a) % n := by
      rw [Int.ediv_emod_unique hn]
      refine ⟨?_, ?_, ?_⟩
      · have : n * (-(-a / n) - 1) = -(n * (-a / n)) - n := by ring
        rw [this]; omega
      · omega
      · omega
    omega
  · intro h
    obtain ⟨c, rfl⟩ := h
    rw [← mul_neg, Int.mul_ediv_cancel_left _ (ne_of_gt hn),
      Int.mul_ediv_cancel_left _ (ne_of_gt hn), neg_neg]

/-- Claim C27, counterexample: for the ratings -3 and 0 the exact mean is -3/2, whose
floor is -2, and `ComputeAverageRating` returns -1. -/
theorem C27_counterexample :
    ComputeAverageRating [-3, 0] = -1 ∧ floorOfMean [-3, 0] = -2 ∧
    ComputeAverageRating [-3, 0] ≠ floorOfMean [-3, 0] := by
  refine ⟨by decide, by decide!, by decide!⟩

/-- Claim C27, amended: for every non-empty ratings list whose sum fits in an `int`
(with fewer than `2^31` ratings) `ComputeAverageRating` is the exact mean rounded
toward zero: the floor of the mean when the sum is not negative, the ceiling of the
mean when the sum is negative; it equals the floor of the mean exactly when the sum
is not negative or is divisible by the number of ratings. -/
theorem C27_ComputeAverageRating_rounds_toward_zero (ratings : List Int)
    (hne : ratings ≠ []) (hlo : -2147483648 ≤ ratings.sum)
    (hhi : ratings.sum < 2147483648) (hcount : ratings.length < 2147483648) :
    (0 ≤ ratings.sum → ComputeAverageRating ratings = floorOfMean ratings) ∧
    (ratings.sum < 0 → ComputeAverageRating ratings = ceilOfMean ratings) ∧
    (ComputeAverageRating ratings = floorOfMean ratings ↔
      0 ≤ ratings.sum ∨ (ratings.length : Int) ∣ ratings.sum) := by
  have hlen : (0 : Int) < (ratings.length : Int) :=
    Int.ofNat_lt.2 (List.length_pos.2 hne)
  have hpos : 0 ≤ ratings.sum → ComputeAverageRating ratings = floorOfMean ratings := by
    intro h
    rw [ComputeAverageRating_eq_tdiv ratings hne hlo hhi hcount, floorOfMean_eq_ediv,
      Int.tdiv_eq_ediv h (le_of_lt hlen)]
  have hneg : ratings.sum < 0 →
      ComputeAverageRating ratings = -((-ratings.sum) / (ratings.length : Int)) := by
    intro h
    rw [ComputeAverageRating_eq_tdiv ratings hne hlo hhi hcount]
    have h1 : Int.tdiv ratings.sum (ratings.length : Int)
        = -Int.tdiv (-ratings.sum) (ratings.length : Int) := by
      rw [Int.neg_tdiv, neg_neg]
    rw [h1, Int.tdiv_eq_ediv (by omega) (le_of_lt hlen)]
  refine ⟨hpos, fun h => ?_, ?_⟩
  · rw [hneg h, ceilOfMean_eq_neg_ediv]
  · constructor
    · intro h
      by_cases h0 : 0 ≤ ratings.sum
      · exact Or.inl h0
      · right
        rw [hneg (not_le.1 h0), floorOfMean_eq_ediv] at h
        exact (neg_ediv_neg_eq_ediv_iff _ _ hlen).1 h
    · rintro (h | h)
      · exact hpos h
      · by_cases h0 : 0 ≤ ratings.sum
        · exact hpos h0
        · rw [hneg (not_le.1 h0), floorOfMean_eq_ediv]
          exact (neg_ediv_neg_eq_ediv_iff _ _ hlen).2 h

theorem C27_witness :
    ComputeAverageRating [8, -3] = floorOfMean [8, -3] ∧
    ComputeAverageRating [-3, 0] = ceilOfMean [-3, 0] ∧
    ComputeAverageRating [5, -12, 2, 1] = floorOfMean [5, -12, 2, 1] :=
  ⟨(C27_ComputeAverageRating_rounds_toward_zero [8, -3] (by decide) (by decide)
      (by decide) (by decide)).1 (by decide),
   (C27_ComputeAverageRating_rounds_toward_zero [-3, 0] (by decide) (by decide)
      (by decide) (by decide)).2.1 (by decide),
   (C27_ComputeAverageRating_rounds_toward_zero [5, -12, 2, 1] (by decide) (by decide)
      (by decide) (by decide)).2.2.2 (Or.inr (by decide))⟩

end SearchServer
end Exception1

namespace List1
namespace Chain
variable {α : Type}

theorem first_eq_ptrAt (c : Chain α) : first c = ptrAt c 0 := by
  cases c with
  | nil => rfl
  | cons e rest => obtain ⟨a, x⟩ := e; rfl

theorem ptrAt_cons_succ (e : Nat × α) (c : Chain α) (i : Nat) :
    ptrAt (e :: c) (i + 1) = ptrAt c i := by
  unfold ptrAt
  rw [List.get?_cons_succ]

theorem mem_addrs_of_get? {c : Chain α} {i a : Nat} {x : α} (h : c.get? i = some (a, x)) :
    a ∈ c.map Prod.fst :=
  List.mem_map.2 ⟨(a, x), List.get?_mem h, rfl⟩

/-- In a chain with distinct addresses, `next_node` of the node of index `i` points to
the node of index `i + 1`. -/
theorem next_node_get (c : Chain α) (hnd : (c.map Prod.fst).Nodup) (i a : Nat) (x : α)
    (hi : c.get? i = some (a, x)) : next_node c a = some (ptrAt c (i + 1)) := by
  induction c generalizing i with
  | nil => simp at hi
  | cons e rest ih =>
    obtain ⟨a0, x0⟩ := e
    rw [List.map_cons, List.nodup_cons] at hnd
    cases i with
    | zero =>
      rw [List.get?_cons_zero] at hi
      cases hi
      unfold next_node
      rw [if_pos rfl, ptrAt_cons_succ, first_eq_ptrAt]
    | succ j =>
      rw [List.get?_cons_succ] at hi
      have hne : a0 ≠ a := fun e => hnd.1 (e ▸ mem_addrs_of_get? hi)
      unfold next_node
      rw [if_neg hne, ih hnd.2 j hi, ptrAt_cons_succ]

/-- In a chain with distinct addresses, the node of index `i` is found by its address. -/
theorem value_get (c : Chain α) (hnd : (c.map Prod.fst).Nodup) (i a : Nat) (x : α)
    (hi : c.get? i = some (a, x)) : value c a = some x := by
  induction c generalizing i with
  | nil => simp at hi
  | cons e rest ih =>
    obtain ⟨a0, x0⟩ := e
    rw [List.map_cons, List.nodup_cons] at hnd
    cases i with
    | zero =>
      rw [List.get?_cons_zero] at hi
      cases hi
      unfold value
      rw [if_pos rfl]
    | succ j =>
      rw [List.get?_cons_succ] at hi
      have hne : a0 ≠ a := fun e => hnd.1 (e ▸ mem_addrs_of_get? hi)
      unfold value
      rw [if_neg hne, ih hnd.2 j hi]

/-- In a chain with distinct addresses, linking a new node after the node of index `i`
puts it at index `i + 1`. -/
theorem linkAfter_get (c : Chain α) (hnd : (c.map Prod.fst).Nodup) (i a : Nat) (x : α)
    (new_node : Nat × α) (hi : c.get? i = some (a, x)) :
    linkAfter c a new_node = some (c.take (i + 1) ++ new_node :: c.drop (i + 1)) := by
  induction c generalizing i with
  | nil => simp at hi
  | cons e rest ih =>
    obtain ⟨a0, x0⟩ := e
    rw [List.map_cons, List.nodup_cons] at hnd
    cases i with
    | zero =>
      rw [List.get?_cons_zero] at hi
      cases hi
      unfold linkAfter
      rw [if_pos rfl]
      rfl
    | succ j =>
      rw [List.get?_cons_succ] at hi
      have hne : a0 ≠ a := fun e => hnd.1 (e ▸ mem_addrs_of_get? hi)
      unfold linkAfter
      rw [if_neg hne, ih hnd.2 j hi]
      rfl

end Chain

namespace SingleLinkedList
variable {α : Type}

/-- In a list whose nodes have distinct addresses, `operator++` moves from a position
up to the last element to the next position. -/
theorem next_position (l : SingleLinkedList α) (hnd : (l.chain.map Prod.fst).Nodup)
    (k : Nat) (hk : k ≤ l.chain.length) :
    next l (position l k) = some (position l (k + 1)) := by
  cases k with
  | zero =>
    show (if l.head_addr = l.head_addr then some (Chain.first l.chain) else none) = _
    rw [if_pos rfl, Chain.first_eq_ptrAt]
    rfl
  | succ i =>
    have hi : i < l.chain.length := hk
    obtain ⟨⟨a, x⟩, he⟩ : ∃ e, l.chain.get? i = some e :=
      ⟨l.chain.get ⟨i, hi⟩, List.get?_eq_get hi⟩
    have hp : position l (i + 1) = .node a := by
      show Chain.ptrAt l.chain i = _
      unfold Chain.ptrAt
      rw [he]
    rw [hp]
    show Chain.next_node l.chain a = _
    rw [Chain.next_node_get l.chain hnd i a x he]
    rfl

/-- Positions are reached by counting applications of `operator++`. -/
theorem advance_position (l : SingleLinkedList α) (hnd : (l.chain.map Prod.fst).Nodup)
    (j k : Nat) (hk : k + j ≤ l.chain.length + 1) :
    advance l (position l k) j = some (position l (k + j)) := by
  induction j generalizing k with
  | zero => rfl
  | succ j ih =>
    unfold advance
    rw [next_position l hnd k (by omega)]
    show advance l (position l (k + 1)) j = _
    rw [ih (k + 1) (by omega)]
    congr 2
    omega

/-- The first test of `InsertAfter` never holds: a null position is `end()`. -/
theorem InsertAfter_guard (l : SingleLinkedList α) (pos : Iterator) :
    ¬ (pos = .null ∧ pos ≠ end_ l) :=
  fun hc => hc.2 hc.1

/-- At a position up to the last element `InsertAfter` links a node from the free
store right after the position. -/
theorem InsertAfter_position (h : Heap) (l : SingleLinkedList α)
    (hnd : (l.chain.map Prod.fst).Nodup) (k : Nat) (hk : k ≤ l.chain.length) (v : α) :
    InsertAfter h l (position l k) v =
      some ({ next := h.next + 1 },
        { l with
          chain := l.chain.take k ++ (h.next, v) :: l.chain.drop k
          size_ := incrSize l.size_ },
        .node h.next) := by
  unfold InsertAfter
  rw [if_neg (InsertAfter_guard l _)]
  cases k with
  | zero =>
    show (if l.head_addr = l.head_addr then _ else _) = _
    rw [if_pos rfl]
    rfl
  | succ i =>
    have hi : i < l.chain.length := hk
    obtain ⟨⟨a, x⟩, he⟩ : ∃ e, l.chain.get? i = some e :=
      ⟨l.chain.get ⟨i, hi⟩, List.get?_eq_get hi⟩
    have hp : position l (i + 1) = .node a := by
      show Chain.ptrAt l.chain i = _
      unfold Chain.ptrAt
      rw [he]
    rw [hp]
    simp only [Chain.linkAfter_get l.chain hnd i a x (h.next, v) he]

theorem get?_take_cons_drop {β : Type} (c : List β) (k : Nat) (hk : k ≤ c.length) (e : β) :
    (c.take k ++ e :: c.drop k).get? k = some e := by
  have hlen : (c.take k).length = k := by rw [List.length_take]; exact min_eq_left hk
  rw [List.get?_eq_getElem?, List.getElem?_append_right (by omega), hlen, Nat.sub_self]
  exact List.getElem?_cons_zero

/-- Claim C30: in a list with contents `x_1 .. x_n` whose nodes have distinct
addresses and whose size counter is below the largest `size_t`, for the position
`pos` reached from `before_begin()` by `k ≤ n` steps
(`before_begin()` itself for `k = 0`, the `k`-th element otherwise) and every value
`v`, `InsertAfter(pos, v)` returns normally, leaves the contents
`x_1 .. x_k, v, x_(k+1) .. x_n`, increases `GetSize()` by one, and returns an iterator
to the new element: it is reached from `before_begin()` by `k + 1` steps and
dereferences to `v`. -/
theorem C30_InsertAfter_inserts {α : Type} (h : Heap) (l : SingleLinkedList α) (k : Nat)
    (pos : Iterator) (v : α) (hwf : l.WF h) (hk : k ≤ l.chain.length)
    (hpos : advance l (before_begin l) k = some pos)
    (hsize : l.size_ + 1 < SIZE_MODULUS) :
    ∃ h' l' it, InsertAfter h l pos v = some (h', l', it) ∧
      range l' = (range l).take k ++ v :: (range l).drop k ∧
      GetSize l' = GetSize l + 1 ∧
      advance l' (before_begin l') (k + 1) = some it ∧ deref l' it = some v ∧
      l'.WF h' := by
  have hp := advance_position l hwf.1 k 0 (by omega)
  rw [Nat.zero_add] at hp
  have hpos' : pos = position l k := by
    have : advance l (position l 0) k = some pos := hpos
    rw [hp] at this
    cases this
    rfl
  subst hpos'
  have hperm : ((l.chain.take k ++ (h.next, v) :: l.chain.drop k).map Prod.fst).Perm
      (h.next :: l.chain.map Prod.fst) := by
    rw [List.map_append, List.map_cons]
    refine List.perm_middle.trans (List.Perm.cons _ ?_)
    rw [← List.map_append, List.take_append_drop]
  have hfresh : h.next ∉ l.chain.map Prod.fst := fun hm => lt_irrefl _ (hwf.2 _ hm)
  have hnd' : ((l.chain.take k ++ (h.next, v) :: l.chain.drop k).map Prod.fst).Nodup :=
    hperm.nodup_iff.2 (List.nodup_cons.2 ⟨hfresh, hwf.1⟩)
  have hget := get?_take_cons_drop l.chain k hk (h.next, v)
  refine ⟨_, _, _, InsertAfter_position h l hwf.1 k hk v, ?_, ?_, ?_, ?_, hnd', ?_⟩
  · show (l.chain.take k ++ (h.next, v) :: l.chain.drop k).map Prod.snd = _
    rw [List.map_append, List.map_cons, List.map_take, List.map_drop]
    rfl
  · show incrSize l.size_ = l.size_ + 1
    exact Nat.mod_eq_of_lt hsize
  · have := advance_position
      { l with
        chain := l.chain.take k ++ (h.next, v) :: l.chain.drop k
        size_ := incrSize l.size_ } hnd' (k + 1) 0
      (by simp only [List.length_append, List.length_cons, List.length_take,
            List.length_drop]; omega)
    rw [Nat.zero_add] at this
    refine this.trans ?_
    show some (Chain.ptrAt (l.chain.take k ++ (h.next, v) :: l.chain.drop k) k) = _
    unfold Chain.ptrAt
    rw [hget]
  · exact Chain.value_get _ hnd' k h.next v hget
  · intro addr haddr
    rcases List.mem_cons.1 (hperm.mem_iff.1 haddr) with h1 | h1
    · show addr < h.next + 1
      omega
    · have := hwf.2 addr h1
      show addr < h.next + 1
      omega

theorem C30_witness :
    InsertAfter list123.1 list123.2 (before_begin list123.2) 123
      = some (⟨4⟩, ⟨0, [(3, 123), (0, 1), (1, 2), (2, 3)], 4⟩, .node 3) ∧
    range (⟨0, [(3, 123), (0, 1), (1, 2), (2, 3)], 4⟩ : SingleLinkedList Int)
      = [123, 1, 2, 3] ∧
    begin (⟨0, [(3, 123), (0, 1), (1, 2), (2, 3)], 4⟩ : SingleLinkedList Int) = .node 3 ∧
    deref (⟨0, [(3, 123), (0, 1), (1, 2), (2, 3)], 4⟩ : SingleLinkedList Int) (.node 3)
      = some 123 ∧
    InsertAfter ⟨4⟩ (⟨0, [(3, 123), (0, 1), (1, 2), (2, 3)], 4⟩ : SingleLinkedList Int)
        (.node 3) 555
      = some (⟨5⟩, ⟨0, [(3, 123), (4, 555), (0, 1), (1, 2), (2, 3)], 5⟩, .node 4) ∧
    range (⟨0, [(3, 123), (4, 555), (0, 1), (1, 2), (2, 3)], 5⟩ : SingleLinkedList Int)
      = [123, 555, 1, 2, 3] ∧
    advance (⟨0, [(3, 123), (4, 555), (0, 1), (1, 2), (2, 3)], 5⟩ : SingleLinkedList Int)
      (.head 0) 2 = some (.node 4) ∧
    deref (⟨0, [(3, 123), (4, 555), (0, 1), (1, 2), (2, 3)], 5⟩ : SingleLinkedList Int)
      (.node 4) = some 555 := by
  obtain ⟨h', l', it, h1, h2, -, -, h5, -⟩ :=
    C30_InsertAfter_inserts list123.1 list123.2 0 (before_begin list123.2) 123
      (by decide) (by decide) rfl (by decide)
  have e1 : InsertAfter list123.1 list123.2 (before_begin list123.2) 123
      = some (⟨4⟩, ⟨0, [(3, 123), (0, 1), (1, 2), (2, 3)], 4⟩, .node 3) := by decide
  rw [e1] at h1
  cases h1
  obtain ⟨hb, lb, itb, k1, k2, -, k4, k5, -⟩ :=
    C30_InsertAfter_inserts ⟨4⟩
      (⟨0, [(3, 123), (0, 1), (1, 2), (2, 3)], 4⟩ : SingleLinkedList Int) 1 (.node 3) 555
      (by decide) (by decide) (by decide) (by decide)
  have e2 : InsertAfter ⟨4⟩
      (⟨0, [(3, 123), (0, 1), (1, 2), (2, 3)], 4⟩ : SingleLinkedList Int) (.node 3) 555
      = some (⟨5⟩, ⟨0, [(3, 123), (4, 555), (0, 1), (1, 2), (2, 3)], 5⟩, .node 4) := by
    decide
  rw [e2] at k1
  cases k1
  exact ⟨e1, h2, by decide, h5, e2, k2, k4, k5⟩

/-- Claim C28, the code at the failing input: for the equal lists `{1, 2, 3}` and
`{1, 2, 3}` the function `operator>` of the source returns true, although the second
list is not less than the first; `operator>` returns the negation of `lhs < rhs`
for all lists.  On the lists of the test, `{1, 2, 4} > {1, 2, 3}`, it returns true. -/
theorem C28_operatorGt_on_equal_lists :
    operatorGt (ofValues ⟨0⟩ 0 [(1 : Int), 2, 3]).2 (ofValues ⟨3⟩ 1 [(1 : Int), 2, 3]).2
      = true ∧
    operatorLt (ofValues ⟨3⟩ 1 [(1 : Int), 2, 3]).2 (ofValues ⟨0⟩ 0 [(1 : Int), 2, 3]).2
      = false ∧
    (∀ lhs rhs : SingleLinkedList Int, operatorGt lhs rhs = !operatorLt lhs rhs) ∧
    operatorGt (ofValues ⟨0⟩ 0 [(1 : Int), 2, 4]).2 (ofValues ⟨3⟩ 1 [(1 : Int), 2, 3]).2
      = true :=
  ⟨by decide, by decide, fun _ _ => rfl, by decide⟩

/-- Claim C29, the code at the failing inputs: `{1, 2, 4} <= {1, 2, 3}` returns true
although `{1, 2, 3} < {1, 2, 4}`, and `{1, 2, 3} >= {1, 2, 4}` returns true although
`{1, 2, 3} < {1, 2, 4}`; the functions `operator<=` and `operator>=` of the source
return true for all lists. -/
theorem C29_operatorLe_operatorGe_always_true :
    operatorLe (ofValues ⟨0⟩ 0 [(1 : Int), 2, 4]).2 (ofValues ⟨3⟩ 1 [(1 : Int), 2, 3]).2
      = true ∧
    operatorGe (ofValues ⟨3⟩ 1 [(1 : Int), 2, 3]).2 (ofValues ⟨0⟩ 0 [(1 : Int), 2, 4]).2
      = true ∧
    operatorLt (ofValues ⟨3⟩ 1 [(1 : Int), 2, 3]).2 (ofValues ⟨0⟩ 0 [(1 : Int), 2, 4]).2
      = true ∧
    (∀ lhs rhs : SingleLinkedList Int,
      operatorLe lhs rhs = true ∧ operatorGe lhs rhs = true) :=
  ⟨by decide, by decide, by decide, fun lhs rhs => by
    unfold operatorLe operatorGe
    cases Cpp.lexicographical_compare (range lhs) (range rhs) <;> exact ⟨rfl, rfl⟩⟩

end SingleLinkedList
end List1

namespace List1
namespace Chain
variable {α : Type}

/-- In a chain with distinct addresses, unlinking after the node of index `i` removes
the node of index `i + 1` and yields the pointer to the node that followed it. -/
theorem unlinkAfter_get (c : Chain α) (hnd : (c.map Prod.fst).Nodup) (i a : Nat) (x : α)
    (hi : c.get? i = some (a, x)) (hlen : i + 1 < c.length) :
    unlinkAfter c a = some (c.take (i + 1) ++ c.drop (i + 2), ptrAt c (i + 2)) := by
  induction c generalizing i with
  | nil => simp at hi
  | cons e rest ih =>
    obtain ⟨a0, x0⟩ := e
    rw [List.map_cons, List.nodup_cons] at hnd
    cases i with
    | zero =>
      rw [List.get?_cons_zero] at hi
      cases hi
      cases rest with
      | nil => simp at hlen
      | cons e1 rest1 =>
        unfold unlinkAfter
        rw [if_pos rfl]
        show some ((a, x) :: rest1, first rest1)
          = some ((a, x) :: rest1, ptrAt ((a, x) :: e1 :: rest1) 2)
        rw [ptrAt_cons_succ, ptrAt_cons_succ, first_eq_ptrAt]
    | succ j =>
      rw [List.get?_cons_succ] at hi
      have hne : a0 ≠ a := fun e => hnd.1 (e ▸ mem_addrs_of_get? hi)
      have hlen' : j + 1 < rest.length := by
        rw [List.length_cons] at hlen; omega
      unfold unlinkAfter
      rw [if_neg hne, ih hnd.2 j hi hlen', ptrAt_cons_succ]
      rfl

theorem get?_take_append_drop_succ {β : Type} (c : List β) (k : Nat) (hk : k ≤ c.length) :
    (c.take k ++ c.drop (k + 1)).get? k = c.get? (k + 1) := by
  have hlen : (c.take k).length = k := by rw [List.length_take]; exact min_eq_left hk
  rw [List.get?_eq_getElem?, List.get?_eq_getElem?,
    List.getElem?_append_right (by omega), hlen, Nat.sub_self, List.getElem?_drop]

end Chain

theorem decrSize_add_one (n : Nat) (h : 0 < n) : decrSize n + 1 = n := by
  unfold decrSize
  rw [if_neg (by omega)]
  omega

namespace SingleLinkedList
variable {α : Type}

/-- At a position with a node after it `EraseAfter` unlinks that node. -/
theorem EraseAfter_position (l : SingleLinkedList α) (hnd : (l.chain.map Prod.fst).Nodup)
    (k : Nat) (hk : k < l.chain.length) :
    EraseAfter l (position l k) =
      some ({ l with
              chain := l.chain.take k ++ l.chain.drop (k + 1)
              size_ := decrSize l.size_ },
        Chain.ptrAt l.chain (k + 1)) := by
  cases k with
  | zero =>
    show EraseAfter l (.head l.head_addr) = _
    unfold EraseAfter
    simp only [if_pos]
    cases hc : l.chain with
    | nil => rw [hc] at hk; simp at hk
    | cons e rest =>
      simp only [List.take_zero, List.nil_append, List.drop_succ_cons, List.drop_zero,
        Chain.ptrAt_cons_succ, Chain.first_eq_ptrAt]
  | succ i =>
    have hi : i < l.chain.length := by omega
    obtain ⟨⟨a, x⟩, he⟩ : ∃ e, l.chain.get? i = some e :=
      ⟨l.chain.get ⟨i, hi⟩, List.get?_eq_get hi⟩
    have hp : position l (i + 1) = .node a := by
      show Chain.ptrAt l.chain i = _
      unfold Chain.ptrAt
      rw [he]
    rw [hp]
    unfold EraseAfter
    simp only [Chain.unlinkAfter_get l.chain hnd i a x he hk]

/-- Claim C31: in a list with contents `x_1 .. x_n` whose nodes have distinct
addresses and whose size counter is not 0, for the position `pos`
reached from `before_begin()` by `k < n` steps (`before_begin()` itself for `k = 0`,
the `k`-th element otherwise), `EraseAfter(pos)` returns normally, leaves the contents
`x_1 .. x_k, x_(k+2) .. x_n`, decreases `GetSize()` by one, and returns the iterator
reached from `before_begin()` of the new list by `k + 1` steps: it is `end()` when the
erased element was the last, and otherwise it dereferences to `x_(k+2)`, the element
that followed the erased one. -/
theorem C31_EraseAfter_erases {α : Type} (l : SingleLinkedList α) (k : Nat) (pos : Iterator)
    (hnd : (l.chain.map Prod.fst).Nodup) (hk : k < l.chain.length)
    (hpos : advance l (before_begin l) k = some pos)
    (hsize : 0 < l.size_) :
    ∃ l' it, EraseAfter l pos = some (l', it) ∧
      range l' = (range l).take k ++ (range l).drop (k + 1) ∧
      GetSize l' + 1 = GetSize l ∧
      advance l' (before_begin l') (k + 1) = some it ∧
      (k + 1 = l.chain.length → it = end_ l') ∧
      (∀ x, (range l).get? (k + 1) = some x → deref l' it = some x) ∧
      (l'.chain.map Prod.fst).Nodup := by
  have hp := advance_position l hnd k 0 (by omega)
  rw [Nat.zero_add] at hp
  have hpos' : pos = position l k := by
    have : advance l (position l 0) k = some pos := hpos
    rw [hp] at this
    cases this
    rfl
  subst hpos'
  have hsub : (l.chain.take k ++ l.chain.drop (k + 1)).Sublist l.chain := by
    have h1 : (l.chain.take k ++ l.chain.drop (k + 1)).Sublist
        (l.chain.take k ++ l.chain.drop k) :=
      List.Sublist.append_left (List.drop_sublist_drop_left l.chain (Nat.le_succ k)) _
    rwa [List.take_append_drop] at h1
  have hnd' : ((l.chain.take k ++ l.chain.drop (k + 1)).map Prod.fst).Nodup :=
    List.Nodup.sublist (List.Sublist.map _ hsub) hnd
  have hget := Chain.get?_take_append_drop_succ l.chain k (le_of_lt hk)
  have hptr : Chain.ptrAt (l.chain.take k ++ l.chain.drop (k + 1)) k
      = Chain.ptrAt l.chain (k + 1) := by
    unfold Chain.ptrAt
    rw [hget]
  refine ⟨_, _, EraseAfter_position l hnd k hk, ?_, ?_, ?_, ?_, ?_, hnd'⟩
  · show (l.chain.take k ++ l.chain.drop (k + 1)).map Prod.snd = _
    rw [List.map_append, List.map_take, List.map_drop]
    rfl
  · dsimp only [GetSize]
    exact decrSize_add_one l.size_ hsize
  · have := advance_position
      { l with
        chain := l.chain.take k ++ l.chain.drop (k + 1)
        size_ := decrSize l.size_ } hnd' (k + 1) 0
      (by simp only [List.length_append, List.length_take, List.length_drop]; omega)
    rw [Nat.zero_add] at this
    refine this.trans ?_
    show some (Chain.ptrAt (l.chain.take k ++ l.chain.drop (k + 1)) k) = _
    rw [hptr]
  · intro hlast
    show Chain.ptrAt l.chain (k + 1) = NodePtr.null
    unfold Chain.ptrAt
    rw [List.get?_eq_none.2 (by omega)]
  · intro x hx
    have hx' : (l.chain.map Prod.snd).get? (k + 1) = some x := hx
    rw [List.get?_eq_getElem?, List.getElem?_map] at hx'
    cases he : l.chain[k + 1]? with
    | none => rw [he] at hx'; cases hx'
    | some e =>
      obtain ⟨a, y⟩ := e
      rw [he] at hx'
      cases hx'
      have he' : l.chain.get? (k + 1) = some (a, y) := by
        rw [List.get?_eq_getElem?]; exact he
      have hit : Chain.ptrAt l.chain (k + 1) = .node a := by
        unfold Chain.ptrAt
        rw [he']
      rw [hit]
      exact Chain.value_get _ hnd' k a y (hget.trans he')

theorem C31_witness :
    EraseAfter list1234.2 (before_begin list1234.2)
      = some (⟨0, [(1, 2), (2, 3), (3, 4)], 3⟩, .node 1) ∧
    range (⟨0, [(1, 2), (2, 3), (3, 4)], 3⟩ : SingleLinkedList Int) = [2, 3, 4] ∧
    begin (⟨0, [(1, 2), (2, 3), (3, 4)], 3⟩ : SingleLinkedList Int) = .node 1 ∧
    EraseAfter list1234.2 (.node 2)
      = some (⟨0, [(0, 1), (1, 2), (2, 3)], 3⟩, .null) ∧
    range (⟨0, [(0, 1), (1, 2), (2, 3)], 3⟩ : SingleLinkedList Int) = [1, 2, 3] ∧
    end_ (⟨0, [(0, 1), (1, 2), (2, 3)], 3⟩ : SingleLinkedList Int) = .null := by
  obtain ⟨l1, it1, h1, h2, -⟩ :=
    C31_EraseAfter_erases list1234.2 0 (before_begin list1234.2)
      (by decide) (by decide) rfl (by decide)
  have e1 : EraseAfter list1234.2 (before_begin list1234.2)
      = some (⟨0, [(1, 2), (2, 3), (3, 4)], 3⟩, .node 1) := by decide
  rw [e1] at h1
  cases h1
  obtain ⟨l2, it2, k1, k2, -, -, k5, -⟩ :=
    C31_EraseAfter_erases list1234.2 3 (.node 2)
      (by decide) (by decide) (by decide) (by decide)
  have e2 : EraseAfter list1234.2 (.node 2)
      = some (⟨0, [(0, 1), (1, 2), (2, 3)], 3⟩, .null) := by decide
  rw [e2] at k1
  cases k1
  exact ⟨e1, h2, by decide, e2, k2, k5 (by decide)⟩

end SingleLinkedList
end List1

namespace Cpp
variable {α : Type}

/-- The model of `std::equal` holds exactly for equal element sequences. -/
theorem equal_iff [DecidableEq α] (xs ys : List α) : equal xs ys = true ↔ xs = ys := by
  induction xs generalizing ys with
  | nil => cases ys <;> simp [equal]
  | cons a as ih =>
    cases ys with
    | nil => simp [equal]
    | cons b bs =>
      unfold equal
      by_cases hab : a = b
      · simp [hab, ih]
      · simp [hab]

end Cpp

namespace List1

theorem incrSize_mod (n : Nat) : incrSize (n % SIZE_MODULUS) = (n + 1) % SIZE_MODULUS := by
  unfold incrSize
  exact Nat.mod_add_mod n SIZE_MODULUS 1

theorem decrSize_succ_mod (n : Nat) :
    decrSize ((n + 1) % SIZE_MODULUS) = n % SIZE_MODULUS := by
  have hM : 0 < SIZE_MODULUS := Nat.pos_of_ne_zero (by decide)
  have hr : n % SIZE_MODULUS < SIZE_MODULUS := Nat.mod_lt n hM
  have hmod : (n + 1) % SIZE_MODULUS = (n % SIZE_MODULUS + 1) % SIZE_MODULUS :=
    (Nat.mod_add_mod n SIZE_MODULUS 1).symm
  unfold decrSize
  rw [hmod]
  by_cases hlast : n % SIZE_MODULUS + 1 = SIZE_MODULUS
  · rw [hlast, Nat.mod_self, if_pos rfl]
    omega
  · rw [Nat.mod_eq_of_lt (by omega), if_neg (by omega)]
    omega

namespace Chain
variable {α : Type}

theorem linkLast_eq (c : Chain α) (new_node : Nat × α) : linkLast c new_node = c ++ [new_node] := by
  induction c with
  | nil => rfl
  | cons e rest ih => unfold linkLast; rw [ih]; rfl

theorem linkAfter_length (c c' : Chain α) (p : Nat) (new_node : Nat × α)
    (h : linkAfter c p new_node = some c') : c'.length = c.length + 1 := by
  induction c generalizing c' with
  | nil => unfold linkAfter at h; cases h
  | cons e rest ih =>
    obtain ⟨a, x⟩ := e
    unfold linkAfter at h
    split at h
    · cases h; simp
    · cases hr : linkAfter rest p new_node with
      | none => rw [hr] at h; cases h
      | some r =>
        rw [hr] at h
        cases h
        simp [ih r hr]

theorem unlinkAfter_length (c c' : Chain α) (p : Nat) (temp : NodePtr)
    (h : unlinkAfter c p = some (c', temp)) : c'.length + 1 = c.length := by
  induction c generalizing c' with
  | nil => unfold unlinkAfter at h; cases h
  | cons e rest ih =>
    obtain ⟨a, x⟩ := e
    unfold unlinkAfter at h
    split at h
    · cases rest with
      | nil => cases h
      | cons e1 rest1 => cases h; simp
    · cases hr : unlinkAfter rest p with
      | none => rw [hr] at h; cases h
      | some r =>
        obtain ⟨r1, r2⟩ := r
        rw [hr] at h
        cases h
        simp [ih r1 hr]

end Chain

namespace SingleLinkedList
variable {α : Type}

theorem range_PushBack (h : Heap) (l : SingleLinkedList α) (value : α) :
    range (PushBack h l value).2 = range l ++ [value] := by
  show (Chain.linkLast l.chain (h.next, value)).map Prod.snd = _
  rw [Chain.linkLast_eq, List.map_append]
  rfl

theorem size_PushBack (h : Heap) (l : SingleLinkedList α) (value : α)
    (hl : l.size_ = l.chain.length % SIZE_MODULUS) :
    (PushBack h l value).2.size_ = (PushBack h l value).2.chain.length % SIZE_MODULUS := by
  show incrSize l.size_ = (Chain.linkLast l.chain (h.next, value)).length % SIZE_MODULUS
  rw [Chain.linkLast_eq, List.length_append, hl, incrSize_mod]
  rfl

/-- Pushing back a sequence of values appends them and keeps the size counter equal
to the number of nodes modulo the range of `size_t`. -/
theorem foldl_PushBack (values : List α) (h : Heap) (l : SingleLinkedList α)
    (hl : l.size_ = l.chain.length % SIZE_MODULUS) :
    range (values.foldl (fun state value => PushBack state.1 state.2 value) (h, l)).2
      = range l ++ values ∧
    (values.foldl (fun state value => PushBack state.1 state.2 value) (h, l)).2.size_
      = (values.foldl (fun state value => PushBack state.1 state.2 value)
          (h, l)).2.chain.length % SIZE_MODULUS := by
  induction values generalizing h l with
  | nil => simp [hl]
  | cons v rest ih =>
    rw [List.foldl_cons]
    obtain ⟨h1, h2⟩ := ih (PushBack h l v).1 (PushBack h l v).2 (size_PushBack h l v hl)
    refine ⟨?_, h2⟩
    rw [h1, range_PushBack, List.append_assoc]
    rfl

/-- The copy constructor yields the elements of the source, with the size counter
equal to their number modulo the range of `size_t`. -/
theorem copy_spec (h : Heap) (head_addr temp_addr : Nat) (other : SingleLinkedList α) :
    range (copy h head_addr temp_addr other).2 = range other ∧
    (copy h head_addr temp_addr other).2.size_
      = (copy h head_addr temp_addr other).2.chain.length % SIZE_MODULUS ∧
    (copy h head_addr temp_addr other).2.head_addr = head_addr := by
  obtain ⟨h1, h2⟩ := foldl_PushBack (range other) h (empty temp_addr) rfl
  refine ⟨?_, h2, rfl⟩
  have : range (copy h head_addr temp_addr other).2
      = range ((range other).foldl (fun state value => PushBack state.1 state.2 value)
          (h, empty temp_addr)).2 := rfl
  rw [this, h1]
  rfl

theorem range_length (l : SingleLinkedList α) : (range l).length = l.chain.length := by
  unfold range
  rw [List.length_map]

theorem first_eq_of_disjoint (r s : SingleLinkedList α)
    (hown : ∀ a ∈ r.chain.map Prod.fst, a ∉ s.chain.map Prod.fst)
    (hfirst : Chain.first r.chain = Chain.first s.chain) :
    r.chain = [] ∧ s.chain = [] := by
  cases hr : r.chain with
  | nil =>
    cases hs : s.chain with
    | nil => exact ⟨rfl, rfl⟩
    | cons e rest =>
      obtain ⟨a, x⟩ := e
      rw [hr, hs] at hfirst
      cases hfirst
  | cons e rest =>
    obtain ⟨a, x⟩ := e
    cases hs : s.chain with
    | nil =>
      rw [hr, hs] at hfirst
      cases hfirst
    | cons e' rest' =>
      obtain ⟨b, y⟩ := e'
      rw [hr, hs] at hfirst hown
      have hab : a = b := by
        have := hfirst
        unfold Chain.first at this
        cases this
        rfl
      exact absurd (by simp [hab]) (hown a (by simp))

/-- Claim C32: for a source list `s` whose size counter is the number of its nodes,
and a receiver `r` that is `s` itself or a list with the same property that shares no
node with `s`: the copy constructor yields a list with the elements of `s` in the
same order and the size of `s`, equal to `s` under `operator==`; so does the
assignment `r = s`, also when `s` is empty and `r` is not; and a self-assignment
leaves the list as it is.  The source list is an argument passed by reference to
const and is not written. -/
theorem C32_copy_and_assignment {α : Type} [DecidableEq α] (h : Heap)
    (head_addr temp_addr inner_temp_addr : Nat) (r s : SingleLinkedList α)
    (hs : s.size_ = s.chain.length) (hlen : s.chain.length < SIZE_MODULUS)
    (hr : r.size_ = r.chain.length)
    (hown : r = s ∨ ∀ a ∈ r.chain.map Prod.fst, a ∉ s.chain.map Prod.fst) :
    (range (copy h head_addr temp_addr s).2 = range s ∧
      GetSize (copy h head_addr temp_addr s).2 = GetSize s ∧
      operatorEq (copy h head_addr temp_addr s).2 s = true) ∧
    (range (operatorAssign h temp_addr inner_temp_addr r s).2 = range s ∧
      GetSize (operatorAssign h temp_addr inner_temp_addr r s).2 = GetSize s ∧
      operatorEq (operatorAssign h temp_addr inner_temp_addr r s).2 s = true ∧
      (operatorAssign h temp_addr inner_temp_addr r s).2.head_addr = r.head_addr) ∧
    operatorAssign h temp_addr inner_temp_addr s s = (h, s) := by
  have hcopy : ∀ (a t : Nat), range (copy h a t s).2 = range s ∧
      (copy h a t s).2.size_ = s.size_ := by
    intro a t
    obtain ⟨h1, h2, -⟩ := copy_spec h a t s
    refine ⟨h1, ?_⟩
    rw [h2, ← range_length, h1, range_length, hs, Nat.mod_eq_of_lt hlen]
  have hassign : range (operatorAssign h temp_addr inner_temp_addr r s).2 = range s ∧
      (operatorAssign h temp_addr inner_temp_addr r s).2.size_ = s.size_ ∧
      (operatorAssign h temp_addr inner_temp_addr r s).2.head_addr = r.head_addr := by
    unfold operatorAssign
    by_cases hf : Chain.first r.chain = Chain.first s.chain
    · rw [if_neg (not_not.2 hf)]
      rcases hown with rfl | hown
      · exact ⟨rfl, rfl, rfl⟩
      · obtain ⟨h1, h2⟩ := first_eq_of_disjoint r s hown hf
        refine ⟨?_, ?_, rfl⟩
        · show r.chain.map Prod.snd = s.chain.map Prod.snd
          rw [h1, h2]
        · show r.size_ = s.size_
          rw [hr, hs, h1, h2]
    · rw [if_pos hf]
      exact ⟨(hcopy temp_addr inner_temp_addr).1, (hcopy temp_addr inner_temp_addr).2, rfl⟩
  refine ⟨⟨(hcopy _ _).1, (hcopy _ _).2, ?_⟩, ⟨hassign.1, hassign.2.1, ?_, hassign.2.2⟩, ?_⟩
  · unfold operatorEq
    rw [(hcopy _ _).1]
    exact (Cpp.equal_iff _ _).2 rfl
  · unfold operatorEq
    rw [hassign.1]
    exact (Cpp.equal_iff _ _).2 rfl
  · unfold operatorAssign
    rw [if_neg (not_not.2 rfl)]

theorem C32_witness :
    range (operatorAssign ⟨9⟩ 2 3 (ofValues ⟨4⟩ 1 [(5 : Int), 4, 3, 2, 1]).2 list1234.2).2
      = [1, 2, 3, 4] ∧
    GetSize (operatorAssign ⟨9⟩ 2 3 (ofValues ⟨4⟩ 1 [(5 : Int), 4, 3, 2, 1]).2 list1234.2).2
      = 4 ∧
    begin (operatorAssign ⟨9⟩ 2 3 (ofValues ⟨4⟩ 1 [(5 : Int), 4, 3, 2, 1]).2 list1234.2).2
      ≠ begin list1234.2 ∧
    range (operatorAssign ⟨9⟩ 2 3 list1234.2 (empty 1)).2 = [] ∧
    operatorAssign ⟨9⟩ 2 3 list1234.2 list1234.2 = (⟨9⟩, list1234.2) :=
  ⟨((C32_copy_and_assignment ⟨9⟩ 5 2 3 (ofValues ⟨4⟩ 1 [(5 : Int), 4, 3, 2, 1]).2 list1234.2
      (by decide) (by decide) (by decide) (Or.inr (by decide))).2.1.1).trans (by decide),
   ((C32_copy_and_assignment ⟨9⟩ 5 2 3 (ofValues ⟨4⟩ 1 [(5 : Int), 4, 3, 2, 1]).2 list1234.2
      (by decide) (by decide) (by decide) (Or.inr (by decide))).2.1.2.1).trans (by decide),
   by decide,
   ((C32_copy_and_assignment ⟨9⟩ 5 2 3 list1234.2 (empty 1)
      (by decide) (by decide) (by decide) (Or.inr (by decide))).2.1.1).trans (by decide),
   (C32_copy_and_assignment ⟨9⟩ 5 2 3 list1234.2 list1234.2
      (by decide) (by decide) (by decide) (Or.inl rfl)).2.2⟩

end SingleLinkedList
end List1

namespace List1
namespace SingleLinkedList
variable {α : Type}

/-- `Clear` on a list whose size counter is the number of its nodes modulo the range
of `size_t` leaves no node and the counter 0. -/
theorem Clear_loop_eq (c : Chain α) (size : Nat) (hs : size = c.length % SIZE_MODULUS) :
    Clear.loop c size = ([], 0) := by
  induction c generalizing size with
  | nil =>
    unfold Clear.loop
    rw [hs]
    rfl
  | cons e rest ih =>
    unfold Clear.loop
    refine ih _ ?_
    rw [hs, List.length_cons, decrSize_succ_mod]

/-- The size counter of a reachable list is the number of its nodes modulo the range
of `size_t`. -/
theorem size_of_Reachable (l : SingleLinkedList α) (hl : Reachable l) :
    l.size_ = l.chain.length % SIZE_MODULUS := by
  induction hl with
  | init head_addr => rfl
  | pushFront h l value _ ih =>
    show incrSize l.size_ = ((h.next, value) :: l.chain).length % SIZE_MODULUS
    rw [ih, incrSize_mod, List.length_cons]
  | pushBack h l value _ ih => exact size_PushBack h l value ih
  | popFront l l' _ hpop ih =>
    unfold PopFront at hpop
    cases hc : l.chain with
    | nil => rw [hc] at hpop; cases hpop
    | cons e rest =>
      rw [hc] at hpop
      cases hpop
      show decrSize l.size_ = rest.length % SIZE_MODULUS
      rw [ih, hc, List.length_cons, decrSize_succ_mod]
  | insertAfter h h' l l' pos it value _ hins ih =>
    unfold InsertAfter at hins
    rw [if_neg (InsertAfter_guard l pos)] at hins
    cases pos with
    | null => cases hins
    | head list =>
      simp only at hins
      split at hins
      · cases hins
        show incrSize l.size_ = ((h.next, value) :: l.chain).length % SIZE_MODULUS
        rw [ih, incrSize_mod, List.length_cons]
      · cases hins
    | node addr =>
      simp only at hins
      cases hlink : Chain.linkAfter l.chain addr (h.next, value) with
      | none => rw [hlink] at hins; cases hins
      | some c =>
        rw [hlink] at hins
        cases hins
        show incrSize l.size_ = c.length % SIZE_MODULUS
        rw [ih, incrSize_mod, Chain.linkAfter_length _ _ _ _ hlink]
  | eraseAfter l l' pos it _ hera ih =>
    unfold EraseAfter at hera
    cases pos with
    | null => cases hera
    | head list =>
      simp only at hera
      split at hera
      · cases hc : l.chain with
        | nil => rw [hc] at hera; cases hera
        | cons e rest =>
          rw [hc] at hera
          cases hera
          show decrSize l.size_ = rest.length % SIZE_MODULUS
          rw [ih, hc, List.length_cons, decrSize_succ_mod]
      · cases hera
    | node addr =>
      simp only at hera
      cases hun : Chain.unlinkAfter l.chain addr with
      | none => rw [hun] at hera; cases hera
      | some r =>
        obtain ⟨c, temp⟩ := r
        rw [hun] at hera
        cases hera
        show decrSize l.size_ = c.length % SIZE_MODULUS
        rw [ih, ← Chain.unlinkAfter_length _ _ _ _ hun, decrSize_succ_mod]
  | clear l _ ih =>
    show (Clear.loop l.chain l.size_).2 = (Clear.loop l.chain l.size_).1.length % SIZE_MODULUS
    rw [Clear_loop_eq l.chain l.size_ ih]
    rfl
  | swapThis l other _ _ _ ih2 => exact ih2
  | swapOther l other _ _ ih1 _ => exact ih1
  | assign h temp_addr inner_temp_addr l rhs _ _ ih1 _ =>
    unfold operatorAssign
    split
    · exact (copy_spec h temp_addr inner_temp_addr rhs).2.1
    · exact ih1

/-- Claim C40: in every list state reached from an empty list by `PushFront`,
`PushBack`, `PopFront`, `InsertAfter`, `EraseAfter`, `Clear`, `swap` and copy
assignment, the size counter is the number of nodes modulo the range of `size_t`;
so, the number of nodes being below that range, `GetSize()` is the number of elements
met from `begin()` to `end()` and `IsEmpty()` holds exactly when that number is 0;
and `Clear` leaves no element and `GetSize() == 0`. -/
theorem C40_size_invariant {α : Type} (l : SingleLinkedList α) (hl : Reachable l) :
    l.size_ = l.chain.length % SIZE_MODULUS ∧
    (l.chain.length < SIZE_MODULUS →
      GetSize l = (range l).length ∧ (IsEmpty l = true ↔ (range l).length = 0)) ∧
    range (Clear l) = [] ∧ GetSize (Clear l) = 0 ∧ IsEmpty (Clear l) = true := by
  have hinv := size_of_Reachable l hl
  have hclear := Clear_loop_eq l.chain l.size_ hinv
  refine ⟨hinv, fun hlt => ?_, ?_, ?_, ?_⟩
  · have hsize : l.size_ = (range l).length := by
      rw [hinv, Nat.mod_eq_of_lt hlt, range_length]
    refine ⟨hsize, ?_⟩
    unfold IsEmpty
    rw [hsize]
    by_cases h0 : (range l).length = 0
    · simp [h0]
    · simp [h0]
  · show (Clear.loop l.chain l.size_).1.map Prod.snd = []
    rw [hclear]
    rfl
  · show (Clear.loop l.chain l.size_).2 = 0
    rw [hclear]
  · show (if (Clear.loop l.chain l.size_).2 = 0 then true else false) = true
    rw [hclear]
    rfl

theorem C40_witness :
    GetSize (PushFront ⟨1⟩ (PushFront ⟨0⟩ (empty 0) (0 : Int)).2 1).2 = 2 ∧
    IsEmpty (PushFront ⟨1⟩ (PushFront ⟨0⟩ (empty 0) (0 : Int)).2 1).2 = false ∧
    GetSize (Clear (PushFront ⟨1⟩ (PushFront ⟨0⟩ (empty 0) (0 : Int)).2 1).2) = 0 ∧
    IsEmpty (Clear (PushFront ⟨1⟩ (PushFront ⟨0⟩ (empty 0) (0 : Int)).2 1).2) = true :=
  ⟨((C40_size_invariant _
      (Reachable.pushFront ⟨1⟩ _ 1 (Reachable.pushFront ⟨0⟩ _ 0 (Reachable.init 0)))).2.1
      (by decide)).1.trans (by decide),
   by decide,
   (C40_size_invariant _
      (Reachable.pushFront ⟨1⟩ _ 1 (Reachable.pushFront ⟨0⟩ _ 0 (Reachable.init 0)))).2.2.2.1,
   (C40_size_invariant _
      (Reachable.pushFront ⟨1⟩ _ 1 (Reachable.pushFront ⟨0⟩ _ 0 (Reachable.init 0)))).2.2.2.2⟩

end SingleLinkedList
end List1

namespace Exception1
namespace SearchServer
variable {R : Type}

open Cpp

theorem foldl_erase_mem (freqs : Map Int R) (rel : Map Int R) (k : Int) :
    k ∈ Map.keys (freqs.foldl (fun relevance posting => Map.erase relevance posting.1) rel) ↔
      k ∈ Map.keys rel ∧ k ∉ Map.keys freqs := by
  induction freqs generalizing rel with
  | nil => simp [Map.keys]
  | cons posting rest ih =>
    rw [List.foldl_cons, ih, Map.keys_erase]
    simp only [Map.keys, List.map_cons, List.mem_cons, not_or]
    constructor
    · rintro ⟨⟨h1, h2⟩, h3⟩; exact ⟨h2, h1, h3⟩
    · rintro ⟨h2, h1, h3⟩; exact ⟨⟨h1, h2⟩, h3⟩

theorem hasPosting_eq_false_iff (s : SearchServer R) (word : String) (k : Int) :
    hasPosting s word k = false ↔
      ∀ freqs, Map.get? s.word_to_document_freqs_ word = some freqs → k ∉ Map.keys freqs := by
  unfold hasPosting
  cases hf : Map.get? s.word_to_document_freqs_ word with
  | none => simp
  | some freqs =>
    simp only [Option.some.injEq, forall_eq', decide_eq_false_iff_not, not_lt,
      Nat.le_zero_eq, Map.count_eq_zero_iff]

theorem hasPosting_eq_true_iff (s : SearchServer R) (word : String) (k : Int) :
    hasPosting s word k = true ↔
      ∃ freqs, Map.get? s.word_to_document_freqs_ word = some freqs ∧ k ∈ Map.keys freqs := by
  have h := hasPosting_eq_false_iff s word k
  cases hp : hasPosting s word k with
  | true =>
    rw [hp] at h
    simp only [true_iff]
    by_contra hn
    have : (true = false) := h.2 (fun freqs hf hk => hn ⟨freqs, hf, hk⟩)
    cases this
  | false =>
    rw [hp] at h
    simp only [false_iff, reduceCtorEq]
    rintro ⟨freqs, hf, hk⟩
    exact h.1 rfl freqs hf hk

theorem minusWord_mem (s : SearchServer R) (rel rel' : Map Int R) (word : String)
    (h : FindAllDocuments.minusWord s rel word = .ok rel') (k : Int) :
    k ∈ Map.keys rel' ↔ k ∈ Map.keys rel ∧ hasPosting s word k = false := by
  rw [hasPosting_eq_false_iff]
  unfold FindAllDocuments.minusWord at h
  split at h
  · next hc =>
    cases h
    have hn := (Map.get?_eq_none_iff _ _).2 ((Map.count_eq_zero_iff _ _).1 hc)
    simp [hn]
  · cases hf : Map.get? s.word_to_document_freqs_ word with
    | none => simp [hf] at h
    | some freqs =>
      simp only [hf] at h
      cases h
      rw [foldl_erase_mem]
      simp

theorem minusWords_mem (s : SearchServer R) (words : List String) (rel rel' : Map Int R)
    (h : words.foldlM (FindAllDocuments.minusWord s) rel = .ok rel') (k : Int) :
    k ∈ Map.keys rel' ↔
      k ∈ Map.keys rel ∧ ∀ word ∈ words, hasPosting s word k = false := by
  induction words generalizing rel with
  | nil => rw [foldlM_nil_ok] at h; subst h; simp
  | cons word rest ih =>
    rw [foldlM_cons_ok] at h
    obtain ⟨rel1, h1, h2⟩ := h
    rw [ih rel1 h2, minusWord_mem s rel rel1 word h1]
    simp only [List.mem_cons, forall_eq_or_imp]
    exact and_assoc

theorem emit_ids {s : SearchServer R} {rel : Map Int R} {tail : List (Document R)}
    (h : List.Forall₂ (fun (e : Int × R) (d : Document R) =>
        d.id = e.1 ∧ d.relevance = e.2 ∧
          ∃ data, Map.get? s.documents_ e.1 = some data ∧ d.rating = data.rating) rel tail) :
    tail.map (fun d => d.id) = Map.keys rel := by
  induction h with
  | nil => rfl
  | cons hab _ ih =>
    simp only [List.map_cons, Map.keys] at ih ⊢
    rw [ih, hab.1]

theorem termContribution_ne_none_iff [LinearOrderedField R] (ln : R → R) (s : SearchServer R)
    (k : Int) (word : String) :
    termContribution ln s k word ≠ none ↔ hasPosting s word k = true := by
  rw [hasPosting_eq_true_iff]
  unfold termContribution
  cases hf : Map.get? s.word_to_document_freqs_ word with
  | none => simp
  | some freqs =>
    simp only [ne_eq, Option.map_eq_none', Option.some.injEq, exists_eq_left']
    rw [Map.get?_eq_none_iff, not_not]

/-- The ids returned by `FindAllDocuments`, in order, are the keys left in the
relevance map, and they are characterised by the three conditions of the claim. -/
theorem FindAllDocuments_ids [LinearOrderedField R] {ln : R → R} {s : SearchServer R}
    (hwf : s.WF) {query : Query} {pred : DocumentPredicate} {docs : List (Document R)}
    (h : FindAllDocuments ln s query pred = .ok docs) :
    (docs.map (fun d => d.id)).Nodup ∧
    ∀ k : Int, k ∈ docs.map (fun d => d.id) ↔
      (∃ word ∈ query.plus_words, hasPosting s word k = true) ∧
      predicateHolds s pred k = true ∧
      ∀ word ∈ query.minus_words, hasPosting s word k = false := by
  obtain ⟨relPlus, relFinal, hp, hm, he⟩ := FindAllDocuments_eq_ok h
  obtain ⟨relFinal', hm', hsub, -⟩ := minusWords_fold s query.minus_words relPlus
  rw [hm] at hm'; cases hm'
  obtain ⟨tail, rfl, hf⟩ := emit_fold relFinal [] docs he
  rw [emit_ids hf]
  have hndPlus : (Map.keys relPlus).Nodup :=
    (plusWords_fold_keys _ _ _ hp).1 List.nodup_nil
  refine ⟨List.Nodup.sublist (hsub.map Prod.fst) hndPlus, fun k => ?_⟩
  rw [minusWords_mem s _ _ _ hm k, ← Map.get?_isSome_iff,
    plusWords_fold (WF_postings_nodup hwf) _ _ _ hp k, foldl_accumulate]
  have hne : query.plus_words.filterMap (termContribution ln s k) ≠ [] ↔
      ∃ word ∈ query.plus_words, hasPosting s word k = true := by
    constructor
    · intro hne
      obtain ⟨x, hx⟩ := List.exists_mem_of_ne_nil _ hne
      obtain ⟨word, hw, hc⟩ := List.mem_filterMap.1 hx
      exact ⟨word, hw, (termContribution_ne_none_iff ln s k word).1 (by rw [hc]; simp)⟩
    · rintro ⟨word, hw, hpost⟩ hnil
      have hc := (termContribution_ne_none_iff ln s k word).2 hpost
      cases hx : termContribution ln s k word with
      | none => exact hc hx
      | some x =>
        have : x ∈ query.plus_words.filterMap (termContribution ln s k) :=
          List.mem_filterMap.2 ⟨word, hw, hx⟩
        rw [hnil] at this
        cases this
  constructor
  · rintro ⟨⟨v, hv⟩, hminus⟩
    split at hv
    · next hc => exact ⟨hne.1 hc.2, hc.1, hminus⟩
    · simp [Map.get?] at hv
  · rintro ⟨hplus, hpred, hminus⟩
    refine ⟨?_, hminus⟩
    rw [if_pos ⟨hpred, hne.2 hplus⟩]
    exact ⟨_, rfl⟩

/-- Claim C33: when `FindAllDocuments` returns a list, a document id occurs in it if
and only if some plus term of the query has a posting for the document, the predicate
holds for the id with the stored status and rating of the document, and no minus term
of the query has a posting for the document; no id occurs twice; every returned
document carries its stored rating; and when the list has at most five documents,
`FindTopDocuments` returns exactly these documents, in its own order. -/
theorem C33_FindAllDocuments_iff [LinearOrderedField R] [FloorRing R] (ln : R → R)
    (s : SearchServer R)
    (hwf : s.WF) (query : Query) (document_predicate : DocumentPredicate)
    (docs : List (Document R))
    (hall : FindAllDocuments ln s query document_predicate = .ok docs) :
    (∀ document_id : Int, document_id ∈ docs.map (fun d => d.id) ↔
      (∃ word ∈ query.plus_words, hasPosting s word document_id = true) ∧
      predicateHolds s document_predicate document_id = true ∧
      ∀ word ∈ query.minus_words, hasPosting s word document_id = false) ∧
    (docs.map (fun d => d.id)).Nodup ∧
    (∀ d ∈ docs, ∃ data, Map.get? s.documents_ d.id = some data ∧ d.rating = data.rating) ∧
    (∀ raw_query, ParseQuery s raw_query = .ok query → docs.length ≤ 5 →
      ∃ top, FindTopDocuments ln s raw_query document_predicate = .ok top ∧
        top.Perm docs) := by
  obtain ⟨hnd, hiff⟩ := FindAllDocuments_ids hwf hall
  refine ⟨hiff, hnd, ?_, ?_⟩
  · intro d hd
    obtain ⟨-, -, -, -, hdata⟩ := FindAllDocuments_mem hall d hd
    exact hdata
  · intro raw_query hq hlen
    refine ⟨_, FindTopDocuments_of_ok hq hall, ?_⟩
    rw [List.take_of_length_le (by rw [Cpp.sort_length]; exact hlen)]
    exact Cpp.sort_perm _ _

theorem C33_witness :
    FindTopDocuments lnStandIn corpus "пушистый ухоженный кот"
        (fun id _ _ => decide (id = 1)) = .ok [⟨1, 7 / 4, 5⟩] ∧
    predicateHolds corpus (fun id _ _ => decide (id = 1)) 1 = true ∧
    ([(⟨1, 7 / 4, 5⟩ : Document ℚ)].map (fun d => d.id)).Nodup ∧
    ((2 : Int) ∈ [(⟨1, 7 / 4, 5⟩ : Document ℚ)].map (fun d => d.id) ↔
      (∃ word ∈ ["кот", "пушистый", "ухоженный"], hasPosting corpus word 2 = true) ∧
      predicateHolds corpus (fun id _ _ => decide (id = 1)) 2 = true ∧
      ∀ word ∈ ([] : List String), hasPosting corpus word 2 = false) :=
  ⟨by decide!,
   (((C33_FindAllDocuments_iff lnStandIn corpus (by decide!)
      ⟨["кот", "пушистый", "ухоженный"], []⟩ (fun id _ _ => decide (id = 1))
      [⟨1, 7 / 4, 5⟩] (by decide!)).1 1).1 (by decide)).2.1,
   (C33_FindAllDocuments_iff lnStandIn corpus (by decide!)
      ⟨["кот", "пушистый", "ухоженный"], []⟩ (fun id _ _ => decide (id = 1))
      [⟨1, 7 / 4, 5⟩] (by decide!)).2.1,
   (C33_FindAllDocuments_iff lnStandIn corpus (by decide!)
      ⟨["кот", "пушистый", "ухоженный"], []⟩ (fun id _ _ => decide (id = 1))
      [⟨1, 7 / 4, 5⟩] (by decide!)).1 2⟩

end SearchServer
end Exception1

namespace Exception1

theorem SplitIntoWords_loop_nil (words : List String) (word : List Char) :
    SplitIntoWords.loop [] words word =
      if word ≠ [] then words ++ [String.mk word] else words := rfl

theorem SplitIntoWords_loop_cons (c : Char) (rest : List Char) (words : List String)
    (word : List Char) :
    SplitIntoWords.loop (c :: rest) words word =
      if c = ' ' then
        if word ≠ [] then SplitIntoWords.loop rest (words ++ [String.mk word]) []
        else SplitIntoWords.loop rest words word
      else SplitIntoWords.loop rest words (word ++ [c]) := rfl

theorem SplitIntoWords_loop_skip (n : Nat) (l : List Char) (words : List String) :
    SplitIntoWords.loop (List.replicate n ' ' ++ l) words [] = SplitIntoWords.loop l words [] := by
  induction n with
  | zero => rfl
  | succ n ih =>
    rw [List.replicate_succ, List.cons_append, SplitIntoWords_loop_cons, if_pos rfl,
      if_neg (not_not.2 rfl)]
    exact ih

theorem SplitIntoWords_loop_word (w l : List Char) (words : List String) (word : List Char)
    (hw : ' ' ∉ w) :
    SplitIntoWords.loop (w ++ l) words word = SplitIntoWords.loop l words (word ++ w) := by
  induction w generalizing word with
  | nil => rw [List.nil_append, List.append_nil]
  | cons c rest ih =>
    have hc : c ≠ ' ' := fun h => hw (h ▸ List.mem_cons_self _ _)
    rw [List.cons_append, SplitIntoWords_loop_cons, if_neg hc,
      ih _ (fun h => hw (List.mem_cons_of_mem _ h)), List.append_assoc]
    rfl

theorem SplitIntoWords_loop_space (l : List Char) (words : List String) (word : List Char)
    (hne : word ≠ []) :
    SplitIntoWords.loop (' ' :: l) words word =
      SplitIntoWords.loop l (words ++ [String.mk word]) [] := by
  rw [SplitIntoWords_loop_cons, if_pos rfl, if_pos hne]

theorem SplitIntoWords_loop_trailing (n : Nat) (words : List String) (word : List Char)
    (hne : word ≠ []) :
    SplitIntoWords.loop (List.replicate n ' ') words word = words ++ [String.mk word] := by
  cases n with
  | zero =>
    show SplitIntoWords.loop [] words word = _
    rw [SplitIntoWords_loop_nil, if_pos hne]
  | succ n =>
    rw [List.replicate_succ, SplitIntoWords_loop_space _ _ _ hne]
    have := SplitIntoWords_loop_skip n [] (words ++ [String.mk word])
    rw [List.append_nil] at this
    rw [this, SplitIntoWords_loop_nil, if_neg (not_not.2 rfl)]

theorem toList_ne_nil_of_ne_empty (w : String) (h : w ≠ "") : w.toList ≠ [] := by
  intro hnil
  apply h
  obtain ⟨l⟩ := w
  exact congrArg String.mk hnil

theorem SplitIntoWords_loop_spacedWords (wes : List (String × Nat)) (words : List String)
    (h : ∀ we ∈ wes, we.1 ≠ "" ∧ ' ' ∉ we.1.toList) :
    SplitIntoWords.loop (spacedWords wes) words [] = words ++ wes.map Prod.fst := by
  induction wes generalizing words with
  | nil =>
    show SplitIntoWords.loop [] words [] = _
    rw [SplitIntoWords_loop_nil, if_neg (not_not.2 rfl)]
    simp
  | cons we rest ih =>
    obtain ⟨w, e⟩ := we
    obtain ⟨hne, hsp⟩ := h (w, e) (List.mem_cons_self _ _)
    have hne' := toList_ne_nil_of_ne_empty w hne
    cases rest with
    | nil =>
      show SplitIntoWords.loop (w.toList ++ List.replicate e ' ') words [] = _
      rw [SplitIntoWords_loop_word _ _ _ _ hsp, List.nil_append,
        SplitIntoWords_loop_trailing _ _ _ hne']
      rfl
    | cons next rest' =>
      show SplitIntoWords.loop
        (w.toList ++ ' ' :: (List.replicate e ' ' ++ spacedWords (next :: rest'))) words [] = _
      rw [SplitIntoWords_loop_word _ _ _ _ hsp, List.nil_append,
        SplitIntoWords_loop_space _ _ _ hne', SplitIntoWords_loop_skip,
        ih _ (fun we hwe => h we (List.mem_cons_of_mem _ hwe))]
      simp

theorem intercalate_go_toList (acc s : String) (ws : List String) :
    (String.intercalate.go acc s ws).toList =
      acc.toList ++ (ws.map (fun w => s.toList ++ w.toList)).flatten := by
  induction ws generalizing acc with
  | nil => simp [String.intercalate.go]
  | cons w rest ih =>
    unfold String.intercalate.go
    rw [ih]
    simp [String.toList, String.data_append, List.append_assoc]

theorem intercalate_eq_spacedWords (ws : List String) :
    (String.intercalate " " ws).toList = spacedWords (ws.map (fun w => (w, 0))) := by
  cases ws with
  | nil => rfl
  | cons w rest =>
    unfold String.intercalate
    rw [intercalate_go_toList]
    induction rest generalizing w with
    | nil => simp [spacedWords]
    | cons w' rest' ih =>
      have := ih w'
      simp only [List.map_cons, List.flatten_cons] at this ⊢
      unfold spacedWords
      rw [← this]
      simp [String.toList]

theorem Tests_SplitIntoWords_loop_eq (l : List Char) (words : List String) (word : List Char) :
    Tests.SplitIntoWords.loop l words word = SplitIntoWords.loop l words word := by
  induction l generalizing words word with
  | nil => rfl
  | cons c rest ih =>
    unfold Tests.SplitIntoWords.loop SplitIntoWords.loop
    by_cases hc : c = ' '
    · rw [if_pos hc, if_pos hc]
      by_cases hw : word = []
      · rw [if_neg (not_not.2 hw), if_neg (not_not.2 hw), ih, hw]
      · rw [if_pos hw, if_pos hw, ih]
    · rw [if_neg hc, if_neg hc, ih]

/-- Claim C39: for every list of words that are not empty and contain no space,
`SplitIntoWords` applied to the words joined by a single space, with any number of
additional leading, separating and trailing spaces, returns the list of the words;
in particular so for the words joined by single spaces alone; and the `SplitIntoWords`
of `src/Tests.cpp` returns the same list as the one of `src/Exception1.cpp` on every
text. -/
theorem C39_SplitIntoWords_round_trip (lead : Nat) (wes : List (String × Nat))
    (text : String) (h : ∀ we ∈ wes, we.1 ≠ "" ∧ ' ' ∉ we.1.toList) :
    SplitIntoWords (String.mk (List.replicate lead ' ' ++ spacedWords wes))
      = wes.map Prod.fst ∧
    SplitIntoWords (String.intercalate " " (wes.map Prod.fst)) = wes.map Prod.fst ∧
    Tests.SplitIntoWords text = SplitIntoWords text := by
  refine ⟨?_, ?_, Tests_SplitIntoWords_loop_eq text.toList [] []⟩
  · show SplitIntoWords.loop (List.replicate lead ' ' ++ spacedWords wes) [] [] = _
    rw [SplitIntoWords_loop_skip, SplitIntoWords_loop_spacedWords wes [] h]
    rfl
  · show SplitIntoWords.loop (String.intercalate " " (wes.map Prod.fst)).toList [] [] = _
    rw [intercalate_eq_spacedWords]
    have := SplitIntoWords_loop_spacedWords ((wes.map Prod.fst).map (fun w => (w, 0))) []
      (by
        intro we hwe
        obtain ⟨w, hw, rfl⟩ := List.mem_map.1 hwe
        obtain ⟨we', hwe', rfl⟩ := List.mem_map.1 hw
        exact h we' hwe')
    rw [this]
    simp

theorem C39_witness :
    SplitIntoWords "  белый   кот и " = ["белый", "кот", "и"] ∧
    SplitIntoWords "белый кот и" = ["белый", "кот", "и"] ∧
    Tests.SplitIntoWords "  белый   кот и " = SplitIntoWords "  белый   кот и " :=
  ⟨(C39_SplitIntoWords_round_trip 2 [("белый", 2), ("кот", 0), ("и", 1)] ""
      (by decide)).1,
   (C39_SplitIntoWords_round_trip 0 [("белый", 2), ("кот", 0), ("и", 1)] ""
      (by decide)).2.1,
   (C39_SplitIntoWords_round_trip 0 [] "  белый   кот и " (by decide)).2.2⟩

end Exception1

namespace Cpp.Map
variable {K V : Type}

/-- The lookup lemma of `modifyAt` for any decision procedure of key equality. -/
theorem get?_modifyAt_inst [LinearOrder K] (inst : DecidableEq K) (m : Map K V) (k : K)
    (dflt : V) (f : V → V) (k' : K) :
    @get? K V inst (modifyAt m k dflt f) k' =
      if k' = k then some (f ((@get? K V inst m k).getD dflt)) else @get? K V inst m k' := by
  have h : inst = (fun a b => instDecidableEq_mathlib a b) := Subsingleton.elim _ _
  subst h
  exact get?_modifyAt m k dflt f k'

end Cpp.Map

namespace Exception1
namespace SearchServer
variable {R : Type}

open Cpp

/-- The words kept by `SplitIntoWordsNoStop` are the tokens that are not stop words,
in order. -/
theorem SplitIntoWordsNoStop_loop_filter (s : SearchServer R) (tokens acc words : List String)
    (h : SplitIntoWordsNoStop.loop s tokens acc = .ok words) :
    words = acc ++ tokens.filter (fun w => !IsStopWord s w) := by
  induction tokens generalizing acc with
  | nil =>
    unfold SplitIntoWordsNoStop.loop at h
    cases h
    simp
  | cons t rest ih =>
    unfold SplitIntoWordsNoStop.loop at h
    split at h
    · cases h
    · split at h
      · next hstop =>
        rw [ih _ h, List.filter_cons, if_pos hstop, List.append_assoc]
        rfl
      · next hstop =>
        rw [ih _ h, List.filter_cons, if_neg hstop]

theorem SplitIntoWordsNoStop_filter (s : SearchServer R) (text : String) (words : List String)
    (h : SplitIntoWordsNoStop s text = .ok words) :
    words = (SplitIntoWords text).filter (fun w => !IsStopWord s w) := by
  have := SplitIntoWordsNoStop_loop_filter s _ _ _ h
  rwa [List.nil_append] at this

/-- One turn of the index loop of `AddDocument`, seen from one entry of the index. -/
theorem index_step_lookup [LinearOrderedField R] (document_id : Int) (x : R)
    (index : Map String (Map Int R)) (word w : String) (k : Int) :
    (Map.get? (Map.modifyAt index word []
        (fun freqs => Map.modifyAt freqs document_id 0 (fun freq => freq + x))) w).bind
      (fun freqs => Map.get? freqs k) =
    if w = word ∧ k = document_id then
      some (((Map.get? index w).bind (fun freqs => Map.get? freqs k)).getD 0 + x)
    else (Map.get? index w).bind (fun freqs => Map.get? freqs k) := by
  rw [Map.get?_modifyAt_inst]
  by_cases hw : w = word
  · subst hw
    rw [if_pos rfl, Option.some_bind, Map.get?_modifyAt_inst]
    by_cases hk : k = document_id
    · subst hk
      rw [if_pos rfl, if_pos ⟨rfl, rfl⟩]
      cases Map.get? index w <;> rfl
    · rw [if_neg hk, if_neg (fun h => hk h.2)]
      cases Map.get? index w <;> rfl
  · rw [if_neg hw, if_neg (fun h => hw h.1)]

/-- The index loop of `AddDocument`, seen from one entry of the index: the entry of a
word of the document for the document grows by the number of occurrences of the word
times the increment, and no other entry changes. -/
theorem index_fold_lookup [LinearOrderedField R] (document_id : Int) (x : R)
    (words : List String) (index : Map String (Map Int R)) (w : String) (k : Int) :
    (Map.get? (words.foldl (fun index word =>
        Map.modifyAt index word []
          (fun freqs => Map.modifyAt freqs document_id 0 (fun freq => freq + x))) index) w).bind
      (fun freqs => Map.get? freqs k) =
    if k = document_id ∧ w ∈ words then
      some (((Map.get? index w).bind (fun freqs => Map.get? freqs k)).getD 0
        + (words.count w : R) * x)
    else (Map.get? index w).bind (fun freqs => Map.get? freqs k) := by
  induction words generalizing index with
  | nil => simp
  | cons word rest ih =>
    rw [List.foldl_cons, ih, index_step_lookup]
    by_cases hk : k = document_id
    · subst hk
      by_cases hw : w = word
      · subst hw
        simp only [and_true, true_and, if_true, List.mem_cons, true_or, Option.getD_some,
          List.count_cons_self, Nat.cast_add, Nat.cast_one]
        split
        · congr 1; ring
        · next hmem =>
          rw [List.count_eq_zero_of_not_mem hmem]
          congr 1
          simp
      · have hw' : ¬ word = w := fun h => hw h.symm
        have hcount : List.count w (word :: rest) = List.count w rest := by
          simp [List.count_cons, hw']
        simp only [hw, false_and, if_false, true_and, List.mem_cons, false_or, hcount]
    · simp only [hk, false_and, and_false, if_false]

theorem storedFreq_eq_bind (s : SearchServer R) (word : String) (k : Int) :
    storedFreq s word k =
      (Map.get? s.word_to_document_freqs_ word).bind (fun freqs => Map.get? freqs k) := by
  unfold storedFreq
  cases Map.get? s.word_to_document_freqs_ word <;> rfl

/-- A document id that is not in the store has no posting, in a state in which
every posting refers to a stored document. -/
theorem storedFreq_none_of_not_stored {s : SearchServer R} (hs : PostingsStored s)
    (k : Int) (hk : k ∉ Map.keys s.documents_) (word : String) :
    storedFreq s word k = none := by
  unfold storedFreq
  cases hf : Map.get? s.word_to_document_freqs_ word with
  | none => rfl
  | some freqs =>
    show Map.get? freqs k = none
    rw [Map.get?_eq_none_iff]
    exact fun hmem => hk (hs _ (Map.get?_mem hf) k hmem)

/-- The index after a call of `AddDocument` that returns normally, entry by entry. -/
theorem storedFreq_AddDocument [LinearOrderedField R] (s : SearchServer R)
    (document_id : Int) (document : String) (status : DocumentStatus) (ratings : List Int)
    (hadd : (AddDocument s document_id document status ratings).1 = .ok ())
    (w : String) (k : Int) :
    storedFreq (AddDocument s document_id document status ratings).2 w k =
      if k = document_id ∧
          w ∈ (SplitIntoWords document).filter (fun t => !IsStopWord s t) then
        some ((storedFreq s w k).getD 0 +
          (((SplitIntoWords document).filter (fun t => !IsStopWord s t)).count w : R) *
            (1 / (((SplitIntoWords document).filter (fun t => !IsStopWord s t)).length : R)))
      else storedFreq s w k := by
  rcases AddDocument_cases s document_id document status ratings with
    ⟨-, heq⟩ | ⟨-, -, heq⟩ | ⟨-, -, -, heq⟩ | ⟨-, -, -, words, hwords, heq⟩
  · rw [heq] at hadd; cases hadd
  · rw [heq] at hadd; cases hadd
  · rw [heq] at hadd; cases hadd
  · have hfilter := SplitIntoWordsNoStop_filter s document words hwords
    rw [heq, ← hfilter, storedFreq_eq_bind, storedFreq_eq_bind]
    exact index_fold_lookup document_id _ words _ w k

/-- Claim C34: after a call `AddDocument(id, text, ...)` that returns normally on a
reachable server, for every token `w` of the text that is not a stop word the index
entry `word_to_document_freqs_[w][id]` is the number of occurrences of `w` among the
tokens of the text divided by the number of tokens of the text that are not stop
words, computed exactly; this value is greater than 0 and at most 1; and no stop word
of the server has a posting for `id`. -/
theorem C34_term_frequency [LinearOrderedField R] (s : SearchServer R) (hreach : Reachable s)
    (document_id : Int) (document : String) (status : DocumentStatus) (ratings : List Int)
    (hadd : (AddDocument s document_id document status ratings).1 = .ok ()) :
    (∀ w ∈ SplitIntoWords document, IsStopWord s w = false →
      storedFreq (AddDocument s document_id document status ratings).2 w document_id =
        some (((SplitIntoWords document).count w : R) /
          (((SplitIntoWords document).filter (fun t => !IsStopWord s t)).length : R)) ∧
      (0 : R) < ((SplitIntoWords document).count w : R) /
          (((SplitIntoWords document).filter (fun t => !IsStopWord s t)).length : R) ∧
      ((SplitIntoWords document).count w : R) /
          (((SplitIntoWords document).filter (fun t => !IsStopWord s t)).length : R) ≤ 1) ∧
    (∀ w, IsStopWord s w = true →
      storedFreq (AddDocument s document_id document status ratings).2 w document_id
        = none) := by
  have hs := PostingsStored_of_Reachable hreach
  have hnew : document_id ∉ Map.keys s.documents_ := by
    rcases AddDocument_cases s document_id document status ratings with
      ⟨-, heq⟩ | ⟨-, -, heq⟩ | ⟨-, -, -, heq⟩ | ⟨-, -, hc, -⟩
    · rw [heq] at hadd; cases hadd
    · rw [heq] at hadd; cases hadd
    · rw [heq] at hadd; cases hadd
    · exact (Map.count_eq_zero_iff _ _).1 hc
  have hnone := storedFreq_none_of_not_stored hs document_id hnew
  constructor
  · intro w hw hstop
    have hmem : w ∈ (SplitIntoWords document).filter (fun t => !IsStopWord s t) :=
      List.mem_filter.2 ⟨hw, by simp [hstop]⟩
    have hcount : ((SplitIntoWords document).filter (fun t => !IsStopWord s t)).count w
        = (SplitIntoWords document).count w :=
      List.count_filter (by simp [hstop])
    have hpos : 0 < (SplitIntoWords document).count w := List.count_pos_iff.2 hw
    have hle : (SplitIntoWords document).count w
        ≤ ((SplitIntoWords document).filter (fun t => !IsStopWord s t)).length := by
      rw [← hcount]; exact List.count_le_length _ _
    have hlen : (0 : R) <
        (((SplitIntoWords document).filter (fun t => !IsStopWord s t)).length : R) :=
      Nat.cast_pos.2 (by omega)
    refine ⟨?_, div_pos (Nat.cast_pos.2 hpos) hlen, ?_⟩
    · rw [storedFreq_AddDocument s _ _ _ _ hadd, if_pos ⟨rfl, hmem⟩, hnone, hcount]
      congr 1
      simp only [Option.getD_none, zero_add, mul_one_div]
    · rw [div_le_one hlen]
      exact Nat.cast_le.2 hle
  · intro w hstop
    rw [storedFreq_AddDocument s _ _ _ _ hadd, if_neg, hnone]
    rintro ⟨-, hmem⟩
    have := (List.mem_filter.1 hmem).2
    simp [hstop] at this

theorem C34_witness :
    storedFreq stopWordServer "cat" 42 = some (1 / 2) ∧
    storedFreq stopWordServer "in" 42 = none ∧
    storedFreq corpus2 "пушистый" 1 = some (1 / 2) ∧
    storedFreq corpus2 "хвост" 1 = some (1 / 4) :=
  ⟨((C34_term_frequency ({ emptyServer with stop_words_ := ["in", "the"] })
        (Reachable.init ["in", "the"] _ (by decide!)) 42 "cat in the city" .ACTUAL [1, 2, 3]
        (by decide!)).1 "cat" (by decide) (by decide!)).1.trans (by decide!),
   (C34_term_frequency ({ emptyServer with stop_words_ := ["in", "the"] })
        (Reachable.init ["in", "the"] _ (by decide!)) 42 "cat in the city" .ACTUAL [1, 2, 3]
        (by decide!)).2 "in" (by decide!),
   ((C34_term_frequency corpus1
        (Reachable.add emptyServer 0 "белый кот и модный ошейник" .ACTUAL [8, -3]
          (Reachable.init [] emptyServer (by decide!)) (by decide!))
        1 "пушистый кот пушистый хвост" .ACTUAL [7, 2, 7]
        (by decide!)).1 "пушистый" (by decide) (by decide!)).1.trans (by decide!),
   ((C34_term_frequency corpus1
        (Reachable.add emptyServer 0 "белый кот и модный ошейник" .ACTUAL [8, -3]
          (Reachable.init [] emptyServer (by decide!)) (by decide!))
        1 "пушистый кот пушистый хвост" .ACTUAL [7, 2, 7]
        (by decide!)).1 "хвост" (by decide) (by decide!)).1.trans (by decide!)⟩

end SearchServer
end Exception1

namespace Cpp.Map
variable {K V : Type}

theorem modifyAt_of_not_mem [LinearOrder K] (m : Map K V) (k : K) (dflt : V) (f : V → V)
    (h : k ∉ keys m) : modifyAt m k dflt f = insertSorted k (f dflt) m := by
  unfold modifyAt
  rw [if_pos ((count_eq_zero_iff m k).2 h)]

theorem modifyAt_of_mem [LinearOrder K] (m : Map K V) (k : K) (dflt : V) (f : V → V)
    (h : k ∈ keys m) : modifyAt m k dflt f = replaceAt k f m := by
  unfold modifyAt
  rw [if_neg (fun hc => (count_eq_zero_iff m k).1 hc h)]

end Cpp.Map

namespace Exception1
namespace SearchServer
variable {R : Type}

open Cpp

theorem filterMap_cons_sum [LinearOrderedField R] {β : Type} (f : β → Option R) (e : β)
    (l : List β) :
    ((e :: l).filterMap f).sum = (f e).getD 0 + (l.filterMap f).sum := by
  rw [List.filterMap_cons]
  cases f e with
  | none => simp
  | some a => simp

/-- The frequency of a document in a posting list after the update of one posting. -/
theorem getD_get?_modifyAt [LinearOrderedField R] (freqs : Map Int R) (document_id : Int)
    (x : R) (k : Int) :
    (Map.get? (Map.modifyAt freqs document_id 0 (fun freq => freq + x)) k).getD 0 =
      (Map.get? freqs k).getD 0 + (if k = document_id then x else 0) := by
  rw [Map.get?_modifyAt_inst]
  by_cases hk : k = document_id
  · subst hk
    rw [if_pos rfl, if_pos rfl]
    rfl
  · rw [if_neg hk, if_neg hk, add_zero]

theorem mass_replaceAt [LinearOrderedField R] (inst : DecidableEq String)
    (document_id : Int) (x : R) (k : Int)
    (word : String) (index : Map String (Map Int R)) (hw : word ∈ Map.keys index) :
    ((@Map.replaceAt String (Map Int R) inst word
        (fun freqs => Map.modifyAt freqs document_id 0 (fun freq => freq + x)) index).filterMap
      (fun e => Map.get? e.2 k)).sum =
    (index.filterMap (fun e => Map.get? e.2 k)).sum + (if k = document_id then x else 0) := by
  induction index with
  | nil => simp [Map.keys] at hw
  | cons e rest ih =>
    obtain ⟨k0, v0⟩ := e
    unfold Map.replaceAt
    by_cases h0 : k0 = word
    · rw [if_pos h0, filterMap_cons_sum, filterMap_cons_sum]
      show (Map.get? (Map.modifyAt v0 document_id 0 (fun freq => freq + x)) k).getD 0 + _ = _
      rw [getD_get?_modifyAt]
      show _ = (Map.get? v0 k).getD 0 + _ + _
      ring
    · rw [if_neg h0, filterMap_cons_sum, filterMap_cons_sum]
      have hw' : word ∈ Map.keys rest := by
        simp only [Map.keys, List.map_cons, List.mem_cons] at hw
        rcases hw with h | h
        · exact absurd h.symm h0
        · exact h
      rw [ih hw', add_assoc]

/-- One turn of the index loop of `AddDocument` adds the increment to the mass of the
document and leaves the mass of every other document as it was. -/
theorem mass_index_step [LinearOrderedField R] (document_id : Int) (x : R) (k : Int)
    (word : String) (index : Map String (Map Int R)) :
    ((Map.modifyAt index word []
        (fun freqs => Map.modifyAt freqs document_id 0 (fun freq => freq + x))).filterMap
      (fun e => Map.get? e.2 k)).sum =
    (index.filterMap (fun e => Map.get? e.2 k)).sum + (if k = document_id then x else 0) := by
  by_cases hw : word ∈ Map.keys index
  · rw [Map.modifyAt_of_mem _ _ _ _ hw]
    exact mass_replaceAt _ document_id x k word index hw
  · rw [Map.modifyAt_of_not_mem _ _ _ _ hw]
    have hperm := Map.insertSorted_perm word
      (Map.modifyAt ([] : Map Int R) document_id 0 (fun freq => freq + x)) index
    rw [(hperm.filterMap _).sum_eq, filterMap_cons_sum]
    show (Map.get? (Map.modifyAt ([] : Map Int R) document_id 0 (fun freq => freq + x)) k).getD 0
      + _ = _
    rw [getD_get?_modifyAt]
    show (0 : R) + _ + _ = _
    ring

theorem mass_index_fold [LinearOrderedField R] (document_id : Int) (x : R) (k : Int)
    (words : List String) (index : Map String (Map Int R)) :
    ((words.foldl (fun index word =>
        Map.modifyAt index word []
          (fun freqs => Map.modifyAt freqs document_id 0 (fun freq => freq + x))) index).filterMap
      (fun e => Map.get? e.2 k)).sum =
    (index.filterMap (fun e => Map.get? e.2 k)).sum
      + (if k = document_id then (words.length : R) * x else 0) := by
  induction words generalizing index with
  | nil => simp
  | cons word rest ih =>
    rw [List.foldl_cons, ih, mass_index_step]
    by_cases hk : k = document_id
    · simp only [hk, if_true, List.length_cons, Nat.cast_add, Nat.cast_one]
      ring
    · simp only [hk, if_false, add_zero]

/-- The mass of every document after a call of `AddDocument` that returns normally. -/
theorem massOf_AddDocument [LinearOrderedField R] (s : SearchServer R)
    (document_id : Int) (document : String) (status : DocumentStatus) (ratings : List Int)
    (hadd : (AddDocument s document_id document status ratings).1 = .ok ()) (k : Int) :
    massOf (AddDocument s document_id document status ratings).2 k =
      massOf s k +
        (if k = document_id then
          (((SplitIntoWords document).filter (fun t => !IsStopWord s t)).length : R) *
            (1 / (((SplitIntoWords document).filter (fun t => !IsStopWord s t)).length : R))
        else 0) := by
  rcases AddDocument_cases s document_id document status ratings with
    ⟨-, heq⟩ | ⟨-, -, heq⟩ | ⟨-, -, -, heq⟩ | ⟨-, -, -, words, hwords, heq⟩
  · rw [heq] at hadd; cases hadd
  · rw [heq] at hadd; cases hadd
  · rw [heq] at hadd; cases hadd
  · have hfilter := SplitIntoWordsNoStop_filter s document words hwords
    rw [heq, ← hfilter]
    exact mass_index_fold document_id _ k words _

theorem storedFreq_ne_none_iff (s : SearchServer R) (word : String) (k : Int) :
    storedFreq s word k ≠ none ↔ hasPosting s word k = true := by
  rw [hasPosting_eq_true_iff]
  unfold storedFreq
  cases hf : Map.get? s.word_to_document_freqs_ word with
  | none => simp
  | some freqs =>
    simp only [ne_eq, Option.some.injEq, exists_eq_left']
    rw [Map.get?_eq_none_iff, not_not]

/-- In a reachable state the mass of a document is 1, or it is 0 and the document has
no posting. -/
theorem mass_of_Reachable [LinearOrderedField R] {s : SearchServer R} (h : Reachable s)
    (k : Int) :
    massOf s k = 1 ∨ (massOf s k = 0 ∧ ∀ word, storedFreq s word k = none) := by
  induction h with
  | init stop_words s hnew =>
    obtain ⟨-, h2, -, -⟩ := new_fields hnew
    right
    constructor
    · unfold massOf; rw [h2]; rfl
    · intro word
      unfold storedFreq
      rw [h2]
      rfl
  | add s document_id document status ratings hreach hadd ih =>
    have hs := PostingsStored_of_Reachable hreach
    have hnew : document_id ∉ Map.keys s.documents_ := by
      rcases AddDocument_cases s document_id document status ratings with
        ⟨-, heq⟩ | ⟨-, -, heq⟩ | ⟨-, -, -, heq⟩ | ⟨-, -, hc, -⟩
      · rw [heq] at hadd; cases hadd
      · rw [heq] at hadd; cases hadd
      · rw [heq] at hadd; cases hadd
      · exact (Map.count_eq_zero_iff _ _).1 hc
    rw [massOf_AddDocument s _ _ _ _ hadd k]
    by_cases hk : k = document_id
    · subst hk
      have hnone := storedFreq_none_of_not_stored hs k hnew
      have hzero : massOf s k = 0 := by
        rcases ih with h1 | h1
        · unfold massOf at h1 ⊢
          have : s.word_to_document_freqs_.filterMap (fun e => Map.get? e.2 k) = [] := by
            rw [List.filterMap_eq_nil_iff]
            intro e he
            rw [Map.get?_eq_none_iff]
            exact fun hmem => hnew (hs e he k hmem)
          rw [this]
          rfl
        · exact h1.1
      rw [if_pos rfl, hzero, zero_add]
      by_cases hn : ((SplitIntoWords document).filter (fun t => !IsStopWord s t)).length = 0
      · right
        constructor
        · rw [hn]; simp
        · intro word
          rw [storedFreq_AddDocument s _ _ _ _ hadd, if_neg]
          · exact hnone word
          · rintro ⟨-, hmem⟩
            rw [List.length_eq_zero.1 hn] at hmem
            cases hmem
      · left
        have hne : ((((SplitIntoWords document).filter
            (fun t => !IsStopWord s t)).length : Nat) : R) ≠ 0 := Nat.cast_ne_zero.2 hn
        rw [mul_one_div, div_self hne]
    · rw [if_neg hk, add_zero]
      rcases ih with h1 | ⟨h1, h2⟩
      · exact Or.inl h1
      · right
        refine ⟨h1, fun word => ?_⟩
        rw [storedFreq_AddDocument s _ _ _ _ hadd, if_neg (fun hc => hk hc.1)]
        exact h2 word

/-- Claim C35, counterexample: after the call `AddDocument(0, "", ACTUAL, {1})` on a
server without stop words, which returns normally, the document 0 is in the store and
has no posting, so the sum of its term frequencies is 0, not 1. -/
theorem C35_counterexample :
    (emptyServer.AddDocument 0 "" .ACTUAL [1]).1 = .ok () ∧
    (0 : Int) ∈ Map.keys (emptyServer.AddDocument 0 "" .ACTUAL [1]).2.documents_ ∧
    massOf (emptyServer.AddDocument 0 "" .ACTUAL [1]).2 0 = 0 ∧
    massOf (emptyServer.AddDocument 0 "" .ACTUAL [1]).2 0 ≠ 1 := by
  refine ⟨by decide!, by decide!, by decide!, by decide!⟩

/-- Claim C35, amended: in every server state reached by successful `AddDocument`
calls, for every document id that has at least one posting, the sum of
`word_to_document_freqs_[t][id]` over all terms `t` that have a posting for the id is
1, computed exactly; for a document without a posting (its text had no token that is
not a stop word) the sum is 0. -/
theorem C35_mass_normalised [LinearOrderedField R] (s : SearchServer R)
    (hreach : Reachable s) (document_id : Int) :
    ((∃ word, hasPosting s word document_id = true) → massOf s document_id = 1) ∧
    ((∀ word, hasPosting s word document_id = false) → massOf s document_id = 0) := by
  constructor
  · rintro ⟨word, hw⟩
    rcases mass_of_Reachable hreach document_id with h | ⟨-, h⟩
    · exact h
    · exact absurd (h word) ((storedFreq_ne_none_iff s word document_id).2 hw)
  · intro hno
    unfold massOf
    have : s.word_to_document_freqs_.filterMap (fun e => Map.get? e.2 document_id) = [] := by
      rw [List.filterMap_eq_nil_iff]
      intro e he
      rw [Map.get?_eq_none_iff]
      intro hmem
      have hwf := (invariants_of_Reachable hreach).1
      have hget : Map.get? s.word_to_document_freqs_ e.1 = some e.2 :=
        Map.get?_of_mem (Map.WF_nodup hwf.2.1) he
      have := (hasPosting_eq_false_iff s e.1 document_id).1 (hno e.1) e.2 hget
      exact this hmem
    rw [this]
    rfl

theorem C35_witness :
    massOf corpus 1 = 1 ∧ massOf corpus 3 = 1 ∧
    massOf (emptyServer.AddDocument 0 "" .ACTUAL [1]).2 0 = 0 :=
  ⟨(C35_mass_normalised corpus corpus_reachable 1).1 ⟨"кот", by decide!⟩,
   (C35_mass_normalised corpus corpus_reachable 3).1 ⟨"скворец", by decide!⟩,
   (C35_mass_normalised (emptyServer.AddDocument 0 "" .ACTUAL [1]).2
      (Reachable.add emptyServer 0 "" .ACTUAL [1]
        (Reachable.init [] emptyServer (by decide!)) (by decide!)) 0).2
      (fun word => by
        unfold hasPosting
        rfl)⟩

end SearchServer
end Exception1

namespace Exception1
namespace SearchServer
variable {R : Type}

open Cpp

/-- An entry of the index after the index loop of `AddDocument` is an entry of the
index before the loop, or the entry of a word of the document, with a posting for the
document. -/
theorem index_fold_mem [LinearOrderedField R] (document_id : Int) (x : R)
    (words : List String) (index : Map String (Map Int R)) (e : String × Map Int R)
    (he : e ∈ words.foldl (fun index word =>
        Map.modifyAt index word []
          (fun freqs => Map.modifyAt freqs document_id 0 (fun freq => freq + x))) index) :
    e ∈ index ∨ (e.1 ∈ words ∧ document_id ∈ Map.keys e.2) := by
  induction words generalizing index with
  | nil => exact Or.inl he
  | cons word rest ih =>
    rw [List.foldl_cons] at he
    rcases ih _ he with h | ⟨h1, h2⟩
    · rcases Map.mem_modifyAt _ _ _ _ _ h with h | rfl | ⟨v, -, rfl⟩
      · exact Or.inl h
      · refine Or.inr ⟨List.mem_cons_self _ _, ?_⟩
        exact (Map.mem_keys_modifyAt ([] : Map Int R) document_id 0
          (fun freq => freq + x) document_id).2 (Or.inl rfl)
      · refine Or.inr ⟨List.mem_cons_self _ _, ?_⟩
        exact (Map.mem_keys_modifyAt v document_id 0
          (fun freq => freq + x) document_id).2 (Or.inl rfl)
    · exact Or.inr ⟨List.mem_cons_of_mem _ h1, h2⟩

/-- The key invariant of the index relative to a list of calls: every posting list is
not empty, no key is a stop word, and every posting comes from a call of the list
whose text has the key as a token. -/
theorem keyInvariant_AddDocument [LinearOrderedField R] (s : SearchServer R) (hwf : s.WF)
    (c : AddDocumentCall) (prev : List AddDocumentCall)
    (hadd : (AddDocument s c.document_id c.document c.status c.ratings).1 = .ok ())
    (hJ : ∀ e ∈ s.word_to_document_freqs_,
      e.2 ≠ [] ∧ IsStopWord s e.1 = false ∧
      ∀ k ∈ Map.keys e.2, ∃ c' ∈ prev, c'.document_id = k ∧ e.1 ∈ SplitIntoWords c'.document) :
    ∀ e ∈ (AddDocument s c.document_id c.document c.status c.ratings).2.word_to_document_freqs_,
      e.2 ≠ [] ∧
      IsStopWord (AddDocument s c.document_id c.document c.status c.ratings).2 e.1 = false ∧
      ∀ k ∈ Map.keys e.2,
        ∃ c' ∈ prev ++ [c], c'.document_id = k ∧ e.1 ∈ SplitIntoWords c'.document := by
  have hwf1 := WF_AddDocument s c.document_id c.document c.status c.ratings hwf
  have hsf := storedFreq_AddDocument s c.document_id c.document c.status c.ratings hadd
  rcases AddDocument_cases s c.document_id c.document c.status c.ratings with
    ⟨-, heq⟩ | ⟨-, -, heq⟩ | ⟨-, -, -, heq⟩ | ⟨-, -, -, words, hwords, heq⟩
  · rw [heq] at hadd; cases hadd
  · rw [heq] at hadd; cases hadd
  · rw [heq] at hadd; cases hadd
  · have hfilter := SplitIntoWordsNoStop_filter s c.document words hwords
    intro e he
    have hget : Map.get?
        (AddDocument s c.document_id c.document c.status c.ratings).2.word_to_document_freqs_
        e.1 = some e.2 := Map.get?_of_mem (Map.WF_nodup hwf1.2.1) he
    have hcases : e ∈ s.word_to_document_freqs_ ∨
        (e.1 ∈ words ∧ c.document_id ∈ Map.keys e.2) := by
      rw [heq] at he
      exact index_fold_mem c.document_id _ words _ e he
    have hstop_eq : ∀ w,
        IsStopWord (AddDocument s c.document_id c.document c.status c.ratings).2 w
          = IsStopWord s w := by
      intro w; rw [heq]; rfl
    refine ⟨?_, ?_, ?_⟩
    · rcases hcases with h | ⟨-, h⟩
      · exact (hJ e h).1
      · intro hnil
        rw [hnil] at h
        simp [Map.keys] at h
    · rw [hstop_eq]
      rcases hcases with h | ⟨h, -⟩
      · exact (hJ e h).2.1
      · rw [hfilter] at h
        have := (List.mem_filter.1 h).2
        simpa using this
    · intro k hk
      obtain ⟨v, hv⟩ := (Map.get?_isSome_iff e.2 k).2 hk
      have hne : storedFreq (AddDocument s c.document_id c.document c.status c.ratings).2
          e.1 k ≠ none := by
        unfold storedFreq
        rw [hget]
        show Map.get? e.2 k ≠ none
        rw [hv]
        exact Option.some_ne_none v
      rw [hsf] at hne
      split at hne
      · next hc =>
        refine ⟨c, List.mem_append_right _ (List.mem_singleton_self c), hc.1.symm, ?_⟩
        exact (List.mem_filter.1 hc.2).1
      · have hpost := (storedFreq_ne_none_iff s e.1 k).1 hne
        obtain ⟨freqs, hf, hkf⟩ := (hasPosting_eq_true_iff s e.1 k).1 hpost
        obtain ⟨c', hc', h1, h2⟩ := (hJ (e.1, freqs) (Map.get?_mem hf)).2.2 k hkf
        exact ⟨c', List.mem_append_left _ hc', h1, h2⟩

theorem keyInvariant_addDocuments [LinearOrderedField R] (calls : List AddDocumentCall)
    (s : SearchServer R) (hwf : s.WF) (prev : List AddDocumentCall)
    (hJ : ∀ e ∈ s.word_to_document_freqs_,
      e.2 ≠ [] ∧ IsStopWord s e.1 = false ∧
      ∀ k ∈ Map.keys e.2, ∃ c' ∈ prev, c'.document_id = k ∧ e.1 ∈ SplitIntoWords c'.document) :
    ∀ e ∈ (addDocuments s calls).word_to_document_freqs_,
      e.2 ≠ [] ∧ IsStopWord (addDocuments s calls) e.1 = false ∧
      ∀ k ∈ Map.keys e.2,
        ∃ c' ∈ prev ++ addedCalls s calls,
          c'.document_id = k ∧ e.1 ∈ SplitIntoWords c'.document := by
  induction calls generalizing s prev with
  | nil =>
    unfold addDocuments addedCalls
    rw [List.append_nil]
    exact hJ
  | cons c rest ih =>
    unfold addDocuments addedCalls
    by_cases hadd : (AddDocument s c.document_id c.document c.status c.ratings).1 = .ok ()
    · rw [if_pos hadd]
      have := ih _ (WF_AddDocument s _ _ _ _ hwf) (prev ++ [c])
        (keyInvariant_AddDocument s hwf c prev hadd hJ)
      rw [List.append_assoc] at this
      exact this
    · rw [if_neg hadd]
      have hsame : (AddDocument s c.document_id c.document c.status c.ratings).2 = s := by
        rcases AddDocument_cases s c.document_id c.document c.status c.ratings with
          ⟨-, heq⟩ | ⟨-, -, heq⟩ | ⟨-, -, -, heq⟩ | ⟨-, -, -, words, -, heq⟩
        · rw [heq]
        · rw [heq]
        · rw [heq]
        · rw [heq] at hadd
          exact absurd rfl hadd
      rw [hsame]
      exact ih s hwf prev hJ

/-- Claim C36: on a server constructed and then fed any sequence of `AddDocument`
calls, some of which may throw: every key of `word_to_document_freqs_` has a posting
map that is not empty and is not a stop word, and every document id of that posting
map is a key of `documents_` and is the id of a call that returned normally and whose
text has the key as a token. -/
theorem C36_index_key_invariant [LinearOrderedField R] (stop_words : List String)
    (s0 : SearchServer R) (calls : List AddDocumentCall)
    (h0 : SearchServer.new stop_words = .ok s0) :
    ∀ e ∈ (addDocuments s0 calls).word_to_document_freqs_,
      e.2 ≠ [] ∧ IsStopWord (addDocuments s0 calls) e.1 = false ∧
      ∀ document_id ∈ Map.keys e.2,
        document_id ∈ Map.keys (addDocuments s0 calls).documents_ ∧
        ∃ c ∈ addedCalls s0 calls,
          c.document_id = document_id ∧ e.1 ∈ SplitIntoWords c.document := by
  have hreach0 : Reachable s0 := Reachable.init stop_words s0 h0
  have hwf0 := (invariants_of_Reachable hreach0).1
  have hstored := PostingsStored_of_Reachable (Reachable_addDocuments s0 calls hreach0)
  have hJ0 : ∀ e ∈ s0.word_to_document_freqs_,
      e.2 ≠ [] ∧ IsStopWord s0 e.1 = false ∧
      ∀ k ∈ Map.keys e.2,
        ∃ c' ∈ ([] : List AddDocumentCall),
          c'.document_id = k ∧ e.1 ∈ SplitIntoWords c'.document := by
    intro e he
    rw [(new_fields h0).2.1] at he
    cases he
  have hJ := keyInvariant_addDocuments calls s0 hwf0 [] hJ0
  rw [List.nil_append] at hJ
  intro e he
  obtain ⟨h1, h2, h3⟩ := hJ e he
  exact ⟨h1, h2, fun k hk => ⟨hstored e he k hk, h3 k hk⟩⟩

theorem C36_witness :
    (("пушистый", [(1, 1 / 2)]) : String × Map Int ℚ)
      ∈ (addDocuments mainServer mainCalls).word_to_document_freqs_ ∧
    ([(1, 1 / 2)] : Map Int ℚ) ≠ [] ∧
    IsStopWord (addDocuments mainServer mainCalls) "пушистый" = false ∧
    (1 : Int) ∈ Map.keys (addDocuments mainServer mainCalls).documents_ ∧
    ∃ c ∈ addedCalls mainServer mainCalls,
      c.document_id = 1 ∧ "пушистый" ∈ SplitIntoWords c.document :=
  ⟨by decide!,
   (C36_index_key_invariant ["и", "в", "на"] mainServer mainCalls (by decide!)
      ("пушистый", [(1, 1 / 2)]) (by decide!)).1,
   (C36_index_key_invariant ["и", "в", "на"] mainServer mainCalls (by decide!)
      ("пушистый", [(1, 1 / 2)]) (by decide!)).2.1,
   ((C36_index_key_invariant ["и", "в", "на"] mainServer mainCalls (by decide!)
      ("пушистый", [(1, 1 / 2)]) (by decide!)).2.2 1 (by decide)).1,
   ((C36_index_key_invariant ["и", "в", "на"] mainServer mainCalls (by decide!)
      ("пушистый", [(1, 1 / 2)]) (by decide!)).2.2 1 (by decide)).2⟩

end SearchServer
end Exception1

namespace Exception1
namespace SearchServer
variable {R : Type}

open Cpp

/-- Two strictly ascending lists with the same elements are equal. -/
theorem eq_of_pairwise_lt_of_mem_iff {l₁ l₂ : List String} (h₁ : l₁.Pairwise (· < ·))
    (h₂ : l₂.Pairwise (· < ·)) (hmem : ∀ w, w ∈ l₁ ↔ w ∈ l₂) : l₁ = l₂ := by
  have hnd₁ : l₁.Nodup := h₁.imp (fun hab => ne_of_lt hab)
  have hnd₂ : l₂.Nodup := h₂.imp (fun hab => ne_of_lt hab)
  have hperm : l₁.Perm l₂ := (List.perm_ext_iff_of_nodup hnd₁ hnd₂).2 hmem
  exact List.eq_of_perm_of_sorted hperm h₁ h₂

/-- The structured query depends only on the set of tokens of the raw query. -/
theorem ParseQuery_eq_of_same_tokens (s : SearchServer R) (text₁ text₂ : String)
    (query₁ query₂ : Query) (h₁ : ParseQuery s text₁ = .ok query₁)
    (h₂ : ParseQuery s text₂ = .ok query₂)
    (htok : ∀ t, t ∈ SplitIntoWords text₁ ↔ t ∈ SplitIntoWords text₂) :
    query₁ = query₂ := by
  obtain ⟨hp₁, hm₁⟩ := ParseQuery_loop_mem s _ _ _ h₁
  obtain ⟨hp₂, hm₂⟩ := ParseQuery_loop_mem s _ _ _ h₂
  obtain ⟨hs₁, hs₁'⟩ := ParseQuery_pairwise s text₁ query₁ h₁
  obtain ⟨hs₂, hs₂'⟩ := ParseQuery_pairwise s text₂ query₂ h₂
  have hplus : query₁.plus_words = query₂.plus_words := by
    apply eq_of_pairwise_lt_of_mem_iff hs₁ hs₂
    intro w
    rw [hp₁ w, hp₂ w, htok w]
  have hminus : query₁.minus_words = query₂.minus_words := by
    apply eq_of_pairwise_lt_of_mem_iff hs₁' hs₂'
    intro w
    rw [hm₁ w, hm₂ w, htok ("-" ++ w)]
  cases query₁
  cases query₂
  simp only at hplus hminus
  rw [hplus, hminus]

/-- Claim C37: for two raw queries that both parse and have the same set of tokens,
`ParseQuery` yields the same structured query, and `FindTopDocuments` (for every
predicate) and `MatchDocument` (for every document id) return the same result for
both. -/
theorem C37_same_tokens_same_results [LinearOrderedField R] [FloorRing R] (ln : R → R)
    (s : SearchServer R) (document_predicate : DocumentPredicate) (document_id : Int)
    (raw_query₁ raw_query₂ : String) (query₁ query₂ : Query)
    (h₁ : ParseQuery s raw_query₁ = .ok query₁) (h₂ : ParseQuery s raw_query₂ = .ok query₂)
    (htok : ∀ t, t ∈ SplitIntoWords raw_query₁ ↔ t ∈ SplitIntoWords raw_query₂) :
    query₁ = query₂ ∧
    FindTopDocuments ln s raw_query₁ document_predicate
      = FindTopDocuments ln s raw_query₂ document_predicate ∧
    MatchDocument s raw_query₁ document_id = MatchDocument s raw_query₂ document_id := by
  have hq := ParseQuery_eq_of_same_tokens s raw_query₁ raw_query₂ query₁ query₂ h₁ h₂ htok
  subst hq
  refine ⟨rfl, ?_, ?_⟩
  · unfold FindTopDocuments
    rw [h₁, h₂]
  · unfold MatchDocument
    rw [h₁, h₂]

theorem C37_witness :
    FindTopDocuments lnStandIn corpus "пушистый кот -пёс" (statusIs .ACTUAL)
      = FindTopDocuments lnStandIn corpus "кот  -пёс пушистый кот " (statusIs .ACTUAL) ∧
    MatchDocument corpus "пушистый кот -пёс" 1
      = MatchDocument corpus "кот  -пёс пушистый кот " 1 :=
  (C37_same_tokens_same_results lnStandIn corpus (statusIs .ACTUAL) 1
    "пушистый кот -пёс" "кот  -пёс пушистый кот "
    ⟨["кот", "пушистый"], ["пёс"]⟩ ⟨["кот", "пушистый"], ["пёс"]⟩
    (by decide!) (by decide!)
    (by
      intro t
      rw [show SplitIntoWords "пушистый кот -пёс" = ["пушистый", "кот", "-пёс"] from by decide,
        show SplitIntoWords "кот  -пёс пушистый кот "
          = ["кот", "-пёс", "пушистый", "кот"] from by decide]
      simp only [List.mem_cons, List.mem_singleton, List.not_mem_nil, or_false]
      tauto)).2

end SearchServer
end Exception1

namespace Exception1
namespace SearchServer
variable {R : Type}

open Cpp

theorem lenient_IsStopWord (s : SearchServer R) (w : String) :
    Tests.SearchServer.IsStopWord (lenientOf s) w = IsStopWord s w := by
  unfold Tests.SearchServer.IsStopWord IsStopWord lenientOf
  by_cases h : Cpp.Set.count s.stop_words_ w = 0
  · simp [h]
  · simp [h, Nat.pos_of_ne_zero h]

theorem lenient_SplitIntoWords (text : String) :
    Tests.SplitIntoWords text = SplitIntoWords text :=
  Tests_SplitIntoWords_loop_eq text.toList [] []

theorem lenient_noStop_fold (s : SearchServer R) (tokens acc : List String) :
    tokens.foldl (fun words word =>
      if !Tests.SearchServer.IsStopWord (lenientOf s) word then words ++ [word] else words) acc
      = acc ++ tokens.filter (fun t => !IsStopWord s t) := by
  induction tokens generalizing acc with
  | nil => simp
  | cons t rest ih =>
    rw [List.foldl_cons, ih, lenient_IsStopWord, List.filter_cons]
    by_cases ht : (!IsStopWord s t) = true
    · rw [if_pos ht, if_pos ht, List.append_assoc]
      rfl
    · rw [if_neg ht, if_neg ht]

/-- The lenient `SplitIntoWordsNoStop` yields the tokens that are not stop words. -/
theorem lenient_SplitIntoWordsNoStop (s : SearchServer R) (text : String) :
    Tests.SearchServer.SplitIntoWordsNoStop (lenientOf s) text
      = (SplitIntoWords text).filter (fun t => !IsStopWord s t) := by
  unfold Tests.SearchServer.SplitIntoWordsNoStop
  rw [lenient_SplitIntoWords, lenient_noStop_fold, List.nil_append]

/-- On a ratings list that is not empty (with fewer than `2^31` ratings) both variants
compute the same average. -/
theorem lenient_ComputeAverageRating (ratings : List Int) (hne : ratings ≠ [])
    (hcount : ratings.length < 2147483648) :
    Tests.SearchServer.ComputeAverageRating ratings = .ok (ComputeAverageRating ratings) := by
  unfold Tests.SearchServer.ComputeAverageRating ComputeAverageRating
  have hpos : 0 < ratings.length := List.length_pos.2 hne
  have hlen : ¬ (Cpp.toInt32 (ratings.length : Int) = 0) := by
    rw [toInt32_of_fits _ (by omega) (by omega)]
    omega
  rw [if_neg hlen, if_neg hne]

/-- A call with a non-negative new id and a text without control characters returns
normally on the strict server. -/
theorem AddDocument_ok_of_valid [LinearOrderedField R] (s : SearchServer R)
    (document_id : Int) (document : String) (status : DocumentStatus) (ratings : List Int)
    (hid : 0 ≤ document_id) (hnew : document_id ∉ Map.keys s.documents_)
    (hvalid : ∀ w ∈ SplitIntoWords document, IsValidWord w = true) :
    (AddDocument s document_id document status ratings).1 = .ok () := by
  rcases AddDocument_cases s document_id document status ratings with
    ⟨hneg, -⟩ | ⟨-, ⟨w, hw, hinv⟩, -⟩ | ⟨-, -, hc, -⟩ | ⟨-, -, -, words, -, heq⟩
  · omega
  · rw [hvalid w hw] at hinv; cases hinv
  · rw [(Map.count_eq_zero_iff _ _).2 hnew] at hc
    cases hc
  · rw [heq]

/-- A call that returns normally on the strict server, with a ratings list that is not
empty, returns normally on the lenient server and leaves the same stop words, index
and document store. -/
theorem lenient_AddDocument [LinearOrderedField R] (s : SearchServer R)
    (document_id : Int) (document : String) (status : DocumentStatus) (ratings : List Int)
    (hadd : (AddDocument s document_id document status ratings).1 = .ok ())
    (hne : ratings ≠ []) (hcount : ratings.length < 2147483648) :
    Tests.SearchServer.AddDocument (lenientOf s) document_id document status ratings
      = .ok (lenientOf (AddDocument s document_id document status ratings).2) := by
  rcases AddDocument_cases s document_id document status ratings with
    ⟨-, heq⟩ | ⟨-, -, heq⟩ | ⟨-, -, -, heq⟩ | ⟨-, -, -, words, hwords, heq⟩
  · rw [heq] at hadd; cases hadd
  · rw [heq] at hadd; cases hadd
  · rw [heq] at hadd; cases hadd
  · have hfilter := SplitIntoWordsNoStop_filter s document words hwords
    rw [heq]
    unfold Tests.SearchServer.AddDocument
    rw [lenient_SplitIntoWordsNoStop, ← hfilter,
      lenient_ComputeAverageRating ratings hne hcount]
    rfl

theorem mem_keys_documents_AddDocument [LinearOrderedField R] (s : SearchServer R)
    (document_id : Int) (document : String) (status : DocumentStatus) (ratings : List Int)
    (k : Int)
    (hk : k ∈ Map.keys (AddDocument s document_id document status ratings).2.documents_) :
    k = document_id ∨ k ∈ Map.keys s.documents_ := by
  rcases AddDocument_cases s document_id document status ratings with
    ⟨-, heq⟩ | ⟨-, -, heq⟩ | ⟨-, -, -, heq⟩ | ⟨-, -, -, words, -, heq⟩
  · rw [heq] at hk; exact Or.inr hk
  · rw [heq] at hk; exact Or.inr hk
  · rw [heq] at hk; exact Or.inr hk
  · rw [heq] at hk
    exact (Map.mem_keys_emplace _ _ _ _).1 hk

/-- A sequence of calls with distinct non-negative new ids, texts without control
characters and ratings lists that are not empty (and have fewer than `2^31`
ratings): every call returns normally on both
servers, and the lenient server ends with the stop words, the index and the document
store of the strict one. -/
theorem lenient_addDocuments [LinearOrderedField R] (calls : List AddDocumentCall)
    (s : SearchServer R)
    (hnd : (calls.map (fun c => c.document_id)).Nodup)
    (hnew : ∀ c ∈ calls, c.document_id ∉ Map.keys s.documents_)
    (hvalid : ∀ c ∈ calls, 0 ≤ c.document_id ∧
      (∀ w ∈ SplitIntoWords c.document, IsValidWord w = true) ∧ c.ratings ≠ [] ∧
      c.ratings.length < 2147483648) :
    Tests.SearchServer.addDocuments (lenientOf s) calls
      = .ok (lenientOf (addDocuments s calls)) ∧
    addedIds s calls = calls.map (fun c => c.document_id) := by
  induction calls generalizing s with
  | nil => exact ⟨rfl, rfl⟩
  | cons c rest ih =>
    obtain ⟨hid, hval, hne, hcount⟩ := hvalid c (List.mem_cons_self _ _)
    have hadd := AddDocument_ok_of_valid s c.document_id c.document c.status c.ratings
      hid (hnew c (List.mem_cons_self _ _)) hval
    rw [List.map_cons, List.nodup_cons] at hnd
    have hnew' : ∀ c' ∈ rest, c'.document_id ∉
        Map.keys (AddDocument s c.document_id c.document c.status c.ratings).2.documents_ := by
      intro c' hc' hk
      rcases mem_keys_documents_AddDocument s _ _ _ _ _ hk with h | h
      · exact hnd.1 (List.mem_map.2 ⟨c', hc', h⟩)
      · exact hnew c' (List.mem_cons_of_mem _ hc') h
    obtain ⟨ih1, ih2⟩ := ih (AddDocument s c.document_id c.document c.status c.ratings).2
      hnd.2 hnew' (fun c' hc' => hvalid c' (List.mem_cons_of_mem _ hc'))
    constructor
    · unfold Tests.SearchServer.addDocuments addDocuments
      rw [lenient_AddDocument s _ _ _ _ hadd hne hcount]
      exact ih1
    · unfold addedIds
      rw [if_pos hadd, ih2, List.map_cons]

theorem foldl_insert_nonempty (strings : List String) (acc : Cpp.Set String)
    (h : ∀ str ∈ strings, str ≠ "") :
    strings.foldl (fun non_empty_strings str =>
      if str ≠ "" then Cpp.Set.insert non_empty_strings str else non_empty_strings) acc
      = strings.foldl (fun stop_words word => Cpp.Set.insert stop_words word) acc := by
  induction strings generalizing acc with
  | nil => rfl
  | cons str rest ih =>
    rw [List.foldl_cons, List.foldl_cons, if_pos (h str (List.mem_cons_self _ _))]
    exact ih _ (fun x hx => h x (List.mem_cons_of_mem _ hx))

/-- A stop-word string accepted by the strict constructor gives the same stop words
and empty containers in both variants. -/
theorem lenient_fromText (text : String) (s0 : SearchServer R)
    (h0 : SearchServer.fromText text = .ok s0) :
    Tests.SearchServer.fromText text = lenientOf s0 := by
  obtain ⟨h1, h2, h3, -⟩ := new_fields h0
  unfold Tests.SearchServer.fromText lenientOf
  rw [h1, h2, h3, lenient_SplitIntoWords]
  unfold MakeUniqueNonEmptyStrings
  rw [foldl_insert_nonempty _ _ (fun str hstr => (SplitIntoWords_token text str hstr).1)]

end SearchServer
end Exception1

namespace Cpp

/-- A loop whose body differs from another one only in the error it reports differs
from the other loop only in the error it reports. -/
theorem foldlM_mapError {α β ε ε' : Type} (g : ε → ε') (f : β → α → Except ε β)
    (f' : β → α → Except ε' β) (h : ∀ b a, f' b a = (f b a).mapError g)
    (l : List α) (b : β) :
    l.foldlM f' b = (l.foldlM f b).mapError g := by
  induction l generalizing b with
  | nil => rfl
  | cons a rest ih =>
    rw [List.foldlM_cons, List.foldlM_cons, h]
    cases hf : f b a with
    | error e => rfl
    | ok b' => exact ih b'

end Cpp

namespace Exception1
namespace SearchServer
variable {R : Type}

open Cpp

/-- A token accepted by the strict `ParseQueryWord` is parsed to the same query word by
the lenient one. -/
theorem lenient_ParseQueryWord (s : SearchServer R) (t : String) (qw : QueryWord)
    (h : ParseQueryWord s t = .ok qw) :
    Tests.SearchServer.ParseQueryWord (lenientOf s) t = qw := by
  obtain ⟨h1, h2, h3⟩ := ParseQueryWord_ok s t qw h
  obtain ⟨data, is_minus, is_stop⟩ := qw
  simp only at h1 h2 h3
  unfold Tests.SearchServer.ParseQueryWord
  simp only [lenient_IsStopWord, decide_eq_true_eq]
  rw [← h1, ← h2, ← h3]

theorem lenient_ParseQuery_loop (s : SearchServer R) (words : List String)
    (query query' : Query) (h : ParseQuery.loop s words query = .ok query') :
    words.foldl (fun query word =>
      let query_word := Tests.SearchServer.ParseQueryWord (lenientOf s) word
      if !query_word.is_stop then
        if query_word.is_minus then
          { query with minus_words := Cpp.Set.insert query.minus_words query_word.data }
        else
          { query with plus_words := Cpp.Set.insert query.plus_words query_word.data }
      else query) query = query' := by
  induction words generalizing query with
  | nil =>
    unfold ParseQuery.loop at h
    cases h
    rfl
  | cons word rest ih =>
    unfold ParseQuery.loop at h
    rw [List.foldl_cons]
    cases hw : ParseQueryWord s word with
    | error e => rw [hw] at h; cases h
    | ok query_word =>
      rw [hw] at h
      simp only at h
      simp only [lenient_ParseQueryWord s word query_word hw]
      by_cases hstop : (!query_word.is_stop) = true
      · rw [if_pos hstop] at h
        rw [if_pos hstop]
        by_cases hminus : query_word.is_minus = true
        · rw [if_pos hminus] at h
          rw [if_pos hminus]
          exact ih _ h
        · rw [if_neg hminus] at h
          rw [if_neg hminus]
          exact ih _ h
      · rw [if_neg hstop] at h
        rw [if_neg hstop]
        exact ih _ h

/-- A query accepted by the strict parser is parsed to the same plus and minus sets by
the lenient parser. -/
theorem lenient_ParseQuery (s : SearchServer R) (raw_query : String) (query : Query)
    (h : ParseQuery s raw_query = .ok query) :
    Tests.SearchServer.ParseQuery (lenientOf s) raw_query = query := by
  unfold Tests.SearchServer.ParseQuery
  rw [lenient_SplitIntoWords]
  exact lenient_ParseQuery_loop s _ _ _ h

theorem lenient_idf [LinearOrderedField R] (ln : R → R) (s : SearchServer R) (word : String) :
    Tests.SearchServer.ComputeWordInverseDocumentFreq ln (lenientOf s) word
      = (ComputeWordInverseDocumentFreq ln s word).mapError
          (fun _ => Tests.Fault.OutOfRange) := by
  unfold Tests.SearchServer.ComputeWordInverseDocumentFreq ComputeWordInverseDocumentFreq
  show (match Map.get? s.word_to_document_freqs_ word with
    | none => Except.error Tests.Fault.OutOfRange
    | some freqs => .ok (ln ((Map.size s.documents_ : R) * 1 / (Map.size freqs : R)))) = _
  cases Map.get? s.word_to_document_freqs_ word with
  | none => rfl
  | some freqs =>
    show Except.ok _ = Except.ok _
    unfold GetDocumentCount
    rw [Int.cast_natCast]

theorem lenient_plusPosting [LinearOrderedField R] (s : SearchServer R)
    (document_predicate : DocumentPredicate) (inverse_document_freq : R)
    (document_to_relevance : Map Int R) (posting : Int × R) :
    Tests.SearchServer.FindAllDocuments.plusPosting (lenientOf s) document_predicate
        inverse_document_freq document_to_relevance posting
      = (FindAllDocuments.plusPosting s document_predicate inverse_document_freq
          document_to_relevance posting).mapError (fun _ => Tests.Fault.OutOfRange) := by
  unfold Tests.SearchServer.FindAllDocuments.plusPosting FindAllDocuments.plusPosting
  show (match Map.get? s.documents_ posting.1 with
    | none => Except.error Tests.Fault.OutOfRange
    | some document_data =>
      if document_predicate posting.1 document_data.status document_data.rating then
        .ok (Map.modifyAt document_to_relevance posting.1 0
          (fun relevance => relevance + posting.2 * inverse_document_freq))
      else .ok document_to_relevance) = _
  cases Map.get? s.documents_ posting.1 with
  | none => rfl
  | some document_data =>
    by_cases hp : document_predicate posting.1 document_data.status document_data.rating = true
    · simp only [hp, if_true]; rfl
    · simp only [hp, if_false]; rfl

theorem lenient_plusWord [LinearOrderedField R] (ln : R → R) (s : SearchServer R)
    (document_predicate : DocumentPredicate) (document_to_relevance : Map Int R)
    (word : String) :
    Tests.SearchServer.FindAllDocuments.plusWord ln (lenientOf s) document_predicate
        document_to_relevance word
      = (FindAllDocuments.plusWord ln s document_predicate document_to_relevance
          word).mapError (fun _ => Tests.Fault.OutOfRange) := by
  unfold Tests.SearchServer.FindAllDocuments.plusWord FindAllDocuments.plusWord
  rw [lenient_idf]
  show (if Map.count s.word_to_document_freqs_ word = 0 then Except.ok document_to_relevance
    else _) = _
  by_cases hc : Map.count s.word_to_document_freqs_ word = 0
  · rw [if_pos hc, if_pos hc]; rfl
  · rw [if_neg hc, if_neg hc]
    cases ComputeWordInverseDocumentFreq ln s word with
    | error e => rfl
    | ok inverse_document_freq =>
      show (match Map.get? s.word_to_document_freqs_ word with
        | none => Except.error Tests.Fault.OutOfRange
        | some freqs =>
          freqs.foldlM (Tests.SearchServer.FindAllDocuments.plusPosting (lenientOf s)
            document_predicate inverse_document_freq) document_to_relevance) = _
      cases Map.get? s.word_to_document_freqs_ word with
      | none => rfl
      | some freqs =>
        exact foldlM_mapError _ _ _
          (lenient_plusPosting s document_predicate inverse_document_freq) freqs _

theorem lenient_minusWord (s : SearchServer R) (document_to_relevance : Map Int R)
    (word : String) :
    Tests.SearchServer.FindAllDocuments.minusWord (lenientOf s) document_to_relevance word
      = (FindAllDocuments.minusWord s document_to_relevance word).mapError
          (fun _ => Tests.Fault.OutOfRange) := by
  unfold Tests.SearchServer.FindAllDocuments.minusWord FindAllDocuments.minusWord
  simp only [lenientOf]
  by_cases hc : Map.count s.word_to_document_freqs_ word = 0
  · rw [if_pos hc, if_pos hc]; rfl
  · rw [if_neg hc, if_neg hc]
    cases Map.get? s.word_to_document_freqs_ word with
    | none => rfl
    | some freqs => rfl

theorem lenient_emit (s : SearchServer R) (matched_documents : List (Document R))
    (entry : Int × R) :
    Tests.SearchServer.FindAllDocuments.emit (lenientOf s) matched_documents entry
      = (FindAllDocuments.emit s matched_documents entry).mapError
          (fun _ => Tests.Fault.OutOfRange) := by
  unfold Tests.SearchServer.FindAllDocuments.emit FindAllDocuments.emit
  simp only [lenientOf]
  cases Map.get? s.documents_ entry.1 with
  | none => rfl
  | some document_data => rfl

/-- The lenient `FindAllDocuments` on the same stop words, index and store returns what
the strict one returns, and fails when the strict one fails. -/
theorem lenient_FindAllDocuments [LinearOrderedField R] (ln : R → R) (s : SearchServer R)
    (query : Query) (document_predicate : DocumentPredicate) :
    Tests.SearchServer.FindAllDocuments ln (lenientOf s) query document_predicate
      = (FindAllDocuments ln s query document_predicate).mapError
          (fun _ => Tests.Fault.OutOfRange) := by
  unfold Tests.SearchServer.FindAllDocuments FindAllDocuments
  rw [foldlM_mapError _ _ _ (lenient_plusWord ln s document_predicate)]
  cases query.plus_words.foldlM (FindAllDocuments.plusWord ln s document_predicate) [] with
  | error e => rfl
  | ok relevance_after_plus =>
    simp only [Except.mapError]
    rw [foldlM_mapError _ _ _ (lenient_minusWord s)]
    cases query.minus_words.foldlM (FindAllDocuments.minusWord s) relevance_after_plus with
    | error e => rfl
    | ok document_to_relevance =>
      simp only [Except.mapError]
      exact foldlM_mapError _ _ _ (lenient_emit s) _ _

end SearchServer
end Exception1

namespace Cpp

theorem sort_three_by_rating {α : Type} (comp : α → α → Bool) (d0 d1 d2 : α)
    (h10 : comp d1 d0 = true) (h21 : comp d2 d1 = false) (h20 : comp d2 d0 = false) :
    sort comp [d0, d1, d2] = [d1, d0, d2] := by
  rw [sort_eq_insertion comp [d0, d1, d2] (by unfold S_threshold; simp)]
  simp [linearInsert, unguardedLinearInsert, h10, h21, h20]

/-- A `double` strictly between -1 and 1 is converted to the `int` 0. -/
theorem doubleToInt_eq_zero {R : Type} [LinearOrderedField R] [FloorRing R] (x : R)
    (hlo : -1 < x) (hhi : x < 1) : doubleToInt x = 0 := by
  unfold doubleToInt
  split
  · next h0 =>
    rw [Int.floor_eq_zero_iff]
    exact ⟨h0, hhi⟩
  · next h0 =>
    rw [Int.ceil_eq_zero_iff]
    exact ⟨hlo, le_of_lt (not_le.1 h0)⟩

end Cpp

namespace Exception1
namespace SearchServer
variable {R : Type}

open Cpp

/-- Two documents whose relevances differ by less than 1 are compared by rating: the
difference is truncated to the `int` 0 before `abs` is applied. -/
theorem compareDocuments_of_close [LinearOrderedField R] [FloorRing R] (lhs rhs : Document R)
    (hlo : -1 < lhs.relevance - rhs.relevance) (hhi : lhs.relevance - rhs.relevance < 1) :
    compareDocuments lhs rhs = decide (lhs.rating > rhs.rating) := by
  unfold compareDocuments eps
  rw [doubleToInt_eq_zero _ hlo hhi, abs_zero, Int.cast_zero, if_pos (by norm_num)]

theorem ParseQueryWord_congr {R' : Type} (s : SearchServer R) (t : SearchServer R')
    (h : s.stop_words_ = t.stop_words_) (text : String) :
    ParseQueryWord s text = ParseQueryWord t text := by
  unfold ParseQueryWord IsStopWord
  rw [h]

theorem ParseQuery_loop_congr {R' : Type} (s : SearchServer R) (t : SearchServer R')
    (h : s.stop_words_ = t.stop_words_) (words : List String) (query : Query) :
    ParseQuery.loop s words query = ParseQuery.loop t words query := by
  induction words generalizing query with
  | nil => rfl
  | cons word rest ih =>
    unfold ParseQuery.loop
    rw [ParseQueryWord_congr s t h word]
    cases ParseQueryWord t word with
    | error e => rfl
    | ok query_word =>
      simp only
      rw [ih, ih, ih]

/-- The parsed query depends on the server only through its stop words. -/
theorem ParseQuery_congr {R' : Type} (s : SearchServer R) (t : SearchServer R')
    (h : s.stop_words_ = t.stop_words_) (text : String) :
    ParseQuery s text = ParseQuery t text :=
  ParseQuery_loop_congr s t h _ _

end SearchServer
end Exception1

namespace Tests
namespace SearchServer
variable {R : Type}

open Exception1 (testCalls)

/-- The call sequence `testCalls` on the lenient server is `addTestDocuments`. -/
theorem addDocuments_testCalls [LinearOrderedField R] (s : SearchServer R) :
    addDocuments s testCalls = addTestDocuments s := by
  unfold addTestDocuments testCalls
  unfold addDocuments
  cases AddDocument s 0 "белый кот и модный ошейник" .ACTUAL [8, -3] with
  | error e => rfl
  | ok s1 =>
    simp only [Except.bind]
    unfold addDocuments
    cases AddDocument s1 1 "пушистый кот пушистый хвост" .ACTUAL [7, 2, 7] with
    | error e => rfl
    | ok s2 =>
      simp only [Except.bind]
      unfold addDocuments
      cases AddDocument s2 2 "ухоженный пёс выразительные глаза" .ACTUAL [5, -12, 2, 1] with
      | error e => rfl
      | ok s3 =>
        simp only [Except.bind]
        unfold addDocuments
        cases AddDocument s3 3 "ухоженный скворец евгений" .BANNED [9] with
        | error e => rfl
        | ok s4 =>
          simp only
          unfold addDocuments
          rfl

end SearchServer
end Tests

namespace Exception1
namespace SearchServer
variable {R : Type}

open Cpp

theorem testCalls_nodup : (testCalls.map (fun c => c.document_id)).Nodup := by decide

theorem testCalls_valid : ∀ c ∈ testCalls, 0 ≤ c.document_id ∧
    (∀ w ∈ SplitIntoWords c.document, IsValidWord w = true) ∧ c.ratings ≠ [] ∧
    c.ratings.length < 2147483648 := by decide!

/-- The strict server constructed without stop words and fed the four test documents
holds the stop words, the index and the store of the lenient test corpus. -/
theorem lenientOf_testCalls [LinearOrderedField R] (s0 : SearchServer R)
    (h0 : SearchServer.fromText "" = .ok s0) :
    Tests.SearchServer.addDocuments (Tests.SearchServer.fromText "") testCalls
      = .ok (lenientOf (addDocuments s0 testCalls)) ∧
    lenientOf (addDocuments s0 testCalls) = Tests.SearchServer.castFreqs Tests.testCorpus := by
  have hdocs0 : s0.documents_ = [] := (new_fields h0).2.2.1
  have hadd := (lenient_addDocuments testCalls s0 testCalls_nodup
    (fun c _ hk => by rw [hdocs0] at hk; cases hk) testCalls_valid).1
  have hfrom := lenient_fromText "" s0 h0
  have hempty : (Tests.SearchServer.fromText "" : Tests.SearchServer R)
      = Tests.SearchServer.empty := rfl
  refine ⟨by rw [hfrom]; exact hadd, ?_⟩
  rw [← hfrom, hempty, Tests.SearchServer.addDocuments_testCalls,
    Tests.SearchServer.addTestDocuments_empty] at hadd
  exact (Except.ok.inj hadd).symm

end SearchServer
end Exception1

namespace Exception1
namespace SearchServer
variable {R : Type}

open Cpp

/-- A stop-word string whose words are all valid is accepted by the strict
constructor. -/
theorem fromText_ok_of_valid (R : Type) (stop_words_text : String)
    (h : ∀ w ∈ SplitIntoWords stop_words_text, IsValidWord w = true) :
    ∃ s0 : SearchServer R, SearchServer.fromText stop_words_text = .ok s0 := by
  unfold SearchServer.fromText SearchServer.new
  rw [if_pos]
  · exact ⟨_, rfl⟩
  · rw [List.all_eq_true]
    intro w hw
    exact h w ((mem_MakeUniqueNonEmptyStrings _ _).1 hw).1

theorem lenient_MatchDocument_plusWord (s : SearchServer R) (document_id : Int)
    (matched_words : List String) (word : String) :
    Tests.SearchServer.MatchDocument.plusWord (lenientOf s) document_id matched_words word
      = (MatchDocument.plusWord s document_id matched_words word).mapError
          (fun _ => Tests.Fault.OutOfRange) := by
  unfold Tests.SearchServer.MatchDocument.plusWord MatchDocument.plusWord
  simp only [lenientOf]
  by_cases hc : Map.count s.word_to_document_freqs_ word = 0
  · rw [if_pos hc, if_pos hc]; rfl
  · rw [if_neg hc, if_neg hc]
    cases Map.get? s.word_to_document_freqs_ word with
    | none => rfl
    | some freqs =>
      simp only []
      by_cases hp : Map.count freqs document_id ≠ 0
      · rw [if_pos hp, if_pos hp]; rfl
      · rw [if_neg hp, if_neg hp]; rfl

theorem lenient_MatchDocument_minusLoop (s : SearchServer R) (document_id : Int)
    (words matched_words : List String) :
    Tests.SearchServer.MatchDocument.minusLoop (lenientOf s) document_id words matched_words
      = (MatchDocument.minusLoop s document_id words matched_words).mapError
          (fun _ => Tests.Fault.OutOfRange) := by
  induction words with
  | nil => rfl
  | cons word rest ih =>
    unfold Tests.SearchServer.MatchDocument.minusLoop MatchDocument.minusLoop
    rw [ih]
    simp only [lenientOf]
    by_cases hc : Map.count s.word_to_document_freqs_ word = 0
    · rw [if_pos hc, if_pos hc]
    · rw [if_neg hc, if_neg hc]
      cases Map.get? s.word_to_document_freqs_ word with
      | none => rfl
      | some freqs =>
        simp only []
        by_cases hp : Map.count freqs document_id ≠ 0
        · rw [if_pos hp, if_pos hp]; rfl
        · rw [if_neg hp, if_neg hp]

/-- When the strict parser accepts the query, the two `MatchDocument` return the same
words and status for a stored document, and both fail in `documents_.at` for a
document id that is not stored. -/
theorem lenient_MatchDocument (s : SearchServer R) (raw_query : String)
    (document_id : Int) (query : Query) (hq : ParseQuery s raw_query = .ok query) :
    (document_id ∈ Map.keys s.documents_ →
      ∃ result, MatchDocument s raw_query document_id = .ok result ∧
        Tests.SearchServer.MatchDocument (lenientOf s) raw_query document_id = .ok result) ∧
    (document_id ∉ Map.keys s.documents_ →
      MatchDocument s raw_query document_id = .error Error.UnknownDocumentId ∧
      Tests.SearchServer.MatchDocument (lenientOf s) raw_query document_id
        = .error Tests.Fault.OutOfRange) := by
  have hl : Tests.SearchServer.MatchDocument (lenientOf s) raw_query document_id
      = (MatchDocument s raw_query document_id).mapError
          (fun _ => Tests.Fault.OutOfRange) := by
    unfold Tests.SearchServer.MatchDocument MatchDocument
    simp only [hq, lenient_ParseQuery s raw_query query hq,
      foldlM_mapError _ _ _ (lenient_MatchDocument_plusWord s document_id),
      MatchDocument_plus_fold, lenient_MatchDocument_minusLoop, MatchDocument_minusLoop_eq,
      Except.mapError]
    have hdoc : (lenientOf s).documents_ = s.documents_ := rfl
    rw [hdoc]
    cases Map.get? s.documents_ document_id with
    | none => rfl
    | some document_data => rfl
  have hs : MatchDocument s raw_query document_id =
      (Map.get? s.documents_ document_id).elim (.error Error.UnknownDocumentId)
        (fun document_data =>
          .ok (if query.minus_words.any (fun word => hasPosting s word document_id) then []
            else query.plus_words.filter (fun word => hasPosting s word document_id),
            document_data.status)) := by
    unfold MatchDocument
    simp only [hq, MatchDocument_plus_fold, MatchDocument_minusLoop_eq, List.nil_append]
    cases Map.get? s.documents_ document_id with
    | none => rfl
    | some document_data => rfl
  constructor
  · intro hmem
    obtain ⟨document_data, hd⟩ := (Map.get?_isSome_iff _ _).2 hmem
    rw [hl, hs, hd]
    exact ⟨_, rfl, rfl⟩
  · intro hmem
    rw [hl, hs, (Map.get?_eq_none_iff _ _).2 hmem]
    exact ⟨rfl, rfl⟩

theorem lenientOf_fields (s : SearchServer R) :
    (lenientOf s).stop_words_ = s.stop_words_ ∧
    (lenientOf s).word_to_document_freqs_ = s.word_to_document_freqs_ ∧
    (lenientOf s).documents_ = s.documents_ ∧
    Tests.SearchServer.GetDocumentCount (lenientOf s) = GetDocumentCount s :=
  ⟨rfl, rfl, rfl, rfl⟩

/-- On valid input the two variants agree on everything but the ranking.  For a
stop-word string whose words have no control character and a sequence of
`AddDocument` calls with distinct non-negative ids, texts whose words have no control
character and ratings lists that are not empty (with fewer than `2^31` ratings), the
strict constructor accepts the string, every call returns normally on both servers,
and the lenient server ends with the stop words, the index and the document store of
the strict one; `GetDocumentCount` agrees; for every query accepted by the strict
parser the lenient parser gives the same query, `FindAllDocuments` returns the same
list from both servers for every predicate, and `MatchDocument` returns the same
result from both for a stored id and fails in `documents_.at` in both otherwise. -/
theorem variants_agree_except_ranking [LinearOrderedField R] (ln : R → R)
    (stop_words_text : String) (calls : List AddDocumentCall)
    (hstop : ∀ w ∈ SplitIntoWords stop_words_text, IsValidWord w = true)
    (hnd : (calls.map (fun c => c.document_id)).Nodup)
    (hvalid : ∀ c ∈ calls, 0 ≤ c.document_id ∧
      (∀ w ∈ SplitIntoWords c.document, IsValidWord w = true) ∧ c.ratings ≠ [] ∧
      c.ratings.length < 2147483648) :
    ∃ (s0 : SearchServer R) (t : Tests.SearchServer R),
      SearchServer.fromText stop_words_text = .ok s0 ∧
      addedIds s0 calls = calls.map (fun c => c.document_id) ∧
      Tests.SearchServer.addDocuments (Tests.SearchServer.fromText stop_words_text) calls
        = .ok t ∧
      t.stop_words_ = (addDocuments s0 calls).stop_words_ ∧
      t.word_to_document_freqs_ = (addDocuments s0 calls).word_to_document_freqs_ ∧
      t.documents_ = (addDocuments s0 calls).documents_ ∧
      Tests.SearchServer.GetDocumentCount t = GetDocumentCount (addDocuments s0 calls) ∧
      (∀ raw_query query, ParseQuery (addDocuments s0 calls) raw_query = .ok query →
        Tests.SearchServer.ParseQuery t raw_query = query ∧
        (∀ document_predicate : DocumentPredicate, ∃ all,
          FindAllDocuments ln (addDocuments s0 calls) query document_predicate
            = .ok all ∧
          Tests.SearchServer.FindAllDocuments ln t query document_predicate = .ok all) ∧
        (∀ document_id, document_id ∈ Map.keys (addDocuments s0 calls).documents_ →
          ∃ result,
            MatchDocument (addDocuments s0 calls) raw_query document_id = .ok result ∧
            Tests.SearchServer.MatchDocument t raw_query document_id = .ok result) ∧
        (∀ document_id, document_id ∉ Map.keys (addDocuments s0 calls).documents_ →
          MatchDocument (addDocuments s0 calls) raw_query document_id
            = .error Error.UnknownDocumentId ∧
          Tests.SearchServer.MatchDocument t raw_query document_id
            = .error Tests.Fault.OutOfRange)) := by
  obtain ⟨s0, h0⟩ := fromText_ok_of_valid R stop_words_text hstop
  have hdocs0 : s0.documents_ = [] := (new_fields h0).2.2.1
  obtain ⟨hadd, hids⟩ := lenient_addDocuments calls s0 hnd
    (fun c _ hk => by rw [hdocs0] at hk; cases hk) hvalid
  have hreach : Reachable (addDocuments s0 calls) :=
    Reachable_addDocuments s0 calls (Reachable.init _ s0 h0)
  have hstored := (invariants_of_Reachable hreach).2.1
  obtain ⟨hf1, hf2, hf3, hf4⟩ := lenientOf_fields (addDocuments s0 calls)
  refine ⟨s0, lenientOf (addDocuments s0 calls), h0, hids, ?_, hf1, hf2, hf3, hf4, ?_⟩
  · rw [lenient_fromText stop_words_text s0 h0]
    exact hadd
  · intro raw_query query hq
    refine ⟨lenient_ParseQuery _ raw_query query hq, ?_, ?_, ?_⟩
    · intro document_predicate
      obtain ⟨all, hall⟩ := FindAllDocuments_ok ln hstored query document_predicate
      refine ⟨all, hall, ?_⟩
      rw [lenient_FindAllDocuments, hall]
      rfl
    · intro document_id hmem
      exact (lenient_MatchDocument _ raw_query document_id query hq).1 hmem
    · intro document_id hmem
      exact (lenient_MatchDocument _ raw_query document_id query hq).2 hmem

/-- The documents found by the strict server for the test query on the four test
documents, over any field. -/
theorem FindAllDocuments_testCalls [LinearOrderedField R] (ln : R → R) (s0 : SearchServer R)
    (h0 : SearchServer.fromText "" = .ok s0) :
    FindAllDocuments ln (addDocuments s0 testCalls)
        { plus_words := ["кот", "пушистый", "ухоженный"], minus_words := [] }
        (statusIs .ACTUAL) =
      .ok [⟨0, 1 / 5 * ln (4 / 2), 2⟩, ⟨1, 1 / 4 * ln (4 / 2) + 1 / 2 * ln 4, 5⟩,
        ⟨2, 1 / 4 * ln (4 / 2), -1⟩] := by
  have hl := lenient_FindAllDocuments ln (addDocuments s0 testCalls)
    { plus_words := ["кот", "пушистый", "ухоженный"], minus_words := [] } (statusIs .ACTUAL)
  rw [(lenientOf_testCalls s0 h0).2, Tests.SearchServer.FindAllDocuments_test] at hl
  cases hs : FindAllDocuments ln (addDocuments s0 testCalls)
      { plus_words := ["кот", "пушистый", "ухоженный"], minus_words := [] }
      (statusIs .ACTUAL) with
  | error e => rw [hs] at hl; cases hl
  | ok all =>
    rw [hs] at hl
    exact congrArg Except.ok (Except.ok.inj hl).symm

theorem ParseQuery_testCalls [LinearOrderedField R] (s0 : SearchServer R)
    (h0 : SearchServer.fromText "" = .ok s0) :
    ParseQuery (addDocuments s0 testCalls) "пушистый ухоженный кот"
      = .ok { plus_words := ["кот", "пушистый", "ухоженный"], minus_words := [] } := by
  have h1 := congrArg Tests.SearchServer.stop_words_ (lenientOf_testCalls s0 h0).2
  rw [(lenientOf_fields _).1] at h1
  have hstop : (addDocuments s0 testCalls).stop_words_ = emptyServer.stop_words_ :=
    h1.trans rfl
  rw [ParseQuery_congr _ emptyServer hstop]
  decide!

/-- The strict server on the test scenario, over the reals with the natural
logarithm: the three relevances differ by less than 1, so the comparator orders the
documents by rating alone. -/
theorem FindTopDocuments_testCalls_real (s0 : SearchServer ℝ)
    (h0 : SearchServer.fromText "" = .ok s0) :
    FindTopDocuments Real.log (addDocuments s0 testCalls) "пушистый ухоженный кот"
        (statusIs .ACTUAL) =
      .ok [⟨1, 5 / 4 * Real.log 2, 5⟩, ⟨0, 1 / 5 * Real.log 2, 2⟩,
        ⟨2, 1 / 4 * Real.log 2, -1⟩] := by
  have hlo : (0.6931471803 : ℝ) < Real.log 2 := Real.log_two_gt_d9
  have hhi : Real.log 2 < (0.6931471808 : ℝ) := Real.log_two_lt_d9
  have h42 : (4 : ℝ) / 2 = 2 := by norm_num
  have hall := FindAllDocuments_testCalls Real.log s0 h0
  rw [h42, Tests.SearchServer.log_four] at hall
  have hr1 : (1 : ℝ) / 4 * Real.log 2 + 1 / 2 * (2 * Real.log 2) = 5 / 4 * Real.log 2 := by
    ring
  rw [hr1] at hall
  rw [FindTopDocuments_of_ok (ParseQuery_testCalls s0 h0) hall]
  have hsort : Cpp.sort compareDocuments
      [(⟨0, 1 / 5 * Real.log 2, 2⟩ : Document ℝ), ⟨1, 5 / 4 * Real.log 2, 5⟩,
        ⟨2, 1 / 4 * Real.log 2, -1⟩] =
      [⟨1, 5 / 4 * Real.log 2, 5⟩, ⟨0, 1 / 5 * Real.log 2, 2⟩,
        ⟨2, 1 / 4 * Real.log 2, -1⟩] := by
    apply Cpp.sort_three_by_rating
    · rw [compareDocuments_of_close _ _ (by simp only; norm_num at hlo hhi ⊢; linarith)
        (by simp only; norm_num at hlo hhi ⊢; linarith)]
      decide
    · rw [compareDocuments_of_close _ _ (by simp only; norm_num at hlo hhi ⊢; linarith)
        (by simp only; norm_num at hlo hhi ⊢; linarith)]
      decide
    · rw [compareDocuments_of_close _ _ (by simp only; norm_num at hlo hhi ⊢; linarith)
        (by simp only; norm_num at hlo hhi ⊢; linarith)]
      decide
  rw [hsort]
  rfl

end SearchServer
end Exception1

namespace Exception1
namespace SearchServer
variable {R : Type}

open Cpp

/-- Claim C3: when `FindAllDocuments` returns a list for the parsed query, every
document that has a posting for some plus word and for no minus word and satisfies
the predicate is in the list, and the relevance of every document of the list, and
of every document returned by `FindTopDocuments`, is the sum, over the plus words of
the query that have a posting for the document, of `termFrequency * ln (N / df)`,
with `N` the number of stored documents and `df` the number of postings of the word
(both regardless of the predicate).  The plus words are pairwise distinct, so the sum
runs over a set; `FindTopDocuments` returns `min(5, m)` of the `m` documents of the
list. -/
theorem C3_relevance_is_tf_idf_sum [LinearOrderedField R] [FloorRing R] (ln : R → R)
    (s : SearchServer R) (hwf : s.WF) (raw_query : String)
    (document_predicate : DocumentPredicate) (query : Query) (all : List (Document R))
    (hq : ParseQuery s raw_query = .ok query)
    (hall : FindAllDocuments ln s query document_predicate = .ok all) :
    query.plus_words.Nodup ∧
    (∀ d ∈ all,
      d.relevance = (query.plus_words.filterMap (termContribution ln s d.id)).sum) ∧
    (∀ document_id : Int,
      (∃ word ∈ query.plus_words, hasPosting s word document_id = true) →
      predicateHolds s document_predicate document_id = true →
      (∀ word ∈ query.minus_words, hasPosting s word document_id = false) →
      ∃ d ∈ all, d.id = document_id ∧
        d.relevance =
          (query.plus_words.filterMap (termContribution ln s document_id)).sum) ∧
    ∃ docs, FindTopDocuments ln s raw_query document_predicate = .ok docs ∧
      docs.length = min 5 all.length ∧
      ∀ d ∈ docs, d ∈ all ∧
        d.relevance = (query.plus_words.filterMap (termContribution ln s d.id)).sum := by
  have hrel := FindAllDocuments_relevance hwf hall
  refine ⟨(ParseQuery_nodup s raw_query query hq).1, hrel, ?_,
    _, FindTopDocuments_of_ok hq hall, ?_, ?_⟩
  · intro document_id hplus hpred hminus
    have hmem := ((FindAllDocuments_ids hwf hall).2 document_id).2 ⟨hplus, hpred, hminus⟩
    obtain ⟨d, hd, hid⟩ := List.mem_map.1 hmem
    refine ⟨d, hd, hid, ?_⟩
    rw [← hid]
    exact hrel d hd
  · rw [List.length_take, Cpp.sort_length]
    rfl
  · intro d hd
    have hd' : d ∈ all := (Cpp.mem_sort _ _ _).1 (List.mem_of_mem_take hd)
    exact ⟨hd', hrel d hd'⟩

theorem C3_witness :
    FindAllDocuments lnStandIn corpus ⟨["кот", "пушистый", "ухоженный"], []⟩
        (statusIs .ACTUAL) = .ok [⟨0, 1 / 5, 2⟩, ⟨1, 7 / 4, 5⟩, ⟨2, 1 / 4, -1⟩] ∧
    (7 / 4 : ℚ) = (["кот", "пушистый", "ухоженный"].filterMap
        (termContribution lnStandIn corpus 1)).sum ∧
    (∃ d ∈ [(⟨0, 1 / 5, 2⟩ : Document ℚ), ⟨1, 7 / 4, 5⟩, ⟨2, 1 / 4, -1⟩], d.id = 2 ∧
      d.relevance = (["кот", "пушистый", "ухоженный"].filterMap
        (termContribution lnStandIn corpus 2)).sum) ∧
    FindTopDocuments lnStandIn corpus "пушистый ухоженный кот" (statusIs .ACTUAL)
        = .ok [⟨1, 7 / 4, 5⟩, ⟨0, 1 / 5, 2⟩, ⟨2, 1 / 4, -1⟩] :=
  ⟨by decide!,
   (C3_relevance_is_tf_idf_sum lnStandIn corpus (by decide!) "пушистый ухоженный кот"
      (statusIs .ACTUAL) ⟨["кот", "пушистый", "ухоженный"], []⟩
      [⟨0, 1 / 5, 2⟩, ⟨1, 7 / 4, 5⟩, ⟨2, 1 / 4, -1⟩] (by decide!) (by decide!)).2.1
      ⟨1, 7 / 4, 5⟩ (by simp),
   (C3_relevance_is_tf_idf_sum lnStandIn corpus (by decide!) "пушистый ухоженный кот"
      (statusIs .ACTUAL) ⟨["кот", "пушистый", "ухоженный"], []⟩
      [⟨0, 1 / 5, 2⟩, ⟨1, 7 / 4, 5⟩, ⟨2, 1 / 4, -1⟩] (by decide!) (by decide!)).2.2.1 2
      ⟨"ухоженный", by decide, by decide!⟩ (by decide!) (by decide),
   by decide!⟩

end SearchServer
end Exception1

namespace Cpp

/-- Seventeen elements that the comparator never orders: the range is longer than
`_S_threshold`, so it is partitioned, and the first five elements of the result are
the ones that were at the positions 8, 16, 15, 14, 13. -/
theorem sort_seventeen_tied :
    (sort (fun (_ _ : Nat) => false) (List.range 17)).take 5 = [8, 16, 15, 14, 13] := by
  decide

end Cpp

namespace Exception1
namespace SearchServer

/-- Seventeen documents of equal relevance and rating: `FindTopDocuments` returns the
documents 8, 16, 15, 14, 13. -/
theorem FindTopDocuments_seventeen_tied :
    (FindTopDocuments lnStandIn seventeenCats "кот" (statusIs .ACTUAL)).map
      (fun docs => docs.map (fun d => d.id)) = .ok [8, 16, 15, 14, 13] := by
  decide!

/-- A sum that leaves the range of `int` wraps: for the ratings 2147483647 and 1 the
accumulator holds -2147483648 and the average is -1073741824. -/
theorem ComputeAverageRating_overflow :
    ComputeAverageRating [2147483647, 1] = -1073741824 := by
  decide

end SearchServer
end Exception1
